import Mathlib

/-! # Verification of `pa2015`: the distributed programs and their message layer

A shallow embedding of the distributed substring-occurrence counter `4/b/pos.cc` (the
double modular hash algebra `hash_block_t`, the worker and coordinator roles built on
it, its typed messages) and of the chunked stream of edges of `4/a/sabotaz.cc`, with
the properties proved about them.

Conventions of the embedding:

* `hash_t` (`int32_t`) and `bigger_hash_t` (`int64_t`) values are integers; every
  place where the source narrows to one of these widths is an explicit `wrap32`
  or `wrap64`, and a conversion to `uint64_t` is an explicit `wrapU64`.
* `%` on signed operands is the truncating remainder of C++ (`Int.tmod`), signed `/`
  is the truncating quotient (`Int.tdiv`).
* `ssize_t`, `size_t` and `node_t` lengths, positions and counters are exact integers
  (signed overflow of a length is undefined behaviour in the source and is not
  given a meaning here).
* `assert` failures are `none`, or `failure_t.assertion` where a node can also stop
  for another reason.
* `while` / `for` loops are recursive functions; where the loop variable is not
  itself the recursion argument a fuel argument bounds the number of iterations
  and the definition passes a fuel that is always sufficient.
* What a function does besides computing its result (the node a request is sent to,
  the indices passed to a token accessor, the blocks seen at the positions of a loop)
  is listed by a companion definition with the control flow of the function
  (`..._sends`, `..._reads`, `..._blocks`).
* `master_t::do_compute` of `pos.cc` is declared `size_t` and has no `return`
  statement, so control flows off the end of a value-returning function, which is
  undefined behaviour. The embedding gives the requests that this function sends to
  the workers and what the workers answer; it gives no meaning to what the coordinator
  does after its last send, and no definition lets `main` go on to
  `master.do_collect()`.
-/

/-! ## The transport of `message.h`

The header `message.h` of the hosting environment is not part of the sources. -/

namespace Message

/-- A scalar of a message, written by `PutChar`, `PutInt` or `PutLL`. -/
inductive word_t
  | char (value : Int)
  | int (value : Int)
  | ll (value : Int)

/-- The ways in which a node stops instead of continuing. -/
inductive failure_t
  | blocked
  | bad_read
  | assertion
  | out_of_fuel

/-- Modelled from the spec: the link from one node to one peer, which is reliable and
ordered (section 6). `buffer` holds the scalars put since the last `Send`, `queue` the
messages sent and not yet received, oldest first, and `current` the scalars not yet
read of the message that the last `Receive` delivered. -/
structure channel_t where
  buffer : List word_t
  queue : List (List word_t)
  current : List word_t

/-- Modelled from the spec: `PutChar(target, value)` appends a scalar to the buffer. -/
def PutChar (value : Int) (ch : channel_t) : channel_t :=
  { ch with buffer := ch.buffer ++ [word_t.char value] }

/-- Modelled from the spec: `PutInt(target, value)` appends a scalar to the buffer. -/
def PutInt (value : Int) (ch : channel_t) : channel_t :=
  { ch with buffer := ch.buffer ++ [word_t.int value] }

/-- Modelled from the spec: `PutLL(target, value)` appends a scalar to the buffer. -/
def PutLL (value : Int) (ch : channel_t) : channel_t :=
  { ch with buffer := ch.buffer ++ [word_t.ll value] }

/-- Modelled from the spec: `Send(target)` sends the buffer as one message and empties
the buffer. -/
def Send (ch : channel_t) : channel_t :=
  { ch with buffer := [], queue := ch.queue ++ [ch.buffer] }

/-- Modelled from the spec: `Receive(source)` waits for the next message of the peer and
makes it the current one; without a message the node stays blocked. -/
def Receive (ch : channel_t) : Except failure_t channel_t :=
  match ch.queue with
  | [] => Except.error failure_t.blocked
  | message :: queue => Except.ok { ch with queue := queue, current := message }

/-- Modelled from the spec: `GetChar(source)` takes the next scalar of the current
message, which has to be one written by `PutChar`. -/
def GetChar (ch : channel_t) : Except failure_t (Int × channel_t) :=
  match ch.current with
  | word_t.char value :: rest => Except.ok (value, { ch with current := rest })
  | _ => Except.error failure_t.bad_read

/-- Modelled from the spec: `GetInt(source)` takes the next scalar of the current
message, which has to be one written by `PutInt`. -/
def GetInt (ch : channel_t) : Except failure_t (Int × channel_t) :=
  match ch.current with
  | word_t.int value :: rest => Except.ok (value, { ch with current := rest })
  | _ => Except.error failure_t.bad_read

/-- Modelled from the spec: `GetLL(source)` takes the next scalar of the current
message, which has to be one written by `PutLL`. -/
def GetLL (ch : channel_t) : Except failure_t (Int × channel_t) :=
  match ch.current with
  | word_t.ll value :: rest => Except.ok (value, { ch with current := rest })
  | _ => Except.error failure_t.bad_read

end Message

/-! ## `4/b/pos.cc` -/

namespace Pos

/-! ## Fixed-width integers -/

/-- Narrowing of an integer to `int32_t` (two's complement). -/
def wrap32 (x : Int) : Int := (x + 2 ^ 31) % 2 ^ 32 - 2 ^ 31

/-- Narrowing of an integer to `int64_t` (two's complement). -/
def wrap64 (x : Int) : Int := (x + 2 ^ 63) % 2 ^ 64 - 2 ^ 63

/-- Conversion of an integer to `uint64_t`. -/
def wrapU64 (x : Int) : Int := x % 2 ^ 64

/-! ## `iterate` -/

/-- The `while(exponent > 0)` loop of `iterate`; `fuel` bounds the iterations.
On a positive exponent `%` and `/` of C++ agree with `%` and `/` on `Int`. -/
def iterate_loop (fn : Int → Int → Int) : Nat → Int → Int → Int → Int
  | 0, _, result, _ => result
  | fuel + 1, base, result, exponent =>
    if exponent > 0 then
      iterate_loop fn fuel (fn base base)
        (if exponent % 2 = 1 then fn result base else result) (exponent / 2)
    else result

/-- `iterate(base, init, exponent, fn)`: square-and-multiply. The exponent is halved
in every iteration, so `exponent.toNat` iterations always suffice. -/
def iterate (base init exponent : Int) (fn : Int → Int → Int) : Int :=
  iterate_loop fn exponent.toNat base init exponent

/-! ## Hashing -/

/-- `struct hash_setup_t`. -/
structure hash_setup_t where
  prime : Int
  base : Int

/-- The table `setup[]`. -/
def setup : Fin 2 → hash_setup_t
  | 0 => ⟨(1 <<< 30) - 153, (1 <<< 29) - 43⟩
  | 1 => ⟨(1 <<< 30) - 161, (1 <<< 29) - 3⟩

/-- The number of entries of `setup`. -/
def prime_count : Nat := 2

/-- `std::array<hash_t, prime_count>`. -/
abbrev hash_array_t := Fin 2 → Int

/-- The local lambda `op` of `make_powers`, `operator+`, `extend` and `trim`:
`static_cast<hash_t>((static_cast<bigger_hash_t>(x) * y) % setup[idx].prime)`. -/
def op (idx : Fin 2) (x y : Int) : Int :=
  wrap32 (Int.tmod (wrap64 (x * y)) (setup idx).prime)

/-- `make_powers(uint64_t exponent)`. -/
def make_powers (exponent : Int) : hash_array_t :=
  fun idx => iterate (setup idx).base 1 exponent (op idx)

/-- `struct hash_block_t`. -/
structure hash_block_t where
  hash : hash_array_t
  length : Int

namespace hash_block_t

/-- The default constructor `hash_block_t()`. -/
def empty : hash_block_t := ⟨fun _ => 0, 0⟩

/-- The constructor `explicit hash_block_t(bigger_hash_t value)`. -/
def of_value (value : Int) : hash_block_t :=
  ⟨fun idx => wrap32 (Int.tmod value (setup idx).prime), 1⟩

/-- `hash_block_t::operator+`. -/
def operator_plus (self rhs : hash_block_t) : hash_block_t :=
  { length := self.length + rhs.length
    hash := fun idx =>
      let pw := iterate (setup idx).base 1 self.length (op idx)
      let h := wrap32 (self.hash idx + op idx pw (rhs.hash idx))
      if h ≥ (setup idx).prime then wrap32 (h - (setup idx).prime) else h }

/-- `hash_block_t::extend`. -/
def extend (self rhs : hash_block_t) (powers : hash_array_t) : hash_block_t :=
  { length := self.length + rhs.length
    hash := fun idx =>
      let h := wrap32 (self.hash idx + op idx (powers idx) (rhs.hash idx))
      if h ≥ (setup idx).prime then wrap32 (h - (setup idx).prime) else h }

/-- The two-argument `hash_block_t::trim(rhs, powers)`. -/
def trim_by (self rhs : hash_block_t) (powers : hash_array_t) : hash_block_t :=
  { length := self.length - rhs.length
    hash := fun idx =>
      let h := wrap32 (self.hash idx - op idx (powers idx) (rhs.hash idx))
      if h < 0 then wrap32 (h + (setup idx).prime) else h }

/-- The one-argument `hash_block_t::trim(rhs)`; the `ssize_t` difference is converted
to the `uint64_t` parameter of `make_powers`. -/
def trim (self rhs : hash_block_t) : hash_block_t :=
  trim_by self rhs (make_powers (wrapU64 (self.length - rhs.length)))

/-- `hash_block_t::operator==`: the assertion on the lengths, then the comparison of
the two hash arrays. -/
def operator_eq (self that : hash_block_t) : Option Bool :=
  if self.length = that.length then
    some (decide (self.hash 0 = that.hash 0 ∧ self.hash 1 = that.hash 1))
  else none

/-- A block is well formed when its length is non-negative and every residue lies
in `[0, setup[idx].prime)`. -/
def wf (A : hash_block_t) : Prop :=
  0 ≤ A.length ∧ ∀ idx, 0 ≤ A.hash idx ∧ A.hash idx < (setup idx).prime

end hash_block_t

open hash_block_t (empty of_value operator_plus extend trim_by operator_eq)

/-- The `for` loop of `hash_sequence`, from `idx` down to `begin`. -/
def hash_sequence_loop (fn : Int → Int) (begin : Int) :
    Nat → Int → hash_block_t → hash_block_t
  | 0, _, result => result
  | fuel + 1, idx, result =>
    if idx ≥ begin then
      hash_sequence_loop fn begin fuel (idx - 1) (operator_plus (of_value (fn idx)) result)
    else result

/-- `hash_sequence(begin, end, fn)`; the loop runs `end - begin` times. -/
def hash_sequence (begin end_ : Int) (fn : Int → Int) : Option hash_block_t :=
  if begin ≤ end_ then
    some (if begin ≠ end_ then
        hash_sequence_loop fn begin (end_ - begin).toNat (end_ - 1) empty
      else empty)
  else none

/-- `struct request_t`. -/
structure request_t where
  hash : hash_block_t
  hash_begin : Int
  hash_end : Int
  begin : Int
  end_ : Int

/-! ## Problem data

The accessors declared in `poszukiwania.h` (the header is not part of the sources):
the two lengths and the two by-index token accessors. -/

/-- The four functions of `poszukiwania.h`. -/
structure input_t where
  SignalLength : Int
  SignalAt : Int → Int
  SeqLength : Int
  SeqAt : Int → Int

/-! ## Solution: worker -/

/-- `block_length(num_workers, length)`. -/
def block_length (num_workers : Int) (length : Int) : Int :=
  let len := length
  let len_per_worker := (len + num_workers - 1) / num_workers
  len_per_worker

/-- `worker_t::worker_hash_subsequence`: the block sent to the coordinator. -/
def worker_t.worker_hash_subsequence (worker_id num_workers : Int) (length : Int)
    (at_ : Int → Int) : Option hash_block_t :=
  let len := length
  let len_per_worker := block_length num_workers length
  let begin := min (1 + len_per_worker * worker_id) (1 + len)
  let end_ := min (1 + len_per_worker * (worker_id + 1)) (1 + len)
  hash_sequence begin end_ at_

/-- The `for(ssize_t pos = request.end - 1; pos >= request.begin;)` loop of
`worker_t::do_compute`; it runs `request.end - request.begin` times. -/
def worker_t.do_compute_loop (SeqAt : Int → Int) (hash_signal : hash_block_t)
    (signal_length begin : Int) (trim_powers : hash_array_t) :
    Nat → Int → hash_block_t → Nat → Option Nat
  | 0, pos, _, result => if pos ≥ begin then none else some result
  | fuel + 1, pos, hash, result =>
    if pos ≥ begin then
      match operator_eq hash hash_signal with
      | none => none
      | some eq =>
        let result := if eq then result + 1 else result
        if pos - 1 < begin then some result
        else
          worker_t.do_compute_loop SeqAt hash_signal signal_length begin trim_powers fuel
            (pos - 1)
            (operator_plus (of_value (SeqAt (pos - 1)))
              (trim_by hash (of_value (SeqAt (pos - 1 + signal_length)))
                trim_powers))
            result
    else some result

/-- The block `hash` that `worker_t::do_compute` builds before its loop. -/
def worker_t.do_compute_initial_hash (inp : input_t) (request : request_t)
    (signal_length : Int) : Option hash_block_t :=
  if request.hash_begin = request.hash_end then
    hash_sequence (request.end_ - 1) (request.end_ + signal_length - 1) inp.SeqAt
  else
    match hash_sequence (request.end_ - 1) request.hash_begin inp.SeqAt,
      hash_sequence request.hash_end (request.end_ + signal_length - 1) inp.SeqAt with
    | some l, some r => some (operator_plus (operator_plus l request.hash) r)
    | _, _ => none

/-- `worker_t::do_compute` on the received `hash_signal` and `request`: the values of
the `NOP` and of the `RESULT` message it sends. -/
def worker_t.do_compute (inp : input_t) (hash_signal : hash_block_t) (request : request_t) :
    Option (Nat × Nat) :=
  let result := 0
  let nop := result
  if request.begin ≠ 0 then
    let signal_length := inp.SignalLength
    match worker_t.do_compute_initial_hash inp request signal_length with
    | none => none
    | some hash =>
      if hash.length = signal_length ∧ hash_signal.length = signal_length then
        let trim_powers := make_powers (wrapU64 (signal_length - 1))
        match worker_t.do_compute_loop inp.SeqAt hash_signal signal_length request.begin
            trim_powers (request.end_ - request.begin).toNat (request.end_ - 1) hash result with
        | none => none
        | some result => some (nop, result)
      else none
  else some (nop, result)

/-! ## Solution: coordinator -/

/-- `master_t::do_hash_signal` on the blocks received from the workers in ascending
worker order: the block broadcast to the workers. -/
def master_t.do_hash_signal (parts : List hash_block_t) (SignalLength : Int) :
    Option hash_block_t :=
  let hash := parts.foldl operator_plus empty
  if hash.length = SignalLength then some hash else none

/-- The first inner loop of `master_t::do_compute`, by recursion on `hash_block_begin`.
Returns the new `hash_block_begin`, `hash` and `hash_begin`. -/
def master_t.do_compute_grow (hash_seq : List hash_block_t) (last : Int) :
    Nat → hash_block_t → Int → Nat × hash_block_t × Int
  | 0, hash, hash_begin => (0, hash, hash_begin)
  | k + 1, hash, hash_begin =>
    if last - 1 + (hash_seq.getD k empty).length ≤ hash_begin then
      master_t.do_compute_grow hash_seq last k (operator_plus (hash_seq.getD k empty) hash)
        (hash_begin - (hash_seq.getD k empty).length)
    else (k + 1, hash, hash_begin)

/-- The second inner loop of `master_t::do_compute`, by recursion on `hash_block_end`.
Returns the new `hash_block_end`, `hash` and `hash_end`. -/
def master_t.do_compute_shrink (hash_seq : List hash_block_t) (last signal_length : Int)
    (hash_block_begin : Nat) : Nat → hash_block_t → Int → Nat × hash_block_t × Int
  | 0, hash, hash_end => (0, hash, hash_end)
  | k + 1, hash, hash_end =>
    if k + 1 > hash_block_begin ∧ last - 1 + signal_length < hash_end then
      master_t.do_compute_shrink hash_seq last signal_length hash_block_begin k
        (hash_block_t.trim hash (hash_seq.getD k empty))
        (hash_end - (hash_seq.getD k empty).length)
    else (k + 1, hash, hash_end)

/-- The local variables of `master_t::do_compute` that live across iterations. -/
structure compute_state_t where
  hash : hash_block_t
  hash_begin : Int
  hash_end : Int
  hash_block_begin : Nat
  hash_block_end : Nat
  last : Int
  worker_cnt : Int

/-- The `while(last > 1)` loop of `master_t::do_compute`. The requests sent so far are
accumulated in sending order (the request of worker `first_worker + k` at index `k`).
The assertion `worker_cnt < num_workers` stops the loop after `num_workers + 1`
iterations at the latest. -/
def master_t.do_compute_loop (hash_seq : List hash_block_t)
    (num_workers signal_length possible_per_worker : Int) :
    Nat → compute_state_t → List request_t → Option (compute_state_t × List request_t)
  | 0, st, sent => if st.last > 1 then none else some (st, sent)
  | fuel + 1, st, sent =>
    if st.last > 1 then
      let idx := max 1 (st.last - possible_per_worker)
      let g := master_t.do_compute_grow hash_seq st.last st.hash_block_begin st.hash
        st.hash_begin
      let s := master_t.do_compute_shrink hash_seq st.last signal_length g.1
        st.hash_block_end g.2.1 st.hash_end
      if s.2.1.length = s.2.2 - g.2.2 ∧ st.worker_cnt < num_workers then
        master_t.do_compute_loop hash_seq num_workers signal_length possible_per_worker fuel
          { hash := s.2.1, hash_begin := g.2.2, hash_end := s.2.2,
            hash_block_begin := g.1, hash_block_end := s.1,
            last := idx, worker_cnt := st.worker_cnt + 1 }
          (sent ++ [⟨s.2.1, g.2.2, s.2.2, idx, st.last⟩])
      else none
    else some (st, sent)

/-- `master_t::do_compute`: the `SUBSEQUENCE` requests in worker order
(`first_worker`, ..., `last_worker`). `hash_seq` is the member `hash_sequence`.
The function is declared `size_t`, and its body ends after the final `for` loop
without a `return` statement: the definition gives the requests that the workers
receive (`none` if an assertion fails before), and no return value. -/
def master_t.do_compute (num_workers : Int) (hash_seq : List hash_block_t)
    (seq_length signal_length : Int) : Option (List request_t) :=
  let possible := seq_length - signal_length + 1
  let possible_per_worker := Int.tdiv (possible + num_workers) num_workers
  match master_t.do_compute_loop hash_seq num_workers signal_length possible_per_worker
      (num_workers.toNat + 1)
      { hash := empty, hash_begin := 1 + seq_length, hash_end := 1 + seq_length,
        hash_block_begin := hash_seq.length, hash_block_end := hash_seq.length,
        last := possible + 1, worker_cnt := 0 } [] with
  | none => none
  | some (st, sent) =>
    some (sent ++ List.replicate (num_workers - st.worker_cnt).toNat
      ⟨st.hash, st.hash_begin, st.hash_end, 0, 0⟩)

/-- `master_t::do_collect` on the (`NOP`, `RESULT`) values received from the workers
in ascending worker order. -/
def master_t.do_collect (replies : List (Nat × Nat)) : Nat :=
  replies.foldl (fun sum cur => sum + cur.2) 0

/-! ## The workers of one run -/

/-- The blocks that the workers `0, ..., num_workers - 1` send in one hashing phase. -/
def worker_parts (num_workers : Nat) (length : Int) (at_ : Int → Int) :
    Option (List hash_block_t) :=
  (List.range num_workers).mapM
    (fun worker_id : Nat => worker_t.worker_hash_subsequence worker_id num_workers length at_)

/-- The values that the workers `0, ..., num_workers - 1` send to the coordinator in
`worker_t::do_compute`, in worker order: of every worker the `NOP` placeholder and the
`RESULT` count. The workers hash their slices of the signal and of the sequence, the
coordinator merges the hash of the signal (`do_hash_signal`) and sends back the full
hash, and every worker answers the request that `master_t::do_compute` sends to it.
`none` if an assertion fails on the way.

Nothing here depends on how `master_t::do_compute` ends. That function has no `return`
statement although it is declared `size_t`, so the source does not determine what the
coordinator does after its last send, and in particular not that `main` goes on to
`master.do_collect()`; the coordinator's own total is therefore not part of the
model. -/
def worker_replies (num_workers : Nat) (inp : input_t) : Option (List (Nat × Nat)) :=
  match worker_parts num_workers inp.SignalLength inp.SignalAt with
  | none => none
  | some signal_parts =>
    match master_t.do_hash_signal signal_parts inp.SignalLength with
    | none => none
    | some hash_signal =>
      match worker_parts num_workers inp.SeqLength inp.SeqAt with
      | none => none
      | some hash_seq =>
        match master_t.do_compute num_workers hash_seq inp.SeqLength inp.SignalLength with
        | none => none
        | some requests => requests.mapM (worker_t.do_compute inp hash_signal)

/-- The input whose sequence and signal are the given token lists (positions count
from 1; no other position is read). -/
def input_of (sequence signal : List Int) : input_t :=
  { SignalLength := signal.length
    SignalAt := fun i => if 1 ≤ i then signal.getD (i - 1).toNat 0 else 0
    SeqLength := sequence.length
    SeqAt := fun i => if 1 ≤ i then sequence.getD (i - 1).toNat 0 else 0 }

/-- Every residue of the block lies in `[0, setup[idx].prime)`. -/
def residues_in_range (A : hash_block_t) : Prop :=
  ∀ idx, 0 ≤ A.hash idx ∧ A.hash idx < (setup idx).prime

/-- Two blocks used to instantiate the laws of the hash algebra. -/
def sample_block_a : hash_block_t := ⟨fun _ => 1073741000, 3⟩

/-- The second sample block. -/
def sample_block_b : hash_block_t := ⟨fun _ => 987654321, 2⟩

/-- The third sample block. -/
def sample_block_c : hash_block_t := ⟨fun _ => 12345, 4⟩

/-- The block built by the loop of `hash_sequence` from the `count` tokens
`fn begin, ..., fn (begin + count - 1)` in front of the block `tail`: every token is
put in front (`hash_block_t{fn(idx)} + result`) of what follows it. -/
def hash_run_onto (fn : Int → Int) (tail : hash_block_t) : Int → Nat → hash_block_t
  | _, 0 => tail
  | begin, count + 1 =>
    operator_plus (of_value (fn begin)) (hash_run_onto fn tail (begin + 1) count)

/-- The block of the tokens at the positions `[begin, end)` (empty when `end <= begin`). -/
def hash_range (fn : Int → Int) (begin end_ : Int) : hash_block_t :=
  hash_run_onto fn empty begin (end_ - begin).toNat

/-- The blocks `hash_sequence(c0, c1, fn)`, `hash_sequence(c1, c2, fn)`, ... of the
pieces between consecutive cut points. -/
def hash_pieces (fn : Int → Int) : List Int → Option (List hash_block_t)
  | c0 :: c1 :: rest =>
    match hash_sequence c0 c1 fn, hash_pieces fn (c1 :: rest) with
    | some piece, some pieces => some (piece :: pieces)
    | _, _ => none
  | _ => some []

/-- The requests `sent` carry the windows that tile `[lo, hi)` from `hi` downwards:
the first window ends at `hi`, every next one ends where the previous one begins, the
last one begins at `lo`, and every window is non-empty and begins at `1` or later. -/
def windows_tile : List request_t → Int → Int → Prop
  | [], hi, lo => hi = lo
  | r :: rest, hi, lo =>
    r.end_ = hi ∧ 1 ≤ r.begin ∧ r.begin < r.end_ ∧ windows_tile rest r.begin lo

/-- The initial values of the local variables of `master_t::do_compute`. -/
def compute_state_t.initial (hash_seq : List hash_block_t) (seq_length signal_length : Int) :
    compute_state_t :=
  { hash := empty, hash_begin := 1 + seq_length, hash_end := 1 + seq_length,
    hash_block_begin := hash_seq.length, hash_block_end := hash_seq.length,
    last := seq_length - signal_length + 1 + 1, worker_cnt := 0 }

/-- The first position of the slice that `worker_t.worker_hash_subsequence` hashes on worker
`worker_id`; the slice ends where the slice of the next worker begins. -/
def slice_begin (num_workers length worker_id : Int) : Int :=
  min (1 + block_length num_workers length * worker_id) (1 + length)

/-- The blocks of the slices of the workers `0, ..., num_workers - 1`. -/
def slice_blocks (num_workers : Nat) (length : Int) (at_ : Int → Int) : List hash_block_t :=
  (List.range num_workers).map (fun worker_id : Nat =>
    hash_range at_ (slice_begin num_workers length worker_id)
      (slice_begin num_workers length (worker_id + 1)))

/-- The hash context of a request is right for a window that ends at `end`: the block
`hash` is the block of the positions `[hash_begin, hash_end)`, and either that range is
empty or it lies inside `[end - 1, end - 1 + signal_length)`. -/
def context_ok (SeqAt : Int → Int) (signal_length : Int) (r : request_t) : Prop :=
  r.hash = hash_range SeqAt r.hash_begin r.hash_end ∧ r.hash_begin ≤ r.hash_end ∧
    (r.hash_begin = r.hash_end ∨
      (r.end_ - 1 ≤ r.hash_begin ∧ r.hash_end ≤ r.end_ - 1 + signal_length))

/-- The invariant of the planning loop of `master_t::do_compute` on the hash context:
`hash` is the sum of the blocks `hash_block_begin, ..., hash_block_end - 1` of the
workers, which cover the positions `[hash_begin, hash_end)`, and these positions do not
start before `last - 1`. -/
def context_invariant (num_workers : Nat) (seq_length : Int) (SeqAt : Int → Int)
    (st : compute_state_t) : Prop :=
  st.hash_block_begin ≤ st.hash_block_end ∧ st.hash_block_end ≤ num_workers ∧
    st.hash_begin = slice_begin num_workers seq_length st.hash_block_begin ∧
    st.hash_end = slice_begin num_workers seq_length st.hash_block_end ∧
    st.hash = hash_range SeqAt st.hash_begin st.hash_end ∧
    st.last - 1 ≤ st.hash_begin

/-- The number of positions among `lo, lo + 1, ..., lo + count - 1` that satisfy `pred`. -/
def count_positions (pred : Int → Bool) (lo : Int) : Nat → Nat
  | 0 => 0
  | count + 1 => count_positions pred lo count + (if pred (lo + count) then 1 else 0)

/-- The block of the `signal_length` tokens from position `p` on has the residues of
`hash_signal` under both primes. -/
def window_matches (SeqAt : Int → Int) (hash_signal : hash_block_t) (signal_length p : Int) :
    Bool :=
  decide ((hash_range SeqAt p (p + signal_length)).hash 0 = hash_signal.hash 0 ∧
    (hash_range SeqAt p (p + signal_length)).hash 1 = hash_signal.hash 1)

/-- The `RESULT` of a worker on request `r` when every comparison of the worker is
taken on the residues: the number of matching windows at the positions of `r`. -/
def window_count (inp : input_t) (hash_signal : hash_block_t) (r : request_t) : Nat :=
  if r.begin = 0 then 0
  else count_positions (window_matches inp.SeqAt hash_signal inp.SignalLength) r.begin
    (r.end_ - r.begin).toNat

/-- The signal occurs in the sequence at start position `p`: the tokens
`p, ..., p + SignalLength - 1` of the sequence are the tokens `1, ..., SignalLength` of
the signal. -/
def match_at (inp : input_t) (p : Int) : Bool :=
  (List.range inp.SignalLength.toNat).all
    (fun j => inp.SeqAt (p + j) == inp.SignalAt (1 + j))

/-- The number of start positions `p` in `[1, SeqLength - SignalLength + 1]` at which
the signal occurs in the sequence. -/
def occurrences (inp : input_t) : Nat :=
  count_positions (match_at inp) 1 (inp.SeqLength - inp.SignalLength + 1).toNat

/-- The hash of the window at start position `p` compares equal (`operator==`) to the
hash of the whole signal. -/
def hash_match_at (inp : input_t) (p : Int) : Bool :=
  match hash_sequence p (p + inp.SignalLength) inp.SeqAt,
    hash_sequence 1 (1 + inp.SignalLength) inp.SignalAt with
  | some window, some signal =>
    match operator_eq window signal with
    | some equal => equal
    | none => false
  | _, _ => false

/-- The number of start positions `p` in `[1, SeqLength - SignalLength + 1]` at which
the hash of the window equals the hash of the signal. -/
def hash_occurrences (inp : input_t) : Nat :=
  count_positions (hash_match_at inp) 1 (inp.SeqLength - inp.SignalLength + 1).toNat

/-- A block of length 1 and a block of length 3, used to evaluate `trim` on a right
operand that is longer than the left one. -/
def short_block : hash_block_t := ⟨fun _ => 5, 1⟩

/-- The block of length 3. -/
def long_block : hash_block_t := ⟨fun _ => 7, 3⟩

/-- A power table with entries in range, used to instantiate the range invariant. -/
def sample_powers : hash_array_t := fun _ => 1000000007

/-! ## Messaging

The scalar types are those of the 64-bit target: `int` and `int32_t` have 4 bytes,
`long long`, `ssize_t` and `size_t` have 8, so `communication_traits<sizeof(T)>` selects
`PutInt` / `GetInt` for `hash_t` and `message_type_t` and `PutLL` / `GetLL` for `ssize_t`
and `size_t`. -/

/-- `enum class message_type_t`. -/
inductive message_type_t
  | HASH_SIGNAL_PART
  | HASH_SEQUENCE_PART
  | HASH_SIGNAL_FULL
  | SUBSEQUENCE
  | RESULT
  | NOP

/-- The underlying `int` value of an enumerator. -/
def message_type_t.to_int : message_type_t → Int
  | HASH_SIGNAL_PART => 0
  | HASH_SEQUENCE_PART => 1
  | HASH_SIGNAL_FULL => 2
  | SUBSEQUENCE => 3
  | RESULT => 4
  | NOP => 5

namespace communication

open Message

/-- `put<T>(target, value)` for `T = message_type_t`: `PutInt(target, static_cast<int>(value))`. -/
def put_message_type (value : message_type_t) (ch : channel_t) : channel_t :=
  PutInt value.to_int ch

/-- `get<T>(target, number)` for `T = message_type_t`; the result of
`static_cast<message_type_t>(GetInt(target))` is kept as its underlying value. -/
def get_message_type (ch : channel_t) : Except failure_t (Int × channel_t) :=
  GetInt ch

/-- `put<T>(target, value)` for `T = hash_t`. -/
def put_hash_t (value : Int) (ch : channel_t) : channel_t :=
  PutInt value ch

/-- `get<T>(target, number)` for `T = hash_t`. -/
def get_hash_t (ch : channel_t) : Except failure_t (Int × channel_t) :=
  GetInt ch

/-- `put<T>(target, value)` for `T = ssize_t`. -/
def put_ssize_t (value : Int) (ch : channel_t) : channel_t :=
  PutLL value ch

/-- `get<T>(target, number)` for `T = ssize_t`. -/
def get_ssize_t (ch : channel_t) : Except failure_t (Int × channel_t) :=
  GetLL ch

/-- `put<T>(target, value)` for `T = size_t`: `PutLL(target, static_cast<long long>(value))`. -/
def put_size_t (value : Int) (ch : channel_t) : channel_t :=
  PutLL (wrap64 value) ch

/-- `get<T>(target, number)` for `T = size_t`: `static_cast<size_t>(GetLL(target))`. -/
def get_size_t (ch : channel_t) : Except failure_t (Int × channel_t) :=
  match GetLL ch with
  | Except.ok (value, ch) => Except.ok (wrapU64 value, ch)
  | Except.error e => Except.error e

/-- `put(target, const std::array<T, n>&)` for `hash_array_t`. -/
def put_array (arr : hash_array_t) (ch : channel_t) : channel_t :=
  put_hash_t (arr 1) (put_hash_t (arr 0) ch)

/-- `get(target, std::array<T, n>*)` for `hash_array_t`. -/
def get_array (ch : channel_t) : Except failure_t (hash_array_t × channel_t) :=
  match get_hash_t ch with
  | Except.ok (first, ch) =>
    match get_hash_t ch with
    | Except.ok (second, ch) => Except.ok (fun idx => if idx = 0 then first else second, ch)
    | Except.error e => Except.error e
  | Except.error e => Except.error e

/-- `put(node, const hash_block_t&)`. -/
def put_hash_block (block : hash_block_t) (ch : channel_t) : channel_t :=
  put_array block.hash (put_ssize_t block.length ch)

/-- `get(node, hash_block_t*)`. -/
def get_hash_block (ch : channel_t) : Except failure_t (hash_block_t × channel_t) :=
  match get_ssize_t ch with
  | Except.ok (length, ch) =>
    match get_array ch with
    | Except.ok (hash, ch) => Except.ok (⟨hash, length⟩, ch)
    | Except.error e => Except.error e
  | Except.error e => Except.error e

/-- `put(node, const request_t&)`. -/
def put_request (rq : request_t) (ch : channel_t) : channel_t :=
  put_ssize_t rq.end_ (put_ssize_t rq.begin (put_ssize_t rq.hash_end
    (put_ssize_t rq.hash_begin (put_hash_block rq.hash ch))))

/-- `get(node, request_t*)`. -/
def get_request (ch : channel_t) : Except failure_t (request_t × channel_t) :=
  match get_hash_block ch with
  | Except.ok (hash, ch) =>
    match get_ssize_t ch with
    | Except.ok (hash_begin, ch) =>
      match get_ssize_t ch with
      | Except.ok (hash_end, ch) =>
        match get_ssize_t ch with
        | Except.ok (begin, ch) =>
          match get_ssize_t ch with
          | Except.ok (end_, ch) => Except.ok (⟨hash, hash_begin, hash_end, begin, end_⟩, ch)
          | Except.error e => Except.error e
        | Except.error e => Except.error e
      | Except.error e => Except.error e
    | Except.error e => Except.error e
  | Except.error e => Except.error e

/-- An argument of `send` or a value stored by `recv`: the program sends `size_t` counts,
hash blocks and requests. -/
inductive arg_t
  | size (value : Int)
  | block (value : hash_block_t)
  | request (value : request_t)

/-- The type of an argument, which selects the overload of `put` and `get`. -/
inductive arg_kind_t
  | size
  | block
  | request

/-- The type of an argument. -/
def arg_t.kind : arg_t → arg_kind_t
  | arg_t.size _ => arg_kind_t.size
  | arg_t.block _ => arg_kind_t.block
  | arg_t.request _ => arg_kind_t.request

/-- The overload `put(node, value)` chosen for an argument. -/
def put_arg (arg : arg_t) (ch : channel_t) : channel_t :=
  match arg with
  | arg_t.size value => put_size_t value ch
  | arg_t.block value => put_hash_block value ch
  | arg_t.request value => put_request value ch

/-- The overload `get(node, value)` chosen for a pointer of the given type. -/
def get_arg (kind : arg_kind_t) (ch : channel_t) : Except failure_t (arg_t × channel_t) :=
  match kind with
  | arg_kind_t.size =>
    match get_size_t ch with
    | Except.ok (value, ch) => Except.ok (arg_t.size value, ch)
    | Except.error e => Except.error e
  | arg_kind_t.block =>
    match get_hash_block ch with
    | Except.ok (value, ch) => Except.ok (arg_t.block value, ch)
    | Except.error e => Except.error e
  | arg_kind_t.request =>
    match get_request ch with
    | Except.ok (value, ch) => Except.ok (arg_t.request value, ch)
    | Except.error e => Except.error e

/-- `_send(node, args...)`: puts the arguments from left to right. -/
def _send : List arg_t → channel_t → channel_t
  | [], ch => ch
  | value :: args, ch => _send args (put_arg value ch)

/-- `_recv(node, args...)`: gets the values from left to right. -/
def _recv : List arg_kind_t → channel_t → Except failure_t (List arg_t × channel_t)
  | [], ch => Except.ok ([], ch)
  | kind :: kinds, ch =>
    match get_arg kind ch with
    | Except.ok (value, ch) =>
      match _recv kinds ch with
      | Except.ok (values, ch) => Except.ok (value :: values, ch)
      | Except.error e => Except.error e
    | Except.error e => Except.error e

/-- `send(node, type, args...)`: the type tag, the arguments, then `Send(node)`. -/
def send (type : message_type_t) (args : List arg_t) (ch : channel_t) : channel_t :=
  Send (_send args (put_message_type type ch))

/-- `recv(node, type, args...)`: `Receive(node)`, the tag, the assertion on the tag, then
the values. -/
def recv (type : message_type_t) (kinds : List arg_kind_t) (ch : channel_t) :
    Except failure_t (List arg_t × channel_t) :=
  match Receive ch with
  | Except.ok ch =>
    match get_message_type ch with
    | Except.ok (got, ch) =>
      if got = type.to_int then _recv kinds ch else Except.error failure_t.assertion
    | Except.error e => Except.error e
  | Except.error e => Except.error e

end communication

namespace communication

open Message

/-- The scalars of a hash block in the order of `put(node, const hash_block_t&)`:
`length`, `hash[0]`, `hash[1]`. -/
def hash_block_words (block : hash_block_t) : List word_t :=
  [word_t.ll block.length, word_t.int (block.hash 0), word_t.int (block.hash 1)]

/-- The scalars of a request in the order of `put(node, const request_t&)`:
`hash.length`, `hash.hash[0]`, `hash.hash[1]`, `hash_begin`, `hash_end`, `begin`, `end`. -/
def request_words (rq : request_t) : List word_t :=
  [word_t.ll rq.hash.length, word_t.int (rq.hash.hash 0), word_t.int (rq.hash.hash 1),
    word_t.ll rq.hash_begin, word_t.ll rq.hash_end, word_t.ll rq.begin, word_t.ll rq.end_]

/-- The scalars that `put` writes for an argument. -/
def arg_words : arg_t → List word_t
  | arg_t.size value => [word_t.ll (wrap64 value)]
  | arg_t.block value => hash_block_words value
  | arg_t.request value => request_words value

/-- A request used to instantiate the messaging properties. -/
def sample_request : request_t := ⟨sample_block_a, 4, 7, 1, 5⟩

end communication

/-- Trial division: no number of `[lo, lo + 2 ^ depth)` divides `n`. The range is
halved `depth` times. -/
def no_divisor_in (n : Nat) : Nat → Nat → Bool
  | 0, lo => n % lo != 0
  | depth + 1, lo => no_divisor_in n depth lo && no_divisor_in n depth (lo + 2 ^ depth)

/-! ## The requests of `master_t::do_compute` with their destinations -/

/-- The `while(last > 1)` loop of `master_t::do_compute` with the node that every
request is sent to: `send(first_worker + worker_cnt, SUBSEQUENCE, request_t{...})`.
Node ids are exact integers. -/
def master_t.do_compute_loop_sends (hash_seq : List hash_block_t)
    (first_worker num_workers signal_length possible_per_worker : Int) :
    Nat → compute_state_t → List (Int × request_t) →
      Option (compute_state_t × List (Int × request_t))
  | 0, st, sent => if st.last > 1 then none else some (st, sent)
  | fuel + 1, st, sent =>
    if st.last > 1 then
      let idx := max 1 (st.last - possible_per_worker)
      let g := master_t.do_compute_grow hash_seq st.last st.hash_block_begin st.hash
        st.hash_begin
      let s := master_t.do_compute_shrink hash_seq st.last signal_length g.1
        st.hash_block_end g.2.1 st.hash_end
      if s.2.1.length = s.2.2 - g.2.2 ∧ st.worker_cnt < num_workers then
        master_t.do_compute_loop_sends hash_seq first_worker num_workers signal_length
          possible_per_worker fuel
          { hash := s.2.1, hash_begin := g.2.2, hash_end := s.2.2,
            hash_block_begin := g.1, hash_block_end := s.1,
            last := idx, worker_cnt := st.worker_cnt + 1 }
          (sent ++ [(first_worker + st.worker_cnt, ⟨s.2.1, g.2.2, s.2.2, idx, st.last⟩)])
      else none
    else some (st, sent)

/-- The nodes `first_worker, first_worker + 1, ..., first_worker + count - 1`. -/
def worker_nodes (first_worker : Int) (count : Nat) : List Int :=
  (List.range count).map (fun k : Nat => first_worker + k)

/-- The positions `[hash_begin, hash_end)` of the request are the slices of the workers
`j, ..., k - 1` for some `j ≤ k ≤ num_workers`. -/
def whole_slices (num_workers : Nat) (seq_length : Int) (r : request_t) : Prop :=
  ∃ j k : Nat, j ≤ k ∧ k ≤ num_workers ∧
    r.hash_begin = slice_begin num_workers seq_length j ∧
    r.hash_end = slice_begin num_workers seq_length k

/-- The positions `[hash_begin, hash_end)` of the request are well formed, and either
empty or inside the first window `[end - 1, end - 1 + signal_length)` of the worker. -/
def context_range_ok (signal_length : Int) (r : request_t) : Prop :=
  r.hash_begin ≤ r.hash_end ∧
    (r.hash_begin = r.hash_end ∨
      (r.end_ - 1 ≤ r.hash_begin ∧ r.hash_end ≤ r.end_ - 1 + signal_length))

/-- The part of the invariant of the planning loop that concerns positions only:
`[hash_begin, hash_end)` are the slices `hash_block_begin, ..., hash_block_end - 1`,
and they do not start before `last - 1`. -/
def position_invariant (num_workers : Nat) (seq_length : Int) (st : compute_state_t) : Prop :=
  st.hash_block_begin ≤ st.hash_block_end ∧ st.hash_block_end ≤ num_workers ∧
    st.hash_begin = slice_begin num_workers seq_length st.hash_block_begin ∧
    st.hash_end = slice_begin num_workers seq_length st.hash_block_end ∧
    st.last - 1 ≤ st.hash_begin

/-- The blocks in `hash_seq` have the lengths of the workers' slices. -/
def slice_lengths (num_workers : Nat) (seq_length : Int) (hash_seq : List hash_block_t) :
    Prop :=
  hash_seq.length = num_workers ∧
    ∀ k : Nat, k < num_workers →
      (hash_seq.getD k empty).length =
        slice_begin num_workers seq_length (k + 1) - slice_begin num_workers seq_length k

/-! ## The token indices read

The calls of the accessor `fn` (`SeqAt`, `SignalAt`) made by `hash_sequence` and by the
worker, in the order of the statements. An assertion that fails can only cut the list
short. -/

/-- The indices `idx` of the calls `fn(idx)` in the loop of `hash_sequence`. -/
def hash_sequence_loop_reads (begin : Int) : Nat → Int → List Int
  | 0, _ => []
  | fuel + 1, idx =>
    if idx ≥ begin then idx :: hash_sequence_loop_reads begin fuel (idx - 1) else []

/-- The indices of the calls of `fn` in `hash_sequence(begin, end, fn)`. -/
def hash_sequence_reads (begin end_ : Int) : List Int :=
  if begin ≤ end_ then
    (if begin ≠ end_ then hash_sequence_loop_reads begin (end_ - begin).toNat (end_ - 1)
      else [])
  else []

/-- The indices of the calls of `at` in `worker_t::worker_hash_subsequence`. -/
def worker_t.worker_hash_subsequence_reads (worker_id num_workers : Int) (length : Int) :
    List Int :=
  let len := length
  let len_per_worker := block_length num_workers length
  let begin := min (1 + len_per_worker * worker_id) (1 + len)
  let end_ := min (1 + len_per_worker * (worker_id + 1)) (1 + len)
  hash_sequence_reads begin end_

/-- The indices of the calls `SeqAt(pos)` and `SeqAt(pos + signal_length)` in the loop
of `worker_t::do_compute`. -/
def worker_t.do_compute_loop_reads (signal_length begin : Int) : Nat → Int → List Int
  | 0, _ => []
  | fuel + 1, pos =>
    if pos ≥ begin then
      if pos - 1 < begin then []
      else
        (pos - 1) :: (pos - 1 + signal_length) ::
          worker_t.do_compute_loop_reads signal_length begin fuel (pos - 1)
    else []

/-- The indices of the calls of `SeqAt` for the block that `worker_t::do_compute`
builds before its loop. -/
def worker_t.do_compute_initial_hash_reads (request : request_t) (signal_length : Int) :
    List Int :=
  if request.hash_begin = request.hash_end then
    hash_sequence_reads (request.end_ - 1) (request.end_ + signal_length - 1)
  else
    hash_sequence_reads (request.end_ - 1) request.hash_begin ++
      hash_sequence_reads request.hash_end (request.end_ + signal_length - 1)

/-- The indices of all calls of `SeqAt` in `worker_t::do_compute` on `request`. -/
def worker_t.do_compute_reads (signal_length : Int) (request : request_t) : List Int :=
  if request.begin ≠ 0 then
    worker_t.do_compute_initial_hash_reads request signal_length ++
      worker_t.do_compute_loop_reads signal_length request.begin
        (request.end_ - request.begin).toNat (request.end_ - 1)
  else []

/-- The comparison `hash_sequence(p, p + signal_length, SeqAt) == hash_signal`
(`false` if an assertion fails). -/
def window_equals (SeqAt : Int → Int) (hash_signal : hash_block_t) (signal_length p : Int) :
    Bool :=
  match hash_sequence p (p + signal_length) SeqAt with
  | some window =>
    match operator_eq window hash_signal with
    | some equal => equal
    | none => false
  | none => false

/-- The positions visited by the loop of `worker_t::do_compute`, each with the value of
`hash` at the comparison `hash == hash_signal`, in the order of the visits. -/
def worker_t.do_compute_loop_blocks (SeqAt : Int → Int) (signal_length begin : Int)
    (trim_powers : hash_array_t) : Nat → Int → hash_block_t → List (Int × hash_block_t)
  | 0, _, _ => []
  | fuel + 1, pos, hash =>
    if pos ≥ begin then
      (pos, hash) ::
        (if pos - 1 < begin then []
        else
          worker_t.do_compute_loop_blocks SeqAt signal_length begin trim_powers fuel (pos - 1)
            (operator_plus (of_value (SeqAt (pos - 1)))
              (trim_by hash (of_value (SeqAt (pos - 1 + signal_length))) trim_powers)))
    else []

/-! ## The hash arithmetic on exact integers

The operations of `hash_block_t` with every narrowing conversion left out: what the
source computes if `hash_t` and `bigger_hash_t` are unbounded integers. -/

/-- The lambda `op` on exact integers: `(x * y) % setup[idx].prime`. -/
def op_exact (idx : Fin 2) (x y : Int) : Int :=
  Int.tmod (x * y) (setup idx).prime

/-- `make_powers` on exact integers. -/
def make_powers_exact (exponent : Int) : hash_array_t :=
  fun idx => iterate (setup idx).base 1 exponent (op_exact idx)

/-- `hash_block_t::extend` on exact integers. -/
def extend_exact (self rhs : hash_block_t) (powers : hash_array_t) : hash_block_t :=
  { length := self.length + rhs.length
    hash := fun idx =>
      let h := self.hash idx + op_exact idx (powers idx) (rhs.hash idx)
      if h ≥ (setup idx).prime then h - (setup idx).prime else h }

/-- `hash_block_t::operator+` on exact integers. -/
def operator_plus_exact (self rhs : hash_block_t) : hash_block_t :=
  { length := self.length + rhs.length
    hash := fun idx =>
      let pw := iterate (setup idx).base 1 self.length (op_exact idx)
      let h := self.hash idx + op_exact idx pw (rhs.hash idx)
      if h ≥ (setup idx).prime then h - (setup idx).prime else h }

/-- The two-argument `hash_block_t::trim` on exact integers. -/
def trim_by_exact (self rhs : hash_block_t) (powers : hash_array_t) : hash_block_t :=
  { length := self.length - rhs.length
    hash := fun idx =>
      let h := self.hash idx - op_exact idx (powers idx) (rhs.hash idx)
      if h < 0 then h + (setup idx).prime else h }

end Pos

/-! ## `4/a/sabotaz.cc`: the stream of edges between two nodes -/

namespace Sabotaz

open Message

/-- `solver_t::NEXT_MESSAGE`. -/
def NEXT_MESSAGE : Int := -1

/-- `solver_t::END_OF_STREAM`. -/
def END_OF_STREAM : Int := -2

/-- `edge_writer_t::RECORDS_IN_MESSAGE`, with `sizeof(graph_t::vertexid_t) = 4`. -/
def RECORDS_IN_MESSAGE : Nat := 7900 / (2 * 4)

/-- The member `records` of `solver_t::edge_writer_t` (the member `target` is the link
that the operations act on). -/
structure edge_writer_t where
  records : Nat

/-- The constructor `edge_writer_t(node_t target)`. -/
def edge_writer_t.init : edge_writer_t := ⟨0⟩

/-- `edge_writer_t::operator()(a, b)`; `communication::put` of a 4-byte `vertexid_t` is
`PutInt`, `communication::send` is `Send`. -/
def edge_writer_t.call (a b : Int) (self : edge_writer_t) (ch : channel_t) :
    edge_writer_t × channel_t :=
  let ch := PutInt b (PutInt a ch)
  let records := self.records + 1
  if records ≥ RECORDS_IN_MESSAGE then
    (⟨0⟩, Send (PutInt NEXT_MESSAGE ch))
  else (⟨records⟩, ch)

/-- The destructor `~edge_writer_t()`. -/
def edge_writer_t.destroy (ch : channel_t) : channel_t :=
  Send (PutInt END_OF_STREAM ch)

/-- The life of one `edge_writer_t`: constructed, called once for every edge of the
list in order, destroyed (as in `solver_t::send`). -/
def write_edges (edges : List (Int × Int)) (ch : channel_t) : channel_t :=
  edge_writer_t.destroy
    (edges.foldl (fun st e => edge_writer_t.call e.1 e.2 st.1 st.2) (edge_writer_t.init, ch)).2

/-- The `while(true)` loop of `edge_reader_t::operator()`; `calls` collects the
arguments of the calls of `callback` in order. Every iteration reads at least one
scalar, so the number of scalars under way plus one bounds the iterations. -/
def edge_reader_loop :
    Nat → channel_t → List (Int × Int) → Except failure_t (List (Int × Int) × channel_t)
  | 0, _, _ => Except.error failure_t.out_of_fuel
  | fuel + 1, ch, calls =>
    match GetInt ch with
    | Except.error e => Except.error e
    | Except.ok (a, ch) =>
      if a = NEXT_MESSAGE then
        match Receive ch with
        | Except.error e => Except.error e
        | Except.ok ch => edge_reader_loop fuel ch calls
      else if a = END_OF_STREAM then Except.ok (calls, ch)
      else
        match GetInt ch with
        | Except.error e => Except.error e
        | Except.ok (b, ch) => edge_reader_loop fuel ch (calls ++ [(a, b)])

/-- The number of scalars of the current message and of the messages under way. -/
def words_available (ch : channel_t) : Nat :=
  ch.current.length + (ch.queue.map List.length).sum

/-- `edge_reader_t::operator()`: the calls of `callback` in order, and the link
afterwards. -/
def edge_reader_t.call (ch : channel_t) : Except failure_t (List (Int × Int) × channel_t) :=
  match Receive ch with
  | Except.error e => Except.error e
  | Except.ok ch => edge_reader_loop (words_available ch + 1) ch []

/-- What a writer with `records` records in its unsent message still produces for the
edges `edges` and its destruction: the scalars that complete the unsent message, and
the messages after it. -/
def stream_rest : Nat → List (Int × Int) → List word_t × List (List word_t)
  | _, [] => ([word_t.int END_OF_STREAM], [])
  | records, e :: edges =>
    if records + 1 ≥ RECORDS_IN_MESSAGE then
      ([word_t.int e.1, word_t.int e.2, word_t.int NEXT_MESSAGE],
        (stream_rest 0 edges).1 :: (stream_rest 0 edges).2)
    else
      (word_t.int e.1 :: word_t.int e.2 :: (stream_rest (records + 1) edges).1,
        (stream_rest (records + 1) edges).2)

/-- The scalars that `edge_writer_t::operator()` puts for the given edges: `a` and `b`
of every edge, in order. -/
def edge_words : List (Int × Int) → List word_t
  | [] => []
  | e :: edges => word_t.int e.1 :: word_t.int e.2 :: edge_words edges

/-- The size in bytes of a scalar: `communication_traits<sizeof(type)>` sends the types
of size `sizeof(char) = 1`, `sizeof(int) = 4` and `sizeof(long long) = 8` through
`PutChar`, `PutInt` and `PutLL`. -/
def word_bytes : word_t → Nat
  | word_t.char _ => 1
  | word_t.int _ => 4
  | word_t.ll _ => 8

/-- The size in bytes of a message. -/
def message_bytes (message : List word_t) : Nat :=
  (message.map word_bytes).sum

/-! ## `graph_t`: the search for bridges

The adjacency lists `adj` are not changed by the search and are passed on their own;
`vertices_t` holds the other members of all `vertex_t`. Vertex numbers are the indices
`0 .. n - 1`; `time` and the values of `order` and `low` are exact integers (they stay
between `-1` and `n + 1`). -/

/-- `graph_t::UNVISITED`. -/
def graph_t.UNVISITED : Int := -1

/-- `graph_t::NO_PARENT`. -/
def graph_t.NO_PARENT : Int := -1

/-- The members `parentid`, `order`, `low` of the vector `vertices`. -/
structure vertices_t where
  parentid : Nat → Int
  order : Nat → Int
  low : Nat → Int

/-- `graph_t::add_edge(a, b)` on the adjacency lists. -/
def graph_t.add_edge (adj : Nat → List Nat) (a b : Nat) : Nat → List Nat :=
  let adj := Function.update adj a (adj a ++ [b])
  Function.update adj b (adj b ++ [a])

/-- The adjacency lists after `add_edge` for every edge of the list, in order, on a
graph without edges. -/
def graph_t.load (edges : List (Nat × Nat)) : Nat → List Nat :=
  edges.foldl (fun adj e => graph_t.add_edge adj e.1 e.2) (fun _ => [])

/-- `graph_t::dfs(vertexid, parentid, time)`: the new `vertices` and `time`; `fuel`
bounds the depth of the recursion. The loop carries `parent_count`, which counts
entries of one adjacency list that equal `parentid`. -/
def graph_t.dfs_visit (adj : Nat → List Nat) :
    Nat → Nat → Int → vertices_t × Int → Option (vertices_t × Int)
  | 0, _, _, _ => none
  | fuel + 1, vertexid, parentid, (vs, time) =>
    ((adj vertexid).foldl (fun acc (adjid : Nat) =>
      match acc with
      | none => none
      | some (parent_count, vs, time) =>
        if vs.order adjid = graph_t.UNVISITED then
          match graph_t.dfs_visit adj fuel adjid vertexid (vs, time) with
          | none => none
          | some (vs, time) =>
            let low := min (vs.low vertexid) (vs.low adjid)
            some (parent_count, { vs with low := Function.update vs.low vertexid low }, time)
        else if (adjid : Int) ≠ parentid then
          let low := min (vs.low vertexid) (vs.order adjid)
          some (parent_count, { vs with low := Function.update vs.low vertexid low }, time)
        else if parent_count ≠ 0 then
          let low := min (vs.low vertexid) (vs.order adjid)
          some (parent_count + 1, { vs with low := Function.update vs.low vertexid low }, time)
        else some (parent_count + 1, vs, time))
      (some (0,
        { parentid := Function.update vs.parentid vertexid parentid,
          order := Function.update vs.order vertexid time,
          low := Function.update vs.low vertexid time }, time + 1))).map (fun r => r.2)

/-- `graph_t::dfs()` on a graph of `n` vertices. -/
def graph_t.dfs (n : Nat) (adj : Nat → List Nat) (vs : vertices_t) :
    Option (vertices_t × Int) :=
  (List.range n).foldl (fun acc vertexid =>
    match acc with
    | none => none
    | some (vs, time) =>
      if vs.order vertexid = graph_t.UNVISITED then
        graph_t.dfs_visit adj n vertexid graph_t.NO_PARENT (vs, time)
      else some (vs, time))
    (some ({ vs with order := fun _ => graph_t.UNVISITED }, 1))

/-- `graph_t::iter_bridges`: the arguments of the calls of `fn`, in order. -/
def graph_t.iter_bridges (n : Nat) (vs : vertices_t) : List (Int × Int) :=
  (List.range n).filterMap (fun vertexid =>
    if vs.parentid vertexid ≠ graph_t.NO_PARENT ∧ vs.low vertexid = vs.order vertexid then
      some ((vertexid : Int), vs.parentid vertexid)
    else none)

/-- `solver_t::number_of_bridges` on the graph after `dfs()`. -/
def number_of_bridges (n : Nat) (vs : vertices_t) : Nat :=
  (graph_t.iter_bridges n vs).foldl (fun res _ => (res + 1) % 2 ^ 64) 0

/-- The vertex `b` is reached from `a` along edges of the graph. -/
def connected (adj : Nat → List Nat) (a b : Nat) : Prop :=
  Relation.ReflTransGen (fun x y => y ∈ adj x) a b

/-- The edge number `i` of the list is a bridge: without it, its ends are not
connected. -/
def is_bridge (edges : List (Nat × Nat)) (i : Nat) : Prop :=
  ∃ e, edges.get? i = some e ∧ ¬ connected (graph_t.load (edges.eraseIdx i)) e.1 e.2

/-- How many times the edge `e` joins `x` and `y` (a loop at `x = y` counts twice). -/
def joins (e : Nat × Nat) (x y : Nat) : Nat :=
  (if x = e.1 ∧ y = e.2 then 1 else 0) + (if x = e.2 ∧ y = e.1 then 1 else 0)

/-- The search has reached the vertex `x`. -/
def visited (vs : vertices_t) (x : Nat) : Prop :=
  vs.order x ≠ graph_t.UNVISITED

/-- The number of vertices that the search has not reached. -/
def unvisited_count (n : Nat) (vs : vertices_t) : Nat :=
  ((Finset.range n).filter (fun x => vs.order x = graph_t.UNVISITED)).card

/-- The shape of `vertices` and `time` during the search: the visited vertices have
different values of `order` between 1 and `time`, a visited vertex has no parent or a
neighbour visited before it as its parent, and `time` is one more than the number of
the visited vertices. -/
def dfs_wf (n : Nat) (adj : Nat → List Nat) (st : vertices_t × Int) : Prop :=
  1 ≤ st.2 ∧
  (∀ x, visited st.1 x → x < n ∧ 1 ≤ st.1.order x ∧ st.1.order x < st.2) ∧
  (∀ x y, visited st.1 x → visited st.1 y → st.1.order x = st.1.order y → x = y) ∧
  (∀ x, visited st.1 x → st.1.parentid x = graph_t.NO_PARENT ∨
    ∃ q : Nat, st.1.parentid x = q ∧ visited st.1 q ∧ q ∈ adj x ∧
      st.1.order q < st.1.order x) ∧
  st.2 + unvisited_count n st.1 = n + 1

/-- The vertex `y` is `q` or is reached from `q` by going to the parent repeatedly. -/
def anc_up (vs : vertices_t) (q y : Nat) : Prop :=
  Relation.ReflTransGen (fun c r => visited vs c ∧ vs.parentid c = (r : Int)) q y

/-- The entry `y` of the adjacency list of `w` is not the one edge end that leads to
the parent of `w`. -/
def qualifying (adj : Nat → List Nat) (vs : vertices_t) (w y : Nat) : Prop :=
  (y : Int) ≠ vs.parentid w ∨ 2 ≤ (adj w).count y

/-- What holds of a vertex `x` once `dfs(x, _, _)` has returned, `N` being the set of
the vertices visited by that call: they are visited not before `x` together with all
their neighbours, the parents lead from them to `x` inside `N`, a neighbour outside of
`N` was visited before `x` and is reached from the parent of `x` by going to the
parent, and `low` of `x` is the least `order` at the far end of a qualifying entry of
a vertex of `N`, or `order` of `x` if that is less. -/
def finished (adj : Nat → List Nat) (vs : vertices_t) (x : Nat) (N : Nat → Prop) : Prop :=
  N x ∧
  (∀ w, N w → visited vs w ∧ vs.order x ≤ vs.order w ∧ ∀ y ∈ adj w, visited vs y) ∧
  (∀ w, N w → w ≠ x → ∃ q : Nat, vs.parentid w = q ∧ N q) ∧
  (∀ w, N w → ∀ y ∈ adj w, ¬ N y →
    vs.order y < vs.order x ∧ ∃ q : Nat, vs.parentid x = q ∧ anc_up vs q y) ∧
  vs.low x ≤ vs.order x ∧
  (∀ w, N w → ∀ y ∈ adj w, qualifying adj vs w y → vs.low x ≤ vs.order y) ∧
  (vs.low x = vs.order x ∨
    ∃ w, N w ∧ ∃ y ∈ adj w, qualifying adj vs w y ∧ vs.order y = vs.low x)

/-- What a call `dfs(v, p, time)` in the state `st` may assume; `onstack` holds of the
vertices whose calls have not returned yet. -/
def dfs_pre (n : Nat) (adj : Nat → List Nat) (fuel v : Nat) (p : Int)
    (onstack : Nat → Prop) (st : vertices_t × Int) : Prop :=
  dfs_wf n adj st ∧ v < n ∧ st.1.order v = graph_t.UNVISITED ∧
  (p = graph_t.NO_PARENT ∨ ∃ q : Nat, p = q ∧ visited st.1 q ∧ q ∈ adj v) ∧
  (∀ y, onstack y → visited st.1 y ∧ ∃ q : Nat, p = q ∧ anc_up st.1 q y) ∧
  (∀ y, visited st.1 y → ¬ onstack y → ∃ N, finished adj st.1 y N) ∧
  unvisited_count n st.1 ≤ fuel

/-- What a call `dfs(v, p, time)` that takes the state `st` to `st'` has done. -/
def dfs_post (n : Nat) (adj : Nat → List Nat) (v : Nat) (p : Int)
    (st st' : vertices_t × Int) : Prop :=
  dfs_wf n adj st' ∧
  (∀ x, visited st.1 x → st'.1.order x = st.1.order x ∧
    st'.1.parentid x = st.1.parentid x ∧ st'.1.low x = st.1.low x) ∧
  st'.1.order v = st.2 ∧ st'.1.parentid v = p ∧
  (∀ x, ¬ visited st.1 x → visited st'.1 x → st.2 ≤ st'.1.order x) ∧
  finished adj st'.1 v (fun x => ¬ visited st.1 x ∧ visited st'.1 x) ∧
  (∀ x, ¬ visited st.1 x → visited st'.1 x → ∃ N, finished adj st'.1 x N) ∧
  unvisited_count n st'.1 + 1 ≤ unvisited_count n st.1

/-- The invariant of the loop of `dfs(v, p, time)` called in the state `st`, after the
entries `done` of the adjacency list of `v`; `acc` holds `parent_count`, `vertices`
and `time`. -/
def dfs_loop_inv (n : Nat) (adj : Nat → List Nat) (v : Nat) (p : Int)
    (st : vertices_t × Int) (done : List Nat) (acc : Nat × vertices_t × Int) : Prop :=
  dfs_wf n adj acc.2 ∧
  (∀ x, visited st.1 x → acc.2.1.order x = st.1.order x ∧
    acc.2.1.parentid x = st.1.parentid x ∧ acc.2.1.low x = st.1.low x) ∧
  (acc.2.1.order v = st.2 ∧ acc.2.1.parentid v = p ∧ visited acc.2.1 v) ∧
  (∀ x, ¬ visited st.1 x → visited acc.2.1 x → st.2 ≤ acc.2.1.order x) ∧
  (∀ x, ¬ visited st.1 x → visited acc.2.1 x → x ≠ v →
    (∃ N, finished adj acc.2.1 x N) ∧
    ∃ q : Nat, acc.2.1.parentid x = q ∧ ¬ visited st.1 q ∧ visited acc.2.1 q) ∧
  (∀ u ∈ done, visited acc.2.1 u) ∧
  acc.1 = done.countP (fun (u : Nat) => decide ((u : Int) = p)) ∧
  (∀ u : Nat, u ∈ done → (u : Int) ≠ p → acc.2.1.low v ≤ acc.2.1.order u) ∧
  (2 ≤ acc.1 → ∀ q : Nat, p = q → acc.2.1.low v ≤ acc.2.1.order q) ∧
  (∀ w, ¬ visited st.1 w → visited acc.2.1 w → w ≠ v →
    ∀ y ∈ adj w, qualifying adj acc.2.1 w y → acc.2.1.low v ≤ acc.2.1.order y) ∧
  acc.2.1.low v ≤ st.2 ∧
  (acc.2.1.low v = st.2 ∨
    ∃ w, (¬ visited st.1 w ∧ visited acc.2.1 w) ∧
      ∃ y ∈ adj w, qualifying adj acc.2.1 w y ∧ visited acc.2.1 y ∧
        acc.2.1.order y = acc.2.1.low v) ∧
  unvisited_count n acc.2.1 + 1 ≤ unvisited_count n st.1

end Sabotaz

/-! ## `1/b/kie.cc`: the largest even sum -/

namespace Kie

/-- `std::numeric_limits<int>::max()`. -/
def INT_MAX : Int := 2 ^ 31 - 1

/-- The value of a `long long` (`Acc`) expression: the result modulo `2^64` in
`[-2^63, 2^63)`. -/
def wrap64 (x : Int) : Int := (x + 2 ^ 63) % 2 ^ 64 - 2 ^ 63

/-- One iteration of the `for` loop of `solve<int, long long>` on the value `val` read
from the input; the state is the pair of `s` and `min_odd`. `%` is the truncating
remainder of C++. -/
def solve_step (st : Int × Int) (val : Int) : Int × Int :=
  let s := wrap64 (st.1 + val)
  let min_odd := if Int.tmod val 2 = 1 then min val st.2 else st.2
  (s, min_odd)

/-- `solve<int, long long>(n)` on the `n` values read from the input: the number
printed, or `none` when the word `NIESTETY` is printed. -/
def solve (vals : List Int) : Option Int :=
  let st := vals.foldl solve_step (0, INT_MAX)
  let s := st.1
  let min_odd := st.2
  if Int.tmod s 2 = 0 then some s
  else if min_odd ≠ s ∧ min_odd ≠ INT_MAX then some (wrap64 (s - min_odd))
  else none

/-- The value `v` is even and is the sum of a non-empty sub-multiset of `vals`. -/
def even_sum (vals : List Int) (v : Int) : Prop :=
  ∃ sub : List Int, sub.Sublist vals ∧ sub ≠ [] ∧ sub.sum = v ∧ v % 2 = 0

end Kie

/-! ## `prob/row.c`: multiples of the sum of the squares of the digits -/

namespace Row

/-- `LIMIT`. -/
def LIMIT : Nat := 19 * 9 * 9

/-- The `while(num)` loop of `digits_squares_sum`; `num` is a `uint64_t` and `result`,
`digit` are `unsigned` (32 bits). The loop runs once for every decimal digit of `num`. -/
def digits_squares_sum_loop : Nat → Nat → Nat → Nat
  | 0, _, result => result
  | fuel + 1, num, result =>
    if num ≠ 0 then
      let digit := (num % 10) % 2 ^ 32
      digits_squares_sum_loop fuel (num / 10) ((result + (digit * digit) % 2 ^ 32) % 2 ^ 32)
    else result

/-- `digits_squares_sum(num)`. -/
def digits_squares_sum (num : Nat) : Nat :=
  digits_squares_sum_loop num num 0

/-- The `for` loop of `main`: `mul` and `count` are `unsigned`, the product `k * mul` is
a `uint64_t` and wraps modulo `2^64`. The loop stops at `mul = LIMIT + 1` at the
latest. -/
def main_loop (k a b : Nat) : Nat → Nat → Nat → Nat
  | 0, _, count => count
  | fuel + 1, mul, count =>
    if mul ≤ LIMIT ∧ (k * mul) % 2 ^ 64 ≤ b then
      main_loop k a b fuel ((mul + 1) % 2 ^ 32)
        (if digits_squares_sum ((k * mul) % 2 ^ 64) = mul ∧ a ≤ (k * mul) % 2 ^ 64
          then (count + 1) % 2 ^ 32 else count)
    else count

/-- `main` on the input `k a b`: the number printed. -/
def main (k a b : Nat) : Nat :=
  main_loop k a b (LIMIT + 1) 1 0

/-- The sum of the squares of the decimal digits of `n`. -/
def digit_square_sum (n : Nat) : Nat :=
  ((Nat.digits 10 n).map (fun d => d * d)).sum

end Row

/-! ## `2/a/fib.cc`: Fibonacci numbers modulo `mod` -/

namespace Fib

/-- `mat2x2<uint64_t>`: the entries `[0][0]`, `[0][1]`, `[1][0]`, `[1][1]`. -/
structure mat2x2 where
  m00 : Nat
  m01 : Nat
  m10 : Nat
  m11 : Nat

/-- `defs<T>::zero`. -/
def defs.zero : mat2x2 := ⟨0, 0, 0, 0⟩

/-- `defs<T>::id`. -/
def defs.id : mat2x2 := ⟨1, 0, 0, 1⟩

/-- `defs<T>::fib`. -/
def defs.fib : mat2x2 := ⟨1, 1, 1, 0⟩

/-- `multiply(T lhs, T rhs, T mod)` for `T = uint64_t`: `doubled<uint64_t>::type` is the
type `__uint128_t`, which selects the overload with the doubled type `U`:
`static_cast<T>((static_cast<U>(lhs) * rhs) % mod)`. -/
def multiply (lhs rhs mod : Nat) : Nat :=
  ((lhs * rhs) % 2 ^ 128 % mod) % 2 ^ 64

/-- `multiply(const mat2x2<T> &lhs, const mat2x2<T> &rhs, const T mod)`: every entry
`result[i][j]` starts at 0, receives `+=` for `k = 0` and then for `k = 1` (in
`uint64_t`), and is reduced with `%= mod` at the end. -/
def mat_multiply (lhs rhs : mat2x2) (mod : Nat) : mat2x2 :=
  { m00 := ((0 + multiply lhs.m00 rhs.m00 mod) % 2 ^ 64 + multiply lhs.m01 rhs.m10 mod) %
      2 ^ 64 % mod
    m01 := ((0 + multiply lhs.m00 rhs.m01 mod) % 2 ^ 64 + multiply lhs.m01 rhs.m11 mod) %
      2 ^ 64 % mod
    m10 := ((0 + multiply lhs.m10 rhs.m00 mod) % 2 ^ 64 + multiply lhs.m11 rhs.m10 mod) %
      2 ^ 64 % mod
    m11 := ((0 + multiply lhs.m10 rhs.m01 mod) % 2 ^ 64 + multiply lhs.m11 rhs.m11 mod) %
      2 ^ 64 % mod }

/-- The `while(idx)` loop of `fib`: returns the final `res`. -/
def fib_loop (mod : Nat) : Nat → Nat → mat2x2 → mat2x2 → mat2x2
  | 0, _, res, _ => res
  | fuel + 1, idx, res, base =>
    if idx ≠ 0 then
      fib_loop mod fuel (idx / 2)
        (if idx % 2 = 1 then mat_multiply res base mod else res)
        (mat_multiply base base mod)
    else res

/-- `fib<uint64_t>(idx, mod)`; the index is halved in every iteration, so `idx`
iterations always suffice. -/
def fib (idx mod : Nat) : Nat :=
  if idx = 0 then 0
  else
    let res := fib_loop mod idx (idx - 1) defs.id defs.fib
    (res.m10 + res.m11) % 2 ^ 64 % mod

/-- The Fibonacci numbers: `F(0) = 0`, `F(1) = 1`, `F(n + 2) = F(n + 1) + F(n)`. -/
def F : Nat → Nat
  | 0 => 0
  | 1 => 1
  | n + 2 => F (n + 1) + F n

/-- The matrix `m` has, modulo `mod`, the entries of the `n`-th power of `defs::fib`:
`F(n + 1)`, `F(n)`, `F(n)` and `F(n + 1) - F(n)`. -/
def is_power (m : mat2x2) (n : Nat) (mod : Nat) : Prop :=
  Int.ModEq mod m.m00 (Nat.fib (n + 1)) ∧ Int.ModEq mod m.m01 (Nat.fib n) ∧
    Int.ModEq mod m.m10 (Nat.fib n) ∧
    Int.ModEq mod m.m11 ((Nat.fib (n + 1) : Int) - Nat.fib n)

/-- Every entry of the matrix is below `2^63`. -/
def entries_small (m : mat2x2) : Prop :=
  m.m00 < 2 ^ 63 ∧ m.m01 < 2 ^ 63 ∧ m.m10 < 2 ^ 63 ∧ m.m11 < 2 ^ 63

end Fib

/-! ## `2/b/mis.cc`: a connected part of the `d`-core -/

namespace Mis

/-- `graph_t::add_edge(a, b)` on the adjacency lists `adj`. -/
def add_edge (adj : Nat → List Nat) (a b : Nat) : Nat → List Nat :=
  let adj := Function.update adj a (adj a ++ [b])
  Function.update adj b (adj b ++ [a])

/-- The graph that `operator>>` builds from the edges read (`u - 1`, `v - 1` of every
input line, in order), starting from `resize`d empty adjacency lists. -/
def read_graph (edges : List (Nat × Nat)) : Nat → List Nat :=
  edges.foldl (fun adj e => add_edge adj e.1 e.2) (fun _ => [])

/-- `vertex_data::NOT_VISITED`, the `size_t` value `-1`. -/
def NOT_VISITED : Nat := 2 ^ 64 - 1

/-- The vector `data` of `solver_t`, one function per member of `vertex_data`. An index
outside the vector is never used when all edge ends are below `n`. -/
structure data_t where
  removed : Nat → Bool
  degree : Nat → Nat
  component : Nat → Nat

/-- The vector `data(input.n)` of default-constructed `vertex_data`. -/
def data_t.init : data_t :=
  ⟨fun _ => false, fun _ => 0, fun _ => NOT_VISITED⟩

/-- `solver_t::fill_degrees`. -/
def fill_degrees (n : Nat) (graph : Nat → List Nat) (data : data_t) : data_t :=
  (List.range n).foldl (fun data i =>
    (graph i).foldl (fun data j =>
      { data with degree := Function.update data.degree j ((data.degree j + 1) % 2 ^ 64) })
      data) data

/-- `solver_t::prepare_queue`: the new `data` and the queue. -/
def prepare_queue (n d : Nat) (data : data_t) : data_t × List Nat :=
  (List.range n).foldl (fun st i =>
    if st.1.degree i < d then
      ({ st.1 with removed := Function.update st.1.removed i true }, st.2 ++ [i])
    else st) (data, [])

/-- The `for(const auto v: input.graph[u])` loop of `eliminate`, on `data` and the
queue; `--data[v].degree` is evaluated only for a `v` that is not removed, and wraps
around at 0. -/
def eliminate_vertex (d : Nat) (adj_u : List Nat) (st : data_t × List Nat) :
    data_t × List Nat :=
  adj_u.foldl (fun st v =>
    if ¬ st.1.removed v then
      let degree := (st.1.degree v + (2 ^ 64 - 1)) % 2 ^ 64
      let data := { st.1 with degree := Function.update st.1.degree v degree }
      if degree < d then
        ({ data with removed := Function.update data.removed v true }, st.2 ++ [v])
      else (data, st.2)
    else st) st

/-- `solver_t::eliminate`: the `while(!queue.empty())` loop; `fuel` bounds the number
of vertices taken from the queue. -/
def eliminate (d : Nat) (graph : Nat → List Nat) : Nat → data_t × List Nat → Option data_t
  | fuel, (data, queue) =>
    match queue with
    | [] => some data
    | u :: queue =>
      match fuel with
      | 0 => none
      | fuel + 1 => eliminate d graph fuel (eliminate_vertex d (graph u) (data, queue))

/-- `solver_t::dfs(v, c)`: the value returned and the new `data`; `fuel` bounds the
depth of the recursion. -/
def dfs (graph : Nat → List Nat) : Nat → Nat → Nat → data_t → Option (Nat × data_t)
  | fuel, v, c, data =>
    if data.component v ≠ NOT_VISITED then some (0, data)
    else
      match fuel with
      | 0 => none
      | fuel + 1 =>
        (graph v).foldl (fun acc u =>
          match acc with
          | none => none
          | some (res, data) =>
            if ¬ data.removed u then
              match dfs graph fuel u c data with
              | none => none
              | some (r, data) => some ((res + r) % 2 ^ 64, data)
            else some (res, data))
          (some (1, { data with component := Function.update data.component v c }))

/-- `solver_t::get_component`: the component chosen and the new `data`. -/
def get_component (n : Nat) (graph : Nat → List Nat) (data : data_t) :
    Option (Nat × data_t) :=
  ((List.range n).foldl (fun acc i =>
    match acc with
    | none => none
    | some (best_size, best, data) =>
      if ¬ data.removed i ∧ data.component i = NOT_VISITED then
        match dfs graph n i i data with
        | none => none
        | some (current, data) =>
          if current > best_size then some (current, i, data) else some (best_size, best, data)
      else some (best_size, best, data))
    (some (0, NOT_VISITED, data))).map (fun r => (r.2.1, r.2.2))

/-- `solver_t::retrieve_component(c)`. -/
def retrieve_component (n : Nat) (data : data_t) (c : Nat) : List Nat :=
  if c = NOT_VISITED then []
  else (List.range n).filter (fun i => data.component i = c)

/-- `solver_t::operator()` on the input with `n` vertices, threshold `d` and the given
edges: the vertices of the `output_t` in ascending order (`NIE` is printed for the empty
list). -/
def solver (n d : Nat) (edges : List (Nat × Nat)) : Option (List Nat) :=
  let graph := read_graph edges
  let data := fill_degrees n graph data_t.init
  let st := prepare_queue n d data
  match eliminate d graph n st with
  | none => none
  | some data =>
    match get_component n graph data with
    | none => none
    | some (c, data) => some (retrieve_component n data c)

/-- The number of edge ends at `v` that lead to vertices of `S`. -/
def degree_in (graph : Nat → List Nat) (S : Nat → Prop) [DecidablePred S] (v : Nat) : Nat :=
  ((graph v).filter (fun u => decide (S u))).length

/-- A vertex set of the graph on vertices `0 .. n - 1` all of whose induced degrees are
at least `d`. -/
def core_set (n d : Nat) (graph : Nat → List Nat) (T : Nat → Prop) [DecidablePred T] : Prop :=
  ∀ v, T v → v < n ∧ d ≤ degree_in graph T v

/-- The vertex list `S` is connected in the graph induced on it. -/
def connected_in (graph : Nat → List Nat) (S : List Nat) : Prop :=
  ∀ a ∈ S, ∀ b ∈ S, Relation.ReflTransGen (fun x y => y ∈ graph x ∧ y ∈ S) a b

/-- The number of edge ends at `v` that lead to vertices outside the list `P`. -/
def live_degree (graph : Nat → List Nat) (P : List Nat) (v : Nat) : Nat :=
  ((graph v).filter (fun u => decide (u ∉ P))).length

/-- The invariant of `eliminate`: `P` lists the vertices already taken from the queue,
`rest` the part of the adjacency list of the last of them that is still to be
visited. -/
def eliminate_inv (n d : Nat) (graph : Nat → List Nat) (P rest : List Nat)
    (st : data_t × List Nat) : Prop :=
  (∀ v, st.1.removed v = true ↔ v ∈ P ∨ v ∈ st.2) ∧
  (P ++ st.2).Nodup ∧ (∀ v ∈ P ++ st.2, v < n) ∧
  (∀ v, v < n → st.1.removed v = false →
    st.1.degree v = live_degree graph P v + rest.count v ∧ d ≤ st.1.degree v) ∧
  (∀ (T : Nat → Prop) [DecidablePred T], core_set n d graph T →
    ∀ v, T v → st.1.removed v = false) ∧
  (∀ v, st.1.degree v < 2 ^ 64) ∧
  st.1.component = fun _ => NOT_VISITED

/-- The number of vertices that no `dfs` has reached yet. -/
def unvisited (n : Nat) (data : data_t) : Nat :=
  ((Finset.range n).filter (fun x => data.component x = NOT_VISITED)).card

/-- What calls of `dfs(_, c)` that start below the vertex `v` do to `data`: nothing is
changed but the components of `r` vertices that were not visited, these are not removed
and get the component `c`, all their neighbours that are not removed are visited
afterwards, and each of them is reached from `v` through vertices of component `c`. -/
def dfs_result (n : Nat) (graph : Nat → List Nat) (v c : Nat) (data : data_t) (r : Nat)
    (data' : data_t) : Prop :=
  data'.removed = data.removed ∧ data'.degree = data.degree ∧
  (∀ x, data.component x ≠ NOT_VISITED → data'.component x = data.component x) ∧
  (∀ x, data.component x = NOT_VISITED → data'.component x ≠ NOT_VISITED →
    data'.component x = c ∧ x < n ∧ data.removed x = false ∧
    (∀ y ∈ graph x, data.removed y = false → data'.component y ≠ NOT_VISITED) ∧
    Relation.ReflTransGen (fun a b => b ∈ graph a ∧ data'.component b = c) v x) ∧
  r + unvisited n data' = unvisited n data

/-- The invariant of the loop of `get_component` before the vertex `i`; `st` holds
`best_size`, `best` and `data`. -/
def component_inv (n : Nat) (graph : Nat → List Nat) (removed : Nat → Bool) (i : Nat)
    (st : Nat × Nat × data_t) : Prop :=
  st.2.2.removed = removed ∧
  (∀ w, st.2.2.component w ≠ NOT_VISITED →
    w < n ∧ removed w = false ∧ st.2.2.component w < i ∧
    st.2.2.component (st.2.2.component w) = st.2.2.component w ∧
    (∀ y ∈ graph w, removed y = false → st.2.2.component y = st.2.2.component w) ∧
    Relation.ReflTransGen (fun a b => b ∈ graph a ∧ st.2.2.component b = st.2.2.component w)
      (st.2.2.component w) w) ∧
  (∀ j, j < i → removed j = false → st.2.2.component j ≠ NOT_VISITED) ∧
  ((st.2.1 = NOT_VISITED ∧ st.1 = 0 ∧ ∀ w, st.2.2.component w = NOT_VISITED) ∨
    (st.2.1 < i ∧ 1 ≤ st.1 ∧ st.2.2.component st.2.1 = st.2.1))

end Mis

/-! ## `3/b/haz.cc`: the game of the players around the cycle string -/

namespace Haz

/-! Conventions of this model: `Money`, `Moves` and the positions are `int64_t`. The
arithmetic of `get_moves` and of `solver_t::operator()`, whose operands grow with the
money of a player, is wrapped to 64 bits by `wrap64`; sums of at most `6 * size`
values `1` and `-1`, counters and positions are exact integers. The vectors `nodes`
and `cycles` are functions of the index. A failed `assert` is `none`, and so is a loop
that runs out of `fuel`; the fuel given is always enough. -/

/-- The value of a signed 64-bit result. -/
def wrap64 (x : Int) : Int :=
  (x + 2 ^ 63) % 2 ^ 64 - 2 ^ 63

/-- `cycles_t::NO_CYCLE`. -/
def NO_CYCLE : Int := -1

/-- `cycles_t::LOOP`. -/
def LOOP : Int := -1

/-- `std::numeric_limits<int64_t>::max()`. -/
def INT64_MAX : Int := 2 ^ 63 - 1

/-- `cycles_t::char_to_diff`. -/
def char_to_diff (x : Char) : Int :=
  if x = 'W' then 1 else -1

/-- The character `string[jdx]`. -/
def string_at (string : List Char) (jdx : Int) : Char :=
  string.getD jdx.toNat 'P'

/-- `cycles_t::node_t`. -/
structure node_t where
  cycle_id : Int
  cycle_pos : Int
  min_left : Int
  min_right : Int
  partial_sum : Int
  value : Int

/-- The default constructor of `node_t`. -/
def node_t.init : node_t :=
  ⟨NO_CYCLE, 0, 0, 0, 0, 0⟩

/-- `cycles_t::cycle_t`; the set `positions` is the list of its elements. -/
structure cycle_t where
  positions : List (Int × Int)
  sum : Int
  length : Int

/-- The order of `std::pair`. -/
def pair_le (a b : Int × Int) : Bool :=
  decide (a.1 < b.1) || (decide (a.1 = b.1) && decide (a.2 ≤ b.2))

/-- `std::set::emplace`. -/
def emplace (x : Int × Int) (s : List (Int × Int)) : List (Int × Int) :=
  if x ∈ s then s else x :: s

/-- `std::set::lower_bound`: the least element that is not less than `key`, `none` for
`end()`. -/
def lower_bound (key : Int × Int) (s : List (Int × Int)) : Option (Int × Int) :=
  s.foldl (fun best x =>
    if pair_le key x then
      match best with
      | none => some x
      | some b => if pair_le x b then some x else some b
    else best) none

/-- The `do ... while` loop of `traverse_cycle`. -/
def traverse_loop {σ : Type} (start step size : Int) (f : Int → σ → σ) :
    Nat → Int → σ → Option σ
  | 0, _, _ => none
  | fuel + 1, current, s =>
    let s := f current s
    let current := Int.tmod (Int.tmod (current + step) size + size) size
    if current ≠ start then traverse_loop start step size f fuel current s else some s

/-- `cycles_t::traverse_cycle(start, step, size, fun)`, `fun` acting on a state. -/
def traverse_cycle {σ : Type} (start step size : Int) (f : Int → σ → σ) (s : σ) : Option σ :=
  let start := Int.tmod (Int.tmod start size + size) size
  traverse_loop start step size f size.toNat start s

/-- The first lambda of the constructor, on `nodes`, `cycle.positions`, `base`,
`minbase` and `counter`. -/
def first_pass (string : List Char) (cycle_count : Int) (jdx : Int)
    (st : (Int → node_t) × List (Int × Int) × Int × Int × Int) :
    (Int → node_t) × List (Int × Int) × Int × Int × Int :=
  let (nodes, positions, base, minbase, counter) := st
  let value := char_to_diff (string_at string jdx)
  let base := base + value
  let positions := emplace (base, counter) positions
  let node : node_t :=
    { nodes jdx with
      cycle_id := cycle_count, cycle_pos := counter, min_left := minbase,
      partial_sum := base, value := value }
  (Function.update nodes jdx node, positions, base, min minbase base, counter + 1)

/-- The second lambda of the constructor, on `cycle.positions`, `base` and `counter`. -/
def next_pass (string : List Char) (jdx : Int) (st : List (Int × Int) × Int × Int) :
    List (Int × Int) × Int × Int :=
  let (positions, base, counter) := st
  let base := base + char_to_diff (string_at string jdx)
  (emplace (base, counter) positions, base, counter + 1)

/-- The third lambda of the constructor, on `nodes` and `minbase`. -/
def back_pass (jdx : Int) (st : (Int → node_t) × Int) : (Int → node_t) × Int :=
  let (nodes, minbase) := st
  let minbase := min minbase (nodes jdx).partial_sum
  (Function.update nodes jdx { nodes jdx with min_right := minbase }, minbase)

/-- The `for(int i = 0; i < 5; ++i)` loop of the constructor. -/
def next_passes (step : Int) (string : List Char) (idx : Int) :
    Nat → List (Int × Int) × Int × Int → Option (List (Int × Int) × Int × Int)
  | 0, st => some st
  | k + 1, st =>
    match traverse_cycle idx step string.length (next_pass string) st with
    | none => none
    | some st => next_passes step string idx k st

/-- The body of the `for` loop of the constructor for a node `idx` without a cycle:
the cycle pushed and the new `nodes`. -/
def build_cycle (step : Int) (string : List Char) (idx cycle_count : Int)
    (nodes : Int → node_t) : Option (cycle_t × (Int → node_t)) :=
  match traverse_cycle idx step string.length (first_pass string cycle_count)
      (nodes, [], 0, 0, 0) with
  | none => none
  | some (nodes, positions, base, _, counter) =>
    match next_passes step string idx 5 (positions, base, counter) with
    | none => none
    | some (positions, _, _) =>
      match traverse_cycle (idx - step) (-step) string.length back_pass
          (nodes, INT64_MAX) with
      | none => none
      | some (nodes, _) => some (⟨positions, base, counter⟩, nodes)

/-- The object `cycles_t`. -/
structure cycles_t where
  cycles : Int → cycle_t
  nodes : Int → node_t

/-- The constructor `cycles_t(step, string)`: the `for` loop over `idx`, carrying
`cycle_count`. -/
def cycles_t.mk_loop (step : Int) (string : List Char) :
    List Nat → Int × cycles_t → Option (Int × cycles_t)
  | [], st => some st
  | idx :: rest, (cycle_count, self) =>
    if (self.nodes idx).cycle_id ≠ NO_CYCLE then
      cycles_t.mk_loop step string rest (cycle_count, self)
    else
      match build_cycle step string idx cycle_count self.nodes with
      | none => none
      | some (cycle, nodes) =>
        cycles_t.mk_loop step string rest
          (cycle_count + 1, ⟨Function.update self.cycles cycle_count cycle, nodes⟩)

/-- The constructor `cycles_t(step, string)`. -/
def cycles_t.new (step : Int) (string : List Char) : Option cycles_t :=
  (cycles_t.mk_loop step string (List.range string.length)
    (0, ⟨fun _ => ⟨[], 0, 0⟩, fun _ => node_t.init⟩)).map (fun r => r.2)

/-- `cycles_t::min_safe_for`. -/
def cycles_t.min_safe_for (self : cycles_t) (idx : Int) : Int :=
  let node := self.nodes idx
  let cycle := self.cycles node.cycle_id
  let cand_right := node.min_right - node.partial_sum + node.value
  let cand_left := node.min_left + cycle.sum - node.partial_sum + node.value
  let cand := min cand_right cand_left - 1
  if cand ≥ 0 then LOOP else -cand

/-- `cycles_t::how_long_with`. -/
def cycles_t.how_long_with (self : cycles_t) (idx money : Int) : Option Int :=
  if money = 0 then some 0
  else
    let node := self.nodes idx
    let cycle := self.cycles node.cycle_id
    let value := node.partial_sum - node.value - money
    match lower_bound (value, node.cycle_pos) cycle.positions with
    | none => none
    | some it =>
      let my_pos := node.cycle_pos
      let that_pos := it.2
      let diff := that_pos - my_pos
      if it.1 = value ∧ diff ≥ 0 ∧ diff < 3 * cycle.length then some (diff + 1) else none

/-- `cycles_t::get_moves<Moves>`. -/
def cycles_t.get_moves (self : cycles_t) (idx money : Int) : Option Int :=
  if money = 0 then some 0
  else
    let node := self.nodes idx
    let cycle := self.cycles node.cycle_id
    let min_safe := self.min_safe_for idx
    if cycle.sum ≥ 0 ∧ (min_safe = LOOP ∨ min_safe ≤ money) then some LOOP
    else
      let full_cycles := max 0
        (if cycle.sum ≥ 0 ∨ money < min_safe then 0
          else wrap64 (1 + Int.tdiv (wrap64 (min_safe - money)) cycle.sum))
      let moves := wrap64 (full_cycles * cycle.length)
      let money := wrap64 (money + wrap64 (full_cycles * cycle.sum))
      if 0 ≤ money ∧ money < min_safe then
        match self.how_long_with idx money with
        | none => none
        | some k => some (wrap64 (moves + k))
      else none

/-- The `for` loop of `solver_t::operator()`, carrying `res`. -/
def solver_loop (n : Int) (initial : List Int) (string : List Char) (cycles : cycles_t) :
    List Nat → Int → Option Int
  | [], res => some res
  | idx :: rest, res =>
    match cycles.get_moves (Int.tmod idx string.length) (initial.getD idx 0) with
    | none => none
    | some value =>
      if value ≠ LOOP then
        solver_loop n initial string cycles rest
          (min res (wrap64 (wrap64 (wrap64 (n * wrap64 (value - 1)) + idx) + 1)))
      else solver_loop n initial string cycles rest res

/-- `solver_t::operator()` on the input `n`, `initial`, `cycle_string`. -/
def solver (n : Int) (initial : List Int) (string : List Char) : Option Int :=
  match cycles_t.new n string with
  | none => none
  | some cycles =>
    match solver_loop n initial string cycles (List.range n.toNat) INT64_MAX with
    | none => none
    | some res => if res = INT64_MAX then some (-1) else some res

/-- The `while(true)` loop of `slow_solver_t::operator()`; `none` when it has not
returned within `fuel` rounds. -/
def slow_loop (n : Int) (string : List Char) :
    Nat → (Int → Int) → Int → Int → Int → Option Int
  | 0, _, _, _, _ => none
  | fuel + 1, initial, i, j, res =>
    if initial i = 0 then some res
    else
      let initial :=
        if string_at string j = 'W' then Function.update initial i (initial i + 1)
        else Function.update initial i (initial i - 1)
      let res := res + 1
      if initial i = 0 then some res
      else slow_loop n string fuel initial (Int.tmod (i + 1) n) (Int.tmod (j + 1) string.length) res

/-- `slow_solver_t::operator()` on the input `n`, `initial`, `cycle_string`, stopped
after `fuel` rounds. -/
def slow_solver (n : Int) (initial : List Int) (string : List Char) (fuel : Nat) : Option Int :=
  slow_loop n string fuel (fun i => initial.getD i.toNat 0) 0 0 0

/-- The position reached from `s` by `k` steps of the length `step` around a string of
`size` characters. -/
def orb (step size s : Int) (k : Nat) : Int :=
  (s + k * step) % size

/-- The change of the money of a player over `k` plays, the first one at the position
`j` of the string, each one `n` positions after the one before. -/
def walk (n : Int) (string : List Char) (j : Int) : Nat → Int
  | 0 => 0
  | k + 1 => walk n string j k + char_to_diff (string_at string (orb n string.length j k))

/-- The value `v` is the least of `walk j t` for `a ≤ t ≤ b`. -/
def is_min_walk (n : Int) (string : List Char) (j : Int) (a b : Nat) (v : Int) : Prop :=
  (∀ t, a ≤ t → t ≤ b → v ≤ walk n string j t) ∧ ∃ t, a ≤ t ∧ t ≤ b ∧ v = walk n string j t

/-- The set `positions` of a cycle that starts at `s`, after `cnt` insertions. -/
def positions_inv (n : Int) (string : List Char) (s : Int) (cnt : Nat)
    (positions : List (Int × Int)) : Prop :=
  ∀ x, x ∈ positions ↔ ∃ i : Nat, i < cnt ∧ x = (walk n string s (i + 1), (i : Int))

/-- What the constructor has stored in the node at `p` steps from the start `s` of a
cycle of `L` nodes with the number `c`. -/
def node_fields (n : Int) (string : List Char) (s : Int) (L : Nat) (c : Int) (p : Nat)
    (node : node_t) : Prop :=
  node.cycle_id = c ∧ node.cycle_pos = p ∧ node.partial_sum = walk n string s (p + 1) ∧
  node.value = walk n string s (p + 1) - walk n string s p ∧
  is_min_walk n string s 0 p node.min_left ∧ is_min_walk n string s (p + 1) L node.min_right

/-- What the constructor has stored in a cycle of `L` nodes that starts at `s`. -/
def cycle_fields (n : Int) (string : List Char) (s : Int) (L : Nat) (cycle : cycle_t) : Prop :=
  cycle.sum = walk n string s L ∧ cycle.length = L ∧
  positions_inv n string s (6 * L) cycle.positions

/-- The node at the position `x` of the string belongs to a cycle, and the node and
the cycle hold what the constructor stores in them. -/
def node_ok (n : Int) (string : List Char) (self : cycles_t) (x : Int) : Prop :=
  ∃ (s : Int) (p L : Nat), 1 ≤ L ∧ (L : Int) ≤ string.length ∧ p < L ∧
    (string.length : Int) ∣ (L : Int) * n ∧ x = orb n string.length s p ∧
    node_fields n string s L (self.nodes x).cycle_id p (self.nodes x) ∧
    cycle_fields n string s L (self.cycles (self.nodes x).cycle_id)

/-- The invariant of the `for` loop of the constructor before the node `idx`; `st`
holds `cycle_count` and the object. -/
def mk_inv (n : Int) (string : List Char) (idx : Nat) (st : Int × cycles_t) : Prop :=
  0 ≤ st.1 ∧
  (∀ x : Int, 0 ≤ x → x < string.length → (st.2.nodes x).cycle_id ≠ NO_CYCLE →
    node_ok n string st.2 x ∧ 0 ≤ (st.2.nodes x).cycle_id ∧
    (st.2.nodes x).cycle_id < st.1 ∧
    (st.2.nodes ((x + n) % string.length)).cycle_id ≠ NO_CYCLE) ∧
  ∀ x : Nat, x < idx → (st.2.nodes x).cycle_id ≠ NO_CYCLE

/-- The player who makes the move number `t` of the game (counted from 0) has no money
after it; `n` is the number of players. -/
def zero_at (n : Nat) (initial : List Int) (string : List Char) (t : Nat) : Prop :=
  initial.getD (t % n) 0 + walk n string ((t % n : Nat) : Int) (t / n + 1) = 0

/-- The invariant of the loop of `solver_t::operator()` before the player `i`. -/
def solver_inv (n : Nat) (initial : List Int) (string : List Char) (i : Nat) (res : Int) :
    Prop :=
  (res = INT64_MAX ∧ ∀ t, t % n < i → ¬ zero_at n initial string t) ∨
  ∃ t : Nat, res = (t : Int) + 1 ∧ (t : Int) + 1 < INT64_MAX ∧ zero_at n initial string t ∧
    t % n < i ∧ ∀ s, s % n < i → zero_at n initial string s → t ≤ s

/-- The invariant of the loop of `slow_solver_t::operator()` before the move number
`t`: every player has the initial money changed by the plays made so far, and no player
had no money after a move. -/
def slow_inv (n : Nat) (initial : List Int) (string : List Char) (t : Nat)
    (cur : Int → Int) : Prop :=
  (∀ p : Nat, p < n → cur p =
    initial.getD p 0 + walk n string p (t / n + if p < t % n then 1 else 0)) ∧
  ∀ s, s < t → ¬ zero_at n initial string s

end Haz

/-! # Properties -/

namespace Pos

open hash_block_t (empty of_value operator_plus extend trim_by operator_eq)

/-! ## Arithmetic of the fixed-width operations -/

theorem wrap32_of_range {x : Int} (h1 : -2 ^ 31 ≤ x) (h2 : x < 2 ^ 31) : wrap32 x = x := by
  unfold wrap32; omega

theorem wrap64_of_range {x : Int} (h1 : -2 ^ 63 ≤ x) (h2 : x < 2 ^ 63) : wrap64 x = x := by
  unfold wrap64; omega

theorem wrapU64_of_range {x : Int} (h1 : 0 ≤ x) (h2 : x < 2 ^ 64) : wrapU64 x = x := by
  unfold wrapU64; omega

/-- Both primes lie in `(1, 2^30)` and both bases in `[0, prime)`. -/
theorem setup_bounds (idx : Fin 2) :
    1 < (setup idx).prime ∧ (setup idx).prime < 2 ^ 30 ∧
      0 ≤ (setup idx).base ∧ (setup idx).base < (setup idx).prime := by
  fin_cases idx <;> decide

/-- On residues the lambda `op` is multiplication modulo the prime. -/
theorem op_of_range (idx : Fin 2) {x y : Int} (hx : 0 ≤ x) (hx' : x < (setup idx).prime)
    (hy : 0 ≤ y) (hy' : y < (setup idx).prime) : op idx x y = x * y % (setup idx).prime := by
  obtain ⟨hp1, hp2, -, -⟩ := setup_bounds idx
  have hxy0 : 0 ≤ x * y := Int.mul_nonneg hx hy
  have hxy1 : x * y < 2 ^ 30 * 2 ^ 30 := by
    have h1 : x * y ≤ x * 2 ^ 30 := Int.mul_le_mul_of_nonneg_left (by omega) hx
    have h2 : x * 2 ^ 30 < 2 ^ 30 * 2 ^ 30 := by
      have : x < 2 ^ 30 := by omega
      omega
    omega
  have hm0 : 0 ≤ x * y % (setup idx).prime := Int.emod_nonneg _ (by omega)
  have hm1 : x * y % (setup idx).prime < (setup idx).prime := Int.emod_lt_of_pos _ (by omega)
  unfold op
  rw [wrap64_of_range (by omega) (by omega), Int.tmod_eq_emod hxy0 (by omega),
    wrap32_of_range (by omega) (by omega)]

theorem op_range (idx : Fin 2) {x y : Int} (hx : 0 ≤ x) (hx' : x < (setup idx).prime)
    (hy : 0 ≤ y) (hy' : y < (setup idx).prime) :
    0 ≤ op idx x y ∧ op idx x y < (setup idx).prime := by
  obtain ⟨hp1, -, -, -⟩ := setup_bounds idx
  rw [op_of_range idx hx hx' hy hy']
  exact ⟨Int.emod_nonneg _ (by omega), Int.emod_lt_of_pos _ (by omega)⟩

/-- The loop of `iterate` with modular multiplication: with enough fuel it returns
`result * base ^ exponent` modulo the prime. -/
theorem iterate_loop_op_of_lt (idx : Fin 2) :
    ∀ (fuel : Nat) (base result exponent : Int), exponent.toNat < 2 ^ fuel →
      0 ≤ base → base < (setup idx).prime → 0 ≤ result → result < (setup idx).prime →
      iterate_loop (op idx) fuel base result exponent =
        result * base ^ exponent.toNat % (setup idx).prime := by
  obtain ⟨hp1, -, -, -⟩ := setup_bounds idx
  intro fuel
  induction fuel with
  | zero =>
    intro base result exponent hf _ _ hr0 hr1
    have h0 : exponent.toNat = 0 := by simpa using hf
    simp [iterate_loop, h0, Int.emod_eq_of_lt hr0 hr1]
  | succ fuel ih =>
    intro base result exponent hf hb0 hb1 hr0 hr1
    unfold iterate_loop
    by_cases he : exponent > 0
    · rw [if_pos he]
      obtain ⟨hbb0, hbb1⟩ := op_range idx hb0 hb1 hb0 hb1
      have hfuel : (exponent / 2).toNat < 2 ^ fuel := by
        rw [pow_succ] at hf
        omega
      have hexp : exponent.toNat = 2 * (exponent / 2).toNat + (exponent % 2).toNat := by omega
      have hsq : Int.ModEq (setup idx).prime
          ((base * base % (setup idx).prime) ^ (exponent / 2).toNat)
          ((base * base) ^ (exponent / 2).toNat) := (Int.mod_modEq _ _).pow _
      by_cases hodd : exponent % 2 = 1
      · rw [if_pos hodd]
        obtain ⟨hrb0, hrb1⟩ := op_range idx hr0 hr1 hb0 hb1
        rw [ih _ _ _ hfuel hbb0 hbb1 hrb0 hrb1, op_of_range idx hb0 hb1 hb0 hb1,
          op_of_range idx hr0 hr1 hb0 hb1, hexp, hodd]
        have h1 : Int.ModEq (setup idx).prime (result * base % (setup idx).prime)
            (result * base) := Int.mod_modEq _ _
        have h2 := h1.mul hsq
        have h3 : result * base * (base * base) ^ (exponent / 2).toNat =
            result * base ^ (2 * (exponent / 2).toNat + Int.toNat 1) := by
          simp only [Int.toNat_one]; ring
        rw [h3] at h2
        exact h2
      · rw [if_neg hodd]
        have hev : exponent % 2 = 0 := by omega
        rw [ih _ _ _ hfuel hbb0 hbb1 hr0 hr1, op_of_range idx hb0 hb1 hb0 hb1, hexp, hev]
        have h2 := (Int.ModEq.refl result).mul hsq
        have h3 : result * (base * base) ^ (exponent / 2).toNat =
            result * base ^ (2 * (exponent / 2).toNat + Int.toNat 0) := by
          simp only [Int.toNat_zero]; ring
        rw [h3] at h2
        exact h2
    · rw [if_neg he]
      have h0 : exponent.toNat = 0 := by omega
      simp [h0, Int.emod_eq_of_lt hr0 hr1]

/-- With one unit of fuel per unit of the exponent the loop computes the power. -/
theorem iterate_loop_op (idx : Fin 2) :
    ∀ (fuel : Nat) (base result exponent : Int), exponent.toNat ≤ fuel →
      0 ≤ base → base < (setup idx).prime → 0 ≤ result → result < (setup idx).prime →
      iterate_loop (op idx) fuel base result exponent =
        result * base ^ exponent.toNat % (setup idx).prime :=
  fun fuel base result exponent hf =>
    iterate_loop_op_of_lt idx fuel base result exponent
      (lt_of_le_of_lt hf (Nat.lt_two_pow fuel))

/-- `iterate(base, 1, exponent, op)` is `base ^ exponent` modulo the prime. -/
theorem iterate_op (idx : Fin 2) (exponent : Int) :
    iterate (setup idx).base 1 exponent (op idx) =
      (setup idx).base ^ exponent.toNat % (setup idx).prime := by
  obtain ⟨hp1, -, hb0, hb1⟩ := setup_bounds idx
  unfold iterate
  rw [iterate_loop_op idx _ _ _ _ (le_refl _) hb0 hb1 (by omega) (by omega), one_mul]

theorem make_powers_eq (idx : Fin 2) (exponent : Int) :
    make_powers exponent idx = (setup idx).base ^ exponent.toNat % (setup idx).prime :=
  iterate_op idx exponent

theorem make_powers_range (idx : Fin 2) (exponent : Int) :
    0 ≤ make_powers exponent idx ∧ make_powers exponent idx < (setup idx).prime := by
  obtain ⟨hp1, -, -, -⟩ := setup_bounds idx
  rw [make_powers_eq]
  exact ⟨Int.emod_nonneg _ (by omega), Int.emod_lt_of_pos _ (by omega)⟩

/-! ## The hash algebra -/

/-- The residue computed by `extend` (and by `operator+`) on residues in range. -/
theorem add_residue (idx : Fin 2) {a pw b : Int} (ha : 0 ≤ a) (ha' : a < (setup idx).prime)
    (hpw : 0 ≤ pw) (hpw' : pw < (setup idx).prime)
    (hb : 0 ≤ b) (hb' : b < (setup idx).prime) :
    (if wrap32 (a + op idx pw b) ≥ (setup idx).prime
      then wrap32 (wrap32 (a + op idx pw b) - (setup idx).prime)
      else wrap32 (a + op idx pw b)) = (a + pw * b) % (setup idx).prime := by
  obtain ⟨hp1, hp2, -, -⟩ := setup_bounds idx
  obtain ⟨ho0, ho1⟩ := op_range idx hpw hpw' hb hb'
  have hop := op_of_range idx hpw hpw' hb hb'
  rw [wrap32_of_range (by omega) (by omega)]
  have hmod : (a + pw * b) % (setup idx).prime = (a + op idx pw b) % (setup idx).prime := by
    rw [hop, Int.add_emod_emod]
  rw [hmod]
  split
  · rw [wrap32_of_range (by omega) (by omega)]
    rw [Int.emod_eq_sub_self_emod, Int.emod_eq_of_lt (by omega) (by omega)]
  · rw [Int.emod_eq_of_lt (by omega) (by omega)]

/-- The residue computed by `trim` on residues in range. -/
theorem sub_residue (idx : Fin 2) {a pw b : Int} (ha : 0 ≤ a) (ha' : a < (setup idx).prime)
    (hpw : 0 ≤ pw) (hpw' : pw < (setup idx).prime)
    (hb : 0 ≤ b) (hb' : b < (setup idx).prime) :
    (if wrap32 (a - op idx pw b) < 0
      then wrap32 (wrap32 (a - op idx pw b) + (setup idx).prime)
      else wrap32 (a - op idx pw b)) = (a - pw * b) % (setup idx).prime := by
  obtain ⟨hp1, hp2, -, -⟩ := setup_bounds idx
  obtain ⟨ho0, ho1⟩ := op_range idx hpw hpw' hb hb'
  have hop := op_of_range idx hpw hpw' hb hb'
  rw [wrap32_of_range (by omega) (by omega)]
  have hmod : (a - pw * b) % (setup idx).prime = (a - op idx pw b) % (setup idx).prime := by
    rw [hop]
    exact (Int.ModEq.sub_left a (Int.mod_modEq _ _)).symm
  rw [hmod]
  split
  · rw [wrap32_of_range (by omega) (by omega)]
    rw [← Int.add_emod_self, Int.emod_eq_of_lt (by omega) (by omega)]
  · rw [Int.emod_eq_of_lt (by omega) (by omega)]

theorem wf_residues {A : hash_block_t} (h : A.wf) : residues_in_range A := h.2

theorem operator_plus_eq_extend (A B : hash_block_t) :
    operator_plus A B = extend A B (make_powers A.length) := rfl

theorem extend_hash {A B : hash_block_t} {powers : hash_array_t}
    (hA : residues_in_range A) (hB : residues_in_range B)
    (hp : ∀ idx, 0 ≤ powers idx ∧ powers idx < (setup idx).prime) (idx : Fin 2) :
    (extend A B powers).hash idx =
      (A.hash idx + powers idx * B.hash idx) % (setup idx).prime :=
  add_residue idx (hA idx).1 (hA idx).2 (hp idx).1 (hp idx).2 (hB idx).1 (hB idx).2

theorem trim_by_hash {A B : hash_block_t} {powers : hash_array_t}
    (hA : residues_in_range A) (hB : residues_in_range B)
    (hp : ∀ idx, 0 ≤ powers idx ∧ powers idx < (setup idx).prime) (idx : Fin 2) :
    (trim_by A B powers).hash idx =
      (A.hash idx - powers idx * B.hash idx) % (setup idx).prime :=
  sub_residue idx (hA idx).1 (hA idx).2 (hp idx).1 (hp idx).2 (hB idx).1 (hB idx).2

theorem operator_plus_hash {A B : hash_block_t}
    (hA : residues_in_range A) (hB : residues_in_range B) (idx : Fin 2) :
    (operator_plus A B).hash idx =
      (A.hash idx + (setup idx).base ^ A.length.toNat * B.hash idx) % (setup idx).prime := by
  rw [operator_plus_eq_extend, extend_hash hA hB (fun i => make_powers_range i _),
    make_powers_eq]
  exact (Int.ModEq.add_left _ ((Int.mod_modEq _ _).mul_right _))

theorem emod_range (idx : Fin 2) (x : Int) :
    0 ≤ x % (setup idx).prime ∧ x % (setup idx).prime < (setup idx).prime := by
  obtain ⟨hp1, -, -, -⟩ := setup_bounds idx
  exact ⟨Int.emod_nonneg _ (by omega), Int.emod_lt_of_pos _ (by omega)⟩

theorem operator_plus_residues {A B : hash_block_t}
    (hA : residues_in_range A) (hB : residues_in_range B) :
    residues_in_range (operator_plus A B) := by
  intro idx
  rw [operator_plus_hash hA hB]
  exact emod_range idx _

theorem operator_plus_length (A B : hash_block_t) :
    (operator_plus A B).length = A.length + B.length := rfl

theorem operator_plus_wf {A B : hash_block_t} (hA : A.wf) (hB : B.wf) :
    (operator_plus A B).wf :=
  ⟨by rw [operator_plus_length]; exact Int.add_nonneg hA.1 hB.1,
    operator_plus_residues hA.2 hB.2⟩

theorem empty_wf : empty.wf := by
  refine ⟨le_refl _, fun idx => ?_⟩
  obtain ⟨hp1, -, -, -⟩ := setup_bounds idx
  exact ⟨le_refl _, by show (0 : Int) < _; omega⟩

theorem of_value_hash (idx : Fin 2) {value : Int} (hv : 0 ≤ value) :
    (of_value value).hash idx = value % (setup idx).prime := by
  obtain ⟨hp1, hp2, -, -⟩ := setup_bounds idx
  obtain ⟨h0, h1⟩ := emod_range idx value
  show wrap32 (Int.tmod value (setup idx).prime) = _
  rw [Int.tmod_eq_emod hv (by omega), wrap32_of_range (by omega) (by omega)]

theorem of_value_wf {value : Int} (hv : 0 ≤ value) : (of_value value).wf := by
  refine ⟨by show (0 : Int) ≤ 1; omega, fun idx => ?_⟩
  rw [of_value_hash idx hv]
  exact emod_range idx _

theorem block_ext {A B : hash_block_t} (hl : A.length = B.length)
    (hh : ∀ idx, A.hash idx = B.hash idx) : A = B := by
  cases A; cases B
  simp only [hash_block_t.mk.injEq]
  exact ⟨funext hh, hl⟩

theorem operator_plus_assoc {A B C : hash_block_t} (hA : A.wf) (hB : B.wf) (hC : C.wf) :
    operator_plus (operator_plus A B) C = operator_plus A (operator_plus B C) := by
  apply block_ext
  · simp only [operator_plus_length]; omega
  · intro idx
    rw [operator_plus_hash (operator_plus_residues hA.2 hB.2) hC.2,
      operator_plus_hash hA.2 (operator_plus_residues hB.2 hC.2),
      operator_plus_hash hA.2 hB.2, operator_plus_hash hB.2 hC.2, operator_plus_length]
    have hl : (A.length + B.length).toNat = A.length.toNat + B.length.toNat := by
      have := hA.1; have := hB.1; omega
    rw [hl, pow_add]
    have h1 : Int.ModEq (setup idx).prime
        ((A.hash idx + (setup idx).base ^ A.length.toNat * B.hash idx) % (setup idx).prime +
          (setup idx).base ^ A.length.toNat * (setup idx).base ^ B.length.toNat * C.hash idx)
        (A.hash idx + (setup idx).base ^ A.length.toNat * B.hash idx +
          (setup idx).base ^ A.length.toNat * (setup idx).base ^ B.length.toNat * C.hash idx) :=
      (Int.mod_modEq _ _).add_right _
    have h2 : Int.ModEq (setup idx).prime
        (A.hash idx + (setup idx).base ^ A.length.toNat *
          ((B.hash idx + (setup idx).base ^ B.length.toNat * C.hash idx) % (setup idx).prime))
        (A.hash idx + (setup idx).base ^ A.length.toNat *
          (B.hash idx + (setup idx).base ^ B.length.toNat * C.hash idx)) :=
      ((Int.mod_modEq _ _).mul_left _).add_left _
    refine h1.trans (Int.ModEq.trans ?_ h2.symm)
    rw [show A.hash idx + (setup idx).base ^ A.length.toNat * B.hash idx +
          (setup idx).base ^ A.length.toNat * (setup idx).base ^ B.length.toNat * C.hash idx =
        A.hash idx + (setup idx).base ^ A.length.toNat *
          (B.hash idx + (setup idx).base ^ B.length.toNat * C.hash idx) by ring]

theorem empty_operator_plus {A : hash_block_t} (hA : residues_in_range A) :
    operator_plus empty A = A := by
  apply block_ext
  · show (0 : Int) + A.length = A.length
    omega
  · intro idx
    rw [operator_plus_hash empty_wf.2 hA]
    show (0 + (setup idx).base ^ (0 : Int).toNat * A.hash idx) % (setup idx).prime = _
    simp only [Int.toNat_zero, pow_zero, one_mul, zero_add]
    exact Int.emod_eq_of_lt (hA idx).1 (hA idx).2

theorem operator_plus_empty {A : hash_block_t} (hA : residues_in_range A) :
    operator_plus A empty = A := by
  apply block_ext
  · show A.length + (0 : Int) = A.length
    omega
  · intro idx
    rw [operator_plus_hash hA empty_wf.2]
    show (A.hash idx + (setup idx).base ^ A.length.toNat * 0) % (setup idx).prime = _
    simp only [mul_zero, add_zero]
    exact Int.emod_eq_of_lt (hA idx).1 (hA idx).2

/-- Trimming with the power of the remaining length undoes `operator+`. -/
theorem trim_by_operator_plus {A B : hash_block_t} (hA : A.wf) (hB : B.wf)
    {powers : hash_array_t}
    (hp : ∀ idx, powers idx = (setup idx).base ^ A.length.toNat % (setup idx).prime) :
    trim_by (operator_plus A B) B powers = A := by
  apply block_ext
  · show A.length + B.length - B.length = A.length
    omega
  · intro idx
    have hpr : ∀ i, 0 ≤ powers i ∧ powers i < (setup i).prime := by
      intro i; rw [hp i]; exact emod_range i _
    rw [trim_by_hash (operator_plus_residues hA.2 hB.2) hB.2 hpr,
      operator_plus_hash hA.2 hB.2, hp idx]
    have h1 : Int.ModEq (setup idx).prime
        ((A.hash idx + (setup idx).base ^ A.length.toNat * B.hash idx) % (setup idx).prime -
          (setup idx).base ^ A.length.toNat % (setup idx).prime * B.hash idx)
        (A.hash idx + (setup idx).base ^ A.length.toNat * B.hash idx -
          (setup idx).base ^ A.length.toNat * B.hash idx) :=
      (Int.mod_modEq _ _).sub ((Int.mod_modEq _ _).mul_right _)
    rw [add_sub_cancel_right] at h1
    exact Eq.trans h1 (Int.emod_eq_of_lt (hA.2 idx).1 (hA.2 idx).2)

theorem sample_block_a_wf : sample_block_a.wf :=
  ⟨by decide, fun idx => by fin_cases idx <;> decide⟩

theorem sample_block_b_wf : sample_block_b.wf :=
  ⟨by decide, fun idx => by fin_cases idx <;> decide⟩

theorem sample_block_c_wf : sample_block_c.wf :=
  ⟨by decide, fun idx => by fin_cases idx <;> decide⟩

/-! ## Laws of the hash algebra -/

/-- C1: for well-formed blocks `A` and `B` the block `A + B` (`operator+`) has length
`A.length + B.length`, and for each of the two `(prime, base)` pairs of `setup` its
residue is `(A.hash[idx] + base ^ A.length * B.hash[idx]) mod prime`. -/
theorem operator_plus_spec (A B : hash_block_t) (hA : A.wf) (hB : B.wf) :
    (operator_plus A B).length = A.length + B.length ∧
      ∀ idx, (operator_plus A B).hash idx =
        (A.hash idx + (setup idx).base ^ A.length.toNat * B.hash idx) % (setup idx).prime :=
  ⟨rfl, fun idx => operator_plus_hash hA.2 hB.2 idx⟩

theorem operator_plus_spec_witness :
    (operator_plus sample_block_a sample_block_b).length =
        sample_block_a.length + sample_block_b.length ∧
      ∀ idx, (operator_plus sample_block_a sample_block_b).hash idx =
        (sample_block_a.hash idx +
          (setup idx).base ^ sample_block_a.length.toNat * sample_block_b.hash idx) %
            (setup idx).prime :=
  operator_plus_spec sample_block_a sample_block_b sample_block_a_wf sample_block_b_wf

/-- C2: `operator+` is associative on well-formed blocks: `(A + B) + C` and
`A + (B + C)` have the same length and the same residues under both primes. -/
theorem operator_plus_associative (A B C : hash_block_t) (hA : A.wf) (hB : B.wf)
    (hC : C.wf) :
    (operator_plus (operator_plus A B) C).length =
        (operator_plus A (operator_plus B C)).length ∧
      ∀ idx, (operator_plus (operator_plus A B) C).hash idx =
        (operator_plus A (operator_plus B C)).hash idx := by
  rw [operator_plus_assoc hA hB hC]
  exact ⟨rfl, fun _ => rfl⟩

theorem operator_plus_associative_witness :
    (operator_plus (operator_plus sample_block_a sample_block_b) sample_block_c).length =
        (operator_plus sample_block_a (operator_plus sample_block_b sample_block_c)).length ∧
      ∀ idx,
        (operator_plus (operator_plus sample_block_a sample_block_b) sample_block_c).hash idx =
        (operator_plus sample_block_a (operator_plus sample_block_b sample_block_c)).hash idx :=
  operator_plus_associative sample_block_a sample_block_b sample_block_c
    sample_block_a_wf sample_block_b_wf sample_block_c_wf

/-- The one-argument `trim` undoes `operator+` when the length of the left operand is
an `ssize_t` value. -/
theorem trim_operator_plus {A B : hash_block_t} (hA : A.wf) (hB : B.wf)
    (hlen : A.length < 2 ^ 63) : hash_block_t.trim (operator_plus A B) B = A := by
  apply trim_by_operator_plus hA hB
  intro idx
  rw [make_powers_eq, operator_plus_length,
    show A.length + B.length - B.length = A.length by omega,
    wrapU64_of_range hA.1 (by omega)]

/-- C3: `trim` undoes `operator+`. For well-formed blocks `A` and `B` (the length of
`A` being an `ssize_t` value, hence below `2^63`), `(A + B).trim(B)` equals `A` in
length and in both residues, and so does `(A + B).trim(B, powers)` for the power table
`powers = make_powers(A.length)`. -/
theorem trim_undoes_operator_plus (A B : hash_block_t) (hA : A.wf) (hB : B.wf)
    (hlen : A.length < 2 ^ 63) :
    ((hash_block_t.trim (operator_plus A B) B).length = A.length ∧
        ∀ idx, (hash_block_t.trim (operator_plus A B) B).hash idx = A.hash idx) ∧
      ((trim_by (operator_plus A B) B (make_powers (wrapU64 A.length))).length = A.length ∧
        ∀ idx, (trim_by (operator_plus A B) B (make_powers (wrapU64 A.length))).hash idx =
          A.hash idx) := by
  have h2 : trim_by (operator_plus A B) B (make_powers (wrapU64 A.length)) = A :=
    trim_by_operator_plus hA hB
      (fun idx => by rw [make_powers_eq, wrapU64_of_range hA.1 (by omega)])
  rw [trim_operator_plus hA hB hlen, h2]
  exact ⟨⟨rfl, fun _ => rfl⟩, rfl, fun _ => rfl⟩

theorem trim_undoes_operator_plus_witness :
    ((hash_block_t.trim (operator_plus sample_block_a sample_block_b) sample_block_b).length =
          sample_block_a.length ∧
        ∀ idx, (hash_block_t.trim (operator_plus sample_block_a sample_block_b)
          sample_block_b).hash idx = sample_block_a.hash idx) ∧
      ((trim_by (operator_plus sample_block_a sample_block_b) sample_block_b
          (make_powers (wrapU64 sample_block_a.length))).length = sample_block_a.length ∧
        ∀ idx, (trim_by (operator_plus sample_block_a sample_block_b) sample_block_b
          (make_powers (wrapU64 sample_block_a.length))).hash idx = sample_block_a.hash idx) :=
  trim_undoes_operator_plus sample_block_a sample_block_b sample_block_a_wf
    sample_block_b_wf (by decide)

/-- C4: `extend` agrees with `operator+`. For well-formed blocks `A` and `B` (the
length of `A` being an `ssize_t` value), `A.extend(B, make_powers(A.length))` equals
`A + B` in length and in both residues. -/
theorem extend_agrees_with_operator_plus (A B : hash_block_t) (hA : A.wf) (_hB : B.wf)
    (hlen : A.length < 2 ^ 63) :
    (extend A B (make_powers (wrapU64 A.length))).length = (operator_plus A B).length ∧
      ∀ idx, (extend A B (make_powers (wrapU64 A.length))).hash idx =
        (operator_plus A B).hash idx := by
  rw [wrapU64_of_range hA.1 (by omega), operator_plus_eq_extend]
  exact ⟨rfl, fun _ => rfl⟩

theorem extend_agrees_with_operator_plus_witness :
    (extend sample_block_a sample_block_b (make_powers (wrapU64 sample_block_a.length))).length =
        (operator_plus sample_block_a sample_block_b).length ∧
      ∀ idx, (extend sample_block_a sample_block_b
          (make_powers (wrapU64 sample_block_a.length))).hash idx =
        (operator_plus sample_block_a sample_block_b).hash idx :=
  extend_agrees_with_operator_plus sample_block_a sample_block_b sample_block_a_wf
    sample_block_b_wf (by decide)

/-- C10: for well-formed blocks `A` and `B` with `B.length <= A.length` (the length of
`A` being an `ssize_t` value), `A.trim(B)` has length `A.length - B.length` and, for
each pair of `setup`, its residue is the representative in `[0, prime)` of
`A.hash[idx] - base ^ (A.length - B.length) * B.hash[idx]` modulo the prime. -/
theorem trim_spec (A B : hash_block_t) (hA : A.wf) (hB : B.wf) (hle : B.length ≤ A.length)
    (hlen : A.length < 2 ^ 63) :
    (hash_block_t.trim A B).length = A.length - B.length ∧
      ∀ idx, (hash_block_t.trim A B).hash idx =
          (A.hash idx - (setup idx).base ^ (A.length - B.length).toNat * B.hash idx) %
            (setup idx).prime ∧
        0 ≤ (hash_block_t.trim A B).hash idx ∧
        (hash_block_t.trim A B).hash idx < (setup idx).prime := by
  refine ⟨rfl, fun idx => ?_⟩
  have hB0 := hB.1
  have h : (hash_block_t.trim A B).hash idx =
      (A.hash idx - (setup idx).base ^ (A.length - B.length).toNat * B.hash idx) %
        (setup idx).prime := by
    unfold hash_block_t.trim
    rw [trim_by_hash hA.2 hB.2 (fun i => make_powers_range i _), make_powers_eq,
      wrapU64_of_range (by omega) (by omega)]
    exact Int.ModEq.sub_left _ ((Int.mod_modEq _ _).mul_right _)
  rw [h]
  exact ⟨rfl, emod_range idx _⟩

theorem trim_spec_witness :
    (hash_block_t.trim sample_block_a sample_block_b).length =
        sample_block_a.length - sample_block_b.length ∧
      ∀ idx, (hash_block_t.trim sample_block_a sample_block_b).hash idx =
          (sample_block_a.hash idx -
            (setup idx).base ^ (sample_block_a.length - sample_block_b.length).toNat *
              sample_block_b.hash idx) % (setup idx).prime ∧
        0 ≤ (hash_block_t.trim sample_block_a sample_block_b).hash idx ∧
        (hash_block_t.trim sample_block_a sample_block_b).hash idx < (setup idx).prime :=
  trim_spec sample_block_a sample_block_b sample_block_a_wf sample_block_b_wf
    (by decide) (by decide)

/-! ## `hash_sequence` -/

theorem hash_run_onto_snoc (fn : Int → Int) (tail : hash_block_t) :
    ∀ (count : Nat) (begin : Int),
      hash_run_onto fn (operator_plus (of_value (fn (begin + count))) tail) begin count =
        hash_run_onto fn tail begin (count + 1) := by
  intro count
  induction count with
  | zero => intro begin; simp [hash_run_onto]
  | succ count ih =>
    intro begin
    have h := ih (begin + 1)
    rw [show begin + 1 + (count : Int) = begin + ((count + 1 : Nat) : Int) by push_cast; ring] at h
    rw [hash_run_onto, h]
    rfl

/-- The loop of `hash_sequence`, started at the last position of a range of `count`
positions, builds the block of that range in front of its initial `result`. -/
theorem hash_sequence_loop_eq (fn : Int → Int) (begin : Int) :
    ∀ (count : Nat) (result : hash_block_t),
      hash_sequence_loop fn begin count (begin + count - 1) result =
        hash_run_onto fn result begin count := by
  intro count
  induction count with
  | zero => intro result; rfl
  | succ count ih =>
    intro result
    rw [hash_sequence_loop, if_pos (by push_cast; omega),
      show begin + ((count + 1 : Nat) : Int) - 1 - 1 = begin + count - 1 by push_cast; ring,
      ih, show begin + ((count + 1 : Nat) : Int) - 1 = begin + count by push_cast; ring,
      hash_run_onto_snoc]

/-- `hash_sequence` succeeds on every range with `begin <= end` and returns the block
of the range. -/
theorem hash_sequence_eq (fn : Int → Int) {begin end_ : Int} (h : begin ≤ end_) :
    hash_sequence begin end_ fn = some (hash_range fn begin end_) := by
  unfold hash_sequence hash_range
  rw [if_pos h]
  by_cases he : begin = end_
  · subst he
    simp [hash_run_onto]
  · rw [if_pos he]
    have := hash_sequence_loop_eq fn begin (end_ - begin).toNat empty
    rw [show begin + ((end_ - begin).toNat : Int) - 1 = end_ - 1 by omega] at this
    rw [this]

theorem hash_run_onto_length (fn : Int → Int) (tail : hash_block_t) :
    ∀ (count : Nat) (begin : Int),
      (hash_run_onto fn tail begin count).length = count + tail.length := by
  intro count
  induction count with
  | zero => intro begin; simp [hash_run_onto]
  | succ count ih =>
    intro begin
    rw [hash_run_onto, operator_plus_length, ih]
    show (1 : Int) + _ = _
    push_cast; ring

theorem hash_range_length (fn : Int → Int) {begin end_ : Int} (h : begin ≤ end_) :
    (hash_range fn begin end_).length = end_ - begin := by
  unfold hash_range
  rw [hash_run_onto_length]
  show ((end_ - begin).toNat : Int) + 0 = _
  omega

theorem hash_run_onto_wf (fn : Int → Int) (hfn : ∀ i, 0 ≤ fn i) {tail : hash_block_t}
    (ht : tail.wf) : ∀ (count : Nat) (begin : Int), (hash_run_onto fn tail begin count).wf := by
  intro count
  induction count with
  | zero => intro begin; exact ht
  | succ count ih =>
    intro begin
    rw [hash_run_onto]
    exact operator_plus_wf (of_value_wf (hfn _)) (ih _)

theorem hash_range_wf (fn : Int → Int) (hfn : ∀ i, 0 ≤ fn i) (begin end_ : Int) :
    (hash_range fn begin end_).wf :=
  hash_run_onto_wf fn hfn empty_wf _ _

/-- Putting a run in front of `tail` is `operator+` with the block of the run. -/
theorem hash_run_onto_eq_plus (fn : Int → Int) (hfn : ∀ i, 0 ≤ fn i) {tail : hash_block_t}
    (ht : tail.wf) : ∀ (count : Nat) (begin : Int),
      hash_run_onto fn tail begin count =
        operator_plus (hash_run_onto fn empty begin count) tail := by
  intro count
  induction count with
  | zero => intro begin; exact (empty_operator_plus ht.2).symm
  | succ count ih =>
    intro begin
    rw [hash_run_onto, hash_run_onto, ih,
      operator_plus_assoc (of_value_wf (hfn _)) (hash_run_onto_wf fn hfn empty_wf _ _) ht]

theorem hash_run_onto_add (fn : Int → Int) (tail : hash_block_t) :
    ∀ (j k : Nat) (begin : Int),
      hash_run_onto fn tail begin (j + k) =
        hash_run_onto fn (hash_run_onto fn tail (begin + j) k) begin j := by
  intro j
  induction j with
  | zero => intro k begin; simp [hash_run_onto]
  | succ j ih =>
    intro k begin
    rw [show j + 1 + k = (j + k) + 1 by omega, hash_run_onto, hash_run_onto, ih,
      show begin + 1 + (j : Int) = begin + ((j + 1 : Nat) : Int) by push_cast; ring]

/-- Merging two adjacent ranges: the block of `[a, b)` plus the block of `[b, c)` is
the block of `[a, c)`. -/
theorem hash_range_merge (fn : Int → Int) (hfn : ∀ i, 0 ≤ fn i) {a b c : Int}
    (hab : a ≤ b) (hbc : b ≤ c) :
    operator_plus (hash_range fn a b) (hash_range fn b c) = hash_range fn a c := by
  unfold hash_range
  rw [← hash_run_onto_eq_plus fn hfn (hash_run_onto_wf fn hfn empty_wf _ _),
    show (c - a).toNat = (b - a).toNat + (c - b).toNat by omega, hash_run_onto_add,
    show a + ((b - a).toNat : Int) = b by omega]

theorem hash_pieces_foldl (fn : Int → Int) (hfn : ∀ i, 0 ≤ fn i) :
    ∀ (cuts : List Int) (c0 start : Int), start ≤ c0 → List.Chain (· ≤ ·) c0 cuts →
      ∃ pieces, hash_pieces fn (c0 :: cuts) = some pieces ∧ (∀ p ∈ pieces, p.wf) ∧
        pieces.foldl operator_plus (hash_range fn start c0) =
          hash_range fn start ((c0 :: cuts).getLast (List.cons_ne_nil _ _)) := by
  intro cuts
  induction cuts with
  | nil =>
    intro c0 start _ _
    exact ⟨[], rfl, by simp, rfl⟩
  | cons c1 rest ih =>
    intro c0 start hs hchain
    rw [List.chain_cons] at hchain
    obtain ⟨pieces, hp, hwf, hfold⟩ := ih c1 start (le_trans hs hchain.1) hchain.2
    refine ⟨hash_range fn c0 c1 :: pieces, ?_, ?_, ?_⟩
    · rw [hash_pieces, hash_sequence_eq fn hchain.1, hp]
    · intro p hp'
      rcases List.mem_cons.1 hp' with h | h
      · rw [h]; exact hash_range_wf fn hfn _ _
      · exact hwf p h
    · rw [List.foldl_cons, hash_range_merge fn hfn hs hchain.1, hfold]
      rfl

/-- C5: merge idempotence. For a token accessor `fn` with non-negative tokens and cut
points `c0 <= c1 <= ... <= ck`, every piece `hash_sequence(c(i-1), ci, fn)` and the
whole `hash_sequence(c0, ck, fn)` are computed, and the left-to-right `operator+` of the
pieces is the whole: both when the pieces are added one after the other to the empty
block (as `master_t::do_hash_signal` does) and when they are added to the first piece. -/
theorem hash_sequence_merge (fn : Int → Int) (hfn : ∀ i, 0 ≤ fn i) (c0 : Int)
    (cuts : List Int) (hchain : List.Chain (· ≤ ·) c0 cuts) :
    ∃ pieces whole, hash_pieces fn (c0 :: cuts) = some pieces ∧
      hash_sequence c0 ((c0 :: cuts).getLast (List.cons_ne_nil _ _)) fn = some whole ∧
      pieces.foldl operator_plus empty = whole ∧
      ∀ first rest, pieces = first :: rest → rest.foldl operator_plus first = whole := by
  obtain ⟨pieces, hp, hwf, hfold⟩ := hash_pieces_foldl fn hfn cuts c0 c0 (le_refl _) hchain
  have hle : c0 ≤ (c0 :: cuts).getLast (List.cons_ne_nil _ _) := by
    have : ∀ (l : List Int) (a : Int), List.Chain (· ≤ ·) a l →
        a ≤ (a :: l).getLast (List.cons_ne_nil _ _) := by
      intro l
      induction l with
      | nil => intro a _; simp
      | cons b l ih =>
        intro a h
        rw [List.chain_cons] at h
        rw [List.getLast_cons (List.cons_ne_nil _ _)]
        exact le_trans h.1 (ih b h.2)
    exact this cuts c0 hchain
  have hempty : hash_range fn c0 c0 = empty := by simp [hash_range, hash_run_onto]
  rw [hempty] at hfold
  refine ⟨pieces, _, hp, hash_sequence_eq fn hle, hfold, ?_⟩
  intro first rest hpieces
  rw [hpieces, List.foldl_cons, empty_operator_plus (hwf first (by simp [hpieces])).2] at hfold
  exact hfold

theorem hash_sequence_merge_witness :
    ∃ pieces whole, hash_pieces (fun i => i * i) (1 :: [3, 3, 6]) = some pieces ∧
      hash_sequence 1 ((1 :: [3, 3, 6]).getLast (List.cons_ne_nil _ _)) (fun i => i * i) =
        some whole ∧
      pieces.foldl operator_plus empty = whole ∧
      ∀ first rest, pieces = first :: rest → rest.foldl operator_plus first = whole :=
  hash_sequence_merge (fun i => i * i) (fun i => mul_self_nonneg i) 1 [3, 3, 6] (by simp)

/-! ## The windows planned by `master_t::do_compute` -/

theorem windows_tile_snoc {r : request_t} (h1 : 1 ≤ r.begin) (h2 : r.begin < r.end_) :
    ∀ (sent : List request_t) (hi : Int), windows_tile sent hi r.end_ →
      windows_tile (sent ++ [r]) hi r.begin := by
  intro sent
  induction sent with
  | nil =>
    intro hi h
    exact ⟨h.symm, h1, h2, rfl⟩
  | cons s sent ih =>
    intro hi h
    exact ⟨h.1, h.2.1, h.2.2.1, ih _ h.2.2.2⟩

theorem windows_tile_le : ∀ (sent : List request_t) (hi lo : Int),
    windows_tile sent hi lo → lo ≤ hi := by
  intro sent
  induction sent with
  | nil => intro hi lo h; exact le_of_eq h.symm
  | cons s sent ih =>
    intro hi lo h
    have := ih _ _ h.2.2.2
    have := h.1; have := h.2.2.1
    omega

theorem windows_tile_mem : ∀ (sent : List request_t) (hi lo : Int),
    windows_tile sent hi lo →
      ∀ r ∈ sent, 1 ≤ r.begin ∧ r.begin < r.end_ ∧ lo ≤ r.begin ∧ r.end_ ≤ hi := by
  intro sent
  induction sent with
  | nil => intro hi lo _ r hr; simp at hr
  | cons s sent ih =>
    intro hi lo h r hr
    have hle := windows_tile_le _ _ _ h.2.2.2
    rcases List.mem_cons.1 hr with e | hmem
    · subst e
      exact ⟨h.2.1, h.2.2.1, hle, le_of_eq h.1⟩
    · obtain ⟨a, b, c, d⟩ := ih _ _ h.2.2.2 r hmem
      have := h.1; have := h.2.2.1
      exact ⟨a, b, c, by omega⟩

theorem windows_tile_cover : ∀ (sent : List request_t) (hi lo : Int),
    windows_tile sent hi lo →
      ∀ p, (∃ r ∈ sent, r.begin ≤ p ∧ p < r.end_) ↔ (lo ≤ p ∧ p < hi) := by
  intro sent
  induction sent with
  | nil =>
    intro hi lo h p
    have : hi = lo := h
    constructor
    · rintro ⟨r, hr, _⟩; simp at hr
    · intro hp; omega
  | cons s sent ih =>
    intro hi lo h p
    have hle := windows_tile_le _ _ _ h.2.2.2
    have h1 := h.1
    have h3 := h.2.2.1
    constructor
    · rintro ⟨r, hr, hp⟩
      rcases List.mem_cons.1 hr with e | hmem
      · subst e; omega
      · have := (ih _ _ h.2.2.2 p).1 ⟨r, hmem, hp⟩
        omega
    · intro hp
      by_cases hps : s.begin ≤ p
      · exact ⟨s, List.mem_cons_self _ _, hps, by omega⟩
      · obtain ⟨r, hr, hrp⟩ := (ih _ _ h.2.2.2 p).2 ⟨hp.1, by omega⟩
        exact ⟨r, List.mem_cons_of_mem _ hr, hrp⟩

theorem windows_tile_pairwise : ∀ (sent : List request_t) (hi lo : Int),
    windows_tile sent hi lo → sent.Pairwise (fun r s => s.end_ ≤ r.begin) := by
  intro sent
  induction sent with
  | nil => intro hi lo _; exact List.Pairwise.nil
  | cons s sent ih =>
    intro hi lo h
    refine List.Pairwise.cons ?_ (ih _ _ h.2.2.2)
    intro r hr
    exact (windows_tile_mem _ _ _ h.2.2.2 r hr).2.2.2

theorem do_compute_grow_length (hash_seq : List hash_block_t) (last : Int) :
    ∀ (k : Nat) (hash : hash_block_t) (hash_begin : Int),
      (master_t.do_compute_grow hash_seq last k hash hash_begin).2.1.length +
          (master_t.do_compute_grow hash_seq last k hash hash_begin).2.2 =
        hash.length + hash_begin := by
  intro k
  induction k with
  | zero => intro hash hash_begin; rfl
  | succ k ih =>
    intro hash hash_begin
    rw [master_t.do_compute_grow]
    split
    · rw [ih, operator_plus_length]; omega
    · rfl

theorem do_compute_shrink_length (hash_seq : List hash_block_t) (last signal_length : Int)
    (hash_block_begin : Nat) :
    ∀ (k : Nat) (hash : hash_block_t) (hash_end : Int),
      (master_t.do_compute_shrink hash_seq last signal_length hash_block_begin k hash hash_end).2.2 -
          (master_t.do_compute_shrink hash_seq last signal_length hash_block_begin k hash
            hash_end).2.1.length =
        hash_end - hash.length := by
  intro k
  induction k with
  | zero => intro hash hash_end; rfl
  | succ k ih =>
    intro hash hash_end
    rw [master_t.do_compute_shrink]
    split
    · rw [ih]
      show hash_end - _ - (hash.length - _) = _
      omega
    · rfl

/-- The planning loop of `master_t::do_compute` returns (neither assertion fails, the
fuel is not exhausted) as soon as the fuel allows one iteration for every worker that
has no request yet, and the windows it sends tile the candidate positions from
`possible + 1` down to the final `last`. -/
theorem do_compute_loop_windows (hash_seq : List hash_block_t)
    (num_workers signal_length possible_per_worker possible : Int)
    (hppw : 1 ≤ possible_per_worker)
    (hcover : possible < num_workers * possible_per_worker) :
    ∀ (fuel : Nat) (st : compute_state_t) (sent : List request_t),
      st.hash.length = st.hash_end - st.hash_begin →
      st.worker_cnt = sent.length →
      (1 < st.last → st.last = possible + 1 - st.worker_cnt * possible_per_worker) →
      num_workers ≤ st.worker_cnt + fuel →
      st.worker_cnt ≤ num_workers →
      windows_tile sent (possible + 1) st.last →
      ∃ st' sent',
        master_t.do_compute_loop hash_seq num_workers signal_length possible_per_worker fuel st sent =
          some (st', sent') ∧
        st'.last ≤ 1 ∧ (1 ≤ st.last → 1 ≤ st'.last) ∧ (st.last ≤ 1 → sent' = sent) ∧
        st'.worker_cnt = sent'.length ∧ st'.worker_cnt ≤ num_workers ∧
        windows_tile sent' (possible + 1) st'.last := by
  intro fuel
  induction fuel with
  | zero =>
    intro st sent hlen hcnt hlast hfuel hle htile
    have hcn : num_workers ≤ st.worker_cnt := by simpa using hfuel
    have hl : ¬ st.last > 1 := by
      intro hl
      have hl' := hlast hl
      have h1 : num_workers * possible_per_worker ≤ st.worker_cnt * possible_per_worker :=
        Int.mul_le_mul_of_nonneg_right hcn (by omega)
      omega
    rw [master_t.do_compute_loop, if_neg hl]
    exact ⟨st, sent, rfl, by omega, fun h => h, fun _ => rfl, hcnt, hle, htile⟩
  | succ fuel ih =>
    intro st sent hlen hcnt hlast hfuel hle htile
    rw [master_t.do_compute_loop]
    by_cases hl : st.last > 1
    · rw [if_pos hl]
      have hl' := hlast hl
      have hlt : st.worker_cnt < num_workers := by
        by_contra hcon
        have h1 : num_workers * possible_per_worker ≤ st.worker_cnt * possible_per_worker :=
          Int.mul_le_mul_of_nonneg_right (by omega) (by omega)
        omega
      have hg := do_compute_grow_length hash_seq st.last st.hash_block_begin st.hash
        st.hash_begin
      simp only []
      generalize master_t.do_compute_grow hash_seq st.last st.hash_block_begin st.hash
        st.hash_begin = g at hg ⊢
      have hs := do_compute_shrink_length hash_seq st.last signal_length g.1
        st.hash_block_end g.2.1 st.hash_end
      generalize master_t.do_compute_shrink hash_seq st.last signal_length g.1
        st.hash_block_end g.2.1 st.hash_end = s at hs ⊢
      rw [if_pos ⟨by omega, hlt⟩]
      have hidx1 : 1 ≤ max 1 (st.last - possible_per_worker) := le_max_left _ _
      have hidx2 : max 1 (st.last - possible_per_worker) < st.last :=
        max_lt hl (by omega)
      obtain ⟨st', sent', hrun, h1, h2, -, h4, h5, h6⟩ := ih
        { hash := s.2.1, hash_begin := g.2.2, hash_end := s.2.2, hash_block_begin := g.1,
          hash_block_end := s.1, last := max 1 (st.last - possible_per_worker),
          worker_cnt := st.worker_cnt + 1 }
        (sent ++ [⟨s.2.1, g.2.2, s.2.2, max 1 (st.last - possible_per_worker), st.last⟩])
        (by simp only []; omega)
        (by simp only [List.length_append, List.length_singleton]; push_cast; omega)
        (by
          simp only []
          intro h
          have : max 1 (st.last - possible_per_worker) = st.last - possible_per_worker := by
            rcases max_choice 1 (st.last - possible_per_worker) with e | e
            · omega
            · exact e
          rw [this, hl']; ring)
        (by simp only []; push_cast at hfuel; omega)
        (by simp only []; omega)
        (windows_tile_snoc
          (r := ⟨s.2.1, g.2.2, s.2.2, max 1 (st.last - possible_per_worker), st.last⟩)
          hidx1 hidx2 sent _ htile)
      exact ⟨st', sent', hrun, h1, fun _ => h2 hidx1, fun h => absurd h (by omega), h4, h5, h6⟩
    · rw [if_neg hl]
      exact ⟨st, sent, rfl, by omega, fun h => h, fun _ => rfl, hcnt, hle, htile⟩

theorem possible_per_worker_bounds {possible num_workers : Int} (hp : 1 ≤ possible)
    (hn : 1 ≤ num_workers) :
    1 ≤ Int.tdiv (possible + num_workers) num_workers ∧
      possible < num_workers * Int.tdiv (possible + num_workers) num_workers := by
  rw [Int.tdiv_eq_ediv (by omega) (by omega)]
  have h1 := Int.lt_ediv_add_one_mul_self (possible + num_workers) (show 0 < num_workers by omega)
  have h2 : 1 ≤ (possible + num_workers) / num_workers :=
    Int.le_ediv_of_mul_le (by omega) (by omega)
  refine ⟨h2, ?_⟩
  rw [add_mul, one_mul, mul_comm] at h1
  omega

/-- `master_t::do_compute` sends its requests for every `num_workers >= 1` (no
assertion fails): its requests are the
windows sent by the planning loop, which tile `[1, possible]`, followed by the requests
with `begin = end = 0` for the remaining workers. -/
theorem master_do_compute_windows (num_workers : Int) (hash_seq : List hash_block_t)
    (seq_length signal_length : Int) (hn : 1 ≤ num_workers) :
    ∃ st sent,
      master_t.do_compute_loop hash_seq num_workers signal_length
          (Int.tdiv (seq_length - signal_length + 1 + num_workers) num_workers)
          (num_workers.toNat + 1)
          (compute_state_t.initial hash_seq seq_length signal_length) [] = some (st, sent) ∧
        master_t.do_compute num_workers hash_seq seq_length signal_length =
          some (sent ++ List.replicate (num_workers - sent.length).toNat
            ⟨st.hash, st.hash_begin, st.hash_end, 0, 0⟩) ∧
        (sent.length : Int) ≤ num_workers ∧
        ((1 ≤ seq_length - signal_length + 1 ∧
            windows_tile sent (seq_length - signal_length + 1 + 1) 1) ∨
          (seq_length - signal_length + 1 ≤ 0 ∧ sent = [])) := by
  have hmaster : ∀ st sent,
      master_t.do_compute_loop hash_seq num_workers signal_length
          (Int.tdiv (seq_length - signal_length + 1 + num_workers) num_workers)
          (num_workers.toNat + 1)
          (compute_state_t.initial hash_seq seq_length signal_length) [] = some (st, sent) →
      st.worker_cnt = sent.length →
      master_t.do_compute num_workers hash_seq seq_length signal_length =
          some (sent ++ List.replicate (num_workers - sent.length).toNat
            ⟨st.hash, st.hash_begin, st.hash_end, 0, 0⟩) := by
    intro st sent hrun hcnt
    unfold master_t.do_compute
    simp only []
    unfold compute_state_t.initial at hrun
    rw [hrun]
    simp only [hcnt]
  by_cases hp : 1 ≤ seq_length - signal_length + 1
  · obtain ⟨hppw, hcover⟩ := possible_per_worker_bounds hp hn
    obtain ⟨st, sent, hrun, h1, h2, -, h4, h5, h6⟩ :=
      do_compute_loop_windows hash_seq num_workers signal_length
        (Int.tdiv (seq_length - signal_length + 1 + num_workers) num_workers)
        (seq_length - signal_length + 1) hppw hcover (num_workers.toNat + 1)
        (compute_state_t.initial hash_seq seq_length signal_length) []
        (by simp [compute_state_t.initial, hash_block_t.empty])
        (by simp [compute_state_t.initial])
        (by intro _; simp [compute_state_t.initial])
        (by simp only [compute_state_t.initial]; push_cast; omega)
        (by simp only [compute_state_t.initial]; omega)
        (by simp [compute_state_t.initial, windows_tile])
    have hlast : st.last = 1 := by
      have := h2 (by simp only [compute_state_t.initial]; omega)
      omega
    rw [hlast] at h6
    exact ⟨st, sent, hrun, hmaster st sent hrun h4, by omega, Or.inl ⟨hp, h6⟩⟩
  · have hrun : master_t.do_compute_loop hash_seq num_workers signal_length
          (Int.tdiv (seq_length - signal_length + 1 + num_workers) num_workers)
          (num_workers.toNat + 1)
          (compute_state_t.initial hash_seq seq_length signal_length) [] =
        some (compute_state_t.initial hash_seq seq_length signal_length, []) := by
      rw [master_t.do_compute_loop, if_neg (by simp only [compute_state_t.initial]; omega)]
    exact ⟨_, _, hrun, hmaster _ _ hrun (by simp [compute_state_t.initial]),
      by simp only [List.length_nil]; push_cast; omega, Or.inr ⟨by omega, rfl⟩⟩

/-- C7: partition coverage. For every `num_workers >= 1`, every sequence and signal
length and whatever blocks the workers reported, `master_t::do_compute` sends its
requests (no assertion fails), the
windows `[begin, end)` of its requests are pairwise disjoint, a position lies in one of
them exactly when it is one of `1 .. possible` (`possible = seq_length - signal_length
+ 1`), and when `possible <= 0` every request is the empty window `begin = end = 0`. -/
theorem partition_coverage (num_workers : Int) (hash_seq : List hash_block_t)
    (seq_length signal_length : Int) (hn : 1 ≤ num_workers) :
    ∃ requests,
      master_t.do_compute num_workers hash_seq seq_length signal_length = some requests ∧
      (∀ p : Int, (∃ r ∈ requests, r.begin ≤ p ∧ p < r.end_) ↔
        (1 ≤ p ∧ p ≤ seq_length - signal_length + 1)) ∧
      requests.Pairwise
        (fun r s => ∀ p : Int, ¬ ((r.begin ≤ p ∧ p < r.end_) ∧ (s.begin ≤ p ∧ p < s.end_))) ∧
      (seq_length - signal_length + 1 ≤ 0 → ∀ r ∈ requests, r.begin = 0 ∧ r.end_ = 0) := by
  obtain ⟨st, sent, -, hres, -, hcase⟩ :=
    master_do_compute_windows num_workers hash_seq seq_length signal_length hn
  refine ⟨_, hres, ?_, ?_, ?_⟩
  · intro p
    constructor
    · rintro ⟨r, hr, hp⟩
      rcases List.mem_append.1 hr with h | h
      · rcases hcase with ⟨-, htile⟩ | ⟨-, hnil⟩
        · have := (windows_tile_cover _ _ _ htile p).1 ⟨r, h, hp⟩
          omega
        · rw [hnil] at h; simp at h
      · have := (List.mem_replicate.1 h).2
        rw [this] at hp
        simp only [] at hp
        omega
    · intro hp
      rcases hcase with ⟨-, htile⟩ | ⟨hle, -⟩
      · obtain ⟨r, hr, hrp⟩ := (windows_tile_cover _ _ _ htile p).2 ⟨hp.1, by omega⟩
        exact ⟨r, List.mem_append_left _ hr, hrp⟩
      · omega
  · rw [List.pairwise_append]
    refine ⟨?_, ?_, ?_⟩
    · rcases hcase with ⟨-, htile⟩ | ⟨-, hnil⟩
      · exact (windows_tile_pairwise _ _ _ htile).imp (fun h p hp => by omega)
      · rw [hnil]; exact List.Pairwise.nil
    · rw [List.pairwise_replicate]
      right
      intro p hp
      simp only [] at hp
      omega
    · intro r _ s hs p hp
      have := (List.mem_replicate.1 hs).2
      rw [this] at hp
      simp only [] at hp
      omega
  · intro hle r hr
    rcases hcase with ⟨hp, -⟩ | ⟨-, hnil⟩
    · omega
    · rw [hnil, List.nil_append] at hr
      have := (List.mem_replicate.1 hr).2
      rw [this]
      exact ⟨rfl, rfl⟩

theorem partition_coverage_witness :
    ∃ requests,
      master_t.do_compute 3 [empty, empty, empty] 10 2 = some requests ∧
      (∀ p : Int, (∃ r ∈ requests, r.begin ≤ p ∧ p < r.end_) ↔ (1 ≤ p ∧ p ≤ 10 - 2 + 1)) ∧
      requests.Pairwise
        (fun r s => ∀ p : Int, ¬ ((r.begin ≤ p ∧ p < r.end_) ∧ (s.begin ≤ p ∧ p < s.end_))) ∧
      ((10 : Int) - 2 + 1 ≤ 0 → ∀ r ∈ requests, r.begin = 0 ∧ r.end_ = 0) :=
  partition_coverage 3 [empty, empty, empty] 10 2 (by decide)

/-! ## The slices hashed by the workers -/

theorem mapM_eq_some_map {α β : Type} (f : α → Option β) (g : α → β) :
    ∀ l : List α, (∀ x ∈ l, f x = some (g x)) → l.mapM f = some (l.map g) := by
  intro l
  induction l with
  | nil => intro _; rfl
  | cons a l ih =>
    intro h
    rw [List.mapM_cons, h a (List.mem_cons_self _ _),
      ih (fun x hx => h x (List.mem_cons_of_mem _ hx))]
    rfl

theorem worker_hash_subsequence_eq (worker_id num_workers length : Int) (at_ : Int → Int) :
    worker_t.worker_hash_subsequence worker_id num_workers length at_ =
      hash_sequence (slice_begin num_workers length worker_id)
        (slice_begin num_workers length (worker_id + 1)) at_ := rfl

theorem block_length_bounds {num_workers length : Int} (hn : 1 ≤ num_workers)
    (hlen : 0 ≤ length) :
    0 ≤ block_length num_workers length ∧
      length ≤ block_length num_workers length * num_workers := by
  unfold block_length
  simp only []
  have h1 := Int.lt_ediv_add_one_mul_self (length + num_workers - 1)
    (show 0 < num_workers by omega)
  have h2 : 0 ≤ (length + num_workers - 1) / num_workers :=
    Int.ediv_nonneg (by omega) (by omega)
  refine ⟨h2, ?_⟩
  rw [add_mul, one_mul] at h1
  omega

theorem slice_begin_zero {num_workers length : Int} (hlen : 0 ≤ length) :
    slice_begin num_workers length 0 = 1 := by
  unfold slice_begin
  rw [mul_zero, add_zero]
  exact min_eq_left (by omega)

theorem slice_begin_last {num_workers length : Int} (hn : 1 ≤ num_workers)
    (hlen : 0 ≤ length) : slice_begin num_workers length num_workers = 1 + length := by
  unfold slice_begin
  have := (block_length_bounds hn hlen).2
  exact min_eq_right (by omega)

theorem slice_begin_mono {num_workers length : Int} (hn : 1 ≤ num_workers)
    (hlen : 0 ≤ length) (worker_id : Int) :
    slice_begin num_workers length worker_id ≤
      slice_begin num_workers length (worker_id + 1) := by
  unfold slice_begin
  have h := (block_length_bounds hn hlen).1
  have e : block_length num_workers length * (worker_id + 1) =
      block_length num_workers length * worker_id + block_length num_workers length := by ring
  rw [e]
  exact min_le_min (by omega) (le_refl _)

theorem slice_begin_ge_one {num_workers length : Int} (hn : 1 ≤ num_workers)
    (hlen : 0 ≤ length) {worker_id : Int} (hid : 0 ≤ worker_id) :
    1 ≤ slice_begin num_workers length worker_id := by
  unfold slice_begin
  have h := (block_length_bounds hn hlen).1
  have := Int.mul_nonneg h hid
  exact le_min (by omega) (by omega)

theorem slice_begin_le (num_workers length worker_id : Int) :
    slice_begin num_workers length worker_id ≤ 1 + length := min_le_right _ _

theorem slice_begin_mono_nat {num_workers length : Int} (hn : 1 ≤ num_workers)
    (hlen : 0 ≤ length) (j : Nat) : ∀ k : Nat, j ≤ k →
      slice_begin num_workers length j ≤ slice_begin num_workers length k := by
  intro k hjk
  induction k with
  | zero =>
    have : j = 0 := by omega
    rw [this]
  | succ k ih =>
    by_cases h : j = k + 1
    · rw [h]
    · have h1 := ih (by omega)
      have h2 := slice_begin_mono hn hlen (k : Int)
      push_cast
      omega

/-- The blocks sent by the workers in one hashing phase: worker `worker_id` sends the
block of its slice. No assertion of `hash_sequence` fails. -/
theorem worker_parts_eq (num_workers : Nat) (hn : 1 ≤ num_workers) (length : Int)
    (hlen : 0 ≤ length) (at_ : Int → Int) :
    worker_parts num_workers length at_ =
      some ((List.range num_workers).map (fun worker_id : Nat =>
        hash_range at_ (slice_begin num_workers length worker_id)
          (slice_begin num_workers length (worker_id + 1)))) := by
  unfold worker_parts
  apply mapM_eq_some_map
  intro worker_id _
  rw [worker_hash_subsequence_eq]
  exact hash_sequence_eq at_ (slice_begin_mono (by exact_mod_cast hn) hlen _)

/-- Adding the blocks of the first `k` slices from left to right gives the block of
the positions before the slice of worker `k`. -/
theorem slices_foldl (num_workers : Nat) (hn : 1 ≤ num_workers) (length : Int)
    (hlen : 0 ≤ length) (at_ : Int → Int) (hat : ∀ i, 0 ≤ at_ i) :
    ∀ k : Nat,
      ((List.range k).map (fun worker_id : Nat =>
          hash_range at_ (slice_begin num_workers length worker_id)
            (slice_begin num_workers length (worker_id + 1)))).foldl operator_plus empty =
        hash_range at_ 1 (slice_begin num_workers length k) := by
  have hn' : (1 : Int) ≤ num_workers := by exact_mod_cast hn
  intro k
  induction k with
  | zero =>
    simp only [List.range_zero, List.map_nil, List.foldl_nil]
    rw [show ((0 : Nat) : Int) = 0 from rfl, slice_begin_zero hlen]
    simp [hash_range, hash_run_onto]
  | succ k ih =>
    rw [List.range_succ, List.map_append, List.foldl_append, ih]
    simp only [List.map_cons, List.map_nil, List.foldl_cons, List.foldl_nil]
    rw [hash_range_merge at_ hat (slice_begin_ge_one hn' hlen (by omega))
      (slice_begin_mono hn' hlen _)]
    push_cast
    rfl

/-- The length of the left-to-right sum of the blocks of the first `k` slices, for
arbitrary tokens. -/
theorem slices_foldl_length (num_workers : Nat) (hn : 1 ≤ num_workers) (length : Int)
    (hlen : 0 ≤ length) (at_ : Int → Int) :
    ∀ k : Nat,
      (((List.range k).map (fun worker_id : Nat =>
          hash_range at_ (slice_begin num_workers length worker_id)
            (slice_begin num_workers length (worker_id + 1)))).foldl operator_plus
              empty).length =
        slice_begin num_workers length k - 1 := by
  have hn' : (1 : Int) ≤ num_workers := by exact_mod_cast hn
  intro k
  induction k with
  | zero =>
    simp only [List.range_zero, List.map_nil, List.foldl_nil]
    rw [show ((0 : Nat) : Int) = 0 from rfl, slice_begin_zero hlen]
    rfl
  | succ k ih =>
    rw [List.range_succ, List.map_append, List.foldl_append]
    simp only [List.map_cons, List.map_nil, List.foldl_cons, List.foldl_nil]
    rw [operator_plus_length, ih, hash_range_length at_ (slice_begin_mono hn' hlen _)]
    push_cast
    omega

/-! ## The hash context planned by `master_t::do_compute` -/

theorem worker_parts_eq_slice_blocks (num_workers : Nat) (hn : 1 ≤ num_workers)
    (length : Int) (hlen : 0 ≤ length) (at_ : Int → Int) :
    worker_parts num_workers length at_ = some (slice_blocks num_workers length at_) :=
  worker_parts_eq num_workers hn length hlen at_

theorem slice_blocks_length (num_workers : Nat) (length : Int) (at_ : Int → Int) :
    (slice_blocks num_workers length at_).length = num_workers := by
  simp [slice_blocks]

theorem slice_blocks_getD (num_workers : Nat) (length : Int) (at_ : Int → Int) {k : Nat}
    (hk : k < num_workers) :
    (slice_blocks num_workers length at_).getD k empty =
      hash_range at_ (slice_begin num_workers length k)
        (slice_begin num_workers length (k + 1)) := by
  rw [List.getD_eq_getElem?_getD, slice_blocks, List.getElem?_map, List.getElem?_range hk]
  rfl

theorem do_compute_grow_context (num_workers : Nat) (hn : 1 ≤ num_workers)
    (seq_length : Int) (hlen : 0 ≤ seq_length) (SeqAt : Int → Int) (hat : ∀ i, 0 ≤ SeqAt i)
    (last : Int) (e : Nat) (he : e ≤ num_workers) :
    ∀ (k : Nat) (hash : hash_block_t) (hash_begin : Int), k ≤ e →
      hash = hash_range SeqAt (slice_begin num_workers seq_length k)
        (slice_begin num_workers seq_length e) →
      hash_begin = slice_begin num_workers seq_length k → last - 1 ≤ hash_begin →
      (master_t.do_compute_grow (slice_blocks num_workers seq_length SeqAt) last k hash hash_begin).1
          ≤ k ∧
        (master_t.do_compute_grow (slice_blocks num_workers seq_length SeqAt) last k hash
            hash_begin).2.1 =
          hash_range SeqAt (slice_begin num_workers seq_length
            (master_t.do_compute_grow (slice_blocks num_workers seq_length SeqAt) last k hash
              hash_begin).1) (slice_begin num_workers seq_length e) ∧
        (master_t.do_compute_grow (slice_blocks num_workers seq_length SeqAt) last k hash
            hash_begin).2.2 =
          slice_begin num_workers seq_length
            (master_t.do_compute_grow (slice_blocks num_workers seq_length SeqAt) last k hash
              hash_begin).1 ∧
        last - 1 ≤ (master_t.do_compute_grow (slice_blocks num_workers seq_length SeqAt) last k hash
            hash_begin).2.2 := by
  have hn' : (1 : Int) ≤ num_workers := by exact_mod_cast hn
  intro k
  induction k with
  | zero =>
    intro hash hash_begin _ hh hb hl
    exact ⟨le_refl _, hh, hb, hl⟩
  | succ k ih =>
    intro hash hash_begin hke hh hb hl
    have hmono := slice_begin_mono hn' hlen (k : Int)
    have hfrag := slice_blocks_getD num_workers seq_length SeqAt (show k < num_workers by omega)
    rw [master_t.do_compute_grow, hfrag, hash_range_length SeqAt hmono]
    push_cast at hb
    split
    · next hcond =>
      have := ih (operator_plus (hash_range SeqAt (slice_begin num_workers seq_length k)
          (slice_begin num_workers seq_length (k + 1))) hash)
        (hash_begin - (slice_begin num_workers seq_length (k + 1) -
          slice_begin num_workers seq_length k)) (by omega)
        (by
          rw [hh]
          push_cast
          exact hash_range_merge SeqAt hat hmono
            (by exact_mod_cast slice_begin_mono_nat hn' hlen (k + 1) e hke))
        (by omega) (by omega)
      exact ⟨by omega, this.2⟩
    · exact ⟨le_refl _, hh, by push_cast; exact hb, hl⟩

theorem do_compute_shrink_context (num_workers : Nat) (hn : 1 ≤ num_workers)
    (seq_length : Int) (hlen : 0 ≤ seq_length) (hlen' : seq_length < 2 ^ 63)
    (SeqAt : Int → Int) (hat : ∀ i, 0 ≤ SeqAt i) (last signal_length : Int) (b : Nat) :
    ∀ (k : Nat) (hash : hash_block_t) (hash_end : Int), b ≤ k → k ≤ num_workers →
      hash = hash_range SeqAt (slice_begin num_workers seq_length b)
        (slice_begin num_workers seq_length k) →
      hash_end = slice_begin num_workers seq_length k →
      b ≤ (master_t.do_compute_shrink (slice_blocks num_workers seq_length SeqAt) last signal_length
          b k hash hash_end).1 ∧
        (master_t.do_compute_shrink (slice_blocks num_workers seq_length SeqAt) last signal_length
          b k hash hash_end).1 ≤ k ∧
        (master_t.do_compute_shrink (slice_blocks num_workers seq_length SeqAt) last signal_length
            b k hash hash_end).2.1 =
          hash_range SeqAt (slice_begin num_workers seq_length b)
            (slice_begin num_workers seq_length
              (master_t.do_compute_shrink (slice_blocks num_workers seq_length SeqAt) last
                signal_length b k hash hash_end).1) ∧
        (master_t.do_compute_shrink (slice_blocks num_workers seq_length SeqAt) last signal_length
            b k hash hash_end).2.2 =
          slice_begin num_workers seq_length
            (master_t.do_compute_shrink (slice_blocks num_workers seq_length SeqAt) last
              signal_length b k hash hash_end).1 ∧
        ((master_t.do_compute_shrink (slice_blocks num_workers seq_length SeqAt) last signal_length
            b k hash hash_end).1 = b ∨
          (master_t.do_compute_shrink (slice_blocks num_workers seq_length SeqAt) last signal_length
            b k hash hash_end).2.2 ≤ last - 1 + signal_length) := by
  have hn' : (1 : Int) ≤ num_workers := by exact_mod_cast hn
  intro k
  induction k with
  | zero =>
    intro hash hash_end hb _ hh he
    exact ⟨hb, le_refl _, hh, he, Or.inl (by show 0 = b; omega)⟩
  | succ k ih =>
    intro hash hash_end hbk hkn hh he
    have hmono := slice_begin_mono hn' hlen (k : Int)
    have hfrag := slice_blocks_getD num_workers seq_length SeqAt (show k < num_workers by omega)
    rw [master_t.do_compute_shrink, hfrag, hash_range_length SeqAt hmono]
    push_cast at he
    split
    · next hcond =>
      have hbk' : b ≤ k := by omega
      have hbk'' := slice_begin_mono_nat hn' hlen b k hbk'
      have hb1 := slice_begin_ge_one hn' hlen (show (0 : Int) ≤ (b : Nat) by omega)
      have hk1 := slice_begin_le num_workers seq_length (k : Nat)
      have := ih (hash_block_t.trim hash (hash_range SeqAt
          (slice_begin num_workers seq_length k) (slice_begin num_workers seq_length (k + 1))))
        (hash_end - (slice_begin num_workers seq_length (k + 1) -
          slice_begin num_workers seq_length k)) hbk' (by omega)
        (by
          rw [hh]
          push_cast
          rw [← hash_range_merge SeqAt hat hbk'' hmono]
          exact trim_operator_plus (hash_range_wf SeqAt hat _ _) (hash_range_wf SeqAt hat _ _)
            (by rw [hash_range_length SeqAt hbk'']; omega))
        (by omega)
      exact ⟨this.1, by omega, this.2.2⟩
    · next hcond =>
      refine ⟨hbk, le_refl _, hh, by push_cast; exact he, ?_⟩
      by_cases h1 : k + 1 > b
      · right
        show hash_end ≤ last - 1 + signal_length
        by_contra h2
        exact hcond ⟨h1, by omega⟩
      · left; omega

/-- Every request sent by the planning loop carries a right hash context, when the
member `hash_sequence` holds the blocks of the workers' slices of a sequence of
non-negative tokens. -/
theorem do_compute_loop_context (num_workers : Nat) (hn : 1 ≤ num_workers)
    (seq_length : Int) (hlen : 0 ≤ seq_length) (hlen' : seq_length < 2 ^ 63)
    (SeqAt : Int → Int) (hat : ∀ i, 0 ≤ SeqAt i)
    (signal_length possible_per_worker : Int) (hppw : 0 ≤ possible_per_worker) :
    ∀ (fuel : Nat) (st : compute_state_t) (sent : List request_t) (st' : compute_state_t)
      (sent' : List request_t),
      master_t.do_compute_loop (slice_blocks num_workers seq_length SeqAt) num_workers signal_length
          possible_per_worker fuel st sent = some (st', sent') →
      context_invariant num_workers seq_length SeqAt st →
      (∀ r ∈ sent, context_ok SeqAt signal_length r) →
      ∀ r ∈ sent', context_ok SeqAt signal_length r := by
  have hn' : (1 : Int) ≤ num_workers := by exact_mod_cast hn
  intro fuel
  induction fuel with
  | zero =>
    intro st sent st' sent' hrun _ hsent
    rw [master_t.do_compute_loop] at hrun
    split at hrun
    · exact absurd hrun (by simp)
    · simp only [Option.some.injEq, Prod.mk.injEq] at hrun
      rw [← hrun.2]; exact hsent
  | succ fuel ih =>
    intro st sent st' sent' hrun hinv hsent
    obtain ⟨hbe, hen, hhb, hhe, hh, hl⟩ := hinv
    rw [master_t.do_compute_loop] at hrun
    by_cases hlast : st.last > 1
    · rw [if_pos hlast] at hrun
      simp only [] at hrun
      have hg := do_compute_grow_context num_workers hn seq_length hlen SeqAt hat st.last
        st.hash_block_end hen st.hash_block_begin st.hash st.hash_begin hbe
        (by rw [hh, hhb, hhe]) hhb hl
      generalize master_t.do_compute_grow (slice_blocks num_workers seq_length SeqAt) st.last
        st.hash_block_begin st.hash st.hash_begin = g at hg hrun
      obtain ⟨hg1, hg2, hg3, hg4⟩ := hg
      have hs := do_compute_shrink_context num_workers hn seq_length hlen hlen' SeqAt hat
        st.last signal_length g.1 st.hash_block_end g.2.1 st.hash_end (by omega) hen hg2 hhe
      generalize master_t.do_compute_shrink (slice_blocks num_workers seq_length SeqAt) st.last
        signal_length g.1 st.hash_block_end g.2.1 st.hash_end = s at hs hrun
      obtain ⟨hs1, hs2, hs3, hs4, hs5⟩ := hs
      split at hrun
      · have hmono := slice_begin_mono_nat hn' hlen g.1 s.1 hs1
        refine ih _ _ _ _ hrun ⟨hs1, le_trans hs2 hen, hg3, hs4,
          by show s.2.1 = hash_range SeqAt g.2.2 s.2.2; rw [hs3, hg3, hs4], ?_⟩ ?_
        · show max 1 (st.last - possible_per_worker) - 1 ≤ g.2.2
          have : max 1 (st.last - possible_per_worker) ≤ st.last :=
            max_le (by omega) (by omega)
          omega
        · intro r hr
          rcases List.mem_append.1 hr with h | h
          · exact hsent r h
          · rw [List.mem_singleton.1 h]
            refine ⟨by show s.2.1 = hash_range SeqAt g.2.2 s.2.2; rw [hs3, hg3, hs4],
              by show g.2.2 ≤ s.2.2; omega, ?_⟩
            show g.2.2 = s.2.2 ∨ (st.last - 1 ≤ g.2.2 ∧ s.2.2 ≤ st.last - 1 + signal_length)
            rcases hs5 with h5 | h5
            · left; rw [hg3, hs4, h5]
            · right; exact ⟨hg4, h5⟩
      · exact absurd hrun (by simp)
    · rw [if_neg hlast] at hrun
      simp only [Option.some.injEq, Prod.mk.injEq] at hrun
      rw [← hrun.2]; exact hsent

theorem initial_context_invariant (num_workers : Nat) (hn : 1 ≤ num_workers)
    (seq_length : Int) (hlen : 0 ≤ seq_length) (SeqAt : Int → Int) (signal_length : Int)
    (hm : 0 ≤ signal_length) :
    context_invariant num_workers seq_length SeqAt
      (compute_state_t.initial (slice_blocks num_workers seq_length SeqAt) seq_length
        signal_length) := by
  have hn' : (1 : Int) ≤ num_workers := by exact_mod_cast hn
  have hlast := slice_begin_last hn' hlen
  refine ⟨le_refl _, ?_, ?_, ?_, ?_, ?_⟩
  · show (slice_blocks num_workers seq_length SeqAt).length ≤ num_workers
    rw [slice_blocks_length]
  · show 1 + seq_length = slice_begin num_workers seq_length
      ((slice_blocks num_workers seq_length SeqAt).length : Nat)
    rw [slice_blocks_length, hlast]
  · show 1 + seq_length = slice_begin num_workers seq_length
      ((slice_blocks num_workers seq_length SeqAt).length : Nat)
    rw [slice_blocks_length, hlast]
  · show empty = hash_range SeqAt (1 + seq_length) (1 + seq_length)
    simp [hash_range, hash_run_onto]
  · show seq_length - signal_length + 1 + 1 - 1 ≤ 1 + seq_length
    omega

/-! ## The sliding window of `worker_t::do_compute` -/

theorem count_positions_add (pred : Int → Bool) (lo : Int) (j : Nat) :
    ∀ k : Nat, count_positions pred lo (j + k) =
      count_positions pred lo j + count_positions pred (lo + j) k := by
  intro k
  induction k with
  | zero => rfl
  | succ k ih =>
    rw [← Nat.add_assoc, count_positions, ih, count_positions]
    rw [show lo + ((j + k : Nat) : Int) = lo + j + k by push_cast; ring]
    omega

theorem count_positions_le (p q : Int → Bool) (h : ∀ i, p i = true → q i = true) (lo : Int) :
    ∀ k : Nat, count_positions p lo k ≤ count_positions q lo k := by
  intro k
  induction k with
  | zero => exact le_refl _
  | succ k ih =>
    rw [count_positions, count_positions]
    by_cases hp : p (lo + k) = true
    · rw [if_pos hp, if_pos (h _ hp)]; omega
    · rw [if_neg hp]
      split <;> omega

theorem hash_range_single (fn : Int → Int) (hfn : ∀ i, 0 ≤ fn i) (p : Int) :
    hash_range fn p (p + 1) = of_value (fn p) := by
  unfold hash_range
  rw [show (p + 1 - p).toNat = 1 by omega]
  show operator_plus (of_value (fn p)) empty = _
  exact operator_plus_empty (of_value_wf (hfn p)).2

theorem hash_range_cons (fn : Int → Int) {p q : Int} (h : p < q) :
    hash_range fn p q = operator_plus (of_value (fn p)) (hash_range fn (p + 1) q) := by
  unfold hash_range
  rw [show (q - p).toNat = (q - (p + 1)).toNat + 1 by omega]
  rfl

/-- One step of the sliding window: from the block of `[pos, pos + signal_length)` to
the block of `[pos - 1, pos - 1 + signal_length)`. -/
theorem slide_step (SeqAt : Int → Int) (hat : ∀ i, 0 ≤ SeqAt i) (signal_length : Int)
    (hm : 1 ≤ signal_length) (hm' : signal_length < 2 ^ 63) (pos : Int) :
    operator_plus (of_value (SeqAt (pos - 1)))
        (trim_by (hash_range SeqAt pos (pos + signal_length))
          (of_value (SeqAt (pos - 1 + signal_length)))
          (make_powers (wrapU64 (signal_length - 1)))) =
      hash_range SeqAt (pos - 1) (pos - 1 + signal_length) := by
  have hsplit : hash_range SeqAt pos (pos + signal_length) =
      operator_plus (hash_range SeqAt pos (pos - 1 + signal_length))
        (of_value (SeqAt (pos - 1 + signal_length))) := by
    rw [← hash_range_single SeqAt hat (pos - 1 + signal_length),
      hash_range_merge SeqAt hat (by omega) (by omega),
      show pos - 1 + signal_length + 1 = pos + signal_length by ring]
  have hlen : (hash_range SeqAt pos (pos - 1 + signal_length)).length = signal_length - 1 := by
    rw [hash_range_length SeqAt (by omega)]; ring
  rw [hsplit, trim_by_operator_plus (hash_range_wf SeqAt hat _ _) (of_value_wf (hat _))
    (fun idx => by rw [make_powers_eq, hlen, wrapU64_of_range (by omega) (by omega)]),
    hash_range_cons SeqAt (show pos - 1 < pos - 1 + signal_length by omega),
    show pos - 1 + 1 = pos by ring]

theorem operator_eq_of_length {A B : hash_block_t} (h : A.length = B.length) :
    operator_eq A B = some (decide (A.hash 0 = B.hash 0 ∧ A.hash 1 = B.hash 1)) := by
  unfold hash_block_t.operator_eq
  rw [if_pos h]

/-- The loop of `worker_t::do_compute`, started at position `begin + d` with the block
of that window, returns and adds to `result` the number of windows at the positions
`begin, ..., begin + d` whose block has the residues of `hash_signal`. -/
theorem worker_loop_count (SeqAt : Int → Int) (hat : ∀ i, 0 ≤ SeqAt i)
    (hash_signal : hash_block_t) (signal_length : Int)
    (hm : 1 ≤ signal_length) (hm' : signal_length < 2 ^ 63)
    (hsig : hash_signal.length = signal_length) (begin : Int) :
    ∀ (d : Nat) (pos : Int) (hash : hash_block_t) (result : Nat), pos = begin + d →
      hash = hash_range SeqAt pos (pos + signal_length) →
      worker_t.do_compute_loop SeqAt hash_signal signal_length begin
          (make_powers (wrapU64 (signal_length - 1))) (d + 1) pos hash result =
        some (result +
          count_positions (window_matches SeqAt hash_signal signal_length) begin (d + 1)) := by
  intro d
  induction d with
  | zero =>
    intro pos hash result hpos hh
    have hlen : hash.length = hash_signal.length := by
      rw [hh, hash_range_length SeqAt (by omega), hsig]; ring
    rw [worker_t.do_compute_loop, if_pos (by omega), operator_eq_of_length hlen]
    simp only []
    rw [if_pos (by omega), count_positions, count_positions]
    simp only [Nat.cast_zero, add_zero, zero_add] at hpos ⊢
    rw [← hpos]
    unfold window_matches
    rw [← hh]
    split <;> rfl
  | succ d ih =>
    intro pos hash result hpos hh
    have hlen : hash.length = hash_signal.length := by
      rw [hh, hash_range_length SeqAt (by omega), hsig]; ring
    rw [worker_t.do_compute_loop, if_pos (by push_cast at hpos; omega), operator_eq_of_length hlen]
    simp only []
    rw [if_neg (by push_cast at hpos; omega), hh, slide_step SeqAt hat signal_length hm hm',
      ih (pos - 1) _ _ (by push_cast at hpos; omega) rfl]
    have hcount : count_positions (window_matches SeqAt hash_signal signal_length) begin
          (d + 1 + 1) =
        count_positions (window_matches SeqAt hash_signal signal_length) begin (d + 1) +
          (if window_matches SeqAt hash_signal signal_length pos then 1 else 0) := by
      rw [hpos]; rfl
    rw [hcount]
    unfold window_matches
    split
    · simp; omega
    · simp

/-- The block that `worker_t::do_compute` builds before its loop is the block of the
window at the last position `end - 1` of the request. -/
theorem worker_initial_hash_eq (inp : input_t) (hat : ∀ i, 0 ≤ inp.SeqAt i)
    (signal_length : Int) (hm : 0 ≤ signal_length) (r : request_t)
    (hok : context_ok inp.SeqAt signal_length r) :
    worker_t.do_compute_initial_hash inp r signal_length =
      some (hash_range inp.SeqAt (r.end_ - 1) (r.end_ - 1 + signal_length)) := by
  obtain ⟨hh, hle, hcase⟩ := hok
  unfold worker_t.do_compute_initial_hash
  by_cases he : r.hash_begin = r.hash_end
  · rw [if_pos he, hash_sequence_eq inp.SeqAt (by omega),
      show r.end_ + signal_length - 1 = r.end_ - 1 + signal_length by ring]
  · rw [if_neg he]
    rcases hcase with h | ⟨h1, h2⟩
    · exact absurd h he
    · rw [hash_sequence_eq inp.SeqAt h1, hash_sequence_eq inp.SeqAt (by omega)]
      simp only []
      rw [hh, hash_range_merge inp.SeqAt hat h1 hle,
        hash_range_merge inp.SeqAt hat (by omega) (by omega),
        show r.end_ + signal_length - 1 = r.end_ - 1 + signal_length by ring]

/-- `worker_t::do_compute` on a non-empty window with a right hash context: no
assertion fails, and the `RESULT` is the number of positions of the window at which
the block of the `signal_length` tokens has the residues of `hash_signal`. -/
theorem worker_do_compute_count (inp : input_t) (hat : ∀ i, 0 ≤ inp.SeqAt i)
    (hash_signal : hash_block_t) (hm : 1 ≤ inp.SignalLength)
    (hm' : inp.SignalLength < 2 ^ 63) (hsig : hash_signal.length = inp.SignalLength)
    (r : request_t) (hok : context_ok inp.SeqAt inp.SignalLength r)
    (h1 : 1 ≤ r.begin) (h2 : r.begin < r.end_) :
    worker_t.do_compute inp hash_signal r =
      some (0, count_positions (window_matches inp.SeqAt hash_signal inp.SignalLength)
        r.begin (r.end_ - r.begin).toNat) := by
  unfold worker_t.do_compute
  simp only []
  rw [if_pos (by omega), worker_initial_hash_eq inp hat _ (by omega) r hok]
  simp only []
  rw [if_pos ⟨by rw [hash_range_length inp.SeqAt (by omega)]; ring, hsig⟩]
  obtain ⟨d, hd⟩ : ∃ d : Nat, (r.end_ - r.begin).toNat = d + 1 :=
    ⟨(r.end_ - r.begin).toNat - 1, by omega⟩
  rw [hd, worker_loop_count inp.SeqAt hat hash_signal inp.SignalLength hm hm' hsig r.begin d
    (r.end_ - 1) _ 0 (by omega) rfl]
  simp

theorem worker_do_compute_empty (inp : input_t) (hash_signal : hash_block_t) (r : request_t)
    (h : r.begin = 0) : worker_t.do_compute inp hash_signal r = some (0, 0) := by
  unfold worker_t.do_compute
  simp [h]

/-! ## The replies of the workers -/

theorem master_do_hash_signal_eq (num_workers : Nat) (hn : 1 ≤ num_workers)
    (inp : input_t) (hm : 0 ≤ inp.SignalLength) (hat : ∀ i, 0 ≤ inp.SignalAt i) :
    master_t.do_hash_signal (slice_blocks num_workers inp.SignalLength inp.SignalAt)
        inp.SignalLength =
      some (hash_range inp.SignalAt 1 (1 + inp.SignalLength)) := by
  have hn' : (1 : Int) ≤ num_workers := by exact_mod_cast hn
  unfold master_t.do_hash_signal
  simp only []
  have hfold := slices_foldl num_workers hn inp.SignalLength hm inp.SignalAt hat num_workers
  rw [slice_begin_last hn' hm] at hfold
  unfold slice_blocks
  rw [hfold, if_pos (by rw [hash_range_length inp.SignalAt (by omega)]; ring)]

theorem window_count_foldl (inp : input_t) (hash_signal : hash_block_t) :
    ∀ (sent : List request_t) (hi lo : Int) (acc : Nat), windows_tile sent hi lo →
      (sent.map (fun r => ((0 : Nat), window_count inp hash_signal r))).foldl
          (fun sum cur => sum + cur.2) acc =
        acc + count_positions (window_matches inp.SeqAt hash_signal inp.SignalLength) lo
          (hi - lo).toNat := by
  intro sent
  induction sent with
  | nil =>
    intro hi lo acc h
    have : hi = lo := h
    rw [this, show (lo - lo).toNat = 0 by omega]
    rfl
  | cons r rest ih =>
    intro hi lo acc h
    obtain ⟨h1, h2, h3, h4⟩ := h
    have hle := windows_tile_le _ _ _ h4
    rw [List.map_cons, List.foldl_cons, ih _ _ _ h4]
    simp only []
    unfold window_count
    rw [if_neg (by omega), ← h1,
      show (r.end_ - lo).toNat = (r.begin - lo).toNat + (r.end_ - r.begin).toNat by omega,
      count_positions_add, show lo + ((r.begin - lo).toNat : Int) = r.begin by omega]
    omega

theorem empty_requests_foldl (inp : input_t) (hash_signal : hash_block_t) (z : request_t)
    (hz : z.begin = 0) : ∀ (k : Nat) (acc : Nat),
      ((List.replicate k z).map (fun r => ((0 : Nat), window_count inp hash_signal r))).foldl
          (fun sum cur => sum + cur.2) acc = acc := by
  intro k
  induction k with
  | zero => intro acc; rfl
  | succ k ih =>
    intro acc
    rw [List.replicate_succ, List.map_cons, List.foldl_cons, ih]
    simp [window_count, hz]

theorem hash_run_onto_congr (f g : Int → Int) (tail : hash_block_t) :
    ∀ (k : Nat) (a b : Int), (∀ j : Nat, j < k → f (a + j) = g (b + j)) →
      hash_run_onto f tail a k = hash_run_onto g tail b k := by
  intro k
  induction k with
  | zero => intro a b _; rfl
  | succ k ih =>
    intro a b h
    have h0 := h 0 (by omega)
    simp only [Nat.cast_zero, add_zero] at h0
    rw [hash_run_onto, hash_run_onto, h0, ih (a + 1) (b + 1)]
    intro j hj
    have := h (j + 1) (by omega)
    rw [show a + 1 + (j : Int) = a + ((j + 1 : Nat) : Int) by push_cast; ring,
      show b + 1 + (j : Int) = b + ((j + 1 : Nat) : Int) by push_cast; ring]
    exact this

theorem hash_match_at_eq (inp : input_t) (hm : 0 ≤ inp.SignalLength) (p : Int) :
    hash_match_at inp p =
      window_matches inp.SeqAt (hash_range inp.SignalAt 1 (1 + inp.SignalLength))
        inp.SignalLength p := by
  unfold hash_match_at window_matches
  rw [hash_sequence_eq inp.SeqAt (by omega), hash_sequence_eq inp.SignalAt (by omega)]
  simp only []
  rw [operator_eq_of_length (by
    rw [hash_range_length inp.SeqAt (by omega), hash_range_length inp.SignalAt (by omega)]
    ring)]

/-- A true occurrence is a hash match: equal tokens give equal blocks. -/
theorem match_at_hash_match_at (inp : input_t) (hm : 0 ≤ inp.SignalLength) (p : Int)
    (h : match_at inp p = true) : hash_match_at inp p = true := by
  rw [hash_match_at_eq inp hm]
  unfold match_at at h
  rw [List.all_eq_true] at h
  have heq : hash_range inp.SeqAt p (p + inp.SignalLength) =
      hash_range inp.SignalAt 1 (1 + inp.SignalLength) := by
    unfold hash_range
    rw [show (p + inp.SignalLength - p).toNat = inp.SignalLength.toNat by omega,
      show (1 + inp.SignalLength - 1).toNat = inp.SignalLength.toNat by omega]
    apply hash_run_onto_congr
    intro j hj
    have := h j (List.mem_range.2 hj)
    simpa using this
  unfold window_matches
  rw [heq]
  simp

theorem occurrences_le_hash_occurrences (inp : input_t) (hm : 0 ≤ inp.SignalLength) :
    occurrences inp ≤ hash_occurrences inp :=
  count_positions_le _ _ (fun p h => match_at_hash_match_at inp hm p h) _ _

theorem do_collect_eq_sum (replies : List (Nat × Nat)) :
    master_t.do_collect replies = (replies.map Prod.snd).sum := by
  have h : ∀ (l : List (Nat × Nat)) (acc : Nat),
      l.foldl (fun sum cur => sum + cur.2) acc = acc + (l.map Prod.snd).sum := by
    intro l
    induction l with
    | nil => intro acc; simp
    | cons a l ih =>
      intro acc
      rw [List.foldl_cons, ih, List.map_cons, List.sum_cons]
      omega
  unfold master_t.do_collect
  rw [h, zero_add]

/-- The workers of a run on `num_workers >= 1` workers, for a signal of at least one
token and non-negative tokens: no assertion fails on the way to their replies, every
worker sends one reply, and the counts of the replies, added as `do_collect` adds
them, give the number of start positions at which the hash of the window equals the
hash of the signal. -/
theorem worker_replies_count (num_workers : Nat) (inp : input_t) (hn : 1 ≤ num_workers)
    (hm : 1 ≤ inp.SignalLength) (hlen : 0 ≤ inp.SeqLength) (hlen' : inp.SeqLength < 2 ^ 63)
    (hseq : ∀ i, 0 ≤ inp.SeqAt i) (hsig : ∀ i, 0 ≤ inp.SignalAt i) :
    ∃ replies, worker_replies num_workers inp = some replies ∧
      replies.length = num_workers ∧
      master_t.do_collect replies = hash_occurrences inp := by
  have hn' : (1 : Int) ≤ num_workers := by exact_mod_cast hn
  obtain ⟨st, sent, hloop, hres, hcnt, hcase⟩ := master_do_compute_windows (num_workers : Int)
    (slice_blocks num_workers inp.SeqLength inp.SeqAt) inp.SeqLength inp.SignalLength hn'
  have hfun : hash_match_at inp = window_matches inp.SeqAt
      (hash_range inp.SignalAt 1 (1 + inp.SignalLength)) inp.SignalLength :=
    funext (hash_match_at_eq inp (by omega))
  have hsiglen : (hash_range inp.SignalAt 1 (1 + inp.SignalLength)).length =
      inp.SignalLength := by
    rw [hash_range_length inp.SignalAt (by omega)]; ring
  have hmap : (sent ++ List.replicate ((num_workers : Int) - sent.length).toNat
        (⟨st.hash, st.hash_begin, st.hash_end, 0, 0⟩ : request_t)).mapM
        (worker_t.do_compute inp (hash_range inp.SignalAt 1 (1 + inp.SignalLength))) =
      some ((sent ++ List.replicate ((num_workers : Int) - sent.length).toNat
        (⟨st.hash, st.hash_begin, st.hash_end, 0, 0⟩ : request_t)).map
        (fun r => ((0 : Nat),
          window_count inp (hash_range inp.SignalAt 1 (1 + inp.SignalLength)) r))) := by
    apply mapM_eq_some_map
    intro r hr
    rcases List.mem_append.1 hr with h | h
    · rcases hcase with ⟨hp, htile⟩ | ⟨-, hnil⟩
      · obtain ⟨h1, h2, -, -⟩ := windows_tile_mem _ _ _ htile r h
        have hok := do_compute_loop_context num_workers hn inp.SeqLength hlen hlen'
          inp.SeqAt hseq inp.SignalLength _
          (le_trans (by omega) (possible_per_worker_bounds hp hn').1) _ _ _ _ _ hloop
          (initial_context_invariant num_workers hn inp.SeqLength hlen inp.SeqAt
            inp.SignalLength (by omega))
          (by intro r hr; simp at hr) r h
        rw [worker_do_compute_count inp hseq _ hm (by omega) hsiglen r hok h1 h2]
        unfold window_count
        rw [if_neg (by omega)]
      · rw [hnil] at h; simp at h
    · have hz := (List.mem_replicate.1 h).2
      have hb : r.begin = 0 := by rw [hz]
      rw [worker_do_compute_empty inp _ r hb]
      unfold window_count
      rw [if_pos hb]
  have hrep : worker_replies num_workers inp =
      some ((sent ++ List.replicate ((num_workers : Int) - sent.length).toNat
        (⟨st.hash, st.hash_begin, st.hash_end, 0, 0⟩ : request_t)).map
        (fun r => ((0 : Nat),
          window_count inp (hash_range inp.SignalAt 1 (1 + inp.SignalLength)) r))) := by
    unfold worker_replies
    rw [worker_parts_eq_slice_blocks num_workers hn _ (by omega) inp.SignalAt]
    simp only []
    rw [master_do_hash_signal_eq num_workers hn inp (by omega) hsig]
    simp only []
    rw [worker_parts_eq_slice_blocks num_workers hn _ hlen inp.SeqAt]
    simp only []
    rw [hres]
    simp only []
    exact hmap
  refine ⟨_, hrep, ?_, ?_⟩
  · rw [List.length_map, List.length_append, List.length_replicate]
    omega
  · unfold master_t.do_collect hash_occurrences
    rw [List.map_append, List.foldl_append, empty_requests_foldl inp _ _ rfl, hfun]
    rcases hcase with ⟨hp, htile⟩ | ⟨hp, hnil⟩
    · rw [window_count_foldl inp _ sent _ _ 0 htile, zero_add,
        show (inp.SeqLength - inp.SignalLength + 1 + 1 - 1).toNat =
          (inp.SeqLength - inp.SignalLength + 1).toNat by omega]
    · rw [hnil, show (inp.SeqLength - inp.SignalLength + 1).toNat = 0 by omega]
      rfl


theorem input_of_SeqAt_nonneg (sequence signal : List Int) (h : ∀ x ∈ sequence, 0 ≤ x)
    (i : Int) : 0 ≤ (input_of sequence signal).SeqAt i := by
  show 0 ≤ (if 1 ≤ i then sequence.getD (i - 1).toNat 0 else 0)
  split
  · rw [List.getD_eq_getElem?_getD]
    cases hx : sequence[(i - 1).toNat]? with
    | none => exact le_refl _
    | some x => exact h x (List.getElem?_mem hx)
  · exact le_refl _

theorem input_of_SignalAt_nonneg (sequence signal : List Int) (h : ∀ x ∈ signal, 0 ≤ x)
    (i : Int) : 0 ≤ (input_of sequence signal).SignalAt i := by
  show 0 ≤ (if 1 ≤ i then signal.getD (i - 1).toNat 0 else 0)
  split
  · rw [List.getD_eq_getElem?_getD]
    cases hx : signal[(i - 1).toNat]? with
    | none => exact le_refl _
    | some x => exact h x (List.getElem?_mem hx)
  · exact le_refl _

/-! ## The counts that the workers report -/

set_option maxRecDepth 100000

/-- C6, counterexample: the counts that the workers report do not always add up to the
number of occurrences. With one worker, the sequence `10386, 1, 5` and the signal
`1, 445, 1` have the same residues under both primes, so the worker reports 1 although
the signal does not occur; and on the negative tokens `-1, -1` with the signal `-1`,
three workers report 1, 0 and 0 although the signal occurs twice. -/
theorem reported_count_counterexample :
    (worker_replies 1 (input_of [10386, 1, 5] [1, 445, 1]) = some [(0, 1)] ∧
        master_t.do_collect [(0, 1)] = 1 ∧
        occurrences (input_of [10386, 1, 5] [1, 445, 1]) = 0) ∧
      (worker_replies 3 (input_of [-1, -1] [-1]) = some [(0, 1), (0, 0), (0, 0)] ∧
        master_t.do_collect [(0, 1), (0, 0), (0, 0)] = 1 ∧
        occurrences (input_of [-1, -1] [-1]) = 2) := by
  decide

/-- C6, amended: for every `num_workers >= 1`, every signal of at least one token and
every sequence (of a length in `[0, 2^63)`), all tokens non-negative, every worker
answers the request planned for it by `master_t::do_compute`, and the counts of the
`num_workers` replies add up to the number of start positions `p` in
`[1, SeqLength - SignalLength + 1]` at which the hash of the window equals the hash of
the signal; this sum is what `do_collect` computes from the replies, and every start
position at which the signal occurs is among the positions counted. The statement is
about the replies of the workers; it does not say that the coordinator gets from
`master_t::do_compute`, which has no `return` statement, to `do_collect`. -/
theorem reported_count (num_workers : Nat) (inp : input_t) (hn : 1 ≤ num_workers)
    (hm : 1 ≤ inp.SignalLength) (hlen : 0 ≤ inp.SeqLength) (hlen' : inp.SeqLength < 2 ^ 63)
    (hseq : ∀ i, 0 ≤ inp.SeqAt i) (hsig : ∀ i, 0 ≤ inp.SignalAt i) :
    ∃ replies, worker_replies num_workers inp = some replies ∧
      replies.length = num_workers ∧
      (replies.map Prod.snd).sum = hash_occurrences inp ∧
      master_t.do_collect replies = hash_occurrences inp ∧
      occurrences inp ≤ hash_occurrences inp := by
  obtain ⟨replies, h1, h2, h3⟩ :=
    worker_replies_count num_workers inp hn hm hlen hlen' hseq hsig
  exact ⟨replies, h1, h2, by rw [← do_collect_eq_sum, h3], h3,
    occurrences_le_hash_occurrences inp (by omega)⟩

/-- The scenario of C6: sequence `ABABAB`, signal `AB`, one worker, which reports 3. -/
theorem reported_count_witness :
    (∃ replies, worker_replies 1 (input_of [65, 66, 65, 66, 65, 66] [65, 66]) = some replies ∧
        replies.length = 1 ∧
        (replies.map Prod.snd).sum =
          hash_occurrences (input_of [65, 66, 65, 66, 65, 66] [65, 66]) ∧
        master_t.do_collect replies =
          hash_occurrences (input_of [65, 66, 65, 66, 65, 66] [65, 66]) ∧
        occurrences (input_of [65, 66, 65, 66, 65, 66] [65, 66]) ≤
          hash_occurrences (input_of [65, 66, 65, 66, 65, 66] [65, 66])) ∧
      hash_occurrences (input_of [65, 66, 65, 66, 65, 66] [65, 66]) = 3 ∧
      occurrences (input_of [65, 66, 65, 66, 65, 66] [65, 66]) = 3 ∧
      worker_replies 1 (input_of [65, 66, 65, 66, 65, 66] [65, 66]) = some [(0, 3)] :=
  ⟨reported_count 1 (input_of [65, 66, 65, 66, 65, 66] [65, 66]) (by decide) (by decide)
      (by decide) (by decide)
      (input_of_SeqAt_nonneg _ _ (by decide)) (input_of_SignalAt_nonneg _ _ (by decide)),
    by decide, by decide, by decide⟩

/-- C8, counterexample: on the negative tokens `-1, -1` with the signal `-1` the sum of
the workers' counts depends on the number of workers: three workers report 1, 0 and 0,
one worker reports 2. -/
theorem reported_count_independent_counterexample :
    worker_replies 3 (input_of [-1, -1] [-1]) = some [(0, 1), (0, 0), (0, 0)] ∧
      worker_replies 1 (input_of [-1, -1] [-1]) = some [(0, 2)] ∧
      ((([(0, 1), (0, 0), (0, 0)] : List (Nat × Nat)).map Prod.snd).sum = 1 ∧
        master_t.do_collect [(0, 1), (0, 0), (0, 0)] = 1 ∧
        master_t.do_collect [(0, 2)] = 2) := by
  decide

/-- C8, amended: for every sequence and signal of non-negative tokens (sequence length
in `[0, 2^63)`, signal of at least one token) and every `num_workers >= 1`, each of the
`num_workers` workers reports a count, and the sum of these counts is the count that
the single worker reports when the same input is run with one worker; `do_collect`
computes the same total from the two lists of replies. -/
theorem reported_count_independent_of_workers (num_workers : Nat) (inp : input_t)
    (hn : 1 ≤ num_workers) (hm : 1 ≤ inp.SignalLength) (hlen : 0 ≤ inp.SeqLength)
    (hlen' : inp.SeqLength < 2 ^ 63) (hseq : ∀ i, 0 ≤ inp.SeqAt i)
    (hsig : ∀ i, 0 ≤ inp.SignalAt i) :
    ∃ replies reply, worker_replies num_workers inp = some replies ∧
      worker_replies 1 inp = some [reply] ∧
      replies.length = num_workers ∧
      (replies.map Prod.snd).sum = reply.2 ∧
      master_t.do_collect replies = master_t.do_collect [reply] := by
  obtain ⟨replies, h1, h2, h3⟩ :=
    worker_replies_count num_workers inp hn hm hlen hlen' hseq hsig
  obtain ⟨single, g1, g2, g3⟩ :=
    worker_replies_count 1 inp (le_refl _) hm hlen hlen' hseq hsig
  obtain ⟨reply, hreply⟩ := List.length_eq_one.1 g2
  rw [hreply] at g1 g3
  have hone : master_t.do_collect [reply] = reply.2 := by
    rw [do_collect_eq_sum]; simp
  exact ⟨replies, reply, h1, g1, h2, by rw [← do_collect_eq_sum, h3, ← g3, hone],
    by rw [h3, g3]⟩

/-- The scenario of C8: sequence `AAAA`, signal `AA`; two workers report 2 and 1, one
worker reports 3. -/
theorem reported_count_independent_of_workers_witness :
    (∃ replies reply, worker_replies 2 (input_of [65, 65, 65, 65] [65, 65]) = some replies ∧
        worker_replies 1 (input_of [65, 65, 65, 65] [65, 65]) = some [reply] ∧
        replies.length = 2 ∧
        (replies.map Prod.snd).sum = reply.2 ∧
        master_t.do_collect replies = master_t.do_collect [reply]) ∧
      worker_replies 2 (input_of [65, 65, 65, 65] [65, 65]) = some [(0, 2), (0, 1)] ∧
      worker_replies 1 (input_of [65, 65, 65, 65] [65, 65]) = some [(0, 3)] :=
  ⟨reported_count_independent_of_workers 2 (input_of [65, 65, 65, 65] [65, 65]) (by decide)
      (by decide) (by decide) (by decide)
      (input_of_SeqAt_nonneg _ _ (by decide)) (input_of_SignalAt_nonneg _ _ (by decide)),
    by decide, by decide⟩


theorem master_do_hash_signal_isSome (num_workers : Nat) (hn : 1 ≤ num_workers)
    (inp : input_t) (hm : 0 ≤ inp.SignalLength) :
    ∃ hash_signal,
      master_t.do_hash_signal (slice_blocks num_workers inp.SignalLength inp.SignalAt)
        inp.SignalLength = some hash_signal := by
  have hn' : (1 : Int) ≤ num_workers := by exact_mod_cast hn
  unfold master_t.do_hash_signal
  simp only []
  have hfold := slices_foldl_length num_workers hn inp.SignalLength hm inp.SignalAt num_workers
  rw [slice_begin_last hn' hm] at hfold
  unfold slice_blocks
  rw [if_pos (by rw [hfold]; ring)]
  exact ⟨_, rfl⟩

theorem empty_replies_foldl : ∀ (k : Nat) (acc : Nat),
    (List.replicate k ((0 : Nat), (0 : Nat))).foldl (fun sum cur => sum + cur.2) acc = acc := by
  intro k
  induction k with
  | zero => intro acc; rfl
  | succ k ih => intro acc; rw [List.replicate_succ, List.foldl_cons, ih]; rfl

/-- C9, as far as the source determines it: when the signal is longer than the sequence
(`possible <= 0`), for every `num_workers >= 1` and whatever the tokens are,
`master_t::do_compute` sends no non-empty window: each of the `num_workers` workers
receives a request with `begin = end = 0` and answers with the count 0, so that the
counts add up to 0. Whether the coordinator then computes this total is not determined:
`master_t::do_compute` has no `return` statement, and the statement does not say that
the coordinator gets to `do_collect`. -/
theorem signal_longer_than_sequence (num_workers : Nat) (inp : input_t)
    (hn : 1 ≤ num_workers) (hlen : 0 ≤ inp.SeqLength)
    (hlong : inp.SeqLength < inp.SignalLength) :
    ∃ hash_seq requests replies,
      worker_parts num_workers inp.SeqLength inp.SeqAt = some hash_seq ∧
      master_t.do_compute num_workers hash_seq inp.SeqLength inp.SignalLength =
        some requests ∧
      requests.length = num_workers ∧
      (∀ r ∈ requests, r.begin = 0 ∧ r.end_ = 0) ∧
      worker_replies num_workers inp = some replies ∧
      replies = List.replicate num_workers (0, 0) ∧
      master_t.do_collect replies = 0 := by
  have hn' : (1 : Int) ≤ num_workers := by exact_mod_cast hn
  obtain ⟨st, sent, -, hres, -, hcase⟩ := master_do_compute_windows (num_workers : Int)
    (slice_blocks num_workers inp.SeqLength inp.SeqAt) inp.SeqLength inp.SignalLength hn'
  have hnil : sent = [] := by
    rcases hcase with ⟨hp, -⟩ | ⟨-, h⟩
    · omega
    · exact h
  rw [hnil, List.nil_append, List.length_nil] at hres
  simp only [Nat.cast_zero, sub_zero, Int.toNat_ofNat] at hres
  obtain ⟨hash_signal, hsignal⟩ := master_do_hash_signal_isSome num_workers hn inp (by omega)
  refine ⟨_, _, _, worker_parts_eq_slice_blocks num_workers hn _ hlen inp.SeqAt, hres,
    List.length_replicate _ _, ?_, ?_, rfl, ?_⟩
  · intro r hr
    rw [(List.mem_replicate.1 hr).2]
    exact ⟨rfl, rfl⟩
  · unfold worker_replies
    rw [worker_parts_eq_slice_blocks num_workers hn _ (by omega) inp.SignalAt]
    simp only []
    rw [hsignal]
    simp only []
    rw [worker_parts_eq_slice_blocks num_workers hn _ hlen inp.SeqAt]
    simp only []
    rw [hres]
    simp only []
    rw [mapM_eq_some_map _ (fun _ => ((0 : Nat), (0 : Nat))) _
      (fun r hr => worker_do_compute_empty inp hash_signal r
        (by rw [(List.mem_replicate.1 hr).2]))]
    simp only [List.map_replicate]
  · unfold master_t.do_collect
    rw [empty_replies_foldl]

theorem signal_longer_than_sequence_witness :
    (∃ hash_seq requests replies,
      worker_parts 3 (input_of [65, 66] [65, 66, 65]).SeqLength
        (input_of [65, 66] [65, 66, 65]).SeqAt = some hash_seq ∧
      master_t.do_compute 3 hash_seq (input_of [65, 66] [65, 66, 65]).SeqLength
        (input_of [65, 66] [65, 66, 65]).SignalLength = some requests ∧
      requests.length = 3 ∧
      (∀ r ∈ requests, r.begin = 0 ∧ r.end_ = 0) ∧
      worker_replies 3 (input_of [65, 66] [65, 66, 65]) = some replies ∧
      replies = List.replicate 3 (0, 0) ∧
      master_t.do_collect replies = 0) ∧
    worker_replies 3 (input_of [65, 66] [65, 66, 65]) = some [(0, 0), (0, 0), (0, 0)] :=
  ⟨signal_longer_than_sequence 3 (input_of [65, 66] [65, 66, 65]) (by decide) (by decide)
    (by decide), by decide⟩


/-! ## Equality, trimming and construction of blocks -/

/-- C11: equality of hash blocks. For two blocks of equal length `operator==` returns,
and it returns `true` exactly when the residues agree under both primes; for two blocks
of different length the assertion fails (no result, not `false`). -/
theorem operator_eq_spec (A B : hash_block_t) :
    (A.length = B.length →
        (operator_eq A B = some true ↔ ∀ idx, A.hash idx = B.hash idx) ∧
        (operator_eq A B = some false ↔ ¬ ∀ idx, A.hash idx = B.hash idx)) ∧
      (A.length ≠ B.length → operator_eq A B = none) := by
  have hall : (∀ idx : Fin 2, A.hash idx = B.hash idx) ↔
      (A.hash 0 = B.hash 0 ∧ A.hash 1 = B.hash 1) := by
    constructor
    · intro h; exact ⟨h 0, h 1⟩
    · intro h idx; fin_cases idx
      · exact h.1
      · exact h.2
  constructor
  · intro h
    rw [operator_eq_of_length h, hall]
    simp
  · intro h
    unfold hash_block_t.operator_eq
    rw [if_neg h]

theorem operator_eq_spec_witness :
    ((operator_eq sample_block_a sample_block_a = some true ↔
          ∀ idx, sample_block_a.hash idx = sample_block_a.hash idx) ∧
        (operator_eq sample_block_a sample_block_a = some false ↔
          ¬ ∀ idx, sample_block_a.hash idx = sample_block_a.hash idx)) ∧
      operator_eq sample_block_a sample_block_b = none :=
  ⟨(operator_eq_spec sample_block_a sample_block_a).1 rfl,
    (operator_eq_spec sample_block_a sample_block_b).2 (by decide)⟩

/-- C12, counterexample: `trim` contains no assertion. For the block `A` of length 1
with residues 5 and the block `B` of length 3 with residues 7, `A.trim(B)` returns the
block of length `-2` whose residues are computed with the power
`base ^ (2^64 - 2)` (the length difference converted to `uint64_t`). -/
theorem trim_longer_counterexample :
    (hash_block_t.trim short_block long_block).length = -2 ∧
      (hash_block_t.trim short_block long_block).hash 0 = 403957844 ∧
      (hash_block_t.trim short_block long_block).hash 1 = 176958838 := by
  decide

/-- C12, amended: for well-formed blocks `A` and `B` with `B.length > A.length` (both
lengths `ssize_t` values), `A.trim(B)` does not abort; it returns the block of length
`A.length - B.length` whose residue is, for each pair of `setup`, the representative in
`[0, prime)` of `A.hash[idx] - base ^ (2^64 + A.length - B.length) * B.hash[idx]`. -/
theorem trim_longer_spec (A B : hash_block_t) (hA : A.wf) (hB : B.wf)
    (hlt : A.length < B.length) (hlen : B.length < 2 ^ 63) :
    (hash_block_t.trim A B).length = A.length - B.length ∧
      ∀ idx, (hash_block_t.trim A B).hash idx =
          (A.hash idx -
            (setup idx).base ^ (2 ^ 64 + (A.length - B.length)).toNat * B.hash idx) %
              (setup idx).prime ∧
        0 ≤ (hash_block_t.trim A B).hash idx ∧
        (hash_block_t.trim A B).hash idx < (setup idx).prime := by
  refine ⟨rfl, fun idx => ?_⟩
  have hA0 := hA.1
  have hw : wrapU64 (A.length - B.length) = 2 ^ 64 + (A.length - B.length) := by
    unfold wrapU64; omega
  have h : (hash_block_t.trim A B).hash idx =
      (A.hash idx -
        (setup idx).base ^ (2 ^ 64 + (A.length - B.length)).toNat * B.hash idx) %
          (setup idx).prime := by
    unfold hash_block_t.trim
    rw [trim_by_hash hA.2 hB.2 (fun i => make_powers_range i _), make_powers_eq, hw]
    exact Int.ModEq.sub_left _ ((Int.mod_modEq _ _).mul_right _)
  rw [h]
  exact ⟨rfl, emod_range idx _⟩

theorem trim_longer_spec_witness :
    (hash_block_t.trim short_block long_block).length =
        short_block.length - long_block.length ∧
      ∀ idx, (hash_block_t.trim short_block long_block).hash idx =
          (short_block.hash idx -
            (setup idx).base ^ (2 ^ 64 + (short_block.length - long_block.length)).toNat *
              long_block.hash idx) % (setup idx).prime ∧
        0 ≤ (hash_block_t.trim short_block long_block).hash idx ∧
        (hash_block_t.trim short_block long_block).hash idx < (setup idx).prime :=
  trim_longer_spec short_block long_block
    ⟨by decide, fun idx => by fin_cases idx <;> decide⟩
    ⟨by decide, fun idx => by fin_cases idx <;> decide⟩ (by decide) (by decide)

/-- C13, counterexample: the token `-1` gives the residue `-1` under both primes, which
is not in `[0, prime)` and is not `(-1) mod prime = prime - 1`. -/
theorem of_value_negative_counterexample :
    (of_value (-1)).hash 0 = -1 ∧ (of_value (-1)).hash 1 = -1 ∧
      (-1 : Int) % (setup 0).prime = 1073741670 ∧ (-1 : Int) % (setup 1).prime = 1073741662 := by
  decide

/-- C13, amended: for every token value `t >= 0` the block `hash_block_t{t}` has length
1 and, for each of the two primes, the residue `t mod prime`, which lies in
`[0, prime)`. -/
theorem of_value_spec (t : Int) (ht : 0 ≤ t) :
    (of_value t).length = 1 ∧
      ∀ idx, (of_value t).hash idx = t % (setup idx).prime ∧
        0 ≤ (of_value t).hash idx ∧ (of_value t).hash idx < (setup idx).prime := by
  refine ⟨rfl, fun idx => ?_⟩
  rw [of_value_hash idx ht]
  exact ⟨rfl, emod_range idx _⟩

theorem of_value_spec_witness :
    (of_value 2000000000).length = 1 ∧
      ∀ idx, (of_value 2000000000).hash idx = 2000000000 % (setup idx).prime ∧
        0 ≤ (of_value 2000000000).hash idx ∧
        (of_value 2000000000).hash idx < (setup idx).prime :=
  of_value_spec 2000000000 (by decide)

/-- C14: the residue-range invariant. The default block has length 0 and residues 0 in
range, and when every residue of `A` and of `B` and every entry of the power table lies
in `[0, prime)`, so does every residue of `A + B`, of `A.extend(B, powers)`, of
`A.trim(B, powers)` and of `A.trim(B)`. -/
theorem residue_range_invariant (A B : hash_block_t) (powers : hash_array_t)
    (hA : residues_in_range A) (hB : residues_in_range B)
    (hp : ∀ idx, 0 ≤ powers idx ∧ powers idx < (setup idx).prime) :
    empty.wf ∧ residues_in_range (operator_plus A B) ∧
      residues_in_range (extend A B powers) ∧ residues_in_range (trim_by A B powers) ∧
      residues_in_range (hash_block_t.trim A B) := by
  refine ⟨empty_wf, operator_plus_residues hA hB, ?_, ?_, ?_⟩
  · intro idx
    rw [extend_hash hA hB hp]
    exact emod_range idx _
  · intro idx
    rw [trim_by_hash hA hB hp]
    exact emod_range idx _
  · intro idx
    unfold hash_block_t.trim
    rw [trim_by_hash hA hB (fun i => make_powers_range i _)]
    exact emod_range idx _

theorem residue_range_invariant_witness :
    empty.wf ∧ residues_in_range (operator_plus sample_block_a sample_block_b) ∧
      residues_in_range (extend sample_block_a sample_block_b sample_powers) ∧
      residues_in_range (trim_by sample_block_a sample_block_b sample_powers) ∧
      residues_in_range (hash_block_t.trim sample_block_a sample_block_b) :=
  residue_range_invariant sample_block_a sample_block_b sample_powers
    sample_block_a_wf.2 sample_block_b_wf.2 (fun idx => by fin_cases idx <;> decide)

/-- C20: the signal-hash merge. For every signal of non-negative tokens and every
`num_workers >= 1`, every worker computes its fragment (`worker_hash_subsequence`), and
adding the fragments left to right in ascending worker id gives exactly
`hash_sequence(1, 1 + SignalLength, SignalAt)`; the merged block has length
`SignalLength`, so the assertion of `master_t::do_hash_signal` holds and that block is
what it broadcasts. -/
theorem signal_hash_merge (num_workers : Nat) (inp : input_t) (hn : 1 ≤ num_workers)
    (hm : 0 ≤ inp.SignalLength) (hsig : ∀ i, 0 ≤ inp.SignalAt i) :
    ∃ parts whole,
      worker_parts num_workers inp.SignalLength inp.SignalAt = some parts ∧
      hash_sequence 1 (1 + inp.SignalLength) inp.SignalAt = some whole ∧
      parts.foldl operator_plus empty = whole ∧
      whole.length = inp.SignalLength ∧
      master_t.do_hash_signal parts inp.SignalLength = some whole := by
  have hn' : (1 : Int) ≤ num_workers := by exact_mod_cast hn
  have hfold := slices_foldl num_workers hn inp.SignalLength hm inp.SignalAt hsig num_workers
  rw [slice_begin_last hn' hm] at hfold
  exact ⟨_, _, worker_parts_eq_slice_blocks num_workers hn _ hm inp.SignalAt,
    hash_sequence_eq inp.SignalAt (by omega), hfold,
    by rw [hash_range_length inp.SignalAt (by omega)]; ring,
    master_do_hash_signal_eq num_workers hn inp hm hsig⟩

theorem signal_hash_merge_witness :
    ∃ parts whole,
      worker_parts 2 (input_of [] [65, 66, 65]).SignalLength
        (input_of [] [65, 66, 65]).SignalAt = some parts ∧
      hash_sequence 1 (1 + (input_of [] [65, 66, 65]).SignalLength)
        (input_of [] [65, 66, 65]).SignalAt = some whole ∧
      parts.foldl operator_plus empty = whole ∧
      whole.length = (input_of [] [65, 66, 65]).SignalLength ∧
      master_t.do_hash_signal parts (input_of [] [65, 66, 65]).SignalLength = some whole :=
  signal_hash_merge 2 (input_of [] [65, 66, 65]) (by decide) (by decide)
    (input_of_SignalAt_nonneg _ _ (by decide))

/-! ## The configured hash pairs -/

theorem no_divisor_in_sound (n : Nat) : ∀ (depth lo : Nat), no_divisor_in n depth lo = true →
    ∀ m, lo ≤ m → m < lo + 2 ^ depth → ¬ m ∣ n := by
  intro depth
  induction depth with
  | zero =>
    intro lo h m h1 h2 hdvd
    have hm : m = lo := by simp at h2; omega
    subst hm
    simp only [no_divisor_in, bne_iff_ne, ne_eq] at h
    exact h (Nat.mod_eq_zero_of_dvd hdvd)
  | succ depth ih =>
    intro lo h m h1 h2
    simp only [no_divisor_in, Bool.and_eq_true] at h
    by_cases hm : m < lo + 2 ^ depth
    · exact ih lo h.1 m h1 hm
    · exact ih _ h.2 m (by omega) (by rw [pow_succ] at h2; omega)

/-- A number below `32769 ^ 2` without a divisor in `[2, 32770)` is prime. -/
theorem prime_of_no_divisor (n : Nat) (h2 : 2 ≤ n) (hsq : n < 32769 ^ 2)
    (h : no_divisor_in n 15 2 = true) : Nat.Prime n := by
  rw [Nat.prime_def_le_sqrt]
  refine ⟨h2, fun m hm1 hm2 => no_divisor_in_sound n 15 2 h m hm1 ?_⟩
  have : Nat.sqrt n < 32769 := Nat.sqrt_lt'.2 hsq
  have e : (2 : Nat) ^ 15 = 32768 := by norm_num
  omega

theorem prime_1073741671 : Nat.Prime 1073741671 :=
  prime_of_no_divisor _ (by decide) (by decide) (by decide)

theorem prime_1073741663 : Nat.Prime 1073741663 :=
  prime_of_no_divisor _ (by decide) (by decide) (by decide)

/-- C15: the two configured hash pairs are valid. The moduli are `2^30 - 153` and
`2^30 - 161`, the bases `2^29 - 43` and `2^29 - 3`; both moduli are prime and below
`2^31`, and each base lies in `[1, modulus)`. -/
theorem setup_valid :
    ((setup 0).prime = 2 ^ 30 - 153 ∧ (setup 0).base = 2 ^ 29 - 43) ∧
      ((setup 1).prime = 2 ^ 30 - 161 ∧ (setup 1).base = 2 ^ 29 - 3) ∧
      ∀ idx, 0 < (setup idx).prime ∧ Nat.Prime (setup idx).prime.toNat ∧
        (setup idx).prime < 2 ^ 31 ∧
        1 ≤ (setup idx).base ∧ (setup idx).base < (setup idx).prime := by
  refine ⟨by decide, by decide, fun idx => ?_⟩
  fin_cases idx
  · exact ⟨by decide, prime_1073741671, by decide, by decide, by decide⟩
  · exact ⟨by decide, prime_1073741663, by decide, by decide, by decide⟩

/-! ## The slice of a worker -/

/-- `block_length` is the quotient rounded up. -/
theorem block_length_eq_ceil {num_workers length : Int} (hn : 1 ≤ num_workers)
    (hlen : 0 ≤ length) :
    block_length num_workers length = ⌈(length : ℚ) / (num_workers : ℚ)⌉ := by
  symm
  rw [Int.ceil_eq_iff]
  have hpos : (0 : ℚ) < (num_workers : ℚ) := by
    exact_mod_cast (show (0 : Int) < num_workers by omega)
  have h2 := (block_length_bounds hn hlen).2
  have h1 : (block_length num_workers length - 1) * num_workers < length := by
    have := Int.ediv_mul_le (length + num_workers - 1) (show num_workers ≠ 0 by omega)
    have e : block_length num_workers length = (length + num_workers - 1) / num_workers := rfl
    rw [sub_mul, one_mul, e]
    omega
  constructor
  · rw [lt_div_iff₀ hpos]
    exact_mod_cast h1
  · rw [div_le_iff₀ hpos]
    exact_mod_cast h2

/-- C19, counterexample: for `len = 4` and 3 workers, worker 0 hashes the two positions
`[1, 3)` and worker 2 the empty range `[5, 5)`, whereas with `floor(len / numWorkers) = 1`
the ranges would be `[1, 2)` and `[3, 4)`. -/
theorem worker_slice_counterexample :
    (worker_t.worker_hash_subsequence 0 3 4 (fun _ => 65) = hash_sequence 1 3 (fun _ => 65) ∧
        (worker_t.worker_hash_subsequence 0 3 4 (fun _ => 65)).map hash_block_t.length =
          some 2 ∧
        (hash_sequence (min (1 + ⌊((4 : Int) : ℚ) / ((3 : Int) : ℚ)⌋ * 0) (1 + 4))
          (min (1 + ⌊((4 : Int) : ℚ) / ((3 : Int) : ℚ)⌋ * (0 + 1)) (1 + 4))
          (fun _ => 65)).map hash_block_t.length = some 1) ∧
      (worker_t.worker_hash_subsequence 2 3 4 (fun _ => 65) = hash_sequence 5 5 (fun _ => 65) ∧
        (worker_t.worker_hash_subsequence 2 3 4 (fun _ => 65)).map hash_block_t.length =
          some 0) := by
  have hfloor : ⌊((4 : Int) : ℚ) / ((3 : Int) : ℚ)⌋ = 1 := by
    rw [Int.floor_eq_iff]; norm_num
  rw [hfloor]
  exact ⟨⟨by rfl, by decide, by decide⟩, by rfl, by decide⟩

/-- C19, amended: for every length `len >= 0`, `num_workers >= 1` and worker id in
`[0, num_workers)`, `worker_hash_subsequence` hashes the index range
`[min(1 + q * id, 1 + len), min(1 + q * (id + 1), 1 + len))` with
`q = ceil(len / num_workers)`: the range is well formed (`begin <= end`), and the block
sent is the `hash_sequence` of that range, of length `end - begin`. -/
theorem worker_slice_spec (worker_id num_workers length : Int) (at_ : Int → Int)
    (hn : 1 ≤ num_workers) (hlen : 0 ≤ length) (hid : 0 ≤ worker_id)
    (_hid' : worker_id < num_workers) :
    worker_t.worker_hash_subsequence worker_id num_workers length at_ =
        hash_sequence
          (min (1 + ⌈(length : ℚ) / (num_workers : ℚ)⌉ * worker_id) (1 + length))
          (min (1 + ⌈(length : ℚ) / (num_workers : ℚ)⌉ * (worker_id + 1)) (1 + length)) at_ ∧
      min (1 + ⌈(length : ℚ) / (num_workers : ℚ)⌉ * worker_id) (1 + length) ≤
        min (1 + ⌈(length : ℚ) / (num_workers : ℚ)⌉ * (worker_id + 1)) (1 + length) ∧
      1 ≤ min (1 + ⌈(length : ℚ) / (num_workers : ℚ)⌉ * worker_id) (1 + length) ∧
      ∃ block, worker_t.worker_hash_subsequence worker_id num_workers length at_ = some block ∧
        block.length =
          min (1 + ⌈(length : ℚ) / (num_workers : ℚ)⌉ * (worker_id + 1)) (1 + length) -
            min (1 + ⌈(length : ℚ) / (num_workers : ℚ)⌉ * worker_id) (1 + length) := by
  rw [← block_length_eq_ceil hn hlen]
  have hmono := slice_begin_mono hn hlen worker_id
  have hone := slice_begin_ge_one hn hlen hid
  refine ⟨rfl, hmono, hone, hash_range at_ (slice_begin num_workers length worker_id)
    (slice_begin num_workers length (worker_id + 1)), ?_, ?_⟩
  · rw [worker_hash_subsequence_eq]
    exact hash_sequence_eq at_ hmono
  · exact hash_range_length at_ hmono

theorem worker_slice_spec_witness :
    worker_t.worker_hash_subsequence 2 3 4 (fun _ => 65) =
        hash_sequence
          (min (1 + ⌈((4 : Int) : ℚ) / ((3 : Int) : ℚ)⌉ * 2) (1 + 4))
          (min (1 + ⌈((4 : Int) : ℚ) / ((3 : Int) : ℚ)⌉ * (2 + 1)) (1 + 4)) (fun _ => 65) ∧
      min (1 + ⌈((4 : Int) : ℚ) / ((3 : Int) : ℚ)⌉ * 2) (1 + 4) ≤
        min (1 + ⌈((4 : Int) : ℚ) / ((3 : Int) : ℚ)⌉ * (2 + 1)) (1 + 4) ∧
      1 ≤ min (1 + ⌈((4 : Int) : ℚ) / ((3 : Int) : ℚ)⌉ * 2) (1 + 4) ∧
      ∃ block, worker_t.worker_hash_subsequence 2 3 4 (fun _ => 65) = some block ∧
        block.length =
          min (1 + ⌈((4 : Int) : ℚ) / ((3 : Int) : ℚ)⌉ * (2 + 1)) (1 + 4) -
            min (1 + ⌈((4 : Int) : ℚ) / ((3 : Int) : ℚ)⌉ * 2) (1 + 4) :=
  worker_slice_spec 2 3 4 (fun _ => 65) (by decide) (by decide) (by decide) (by decide)

/-! ## Messaging -/

namespace communication

open Message

theorem array_eta (arr : hash_array_t) : (fun idx => if idx = 0 then arr 0 else arr 1) = arr := by
  funext idx
  fin_cases idx <;> rfl

theorem put_hash_block_eq (block : hash_block_t) (buffer : List word_t)
    (queue : List (List word_t)) (current : List word_t) :
    put_hash_block block ⟨buffer, queue, current⟩ =
      ⟨buffer ++ hash_block_words block, queue, current⟩ := by
  simp [put_hash_block, put_array, put_hash_t, put_ssize_t, PutInt, PutLL, hash_block_words]

theorem get_hash_block_eq (block : hash_block_t) (buffer : List word_t)
    (queue : List (List word_t)) (rest : List word_t) :
    get_hash_block ⟨buffer, queue, hash_block_words block ++ rest⟩ =
      Except.ok (block, ⟨buffer, queue, rest⟩) := by
  simp only [get_hash_block, get_array, get_hash_t, get_ssize_t, GetInt, GetLL,
    hash_block_words, List.cons_append, List.nil_append, array_eta]

theorem put_request_eq (rq : request_t) (buffer : List word_t)
    (queue : List (List word_t)) (current : List word_t) :
    put_request rq ⟨buffer, queue, current⟩ = ⟨buffer ++ request_words rq, queue, current⟩ := by
  simp [put_request, put_hash_block_eq, put_ssize_t, PutLL, request_words, hash_block_words]

theorem get_request_eq (rq : request_t) (buffer : List word_t)
    (queue : List (List word_t)) (rest : List word_t) :
    get_request ⟨buffer, queue, request_words rq ++ rest⟩ =
      Except.ok (rq, ⟨buffer, queue, rest⟩) := by
  have h := get_hash_block_eq rq.hash buffer queue
    (word_t.ll rq.hash_begin :: word_t.ll rq.hash_end :: word_t.ll rq.begin ::
      word_t.ll rq.end_ :: rest)
  simp only [hash_block_words, List.cons_append, List.nil_append] at h
  simp only [get_request, request_words, List.cons_append, List.nil_append, h, get_ssize_t,
    GetLL]

/-- C17: record serialisation round-trips. For every request `rq` and every hash block
`block`, `put` appends to the buffer the scalars `hash.length`, `hash[0]`, `hash[1]`,
`hash_begin`, `hash_end`, `begin`, `end` (for a block: `length`, `hash[0]`, `hash[1]`) in
this order and changes nothing else, and `get` on a message that continues with these
scalars returns the record itself and consumes exactly these scalars. -/
theorem record_round_trip (rq : request_t) (block : hash_block_t) (buffer : List word_t)
    (queue : List (List word_t)) (current rest : List word_t) :
    (put_request rq ⟨buffer, queue, current⟩ =
        ⟨buffer ++ [word_t.ll rq.hash.length, word_t.int (rq.hash.hash 0),
          word_t.int (rq.hash.hash 1), word_t.ll rq.hash_begin, word_t.ll rq.hash_end,
          word_t.ll rq.begin, word_t.ll rq.end_], queue, current⟩ ∧
      get_request ⟨buffer, queue, [word_t.ll rq.hash.length, word_t.int (rq.hash.hash 0),
          word_t.int (rq.hash.hash 1), word_t.ll rq.hash_begin, word_t.ll rq.hash_end,
          word_t.ll rq.begin, word_t.ll rq.end_] ++ rest⟩ =
        Except.ok (rq, ⟨buffer, queue, rest⟩)) ∧
      (put_hash_block block ⟨buffer, queue, current⟩ =
        ⟨buffer ++ [word_t.ll block.length, word_t.int (block.hash 0),
          word_t.int (block.hash 1)], queue, current⟩ ∧
      get_hash_block ⟨buffer, queue, [word_t.ll block.length, word_t.int (block.hash 0),
          word_t.int (block.hash 1)] ++ rest⟩ =
        Except.ok (block, ⟨buffer, queue, rest⟩)) :=
  ⟨⟨put_request_eq rq buffer queue current, get_request_eq rq buffer queue rest⟩,
    put_hash_block_eq block buffer queue current, get_hash_block_eq block buffer queue rest⟩

end communication

namespace communication

open Message

theorem put_arg_eq (arg : arg_t) (buffer : List word_t) (queue : List (List word_t))
    (current : List word_t) :
    put_arg arg ⟨buffer, queue, current⟩ = ⟨buffer ++ arg_words arg, queue, current⟩ := by
  cases arg with
  | size value => rfl
  | block value => exact put_hash_block_eq value buffer queue current
  | request value => exact put_request_eq value buffer queue current

theorem get_arg_eq (arg : arg_t) (harg : ∀ v, arg = arg_t.size v → 0 ≤ v ∧ v < 2 ^ 64)
    (buffer : List word_t) (queue : List (List word_t)) (rest : List word_t) :
    get_arg arg.kind ⟨buffer, queue, arg_words arg ++ rest⟩ =
      Except.ok (arg, ⟨buffer, queue, rest⟩) := by
  cases arg with
  | size value =>
    have hv := harg value rfl
    have hround : wrapU64 (wrap64 value) = value := by
      unfold wrapU64 wrap64; omega
    simp only [arg_t.kind, get_arg, get_size_t, GetLL, arg_words, List.cons_append,
      List.nil_append, hround]
  | block value =>
    simp only [arg_t.kind, get_arg, arg_words, get_hash_block_eq]
  | request value =>
    simp only [arg_t.kind, get_arg, arg_words, get_request_eq]

theorem _send_eq : ∀ (args : List arg_t) (buffer : List word_t) (queue : List (List word_t))
    (current : List word_t),
    _send args ⟨buffer, queue, current⟩ =
      ⟨buffer ++ args.flatMap arg_words, queue, current⟩ := by
  intro args
  induction args with
  | nil => intro buffer queue current; simp [_send]
  | cons arg args ih =>
    intro buffer queue current
    rw [_send, put_arg_eq, ih]
    simp

theorem _recv_eq : ∀ (args : List arg_t),
    (∀ v, arg_t.size v ∈ args → 0 ≤ v ∧ v < 2 ^ 64) →
    ∀ (buffer : List word_t) (queue : List (List word_t)) (rest : List word_t),
      _recv (args.map arg_t.kind) ⟨buffer, queue, args.flatMap arg_words ++ rest⟩ =
        Except.ok (args, ⟨buffer, queue, rest⟩) := by
  intro args
  induction args with
  | nil => intro _ buffer queue rest; rfl
  | cons arg args ih =>
    intro hargs buffer queue rest
    have harg : ∀ v, arg = arg_t.size v → 0 ≤ v ∧ v < 2 ^ 64 := by
      intro v hv
      exact hargs v (by rw [hv]; exact List.mem_cons_self _ _)
    rw [List.map_cons, List.flatMap_cons, List.append_assoc, _recv,
      get_arg_eq arg harg]
    simp only []
    rw [ih (fun v hv => hargs v (List.mem_cons_of_mem _ hv))]

theorem to_int_injective (type type2 : message_type_t) (h : type.to_int = type2.to_int) :
    type = type2 := by
  cases type <;> cases type2 <;> first | rfl | exact absurd h (by decide)

/-- C16: typed receive checks the tag. On a link with no unsent scalars and no message
under way, after `send(node, type, args...)` (every `size_t` argument being a `size_t`
value) the call `recv(node, type, ...)` for pointers of the types of `args` stores
exactly `args` and leaves nothing unread, and `recv(node, type2, ...)` with
`type2 != type` fails its assertion, whatever it was asked to store. -/
theorem recv_checks_tag (type type2 : message_type_t) (args : List arg_t)
    (current : List word_t) (kinds : List arg_kind_t)
    (hargs : ∀ v, arg_t.size v ∈ args → 0 ≤ v ∧ v < 2 ^ 64) :
    recv type (args.map arg_t.kind) (send type args ⟨[], [], current⟩) =
        Except.ok (args, ⟨[], [], []⟩) ∧
      (type2 ≠ type →
        recv type2 kinds (send type args ⟨[], [], current⟩) =
          Except.error failure_t.assertion) := by
  have hsend : send type args ⟨[], [], current⟩ =
      ⟨[], [word_t.int type.to_int :: args.flatMap arg_words], current⟩ := by
    simp [send, put_message_type, PutInt, _send_eq, Send]
  rw [hsend]
  constructor
  · have h := _recv_eq args hargs [] [] []
    rw [List.append_nil] at h
    simp only [recv, Receive, get_message_type, GetInt, if_true, h]
  · intro hne
    have hne' : ¬ type.to_int = type2.to_int :=
      fun h => hne (to_int_injective type type2 h).symm
    simp only [recv, Receive, get_message_type, GetInt, if_neg hne']

theorem recv_checks_tag_witness :
    recv message_type_t.SUBSEQUENCE
        ([arg_t.request sample_request, arg_t.size 3].map arg_t.kind)
        (send message_type_t.SUBSEQUENCE [arg_t.request sample_request, arg_t.size 3]
          ⟨[], [], []⟩) =
        Except.ok ([arg_t.request sample_request, arg_t.size 3], ⟨[], [], []⟩) ∧
      (message_type_t.RESULT ≠ message_type_t.SUBSEQUENCE →
        recv message_type_t.RESULT [arg_kind_t.size]
          (send message_type_t.SUBSEQUENCE [arg_t.request sample_request, arg_t.size 3]
            ⟨[], [], []⟩) =
          Except.error failure_t.assertion) :=
  recv_checks_tag message_type_t.SUBSEQUENCE message_type_t.RESULT
    [arg_t.request sample_request, arg_t.size 3] [] [arg_kind_t.size]
    (fun v hv => by
      simp only [List.mem_cons, List.mem_singleton, List.not_mem_nil, or_false] at hv
      rcases hv with h | h
      · exact absurd h (by simp)
      · have : v = 3 := by injection h
        rw [this]; decide)

end communication

/-! ## The power table -/

/-- C24 (power table). For every exponent `e ≥ 0` and both hash pairs,
`make_powers(e)[idx]` is `base ^ e` modulo the prime; more generally, for every base
`0 ≤ b < prime`, `iterate(b, 1, e, op)` with the modular multiplication `op` of the
pair returns `b ^ e` modulo the prime, and the loop has stopped with that value after
`fuel` iterations as soon as `e < 2 ^ fuel` (64 iterations for a `uint64_t`). -/
theorem power_table (idx : Fin 2) (b e : Int) (he : 0 ≤ e) (hb0 : 0 ≤ b)
    (hb1 : b < (setup idx).prime) :
    make_powers e idx = (setup idx).base ^ e.toNat % (setup idx).prime ∧
    iterate b 1 e (op idx) = b ^ e.toNat % (setup idx).prime ∧
    ∀ fuel : Nat, e < 2 ^ fuel →
      iterate_loop (op idx) fuel b 1 e = b ^ e.toNat % (setup idx).prime := by
  obtain ⟨hp1, -, -, -⟩ := setup_bounds idx
  refine ⟨make_powers_eq idx e, ?_, ?_⟩
  · unfold iterate
    rw [iterate_loop_op idx _ _ _ _ (le_refl _) hb0 hb1 (by omega) (by omega), one_mul]
  · intro fuel hf
    have hlt : e.toNat < 2 ^ fuel := by
      have h1 : ((e.toNat : Nat) : Int) < ((2 ^ fuel : Nat) : Int) := by
        rw [Int.toNat_of_nonneg he]
        push_cast
        exact hf
      exact_mod_cast h1
    rw [iterate_loop_op_of_lt idx _ _ _ _ hlt hb0 hb1 (by omega) (by omega), one_mul]

theorem power_table_witness :
    (0 : Int) ≤ 10 ∧ (0 : Int) ≤ 3 ∧ (3 : Int) < (setup 0).prime ∧
    make_powers 10 0 = (setup 0).base ^ (10 : Int).toNat % (setup 0).prime ∧
    iterate 3 1 10 (op 0) = 3 ^ (10 : Int).toNat % (setup 0).prime ∧
    ∀ fuel : Nat, (10 : Int) < 2 ^ fuel →
      iterate_loop (op 0) fuel 3 1 10 = 3 ^ (10 : Int).toNat % (setup 0).prime :=
  ⟨by decide, by decide, by decide, power_table 0 3 10 (by decide) (by decide) (by decide)⟩

/-! ## Refinements of the planning loop of `master_t::do_compute` -/

/-- An invariant of the local variables that every iteration of the planning loop
preserves holds for the final values, and a property of requests that every iteration
establishes for the request it sends holds for all requests sent. -/
theorem do_compute_loop_invariant (hash_seq : List hash_block_t)
    (num_workers signal_length possible_per_worker : Int)
    (Inv : compute_state_t → Prop) (Q : request_t → Prop)
    (hstep : ∀ st : compute_state_t, Inv st → 1 < st.last →
      ∀ (g : Nat × hash_block_t × Int) (s : Nat × hash_block_t × Int),
        g = master_t.do_compute_grow hash_seq st.last st.hash_block_begin st.hash
          st.hash_begin →
        s = master_t.do_compute_shrink hash_seq st.last signal_length g.1 st.hash_block_end
          g.2.1 st.hash_end →
        Inv { hash := s.2.1, hash_begin := g.2.2, hash_end := s.2.2,
              hash_block_begin := g.1, hash_block_end := s.1,
              last := max 1 (st.last - possible_per_worker),
              worker_cnt := st.worker_cnt + 1 } ∧
          Q ⟨s.2.1, g.2.2, s.2.2, max 1 (st.last - possible_per_worker), st.last⟩) :
    ∀ (fuel : Nat) (st : compute_state_t) (sent : List request_t) (st' : compute_state_t)
      (sent' : List request_t),
      master_t.do_compute_loop hash_seq num_workers signal_length possible_per_worker fuel
          st sent = some (st', sent') →
      Inv st → (∀ r ∈ sent, Q r) → Inv st' ∧ ∀ r ∈ sent', Q r := by
  intro fuel
  induction fuel with
  | zero =>
    intro st sent st' sent' hrun hinv hsent
    rw [master_t.do_compute_loop] at hrun
    split at hrun
    · exact absurd hrun (by simp)
    · simp only [Option.some.injEq, Prod.mk.injEq] at hrun
      rw [← hrun.1, ← hrun.2]; exact ⟨hinv, hsent⟩
  | succ fuel ih =>
    intro st sent st' sent' hrun hinv hsent
    rw [master_t.do_compute_loop] at hrun
    by_cases hlast : st.last > 1
    · rw [if_pos hlast] at hrun
      simp only [] at hrun
      have h := hstep st hinv hlast _ _ rfl rfl
      split at hrun
      · refine ih _ _ _ _ hrun h.1 ?_
        intro r hr
        rcases List.mem_append.1 hr with h' | h'
        · exact hsent r h'
        · rw [List.mem_singleton.1 h']; exact h.2
      · exact absurd hrun (by simp)
    · rw [if_neg hlast] at hrun
      simp only [Option.some.injEq, Prod.mk.injEq] at hrun
      rw [← hrun.1, ← hrun.2]; exact ⟨hinv, hsent⟩

/-- The loop with destinations sends the requests of the planning loop, the request
at index `k` to the node `first_worker + k`. -/
theorem do_compute_loop_sends_eq (hash_seq : List hash_block_t)
    (first_worker num_workers signal_length possible_per_worker : Int) :
    ∀ (fuel : Nat) (st : compute_state_t) (sent : List request_t)
      (tsent : List (Int × request_t)) (st' : compute_state_t) (sent' : List request_t),
      master_t.do_compute_loop hash_seq num_workers signal_length possible_per_worker fuel
          st sent = some (st', sent') →
      st.worker_cnt = sent.length → tsent.map Prod.snd = sent →
      tsent.map Prod.fst = worker_nodes first_worker sent.length →
      ∃ tsent', master_t.do_compute_loop_sends hash_seq first_worker num_workers signal_length
          possible_per_worker fuel st tsent = some (st', tsent') ∧
        tsent'.map Prod.snd = sent' ∧
        tsent'.map Prod.fst = worker_nodes first_worker sent'.length := by
  intro fuel
  induction fuel with
  | zero =>
    intro st sent tsent st' sent' hrun hcnt hsnd hfst
    rw [master_t.do_compute_loop] at hrun
    rw [master_t.do_compute_loop_sends]
    split at hrun
    · exact absurd hrun (by simp)
    · next hl =>
      simp only [Option.some.injEq, Prod.mk.injEq] at hrun
      rw [← hrun.1, ← hrun.2]
      exact ⟨tsent, if_neg hl, hsnd, hfst⟩
  | succ fuel ih =>
    intro st sent tsent st' sent' hrun hcnt hsnd hfst
    rw [master_t.do_compute_loop] at hrun
    rw [master_t.do_compute_loop_sends]
    by_cases hlast : st.last > 1
    · rw [if_pos hlast] at hrun ⊢
      simp only [] at hrun ⊢
      split at hrun
      · next hcond =>
        rw [if_pos hcond]
        refine ih _ _ _ _ _ hrun ?_ ?_ ?_
        · simp only [List.length_append, List.length_singleton]; push_cast; omega
        · simp only [List.map_append, List.map_cons, List.map_nil, hsnd]
        · simp only [List.map_append, List.map_cons, List.map_nil, hfst, worker_nodes,
            List.length_append, List.length_singleton, List.range_succ, hcnt]
      · exact absurd hrun (by simp)
    · rw [if_neg hlast] at hrun ⊢
      simp only [Option.some.injEq, Prod.mk.injEq] at hrun
      rw [← hrun.1, ← hrun.2]
      exact ⟨tsent, rfl, hsnd, hfst⟩

/-- The planning loop increments `worker_cnt` with every request it sends. -/
theorem do_compute_loop_worker_cnt (hash_seq : List hash_block_t)
    (num_workers signal_length possible_per_worker : Int) :
    ∀ (fuel : Nat) (st : compute_state_t) (sent : List request_t) (st' : compute_state_t)
      (sent' : List request_t),
      master_t.do_compute_loop hash_seq num_workers signal_length possible_per_worker fuel
          st sent = some (st', sent') →
      st.worker_cnt = sent.length → st'.worker_cnt = sent'.length := by
  intro fuel
  induction fuel with
  | zero =>
    intro st sent st' sent' hrun hcnt
    rw [master_t.do_compute_loop] at hrun
    split at hrun
    · exact absurd hrun (by simp)
    · simp only [Option.some.injEq, Prod.mk.injEq] at hrun
      rw [← hrun.1, ← hrun.2]; exact hcnt
  | succ fuel ih =>
    intro st sent st' sent' hrun hcnt
    rw [master_t.do_compute_loop] at hrun
    by_cases hlast : st.last > 1
    · rw [if_pos hlast] at hrun
      simp only [] at hrun
      split at hrun
      · refine ih _ _ _ _ hrun ?_
        simp only [List.length_append, List.length_singleton]; push_cast; omega
      · exact absurd hrun (by simp)
    · rw [if_neg hlast] at hrun
      simp only [Option.some.injEq, Prod.mk.injEq] at hrun
      rw [← hrun.1, ← hrun.2]; exact hcnt

/-! ## The windows of the requests -/

theorem windows_tile_chain : ∀ (sent : List request_t) (hi lo : Int),
    windows_tile sent hi lo →
      (∀ r ∈ sent.head?, r.end_ = hi) ∧ List.Chain' (fun r s : request_t => s.end_ = r.begin) sent := by
  intro sent
  induction sent with
  | nil => intro hi lo _; exact ⟨by simp, List.chain'_nil⟩
  | cons r rest ih =>
    intro hi lo h
    obtain ⟨h1, -, -, h4⟩ := h
    obtain ⟨i1, i2⟩ := ih _ _ h4
    exact ⟨by simp [h1], List.chain'_cons'.2 ⟨i1, i2⟩⟩

/-- Every window sent by the planning loop begins `possible_per_worker` positions
before its end, or at position 1 if that would be lower. -/
theorem do_compute_loop_sizes (hash_seq : List hash_block_t)
    (num_workers signal_length possible_per_worker : Int) (fuel : Nat)
    (st : compute_state_t) (sent : List request_t) (st' : compute_state_t)
    (sent' : List request_t)
    (hrun : master_t.do_compute_loop hash_seq num_workers signal_length possible_per_worker
      fuel st sent = some (st', sent'))
    (hsent : ∀ r ∈ sent, r.begin = max 1 (r.end_ - possible_per_worker)) :
    ∀ r ∈ sent', r.begin = max 1 (r.end_ - possible_per_worker) :=
  (do_compute_loop_invariant hash_seq num_workers signal_length possible_per_worker
    (fun _ => True) (fun r => r.begin = max 1 (r.end_ - possible_per_worker))
    (fun _ _ _ _ _ _ _ => ⟨trivial, rfl⟩) fuel st sent st' sent' hrun trivial hsent).2

/-- In a tiling by windows of the size rule of the planning loop, every window but the
last has exactly `possible_per_worker` positions. -/
theorem windows_tile_sizes (possible_per_worker : Int) : ∀ (sent : List request_t) (hi lo : Int),
    windows_tile sent hi lo →
    (∀ r ∈ sent, r.begin = max 1 (r.end_ - possible_per_worker)) →
    ∀ r ∈ sent.dropLast, r.end_ - r.begin = possible_per_worker := by
  intro sent
  induction sent with
  | nil => intro hi lo _ _ r hr; simp at hr
  | cons a rest ih =>
    intro hi lo h hsz r hr
    cases rest with
    | nil => simp at hr
    | cons b rest' =>
      rw [List.dropLast_cons₂] at hr
      rcases List.mem_cons.1 hr with e | e
      · rw [e]
        have ha := hsz a (List.mem_cons_self _ _)
        obtain ⟨-, -, -, hb1, hb2, hb3, -⟩ := h
        rcases max_choice 1 (a.end_ - possible_per_worker) with e1 | e1
        · omega
        · omega
      · exact ih _ _ h.2.2.2 (fun x hx => hsz x (List.mem_cons_of_mem _ hx)) r e

theorem possible_per_worker_eq {possible num_workers : Int} (hp : 0 ≤ possible)
    (hn : 1 ≤ num_workers) :
    Int.tdiv (possible + num_workers) num_workers = possible / num_workers + 1 := by
  rw [Int.tdiv_eq_ediv (by omega) (by omega)]
  have h := Int.add_mul_ediv_right possible 1 (show num_workers ≠ 0 by omega)
  rw [one_mul] at h
  exact h

/-- The non-empty windows among the requests of `master_t::do_compute` are the requests
sent by the planning loop. -/
theorem filter_windows (sent : List request_t) (count : Nat) (hash : hash_block_t)
    (hash_begin hash_end : Int) (hsent : ∀ r ∈ sent, 1 ≤ r.begin) :
    (sent ++ List.replicate count (⟨hash, hash_begin, hash_end, 0, 0⟩ : request_t)).filter
      (fun r => r.begin != 0) = sent := by
  rw [List.filter_append]
  have h1 : sent.filter (fun r => r.begin != 0) = sent := by
    apply List.filter_eq_self.2
    intro r hr
    have := hsent r hr
    simp only [bne_iff_ne, ne_eq]
    omega
  have h2 : (List.replicate count (⟨hash, hash_begin, hash_end, 0, 0⟩ : request_t)).filter
      (fun r => r.begin != 0) = [] := by
    apply List.filter_eq_nil_iff.2
    intro r hr
    rw [(List.mem_replicate.1 hr).2]
    simp
  rw [h1, h2, List.append_nil]

/-- C21, counterexample: with `possible = 4` candidate positions (sequence length 5,
signal length 2) and 2 workers the windows are `[2, 5)` and `[1, 2)`: the first window
has 3 positions, whereas `ceil(4 / 2) = 2`. -/
theorem window_size_counterexample :
    (master_t.do_compute 2 (slice_blocks 2 5 (fun _ => 65)) 5 2).map
        (List.map (fun r => (r.begin, r.end_))) = some [(2, 5), (1, 2)] ∧
      (5 : Int) - 2 ≠ ⌈(((5 : Int) - 2 + 1 : Int) : ℚ) / ((2 : Int) : ℚ)⌉ := by
  have hceil : ⌈(((5 : Int) - 2 + 1 : Int) : ℚ) / ((2 : Int) : ℚ)⌉ = 2 := by
    rw [Int.ceil_eq_iff]; norm_num
  rw [hceil]
  exact ⟨by decide, by decide⟩

/-- C21, amended: for all `possible >= 1` and `num_workers >= 1`, whatever blocks the
workers reported, `master_t::do_compute` sends its requests, and every non-empty window
among its
requests except the last one contains exactly `possible / num_workers + 1` candidate
positions (the quotient rounded down; this is `(possible + num_workers) / num_workers`);
the last non-empty window contains at least one and at most that many. -/
theorem window_size (num_workers : Int) (hash_seq : List hash_block_t)
    (seq_length signal_length : Int) (hn : 1 ≤ num_workers)
    (hp : 1 ≤ seq_length - signal_length + 1) :
    ∃ requests,
      master_t.do_compute num_workers hash_seq seq_length signal_length = some requests ∧
      (∀ r ∈ (requests.filter (fun r => r.begin != 0)).dropLast,
        r.end_ - r.begin = (seq_length - signal_length + 1) / num_workers + 1) ∧
      ∀ r ∈ requests.filter (fun r => r.begin != 0),
        1 ≤ r.end_ - r.begin ∧
          r.end_ - r.begin ≤ (seq_length - signal_length + 1) / num_workers + 1 := by
  obtain ⟨st, sent, hrun, hdo, -, htile⟩ :=
    master_do_compute_windows num_workers hash_seq seq_length signal_length hn
  have htile' : windows_tile sent (seq_length - signal_length + 1 + 1) 1 := by
    rcases htile with h | h
    · exact h.2
    · omega
  have hsz := do_compute_loop_sizes hash_seq num_workers signal_length _ _ _ _ _ _ hrun
    (by intro r hr; simp at hr)
  rw [possible_per_worker_eq (by omega) hn] at hsz
  have hmem := windows_tile_mem _ _ _ htile'
  refine ⟨_, hdo, ?_, ?_⟩
  · rw [filter_windows _ _ _ _ _ (fun r hr => (hmem r hr).1)]
    exact windows_tile_sizes _ _ _ _ htile' hsz
  · rw [filter_windows _ _ _ _ _ (fun r hr => (hmem r hr).1)]
    intro r hr
    have h1 := hmem r hr
    have h2 := hsz r hr
    have h3 := le_max_right 1 (r.end_ - ((seq_length - signal_length + 1) / num_workers + 1))
    omega

theorem window_size_witness :
    (1 : Int) ≤ 2 ∧ (1 : Int) ≤ 5 - 2 + 1 ∧
    ∃ requests,
      master_t.do_compute 2 (slice_blocks 2 5 (fun _ => 65)) 5 2 = some requests ∧
      (∀ r ∈ (requests.filter (fun r => r.begin != 0)).dropLast,
        r.end_ - r.begin = ((5 : Int) - 2 + 1) / 2 + 1) ∧
      ∀ r ∈ requests.filter (fun r => r.begin != 0),
        1 ≤ r.end_ - r.begin ∧ r.end_ - r.begin ≤ ((5 : Int) - 2 + 1) / 2 + 1 :=
  ⟨by decide, by decide,
    window_size 2 (slice_blocks 2 5 (fun _ => 65)) 5 2 (by decide) (by decide)⟩

/-- C22 (request assignment). A coordinator with the workers
`first_worker, ..., last_worker` (`num_workers = last_worker - first_worker + 1`),
whatever blocks the workers reported: the planning loop of `master_t::do_compute` sends
the non-empty windows (`1 ≤ begin < end`), the window at index `k` to the node
`first_worker + k`; the first window ends at `possible + 1` and each next one ends
where the previous one begins. The requests of `master_t.do_compute`, in worker order,
are these windows followed by requests with `begin = end = 0` for the remaining
workers, one request for each of the `num_workers` workers. -/
theorem request_assignment (first_worker last_worker : Int) (hash_seq : List hash_block_t)
    (seq_length signal_length : Int) (hn : first_worker ≤ last_worker) :
    ∃ st sends windows rest,
      master_t.do_compute_loop_sends hash_seq first_worker (last_worker - first_worker + 1)
          signal_length
          (Int.tdiv (seq_length - signal_length + 1 + (last_worker - first_worker + 1))
            (last_worker - first_worker + 1))
          ((last_worker - first_worker + 1).toNat + 1)
          (compute_state_t.initial hash_seq seq_length signal_length) [] =
        some (st, sends) ∧
      sends.map Prod.snd = windows ∧
      sends.map Prod.fst =
        (List.range windows.length).map (fun k : Nat => first_worker + k) ∧
      master_t.do_compute (last_worker - first_worker + 1) hash_seq seq_length signal_length =
        some (windows ++ rest) ∧
      ((windows ++ rest).length : Int) = last_worker - first_worker + 1 ∧
      (∀ r ∈ windows, 1 ≤ r.begin ∧ r.begin < r.end_) ∧
      (∀ r ∈ windows.head?, r.end_ = seq_length - signal_length + 1 + 1) ∧
      List.Chain' (fun r s : request_t => s.end_ = r.begin) windows ∧
      ∀ r ∈ rest, r.begin = 0 ∧ r.end_ = 0 := by
  obtain ⟨st, sent, hrun, hdo, hlen, htile⟩ := master_do_compute_windows
    (last_worker - first_worker + 1) hash_seq seq_length signal_length (by omega)
  obtain ⟨sends, hsends, hsnd, hfst⟩ := do_compute_loop_sends_eq hash_seq first_worker
    (last_worker - first_worker + 1) signal_length _ _ _ [] [] st sent hrun
    (by simp [compute_state_t.initial]) rfl rfl
  refine ⟨st, sends, sent, _, hsends, hsnd, hfst, hdo, ?_, ?_, ?_, ?_, ?_⟩
  · rw [List.length_append, List.length_replicate]
    push_cast
    omega
  · rcases htile with h | h
    · intro r hr
      have := windows_tile_mem _ _ _ h.2 r hr
      exact ⟨this.1, this.2.1⟩
    · rw [h.2]; intro r hr; simp at hr
  · rcases htile with h | h
    · exact (windows_tile_chain _ _ _ h.2).1
    · rw [h.2]; simp
  · rcases htile with h | h
    · exact (windows_tile_chain _ _ _ h.2).2
    · rw [h.2]; exact List.chain'_nil
  · intro r hr
    rw [(List.mem_replicate.1 hr).2]
    exact ⟨rfl, rfl⟩

/-- The scenario of C22: three workers (nodes 1, 2, 3), a sequence of 5 tokens and a
signal of 2 tokens: the windows `[3, 5)` and `[1, 3)` go to the nodes 1 and 2, and the
third request has `begin = end = 0`. -/
theorem request_assignment_witness :
    ((1 : Int) ≤ 3 ∧
    ∃ st sends windows rest,
      master_t.do_compute_loop_sends (slice_blocks 3 5 (fun _ => 65)) 1 (3 - 1 + 1) 2
          (Int.tdiv (5 - 2 + 1 + (3 - 1 + 1)) (3 - 1 + 1))
          (((3 : Int) - 1 + 1).toNat + 1)
          (compute_state_t.initial (slice_blocks 3 5 (fun _ => 65)) 5 2) [] =
        some (st, sends) ∧
      sends.map Prod.snd = windows ∧
      sends.map Prod.fst =
        (List.range windows.length).map (fun k : Nat => (1 : Int) + k) ∧
      master_t.do_compute (3 - 1 + 1) (slice_blocks 3 5 (fun _ => 65)) 5 2 =
        some (windows ++ rest) ∧
      ((windows ++ rest).length : Int) = 3 - 1 + 1 ∧
      (∀ r ∈ windows, 1 ≤ r.begin ∧ r.begin < r.end_) ∧
      (∀ r ∈ windows.head?, r.end_ = 5 - 2 + 1 + 1) ∧
      List.Chain' (fun r s : request_t => s.end_ = r.begin) windows ∧
      ∀ r ∈ rest, r.begin = 0 ∧ r.end_ = 0) ∧
    (master_t.do_compute_loop_sends (slice_blocks 3 5 (fun _ => 65)) 1 (3 - 1 + 1) 2
        (Int.tdiv (5 - 2 + 1 + (3 - 1 + 1)) (3 - 1 + 1))
        (((3 : Int) - 1 + 1).toNat + 1)
        (compute_state_t.initial (slice_blocks 3 5 (fun _ => 65)) 5 2) []).map
      (fun x => x.2.map (fun p => (p.1, p.2.begin, p.2.end_))) =
        some [(1, 3, 5), (2, 1, 3)] ∧
    (master_t.do_compute (3 - 1 + 1) (slice_blocks 3 5 (fun _ => 65)) 5 2).map
      (List.map (fun r => (r.begin, r.end_))) = some [(3, 5), (1, 3), (0, 0)] :=
  ⟨⟨by decide, request_assignment 1 3 (slice_blocks 3 5 (fun _ => 65)) 5 2 (by decide)⟩,
    by decide, by decide⟩


/-- C25 (window count bound). For `possible >= 1` and a coordinator with the workers
`first_worker, ..., last_worker` (`num_workers >= 1`), whatever blocks the workers
reported: the planning loop of `master_t::do_compute` returns as soon as it is allowed
`num_workers` iterations, so that it stops (`last <= 1`) after at most `num_workers`
iterations and the assertions, among them `worker_cnt < num_workers`, hold in every
iteration; it sends one request per iteration (`worker_cnt` requests), and every
request is addressed to a node in `[first_worker, last_worker]`. -/
theorem window_count_bound (first_worker last_worker : Int) (hash_seq : List hash_block_t)
    (seq_length signal_length : Int) (hn : first_worker ≤ last_worker)
    (hp : 1 ≤ seq_length - signal_length + 1) (fuel : Nat)
    (hfuel : (last_worker - first_worker + 1).toNat ≤ fuel) :
    ∃ st sends,
      master_t.do_compute_loop_sends hash_seq first_worker (last_worker - first_worker + 1)
          signal_length
          (Int.tdiv (seq_length - signal_length + 1 + (last_worker - first_worker + 1))
            (last_worker - first_worker + 1))
          fuel (compute_state_t.initial hash_seq seq_length signal_length) [] =
        some (st, sends) ∧
      st.last ≤ 1 ∧ st.worker_cnt = sends.length ∧
      (sends.length : Int) ≤ last_worker - first_worker + 1 ∧
      ∀ p ∈ sends, first_worker ≤ p.1 ∧ p.1 ≤ last_worker := by
  obtain ⟨hppw, hcover⟩ := possible_per_worker_bounds hp
    (show 1 ≤ last_worker - first_worker + 1 by omega)
  obtain ⟨st, sent, hrun, h1, -, -, h4, h5, -⟩ :=
    do_compute_loop_windows hash_seq (last_worker - first_worker + 1) signal_length
      (Int.tdiv (seq_length - signal_length + 1 + (last_worker - first_worker + 1))
        (last_worker - first_worker + 1))
      (seq_length - signal_length + 1) hppw hcover fuel
      (compute_state_t.initial hash_seq seq_length signal_length) []
      (by simp [compute_state_t.initial, hash_block_t.empty])
      (by simp [compute_state_t.initial])
      (by intro _; simp [compute_state_t.initial])
      (by simp only [compute_state_t.initial]; omega)
      (by simp only [compute_state_t.initial]; omega)
      (by simp [compute_state_t.initial, windows_tile])
  obtain ⟨sends, hsends, hsnd, hfst⟩ := do_compute_loop_sends_eq hash_seq first_worker
    (last_worker - first_worker + 1) signal_length _ _ _ [] [] st sent hrun
    (by simp [compute_state_t.initial]) rfl rfl
  have hlen : sends.length = sent.length := by
    rw [← hsnd, List.length_map]
  refine ⟨st, sends, hsends, h1, by rw [hlen]; exact h4, by rw [hlen]; omega, ?_⟩
  intro p hp'
  have hmem : p.1 ∈ worker_nodes first_worker sent.length := by
    rw [← hfst]; exact List.mem_map_of_mem _ hp'
  simp only [worker_nodes, List.mem_map, List.mem_range] at hmem
  obtain ⟨k, hk, hk'⟩ := hmem
  omega

theorem window_count_bound_witness :
    (1 : Int) ≤ 3 ∧ (1 : Int) ≤ 5 - 2 + 1 ∧ ((3 : Int) - 1 + 1).toNat ≤ 3 ∧
    ∃ st sends,
      master_t.do_compute_loop_sends (slice_blocks 3 5 (fun _ => 65)) 1 (3 - 1 + 1) 2
          (Int.tdiv (5 - 2 + 1 + (3 - 1 + 1)) (3 - 1 + 1))
          3 (compute_state_t.initial (slice_blocks 3 5 (fun _ => 65)) 5 2) [] =
        some (st, sends) ∧
      st.last ≤ 1 ∧ st.worker_cnt = sends.length ∧
      (sends.length : Int) ≤ 3 - 1 + 1 ∧
      ∀ p ∈ sends, (1 : Int) ≤ p.1 ∧ p.1 ≤ 3 :=
  ⟨by decide, by decide, by decide,
    window_count_bound 1 3 (slice_blocks 3 5 (fun _ => 65)) 5 2 (by decide) (by decide) 3
      (by decide)⟩

/-! ## The positions of the hash context, for arbitrary tokens -/

theorem slice_blocks_slice_lengths (num_workers : Nat) (hn : 1 ≤ num_workers)
    (length : Int) (hlen : 0 ≤ length) (at_ : Int → Int) :
    slice_lengths num_workers length (slice_blocks num_workers length at_) := by
  have hn' : (1 : Int) ≤ num_workers := by exact_mod_cast hn
  refine ⟨slice_blocks_length _ _ _, ?_⟩
  intro k hk
  rw [slice_blocks_getD num_workers length at_ hk,
    hash_range_length at_ (slice_begin_mono hn' hlen _)]

theorem do_compute_grow_position (num_workers : Nat) (seq_length : Int)
    (hash_seq : List hash_block_t) (hfrag : slice_lengths num_workers seq_length hash_seq)
    (last : Int) :
    ∀ (k : Nat) (hash : hash_block_t) (hash_begin : Int), k ≤ num_workers →
      hash_begin = slice_begin num_workers seq_length k → last - 1 ≤ hash_begin →
      (master_t.do_compute_grow hash_seq last k hash hash_begin).1 ≤ k ∧
        (master_t.do_compute_grow hash_seq last k hash hash_begin).2.2 =
          slice_begin num_workers seq_length
            (master_t.do_compute_grow hash_seq last k hash hash_begin).1 ∧
        last - 1 ≤ (master_t.do_compute_grow hash_seq last k hash hash_begin).2.2 := by
  intro k
  induction k with
  | zero =>
    intro hash hash_begin _ hb hl
    exact ⟨le_refl _, hb, hl⟩
  | succ k ih =>
    intro hash hash_begin hk hb hl
    rw [master_t.do_compute_grow, hfrag.2 k (by omega)]
    push_cast at hb
    split
    · next hcond =>
      have := ih (operator_plus (hash_seq.getD k empty) hash)
        (hash_begin - (slice_begin num_workers seq_length (k + 1) -
          slice_begin num_workers seq_length k)) (by omega) (by omega) (by omega)
      exact ⟨by omega, this.2⟩
    · exact ⟨le_refl _, by push_cast; exact hb, hl⟩

theorem do_compute_shrink_position (num_workers : Nat) (seq_length : Int)
    (hash_seq : List hash_block_t) (hfrag : slice_lengths num_workers seq_length hash_seq)
    (last signal_length : Int) (b : Nat) :
    ∀ (k : Nat) (hash : hash_block_t) (hash_end : Int), b ≤ k → k ≤ num_workers →
      hash_end = slice_begin num_workers seq_length k →
      b ≤ (master_t.do_compute_shrink hash_seq last signal_length b k hash hash_end).1 ∧
        (master_t.do_compute_shrink hash_seq last signal_length b k hash hash_end).1 ≤ k ∧
        (master_t.do_compute_shrink hash_seq last signal_length b k hash hash_end).2.2 =
          slice_begin num_workers seq_length
            (master_t.do_compute_shrink hash_seq last signal_length b k hash hash_end).1 ∧
        ((master_t.do_compute_shrink hash_seq last signal_length b k hash hash_end).1 = b ∨
          (master_t.do_compute_shrink hash_seq last signal_length b k hash hash_end).2.2 ≤
            last - 1 + signal_length) := by
  intro k
  induction k with
  | zero =>
    intro hash hash_end hb _ he
    exact ⟨hb, le_refl _, he, Or.inl (by show 0 = b; omega)⟩
  | succ k ih =>
    intro hash hash_end hbk hkn he
    rw [master_t.do_compute_shrink, hfrag.2 k (by omega)]
    push_cast at he
    split
    · next hcond =>
      have := ih (hash_block_t.trim hash (hash_seq.getD k empty))
        (hash_end - (slice_begin num_workers seq_length (k + 1) -
          slice_begin num_workers seq_length k)) (by omega) (by omega) (by omega)
      exact ⟨this.1, by omega, this.2.2⟩
    · next hcond =>
      refine ⟨hbk, le_refl _, by push_cast; exact he, ?_⟩
      by_cases h1 : k + 1 > b
      · right
        show hash_end ≤ last - 1 + signal_length
        by_contra h2
        exact hcond ⟨h1, by omega⟩
      · left; omega

/-- The positions of the hash context of every request sent by the planning loop, for
arbitrary tokens: whole consecutive slices, empty or inside the first window of the
worker. -/
theorem do_compute_loop_position (num_workers : Nat) (hn : 1 ≤ num_workers)
    (seq_length : Int) (hlen : 0 ≤ seq_length) (hash_seq : List hash_block_t)
    (hfrag : slice_lengths num_workers seq_length hash_seq)
    (loop_workers signal_length possible_per_worker : Int) (hppw : 0 ≤ possible_per_worker)
    (fuel : Nat) (st : compute_state_t) (sent : List request_t) (st' : compute_state_t)
    (sent' : List request_t)
    (hrun : master_t.do_compute_loop hash_seq loop_workers signal_length possible_per_worker
      fuel st sent = some (st', sent'))
    (hinv : position_invariant num_workers seq_length st)
    (hsent : ∀ r ∈ sent, whole_slices num_workers seq_length r ∧
      context_range_ok signal_length r) :
    position_invariant num_workers seq_length st' ∧
      ∀ r ∈ sent', whole_slices num_workers seq_length r ∧ context_range_ok signal_length r := by
  have hn' : (1 : Int) ≤ num_workers := by exact_mod_cast hn
  refine do_compute_loop_invariant hash_seq loop_workers signal_length possible_per_worker
    (position_invariant num_workers seq_length)
    (fun r => whole_slices num_workers seq_length r ∧ context_range_ok signal_length r)
    ?_ fuel st sent st' sent' hrun hinv hsent
  intro st hinv hlast g s hg hs
  obtain ⟨hbe, hen, hhb, hhe, hl⟩ := hinv
  have hg' := do_compute_grow_position num_workers seq_length hash_seq hfrag st.last
    st.hash_block_begin st.hash st.hash_begin (by omega) hhb hl
  rw [← hg] at hg'
  obtain ⟨hg1, hg3, hg4⟩ := hg'
  have hs' := do_compute_shrink_position num_workers seq_length hash_seq hfrag st.last
    signal_length g.1 st.hash_block_end g.2.1 st.hash_end (by omega) hen hhe
  rw [← hs] at hs'
  obtain ⟨hs1, hs2, hs4, hs5⟩ := hs'
  have hmono := slice_begin_mono_nat hn' hlen g.1 s.1 hs1
  refine ⟨⟨hs1, le_trans hs2 hen, hg3, hs4, ?_⟩, ⟨g.1, s.1, hs1, le_trans hs2 hen, hg3, hs4⟩,
    ?_, ?_⟩
  · show max 1 (st.last - possible_per_worker) - 1 ≤ g.2.2
    have : max 1 (st.last - possible_per_worker) ≤ st.last := max_le (by omega) (by omega)
    omega
  · show g.2.2 ≤ s.2.2
    omega
  · show g.2.2 = s.2.2 ∨ (st.last - 1 ≤ g.2.2 ∧ s.2.2 ≤ st.last - 1 + signal_length)
    rcases hs5 with h5 | h5
    · left; rw [hg3, hs4, h5]
    · right; exact ⟨hg4, h5⟩

theorem initial_position_invariant (num_workers : Nat) (hn : 1 ≤ num_workers)
    (seq_length : Int) (hlen : 0 ≤ seq_length) (hash_seq : List hash_block_t)
    (hfrag : slice_lengths num_workers seq_length hash_seq) (signal_length : Int)
    (hm : 0 ≤ signal_length) :
    position_invariant num_workers seq_length
      (compute_state_t.initial hash_seq seq_length signal_length) := by
  have hn' : (1 : Int) ≤ num_workers := by exact_mod_cast hn
  have hlast := slice_begin_last hn' hlen
  refine ⟨le_refl _, ?_, ?_, ?_, ?_⟩
  · show hash_seq.length ≤ num_workers
    rw [hfrag.1]
  · show 1 + seq_length = slice_begin num_workers seq_length ((hash_seq.length : Nat) : Int)
    rw [hfrag.1, hlast]
  · show 1 + seq_length = slice_begin num_workers seq_length ((hash_seq.length : Nat) : Int)
    rw [hfrag.1, hlast]
  · show seq_length - signal_length + 1 + 1 - 1 ≤ 1 + seq_length
    omega

/-- `master_t::do_compute` on blocks with the lengths of the workers' slices, for
arbitrary tokens: the requests are the windows of the planning loop followed by the
empty requests; the windows tile the candidate positions, and the positions of every
hash context are whole consecutive slices, for the windows empty or inside the first
window of the worker. -/
theorem master_do_compute_positions (num_workers : Nat) (hn : 1 ≤ num_workers)
    (seq_length : Int) (hlen : 0 ≤ seq_length) (hash_seq : List hash_block_t)
    (hfrag : slice_lengths num_workers seq_length hash_seq) (signal_length : Int)
    (hm : 0 ≤ signal_length) :
    ∃ st sent,
      master_t.do_compute_loop hash_seq num_workers signal_length
          (Int.tdiv (seq_length - signal_length + 1 + num_workers) num_workers)
          ((num_workers : Int).toNat + 1)
          (compute_state_t.initial hash_seq seq_length signal_length) [] = some (st, sent) ∧
        master_t.do_compute num_workers hash_seq seq_length signal_length =
          some (sent ++ List.replicate ((num_workers : Int) - sent.length).toNat
            ⟨st.hash, st.hash_begin, st.hash_end, 0, 0⟩) ∧
        windows_tile sent (seq_length - signal_length + 1 + 1)
          (min 1 (seq_length - signal_length + 1 + 1)) ∧
        position_invariant num_workers seq_length st ∧
        ∀ r ∈ sent, whole_slices num_workers seq_length r ∧
          context_range_ok signal_length r := by
  have hn' : (1 : Int) ≤ num_workers := by exact_mod_cast hn
  obtain ⟨st, sent, hrun, hdo, -, htile⟩ :=
    master_do_compute_windows num_workers hash_seq seq_length signal_length hn'
  have hinit := initial_position_invariant num_workers hn seq_length hlen hash_seq hfrag
    signal_length hm
  by_cases hp : 1 ≤ seq_length - signal_length + 1
  · have hppw := (possible_per_worker_bounds hp hn').1
    obtain ⟨hinv, hsent⟩ := do_compute_loop_position num_workers hn seq_length hlen hash_seq
      hfrag num_workers signal_length _ (by omega) _ _ _ _ _ hrun hinit
      (by intro r hr; simp at hr)
    refine ⟨st, sent, hrun, hdo, ?_, hinv, hsent⟩
    rcases htile with h | h
    · rw [min_eq_left (by omega)]; exact h.2
    · omega
  · have hrun' := hrun
    rw [master_t.do_compute_loop,
      if_neg (by simp only [compute_state_t.initial]; omega)] at hrun'
    simp only [Option.some.injEq, Prod.mk.injEq] at hrun'
    refine ⟨st, sent, hrun, hdo, ?_, by rw [← hrun'.1]; exact hinit, ?_⟩
    · rw [← hrun'.2, min_eq_right (by omega)]; rfl
    · rw [← hrun'.2]; intro r hr; simp at hr

/-- The invariant of the planning loop on the hash context also holds for the final
values of the local variables, which the requests for the remaining workers carry. -/
theorem do_compute_loop_context_final (num_workers : Nat) (hn : 1 ≤ num_workers)
    (seq_length : Int) (hlen : 0 ≤ seq_length) (hlen' : seq_length < 2 ^ 63)
    (SeqAt : Int → Int) (hat : ∀ i, 0 ≤ SeqAt i)
    (loop_workers signal_length possible_per_worker : Int) (hppw : 0 ≤ possible_per_worker)
    (fuel : Nat) (st : compute_state_t) (sent : List request_t) (st' : compute_state_t)
    (sent' : List request_t)
    (hrun : master_t.do_compute_loop (slice_blocks num_workers seq_length SeqAt) loop_workers
      signal_length possible_per_worker fuel st sent = some (st', sent'))
    (hinv : context_invariant num_workers seq_length SeqAt st) :
    context_invariant num_workers seq_length SeqAt st' := by
  have hn' : (1 : Int) ≤ num_workers := by exact_mod_cast hn
  refine (do_compute_loop_invariant (slice_blocks num_workers seq_length SeqAt) loop_workers
    signal_length possible_per_worker (context_invariant num_workers seq_length SeqAt)
    (fun _ => True) ?_ fuel st sent st' sent' hrun hinv (fun _ _ => trivial)).1
  intro st hinv hlast g s hg hs
  obtain ⟨hbe, hen, hhb, hhe, hh, hl⟩ := hinv
  have hg' := do_compute_grow_context num_workers hn seq_length hlen SeqAt hat st.last
    st.hash_block_end hen st.hash_block_begin st.hash st.hash_begin hbe
    (by rw [hh, hhb, hhe]) hhb hl
  rw [← hg] at hg'
  obtain ⟨hg1, hg2, hg3, hg4⟩ := hg'
  have hs' := do_compute_shrink_context num_workers hn seq_length hlen hlen' SeqAt hat
    st.last signal_length g.1 st.hash_block_end g.2.1 st.hash_end (by omega) hen hg2 hhe
  rw [← hs] at hs'
  obtain ⟨hs1, hs2, hs3, hs4, hs5⟩ := hs'
  refine ⟨⟨hs1, le_trans hs2 hen, hg3, hs4,
    by show s.2.1 = hash_range SeqAt g.2.2 s.2.2; rw [hs3, hg3, hs4], ?_⟩, trivial⟩
  show max 1 (st.last - possible_per_worker) - 1 ≤ g.2.2
  have : max 1 (st.last - possible_per_worker) ≤ st.last := max_le (by omega) (by omega)
  omega

/-- `master_t::do_compute` on the blocks of the workers' slices of a sequence of
non-negative tokens: every request, also that of a worker without a window, carries the
block of the positions `[hash_begin, hash_end)`, which are whole consecutive slices;
the windows tile the candidate positions, and the context of a window is empty or inside
the first window of the worker. -/
theorem master_do_compute_context (num_workers : Nat) (hn : 1 ≤ num_workers)
    (seq_length : Int) (hlen : 0 ≤ seq_length) (hlen' : seq_length < 2 ^ 63)
    (SeqAt : Int → Int) (hat : ∀ i, 0 ≤ SeqAt i) (signal_length : Int)
    (hm : 0 ≤ signal_length) :
    ∃ sent rest,
      master_t.do_compute num_workers (slice_blocks num_workers seq_length SeqAt) seq_length
          signal_length = some (sent ++ rest) ∧
        windows_tile sent (seq_length - signal_length + 1 + 1)
          (min 1 (seq_length - signal_length + 1 + 1)) ∧
        (∀ r ∈ sent, context_ok SeqAt signal_length r) ∧
        (∀ r ∈ rest, r.begin = 0 ∧ r.end_ = 0) ∧
        ∀ r ∈ sent ++ rest, r.hash = hash_range SeqAt r.hash_begin r.hash_end ∧
          r.hash_begin ≤ r.hash_end ∧ whole_slices num_workers seq_length r := by
  have hn' : (1 : Int) ≤ num_workers := by exact_mod_cast hn
  have hfrag := slice_blocks_slice_lengths num_workers hn seq_length hlen SeqAt
  obtain ⟨st, sent, hrun, hdo, htile, hpos, hsent⟩ := master_do_compute_positions num_workers
    hn seq_length hlen _ hfrag signal_length hm
  have hinit := initial_context_invariant num_workers hn seq_length hlen SeqAt signal_length hm
  have hfinal : context_invariant num_workers seq_length SeqAt st ∧
      ∀ r ∈ sent, context_ok SeqAt signal_length r := by
    by_cases hp : 1 ≤ seq_length - signal_length + 1
    · have hppw := (possible_per_worker_bounds hp hn').1
      exact ⟨do_compute_loop_context_final num_workers hn seq_length hlen hlen' SeqAt hat
          num_workers signal_length _ (by omega) _ _ _ _ _ hrun hinit,
        do_compute_loop_context num_workers hn seq_length hlen hlen' SeqAt hat signal_length
          _ (by omega) _ _ _ _ _ hrun hinit (by intro r hr; simp at hr)⟩
    · have hrun' := hrun
      rw [master_t.do_compute_loop,
        if_neg (by simp only [compute_state_t.initial]; omega)] at hrun'
      simp only [Option.some.injEq, Prod.mk.injEq] at hrun'
      rw [← hrun'.1, ← hrun'.2]
      exact ⟨hinit, by intro r hr; simp at hr⟩
  obtain ⟨hbe, hen, hhb, hhe, hh, -⟩ := hfinal.1
  refine ⟨sent, _, hdo, htile, hfinal.2, ?_, ?_⟩
  · intro r hr
    rw [(List.mem_replicate.1 hr).2]
    exact ⟨rfl, rfl⟩
  · intro r hr
    rcases List.mem_append.1 hr with h | h
    · exact ⟨(hfinal.2 r h).1, (hfinal.2 r h).2.1, (hsent r h).1⟩
    · rw [(List.mem_replicate.1 h).2]
      refine ⟨hh, ?_, st.hash_block_begin, st.hash_block_end, hbe, hen, hhb, hhe⟩
      show st.hash_begin ≤ st.hash_end
      rw [hhb, hhe]
      exact slice_begin_mono_nat hn' hlen _ _ hbe

/-- C26 (hash-context correctness). When the member `hash_sequence` holds the blocks
that the workers computed for their slices of a sequence of non-negative tokens,
`master_t::do_compute` sends its requests (its assertion
`hash.length == hash_end - hash_begin` never fails), and every request it emits carries
`hash == hash_sequence(hash_begin, hash_end, SeqAt)` with
`hash.length == hash_end - hash_begin`, where `[hash_begin, hash_end)` are the slices of
the workers `j, ..., k - 1` for some `j ≤ k ≤ num_workers`. -/
theorem hash_context_spec (num_workers : Nat) (hn : 1 ≤ num_workers) (inp : input_t)
    (hlen : 0 ≤ inp.SeqLength) (hlen' : inp.SeqLength < 2 ^ 63) (hm : 0 ≤ inp.SignalLength)
    (hat : ∀ i, 0 ≤ inp.SeqAt i) (hash_seq : List hash_block_t)
    (hparts : worker_parts num_workers inp.SeqLength inp.SeqAt = some hash_seq) :
    ∃ requests,
      master_t.do_compute num_workers hash_seq inp.SeqLength inp.SignalLength =
        some requests ∧
      ∀ r ∈ requests,
        hash_sequence r.hash_begin r.hash_end inp.SeqAt = some r.hash ∧
        r.hash.length = r.hash_end - r.hash_begin ∧
        ∃ j k : Nat, j ≤ k ∧ k ≤ num_workers ∧
          r.hash_begin = slice_begin num_workers inp.SeqLength j ∧
          r.hash_end = slice_begin num_workers inp.SeqLength k := by
  rw [worker_parts_eq_slice_blocks num_workers hn inp.SeqLength hlen inp.SeqAt] at hparts
  simp only [Option.some.injEq] at hparts
  subst hparts
  obtain ⟨sent, rest, hdo, -, -, -, hall⟩ := master_do_compute_context num_workers hn
    inp.SeqLength hlen hlen' inp.SeqAt hat inp.SignalLength hm
  refine ⟨_, hdo, ?_⟩
  intro r hr
  obtain ⟨h1, h2, j, k, hjk, hkn, hj, hk⟩ := hall r hr
  exact ⟨by rw [hash_sequence_eq inp.SeqAt h2, h1],
    by rw [h1, hash_range_length inp.SeqAt h2], j, k, hjk, hkn, hj, hk⟩

theorem hash_context_spec_witness :
    ∃ requests,
      master_t.do_compute 2
          (slice_blocks 2 (input_of [65, 66, 65, 66, 65] [65, 66]).SeqLength
            (input_of [65, 66, 65, 66, 65] [65, 66]).SeqAt)
          (input_of [65, 66, 65, 66, 65] [65, 66]).SeqLength
          (input_of [65, 66, 65, 66, 65] [65, 66]).SignalLength = some requests ∧
      ∀ r ∈ requests,
        hash_sequence r.hash_begin r.hash_end (input_of [65, 66, 65, 66, 65] [65, 66]).SeqAt =
          some r.hash ∧
        r.hash.length = r.hash_end - r.hash_begin ∧
        ∃ j k : Nat, j ≤ k ∧ k ≤ 2 ∧
          r.hash_begin =
            slice_begin (2 : Nat) (input_of [65, 66, 65, 66, 65] [65, 66]).SeqLength j ∧
          r.hash_end =
            slice_begin (2 : Nat) (input_of [65, 66, 65, 66, 65] [65, 66]).SeqLength k :=
  hash_context_spec 2 (by decide) (input_of [65, 66, 65, 66, 65] [65, 66]) (by decide)
    (by decide) (by decide) (input_of_SeqAt_nonneg _ _ (by decide)) _
    (worker_parts_eq_slice_blocks 2 (by decide) _ (by decide) _)

/-! ## The token indices read -/

theorem hash_sequence_loop_reads_mem (begin : Int) :
    ∀ (fuel : Nat) (idx i : Int), i ∈ hash_sequence_loop_reads begin fuel idx →
      begin ≤ i ∧ i ≤ idx := by
  intro fuel
  induction fuel with
  | zero => intro idx i h; simp [hash_sequence_loop_reads] at h
  | succ fuel ih =>
    intro idx i h
    rw [hash_sequence_loop_reads] at h
    split at h
    · rcases List.mem_cons.1 h with e | e
      · omega
      · have := ih _ _ e
        omega
    · simp at h

/-- `hash_sequence(begin, end, fn)` calls `fn` only at indices in `[begin, end)`. -/
theorem hash_sequence_reads_mem {begin end_ i : Int} (h : i ∈ hash_sequence_reads begin end_) :
    begin ≤ i ∧ i < end_ := by
  unfold hash_sequence_reads at h
  split at h
  · split at h
    · have := hash_sequence_loop_reads_mem _ _ _ _ h
      omega
    · simp at h
  · simp at h

theorem hash_sequence_loop_congr (fn fn' : Int → Int) (begin : Int) :
    ∀ (fuel : Nat) (idx : Int) (result : hash_block_t),
      (∀ i ∈ hash_sequence_loop_reads begin fuel idx, fn i = fn' i) →
      hash_sequence_loop fn begin fuel idx result =
        hash_sequence_loop fn' begin fuel idx result := by
  intro fuel
  induction fuel with
  | zero => intro idx result _; rfl
  | succ fuel ih =>
    intro idx result h
    rw [hash_sequence_loop, hash_sequence_loop]
    rw [hash_sequence_loop_reads] at h
    by_cases hc : idx ≥ begin
    · rw [if_pos hc] at h ⊢
      rw [if_pos hc, h idx (List.mem_cons_self _ _)]
      exact ih _ _ (fun i hi => h i (List.mem_cons_of_mem _ hi))
    · rw [if_neg hc, if_neg hc]

/-- The result of `hash_sequence` depends on `fn` only through the values at the
indices it reads. -/
theorem hash_sequence_congr (fn fn' : Int → Int) (begin end_ : Int)
    (h : ∀ i ∈ hash_sequence_reads begin end_, fn i = fn' i) :
    hash_sequence begin end_ fn = hash_sequence begin end_ fn' := by
  unfold hash_sequence
  unfold hash_sequence_reads at h
  by_cases h1 : begin ≤ end_
  · rw [if_pos h1] at h ⊢
    rw [if_pos h1]
    by_cases h2 : begin ≠ end_
    · rw [if_pos h2] at h ⊢
      rw [if_pos h2, hash_sequence_loop_congr fn fn' begin _ _ _ h]
    · rw [if_neg h2, if_neg h2]
  · rw [if_neg h1, if_neg h1]

theorem worker_loop_reads_mem (signal_length begin : Int) :
    ∀ (fuel : Nat) (pos i : Int), i ∈ worker_t.do_compute_loop_reads signal_length begin fuel pos →
      (begin ≤ i ∧ i < pos) ∨ (begin + signal_length ≤ i ∧ i < pos + signal_length) := by
  intro fuel
  induction fuel with
  | zero => intro pos i h; simp [worker_t.do_compute_loop_reads] at h
  | succ fuel ih =>
    intro pos i h
    rw [worker_t.do_compute_loop_reads] at h
    split at h
    · split at h
      · simp at h
      · rcases List.mem_cons.1 h with e | e
        · left; omega
        · rcases List.mem_cons.1 e with e' | e'
          · right; omega
          · rcases ih _ _ e' with h' | h'
            · left; omega
            · right; omega
    · simp at h

theorem worker_loop_congr (SeqAt SeqAt' : Int → Int) (hash_signal : hash_block_t)
    (signal_length begin : Int) (trim_powers : hash_array_t) :
    ∀ (fuel : Nat) (pos : Int) (hash : hash_block_t) (result : Nat),
      (∀ i ∈ worker_t.do_compute_loop_reads signal_length begin fuel pos,
        SeqAt i = SeqAt' i) →
      worker_t.do_compute_loop SeqAt hash_signal signal_length begin trim_powers fuel pos hash
          result =
        worker_t.do_compute_loop SeqAt' hash_signal signal_length begin trim_powers fuel pos
          hash result := by
  intro fuel
  induction fuel with
  | zero => intro pos hash result _; rfl
  | succ fuel ih =>
    intro pos hash result h
    rw [worker_t.do_compute_loop, worker_t.do_compute_loop]
    rw [worker_t.do_compute_loop_reads] at h
    by_cases hc : pos ≥ begin
    · rw [if_pos hc] at h ⊢
      rw [if_pos hc]
      cases operator_eq hash hash_signal with
      | none => rfl
      | some eq =>
        simp only []
        by_cases hd : pos - 1 < begin
        · rw [if_pos hd, if_pos hd]
        · rw [if_neg hd] at h ⊢
          rw [if_neg hd, h (pos - 1) (List.mem_cons_self _ _),
            h (pos - 1 + signal_length) (List.mem_cons_of_mem _ (List.mem_cons_self _ _))]
          exact ih _ _ _ (fun i hi =>
            h i (List.mem_cons_of_mem _ (List.mem_cons_of_mem _ hi)))
    · rw [if_neg hc, if_neg hc]

/-- The messages of `worker_t::do_compute` depend on the sequence only through the
tokens at the indices it reads. -/
theorem worker_do_compute_congr (inp inp' : input_t) (hash_signal : hash_block_t)
    (r : request_t) (hm : inp'.SignalLength = inp.SignalLength)
    (h : ∀ i ∈ worker_t.do_compute_reads inp.SignalLength r, inp.SeqAt i = inp'.SeqAt i) :
    worker_t.do_compute inp hash_signal r = worker_t.do_compute inp' hash_signal r := by
  unfold worker_t.do_compute
  unfold worker_t.do_compute_reads at h
  simp only []
  by_cases hb : r.begin ≠ 0
  · rw [if_pos hb] at h ⊢
    rw [if_pos hb, hm]
    have hinit : worker_t.do_compute_initial_hash inp r inp.SignalLength =
        worker_t.do_compute_initial_hash inp' r inp.SignalLength := by
      have h' : ∀ i ∈ worker_t.do_compute_initial_hash_reads r inp.SignalLength,
          inp.SeqAt i = inp'.SeqAt i := fun i hi => h i (List.mem_append_left _ hi)
      unfold worker_t.do_compute_initial_hash
      unfold worker_t.do_compute_initial_hash_reads at h'
      by_cases he : r.hash_begin = r.hash_end
      · rw [if_pos he] at h' ⊢
        rw [if_pos he]
        exact hash_sequence_congr _ _ _ _ h'
      · rw [if_neg he] at h' ⊢
        rw [if_neg he,
          hash_sequence_congr inp.SeqAt inp'.SeqAt _ _
            (fun i hi => h' i (List.mem_append_left _ hi)),
          hash_sequence_congr inp.SeqAt inp'.SeqAt _ _
            (fun i hi => h' i (List.mem_append_right _ hi))]
    rw [hinit]
    cases worker_t.do_compute_initial_hash inp' r inp.SignalLength with
    | none => rfl
    | some hash =>
      simp only []
      rw [worker_loop_congr inp.SeqAt inp'.SeqAt hash_signal inp.SignalLength r.begin _ _ _ _ _
        (fun i hi => h i (List.mem_append_right _ hi))]
  · rw [if_neg hb, if_neg hb]

/-! ## The block built by the worker before its loop -/

/-- Every request sent by the planning loop satisfies the asserted relation
`hash.length == hash_end - hash_begin`, whatever blocks the workers reported. -/
theorem do_compute_loop_hash_length (hash_seq : List hash_block_t)
    (num_workers signal_length possible_per_worker : Int) (fuel : Nat)
    (st : compute_state_t) (sent : List request_t) (st' : compute_state_t)
    (sent' : List request_t)
    (hrun : master_t.do_compute_loop hash_seq num_workers signal_length possible_per_worker
      fuel st sent = some (st', sent'))
    (hinv : st.hash.length = st.hash_end - st.hash_begin)
    (hsent : ∀ r ∈ sent, r.hash.length = r.hash_end - r.hash_begin) :
    ∀ r ∈ sent', r.hash.length = r.hash_end - r.hash_begin := by
  refine (do_compute_loop_invariant hash_seq num_workers signal_length possible_per_worker
    (fun st => st.hash.length = st.hash_end - st.hash_begin)
    (fun r => r.hash.length = r.hash_end - r.hash_begin)
    ?_ fuel st sent st' sent' hrun hinv hsent).2
  intro st hinv _ g s hg hs
  have h1 := do_compute_grow_length hash_seq st.last st.hash_block_begin st.hash st.hash_begin
  rw [← hg] at h1
  have h2 := do_compute_shrink_length hash_seq st.last signal_length g.1 st.hash_block_end
    g.2.1 st.hash_end
  rw [← hs] at h2
  have h3 : s.2.1.length = s.2.2 - g.2.2 := by omega
  exact ⟨h3, h3⟩

/-- For arbitrary tokens: on a request whose context positions are empty or inside the
first window, and whose block has the length of these positions, the worker builds a
block of `signal_length` tokens, and no assertion of `hash_sequence` fails. -/
theorem worker_initial_hash_length (inp : input_t) (signal_length : Int)
    (hm : 0 ≤ signal_length) (r : request_t) (hok : context_range_ok signal_length r)
    (hlen : r.hash.length = r.hash_end - r.hash_begin) :
    ∃ block, worker_t.do_compute_initial_hash inp r signal_length = some block ∧
      block.length = signal_length := by
  obtain ⟨hle, hcase⟩ := hok
  unfold worker_t.do_compute_initial_hash
  by_cases he : r.hash_begin = r.hash_end
  · rw [if_pos he, hash_sequence_eq inp.SeqAt (by omega)]
    exact ⟨_, rfl, by rw [hash_range_length inp.SeqAt (by omega)]; ring⟩
  · rw [if_neg he]
    rcases hcase with h | ⟨h1, h2⟩
    · exact absurd h he
    · rw [hash_sequence_eq inp.SeqAt h1, hash_sequence_eq inp.SeqAt (by omega)]
      refine ⟨_, rfl, ?_⟩
      rw [operator_plus_length, operator_plus_length, hash_range_length inp.SeqAt h1,
        hash_range_length inp.SeqAt (by omega), hlen]
      ring

/-- C27, counterexample: on the sequence `-1, -1` with the signal `-1` and 3 workers,
the worker that receives the window `[1, 2)` builds a block with the residue
`1073741670` under the first prime, whereas `hash_sequence(1, 2, SeqAt)` has the
residue `-1`. -/
theorem initial_window_hash_counterexample :
    (worker_parts 3 (input_of [-1, -1] [-1]).SeqLength (input_of [-1, -1] [-1]).SeqAt).bind
      (fun hash_seq =>
        (master_t.do_compute 3 hash_seq (input_of [-1, -1] [-1]).SeqLength
          (input_of [-1, -1] [-1]).SignalLength).map
        (fun requests => (requests.filter (fun r => r.begin != 0)).map
          (fun r => (r.begin, r.end_,
            (worker_t.do_compute_initial_hash (input_of [-1, -1] [-1]) r
              (input_of [-1, -1] [-1]).SignalLength).map (fun block => block.hash 0),
            (hash_sequence (r.end_ - 1) (r.end_ - 1 + (input_of [-1, -1] [-1]).SignalLength)
              (input_of [-1, -1] [-1]).SeqAt).map (fun block => block.hash 0))))) =
      some [(2, 3, some (-1), some (-1)), (1, 2, some 1073741670, some (-1))] := by
  decide

/-- C27, amended: when the member `hash_sequence` holds the blocks that the workers
computed for their slices (`signal_length >= 1`, `num_workers >= 1`), every non-empty
request emitted by `master_t::do_compute` has `hash_begin == hash_end` or
`end - 1 <= hash_begin <= hash_end <= end - 1 + signal_length`; the worker builds its
block before the loop without a failing assertion of `hash_sequence`, and the block has
length `signal_length` (the worker's assertion holds). If the tokens of the sequence are
non-negative, that block equals `hash_sequence(end - 1, end - 1 + signal_length, SeqAt)`. -/
theorem initial_window_hash (num_workers : Nat) (hn : 1 ≤ num_workers) (inp : input_t)
    (hlen : 0 ≤ inp.SeqLength) (hlen' : inp.SeqLength < 2 ^ 63) (hm : 1 ≤ inp.SignalLength)
    (hash_seq : List hash_block_t)
    (hparts : worker_parts num_workers inp.SeqLength inp.SeqAt = some hash_seq) :
    ∃ requests,
      master_t.do_compute num_workers hash_seq inp.SeqLength inp.SignalLength =
        some requests ∧
      ∀ r ∈ requests, r.begin ≠ 0 →
        (r.hash_begin = r.hash_end ∨
          (r.end_ - 1 ≤ r.hash_begin ∧ r.hash_begin ≤ r.hash_end ∧
            r.hash_end ≤ r.end_ - 1 + inp.SignalLength)) ∧
        ∃ block, worker_t.do_compute_initial_hash inp r inp.SignalLength = some block ∧
          block.length = inp.SignalLength ∧
          ((∀ i, 0 ≤ inp.SeqAt i) →
            hash_sequence (r.end_ - 1) (r.end_ - 1 + inp.SignalLength) inp.SeqAt =
              some block) := by
  rw [worker_parts_eq_slice_blocks num_workers hn inp.SeqLength hlen inp.SeqAt] at hparts
  simp only [Option.some.injEq] at hparts
  subst hparts
  have hfrag := slice_blocks_slice_lengths num_workers hn inp.SeqLength hlen inp.SeqAt
  obtain ⟨st, sent, hrun, hdo, -, -, hsent⟩ := master_do_compute_positions num_workers hn
    inp.SeqLength hlen _ hfrag inp.SignalLength (by omega)
  have hlength := do_compute_loop_hash_length _ _ _ _ _ _ _ _ _ hrun
    (by simp [compute_state_t.initial, hash_block_t.empty]) (by intro r hr; simp at hr)
  refine ⟨_, hdo, ?_⟩
  intro r hr hb
  have hr' : r ∈ sent := by
    rcases List.mem_append.1 hr with h | h
    · exact h
    · exact absurd (by rw [(List.mem_replicate.1 h).2]) hb
  obtain ⟨-, hok⟩ := hsent r hr'
  obtain ⟨block, hblock, hblen⟩ := worker_initial_hash_length inp inp.SignalLength (by omega) r
    hok (hlength r hr')
  refine ⟨?_, block, hblock, hblen, ?_⟩
  · rcases hok.2 with h | h
    · exact Or.inl h
    · exact Or.inr ⟨h.1, hok.1, h.2⟩
  · intro hat
    obtain ⟨sent2, rest2, hdo2, -, hctx, hrest, -⟩ := master_do_compute_context num_workers hn
      inp.SeqLength hlen hlen' inp.SeqAt hat inp.SignalLength (by omega)
    rw [hdo2] at hdo
    simp only [Option.some.injEq] at hdo
    rw [← hdo] at hr
    have hr2 : r ∈ sent2 := by
      rcases List.mem_append.1 hr with h | h
      · exact h
      · exact absurd (hrest r h).1 hb
    have heq := worker_initial_hash_eq inp hat inp.SignalLength (by omega) r (hctx r hr2)
    rw [hblock] at heq
    rw [hash_sequence_eq inp.SeqAt (by omega), heq]

theorem initial_window_hash_witness :
    (∀ i, 0 ≤ (input_of [65, 66, 65, 66, 65] [65, 66]).SeqAt i) ∧
    ∃ requests,
      master_t.do_compute 2
          (slice_blocks 2 (input_of [65, 66, 65, 66, 65] [65, 66]).SeqLength
            (input_of [65, 66, 65, 66, 65] [65, 66]).SeqAt)
          (input_of [65, 66, 65, 66, 65] [65, 66]).SeqLength
          (input_of [65, 66, 65, 66, 65] [65, 66]).SignalLength = some requests ∧
      ∀ r ∈ requests, r.begin ≠ 0 →
        (r.hash_begin = r.hash_end ∨
          (r.end_ - 1 ≤ r.hash_begin ∧ r.hash_begin ≤ r.hash_end ∧
            r.hash_end ≤ r.end_ - 1 + (input_of [65, 66, 65, 66, 65] [65, 66]).SignalLength)) ∧
        ∃ block, worker_t.do_compute_initial_hash (input_of [65, 66, 65, 66, 65] [65, 66]) r
            (input_of [65, 66, 65, 66, 65] [65, 66]).SignalLength = some block ∧
          block.length = (input_of [65, 66, 65, 66, 65] [65, 66]).SignalLength ∧
          ((∀ i, 0 ≤ (input_of [65, 66, 65, 66, 65] [65, 66]).SeqAt i) →
            hash_sequence (r.end_ - 1)
                (r.end_ - 1 + (input_of [65, 66, 65, 66, 65] [65, 66]).SignalLength)
                (input_of [65, 66, 65, 66, 65] [65, 66]).SeqAt = some block) :=
  ⟨input_of_SeqAt_nonneg _ _ (by decide),
    initial_window_hash 2 (by decide) (input_of [65, 66, 65, 66, 65] [65, 66]) (by decide)
      (by decide) (by decide) _ (worker_parts_eq_slice_blocks 2 (by decide) _ (by decide) _)⟩
/-! ## The worker on its window -/

/-- C23 (empty window). On a request with `begin == 0`, `worker_t::do_compute` sends the
count 0 in its `RESULT` message (and 0 in `NOP`), whatever the sequence is, and it
makes no call of `SeqAt`. -/
theorem empty_window (inp : input_t) (hash_signal : hash_block_t) (r : request_t)
    (h : r.begin = 0) :
    worker_t.do_compute inp hash_signal r = some (0, 0) ∧
      worker_t.do_compute_reads inp.SignalLength r = [] ∧
      ∀ SeqAt : Int → Int,
        worker_t.do_compute ⟨inp.SignalLength, inp.SignalAt, inp.SeqLength, SeqAt⟩ hash_signal r =
          some (0, 0) := by
  refine ⟨worker_do_compute_empty inp hash_signal r h, ?_,
    fun SeqAt => worker_do_compute_empty _ hash_signal r h⟩
  unfold worker_t.do_compute_reads
  rw [if_neg (by simp [h])]

theorem empty_window_witness :
    worker_t.do_compute (input_of [65, 66, 65] [65]) (of_value 65) ⟨empty, 4, 4, 0, 0⟩ =
        some (0, 0) ∧
      worker_t.do_compute_reads (input_of [65, 66, 65] [65]).SignalLength ⟨empty, 4, 4, 0, 0⟩ =
        [] ∧
      ∀ SeqAt : Int → Int,
        worker_t.do_compute
            ⟨(input_of [65, 66, 65] [65]).SignalLength, (input_of [65, 66, 65] [65]).SignalAt,
              (input_of [65, 66, 65] [65]).SeqLength, SeqAt⟩ (of_value 65)
            ⟨empty, 4, 4, 0, 0⟩ = some (0, 0) :=
  empty_window (input_of [65, 66, 65] [65]) (of_value 65) ⟨empty, 4, 4, 0, 0⟩ rfl

theorem window_equals_eq (SeqAt : Int → Int) (hash_signal : hash_block_t)
    (signal_length : Int) (hm : 0 ≤ signal_length) (hsig : hash_signal.length = signal_length)
    (p : Int) :
    window_equals SeqAt hash_signal signal_length p =
      window_matches SeqAt hash_signal signal_length p := by
  unfold window_equals window_matches
  rw [hash_sequence_eq SeqAt (by omega)]
  simp only []
  rw [operator_eq_of_length (by rw [hash_range_length SeqAt (by omega), hsig]; ring)]

/-- At every position that the loop of `worker_t::do_compute` visits, `hash` is the block
of the window at that position, when it is so at the first position. -/
theorem worker_loop_blocks (SeqAt : Int → Int) (hat : ∀ i, 0 ≤ SeqAt i) (signal_length : Int)
    (hm : 1 ≤ signal_length) (hm' : signal_length < 2 ^ 63) (begin : Int) :
    ∀ (fuel : Nat) (pos : Int) (hash : hash_block_t),
      hash = hash_range SeqAt pos (pos + signal_length) →
      ∀ p ∈ worker_t.do_compute_loop_blocks SeqAt signal_length begin
          (make_powers (wrapU64 (signal_length - 1))) fuel pos hash,
        p.2 = hash_range SeqAt p.1 (p.1 + signal_length) ∧ begin ≤ p.1 ∧ p.1 ≤ pos := by
  intro fuel
  induction fuel with
  | zero => intro pos hash _ p hp; simp [worker_t.do_compute_loop_blocks] at hp
  | succ fuel ih =>
    intro pos hash hh p hp
    rw [worker_t.do_compute_loop_blocks] at hp
    split at hp
    · next hc =>
      rcases List.mem_cons.1 hp with e | e
      · rw [e]; exact ⟨hh, hc, le_refl _⟩
      · split at e
        · simp at e
        · have := ih (pos - 1) _
            (by rw [hh, slide_step SeqAt hat signal_length hm hm' pos]) p e
          exact ⟨this.1, this.2.1, by omega⟩
    · simp at hp

/-- The loop of `worker_t::do_compute` visits every position from `pos` down to `begin`. -/
theorem worker_loop_blocks_cover (SeqAt : Int → Int) (signal_length begin : Int)
    (trim_powers : hash_array_t) :
    ∀ (fuel : Nat) (pos : Int) (hash : hash_block_t) (q : Int),
      begin ≤ q → q ≤ pos → (pos - begin).toNat < fuel →
      q ∈ (worker_t.do_compute_loop_blocks SeqAt signal_length begin trim_powers fuel pos
        hash).map Prod.fst := by
  intro fuel
  induction fuel with
  | zero => intro pos hash q _ _ h; omega
  | succ fuel ih =>
    intro pos hash q h1 h2 hf
    rw [worker_t.do_compute_loop_blocks, if_pos (by omega)]
    by_cases hq : q = pos
    · rw [hq]; simp
    · rw [if_neg (by omega), List.map_cons]
      exact List.mem_cons_of_mem _ (ih (pos - 1) _ q h1 (by omega) (by omega))

/-- C28 (sliding-window invariant). For a sequence of non-negative tokens,
`1 <= signal_length < 2^63`, a `hash_signal` of length `signal_length` and a non-empty
window `[begin, end)` for which the block built before the loop is
`hash_sequence(end - 1, end - 1 + signal_length, SeqAt)`: the loop of
`worker_t::do_compute` visits every position of `[begin, end)`, and at every visited
position `pos` the current block equals `hash_sequence(pos, pos + signal_length, SeqAt)`
(the update of the loop turns the block of `pos` into the block of `pos - 1`);
`worker_t::do_compute` returns, and its `RESULT` is the number of positions `pos` in
`[begin, end)` with `hash_sequence(pos, pos + signal_length, SeqAt) == hash_signal`. -/
theorem sliding_window (inp : input_t) (hash_signal : hash_block_t) (r : request_t)
    (hat : ∀ i, 0 ≤ inp.SeqAt i) (hm : 1 ≤ inp.SignalLength) (hm' : inp.SignalLength < 2 ^ 63)
    (hsig : hash_signal.length = inp.SignalLength) (h1 : r.begin ≠ 0) (h2 : r.begin < r.end_)
    (hinit : worker_t.do_compute_initial_hash inp r inp.SignalLength =
      hash_sequence (r.end_ - 1) (r.end_ - 1 + inp.SignalLength) inp.SeqAt) :
    (∀ (pos : Int) (block : hash_block_t),
      hash_sequence pos (pos + inp.SignalLength) inp.SeqAt = some block →
      hash_sequence (pos - 1) (pos - 1 + inp.SignalLength) inp.SeqAt =
        some (operator_plus (of_value (inp.SeqAt (pos - 1)))
          (trim_by block (of_value (inp.SeqAt (pos - 1 + inp.SignalLength)))
            (make_powers (wrapU64 (inp.SignalLength - 1)))))) ∧
      (∃ block, worker_t.do_compute_initial_hash inp r inp.SignalLength = some block ∧
        (∀ p ∈ worker_t.do_compute_loop_blocks inp.SeqAt inp.SignalLength r.begin
            (make_powers (wrapU64 (inp.SignalLength - 1))) (r.end_ - r.begin).toNat
            (r.end_ - 1) block,
          hash_sequence p.1 (p.1 + inp.SignalLength) inp.SeqAt = some p.2) ∧
        ∀ pos, r.begin ≤ pos → pos < r.end_ →
          pos ∈ (worker_t.do_compute_loop_blocks inp.SeqAt inp.SignalLength r.begin
            (make_powers (wrapU64 (inp.SignalLength - 1))) (r.end_ - r.begin).toNat
            (r.end_ - 1) block).map Prod.fst) ∧
      worker_t.do_compute inp hash_signal r =
        some (0, count_positions (window_equals inp.SeqAt hash_signal inp.SignalLength)
          r.begin (r.end_ - r.begin).toNat) := by
  refine ⟨?_, ?_, ?_⟩
  · intro pos block hblock
    rw [hash_sequence_eq inp.SeqAt (by omega)] at hblock
    simp only [Option.some.injEq] at hblock
    rw [hash_sequence_eq inp.SeqAt (by omega), ← hblock,
      slide_step inp.SeqAt hat inp.SignalLength hm hm' pos]
  · refine ⟨hash_range inp.SeqAt (r.end_ - 1) (r.end_ - 1 + inp.SignalLength),
      by rw [hinit, hash_sequence_eq inp.SeqAt (by omega)], ?_, ?_⟩
    · intro p hp
      have := worker_loop_blocks inp.SeqAt hat inp.SignalLength hm hm' r.begin _ _ _ rfl p hp
      rw [hash_sequence_eq inp.SeqAt (by omega), this.1]
    · intro pos hp1 hp2
      exact worker_loop_blocks_cover inp.SeqAt inp.SignalLength r.begin _ _ _ _ pos hp1
        (by omega) (by omega)
  · have hfun : window_equals inp.SeqAt hash_signal inp.SignalLength =
        window_matches inp.SeqAt hash_signal inp.SignalLength :=
      funext (window_equals_eq inp.SeqAt hash_signal inp.SignalLength (by omega) hsig)
    rw [hfun]
    unfold worker_t.do_compute
    simp only []
    rw [if_pos h1, hinit, hash_sequence_eq inp.SeqAt (by omega)]
    simp only []
    rw [if_pos ⟨by rw [hash_range_length inp.SeqAt (by omega)]; ring, hsig⟩]
    obtain ⟨d, hd⟩ : ∃ d : Nat, (r.end_ - r.begin).toNat = d + 1 :=
      ⟨(r.end_ - r.begin).toNat - 1, by omega⟩
    rw [hd, worker_loop_count inp.SeqAt hat hash_signal inp.SignalLength hm hm' hsig r.begin d
      (r.end_ - 1) _ 0 (by omega) rfl]
    simp

theorem sliding_window_witness :
    (worker_t.do_compute (input_of [65, 66, 65, 66, 65] [65, 66])
          (operator_plus (of_value 65) (of_value 66)) ⟨empty, 6, 6, 1, 5⟩ =
        some (0, count_positions
          (window_equals (input_of [65, 66, 65, 66, 65] [65, 66]).SeqAt
            (operator_plus (of_value 65) (of_value 66))
            (input_of [65, 66, 65, 66, 65] [65, 66]).SignalLength)
          (1 : Int) ((5 : Int) - 1).toNat)) ∧
      worker_t.do_compute (input_of [65, 66, 65, 66, 65] [65, 66])
          (operator_plus (of_value 65) (of_value 66)) ⟨empty, 6, 6, 1, 5⟩ = some (0, 2) ∧
      (worker_t.do_compute_loop_blocks (input_of [65, 66, 65, 66, 65] [65, 66]).SeqAt 2 1
          (make_powers (wrapU64 (2 - 1))) ((5 : Int) - 1).toNat (5 - 1)
          (operator_plus (of_value 66) (of_value 65))).map Prod.fst = [4, 3, 2, 1] :=
  ⟨(sliding_window (input_of [65, 66, 65, 66, 65] [65, 66])
      (operator_plus (of_value 65) (of_value 66)) ⟨empty, 6, 6, 1, 5⟩
      (input_of_SeqAt_nonneg _ _ (by decide)) (by decide) (by decide) (by decide) (by decide)
      (by decide) (by rfl)).2.2,
    by decide, by decide⟩

/-! ## The indices read by the workers -/

/-- C29 (token indices in range). When the member `hash_sequence` holds the blocks that
the workers computed for their slices and `1 <= signal_length <= seq_length`, for
arbitrary tokens: every index passed to `SeqAt` in `worker_t::do_compute` (for the block
built before the loop, and `SeqAt(pos)` and `SeqAt(pos + signal_length)` in the loop) on
a request emitted by `master_t::do_compute` lies in `[1, seq_length]`, so that the
messages of the worker are the same for every accessor that agrees with `SeqAt` on
`[1, seq_length]`; and every index read by `worker_hash_subsequence` for a length
`len >= 0` lies in `[1, len]`, so that its block is the same for every accessor that
agrees on `[1, len]`. -/
theorem reads_in_range (num_workers : Nat) (hn : 1 ≤ num_workers) (inp : input_t)
    (hm : 1 ≤ inp.SignalLength) (hml : inp.SignalLength ≤ inp.SeqLength)
    (hash_seq : List hash_block_t)
    (hparts : worker_parts num_workers inp.SeqLength inp.SeqAt = some hash_seq) :
    (∃ requests,
      master_t.do_compute num_workers hash_seq inp.SeqLength inp.SignalLength =
        some requests ∧
      ∀ r ∈ requests,
        (∀ i ∈ worker_t.do_compute_reads inp.SignalLength r, 1 ≤ i ∧ i ≤ inp.SeqLength) ∧
        ∀ (hash_signal : hash_block_t) (SeqAt : Int → Int),
          (∀ i, 1 ≤ i → i ≤ inp.SeqLength → inp.SeqAt i = SeqAt i) →
          worker_t.do_compute inp hash_signal r =
            worker_t.do_compute ⟨inp.SignalLength, inp.SignalAt, inp.SeqLength, SeqAt⟩
              hash_signal r) ∧
    ∀ (worker_id length : Int), 0 ≤ worker_id → worker_id < num_workers → 0 ≤ length →
      (∀ i ∈ worker_t.worker_hash_subsequence_reads worker_id num_workers length,
        1 ≤ i ∧ i ≤ length) ∧
      ∀ at_ at2 : Int → Int, (∀ i, 1 ≤ i → i ≤ length → at_ i = at2 i) →
        worker_t.worker_hash_subsequence worker_id num_workers length at_ =
          worker_t.worker_hash_subsequence worker_id num_workers length at2 := by
  have hn' : (1 : Int) ≤ num_workers := by exact_mod_cast hn
  have hlen : 0 ≤ inp.SeqLength := by omega
  constructor
  · rw [worker_parts_eq_slice_blocks num_workers hn inp.SeqLength hlen inp.SeqAt] at hparts
    simp only [Option.some.injEq] at hparts
    subst hparts
    have hfrag := slice_blocks_slice_lengths num_workers hn inp.SeqLength hlen inp.SeqAt
    obtain ⟨st, sent, hrun, hdo, htile, -, hsent⟩ := master_do_compute_positions num_workers hn
      inp.SeqLength hlen _ hfrag inp.SignalLength (by omega)
    refine ⟨_, hdo, ?_⟩
    intro r hr
    have hrange : ∀ i ∈ worker_t.do_compute_reads inp.SignalLength r,
        1 ≤ i ∧ i ≤ inp.SeqLength := by
      intro i hi
      unfold worker_t.do_compute_reads at hi
      rcases List.mem_append.1 hr with h | h
      · obtain ⟨hb1, hb2, -, hb4⟩ := windows_tile_mem _ _ _ htile r h
        obtain ⟨-, hle, hcase⟩ := hsent r h
        rw [if_pos (by omega)] at hi
        rcases List.mem_append.1 hi with hi' | hi'
        · unfold worker_t.do_compute_initial_hash_reads at hi'
          split at hi'
          · have := hash_sequence_reads_mem hi'
            omega
          · next hne =>
            rcases hcase with hc | hc
            · exact absurd hc hne
            · rcases List.mem_append.1 hi' with hi2 | hi2
              · have := hash_sequence_reads_mem hi2
                omega
              · have := hash_sequence_reads_mem hi2
                omega
        · have := worker_loop_reads_mem _ _ _ _ _ hi'
          omega
      · rw [(List.mem_replicate.1 h).2, if_neg (by simp)] at hi
        simp at hi
    refine ⟨hrange, ?_⟩
    intro hash_signal SeqAt hagree
    exact worker_do_compute_congr inp ⟨inp.SignalLength, inp.SignalAt, inp.SeqLength, SeqAt⟩
      hash_signal r rfl (fun i hi => hagree i (hrange i hi).1 (hrange i hi).2)
  · intro worker_id length hid _ hlength
    have hrange : ∀ i ∈ worker_t.worker_hash_subsequence_reads worker_id num_workers length,
        1 ≤ i ∧ i ≤ length := by
      intro i hi
      have hi' : i ∈ hash_sequence_reads (slice_begin num_workers length worker_id)
          (slice_begin num_workers length (worker_id + 1)) := hi
      have h1 := hash_sequence_reads_mem hi'
      have h2 := slice_begin_ge_one hn' hlength hid
      have h3 := slice_begin_le num_workers length (worker_id + 1)
      omega
    refine ⟨hrange, ?_⟩
    intro at_ at2 hagree
    exact hash_sequence_congr at_ at2 _ _
      (fun i hi => hagree i (hrange i hi).1 (hrange i hi).2)

theorem reads_in_range_witness :
    ((master_t.do_compute 2
          (slice_blocks 2 (input_of [65, 66, 65, 66, 65] [65, 66]).SeqLength
            (input_of [65, 66, 65, 66, 65] [65, 66]).SeqAt)
          (input_of [65, 66, 65, 66, 65] [65, 66]).SeqLength
          (input_of [65, 66, 65, 66, 65] [65, 66]).SignalLength).map
        (List.map (fun r => (r.begin, r.end_, worker_t.do_compute_reads 2 r))) =
      some [(2, 5, [3, 5, 2, 4]), (1, 2, [2, 1])]) ∧
    worker_t.worker_hash_subsequence_reads 0 2 5 = [3, 2, 1] ∧
    worker_t.worker_hash_subsequence_reads 1 2 5 = [5, 4] ∧
    ∃ requests,
      master_t.do_compute 2
          (slice_blocks 2 (input_of [65, 66, 65, 66, 65] [65, 66]).SeqLength
            (input_of [65, 66, 65, 66, 65] [65, 66]).SeqAt)
          (input_of [65, 66, 65, 66, 65] [65, 66]).SeqLength
          (input_of [65, 66, 65, 66, 65] [65, 66]).SignalLength = some requests ∧
      ∀ r ∈ requests,
        ∀ i ∈ worker_t.do_compute_reads (input_of [65, 66, 65, 66, 65] [65, 66]).SignalLength r,
          1 ≤ i ∧ i ≤ (input_of [65, 66, 65, 66, 65] [65, 66]).SeqLength :=
  ⟨by decide, by decide, by decide,
    (reads_in_range 2 (by decide) (input_of [65, 66, 65, 66, 65] [65, 66]) (by decide)
      (by decide) _ (worker_parts_eq_slice_blocks 2 (by decide) _ (by decide) _)).1.imp
      (fun _ h => ⟨h.1, fun r hr => (h.2 r hr).1⟩)⟩

/-! ## Single tokens under the two primes -/

theorem setup_primes_coprime :
    Nat.Coprime (setup 0).prime.natAbs (setup 1).prime.natAbs := by
  decide

/-- C31 (two-modulus collision resistance on single tokens). For all tokens `x`, `y`
with `0 <= x, y < setup[0].prime * setup[1].prime`: if `hash_block_t{x}` and
`hash_block_t{y}` compare equal (the same residue under both primes) then `x = y`; so
two distinct tokens with the same residue under one prime have different residues under
the other prime. -/
theorem single_token_injective (x y : Int) (hx : 0 ≤ x)
    (hx' : x < (setup 0).prime * (setup 1).prime) (hy : 0 ≤ y)
    (hy' : y < (setup 0).prime * (setup 1).prime) :
    (operator_eq (of_value x) (of_value y) = some true → x = y) ∧
      (x ≠ y → (of_value x).hash 0 = (of_value y).hash 0 →
        (of_value x).hash 1 ≠ (of_value y).hash 1) ∧
      (x ≠ y → (of_value x).hash 1 = (of_value y).hash 1 →
        (of_value x).hash 0 ≠ (of_value y).hash 0) := by
  have key : (of_value x).hash 0 = (of_value y).hash 0 →
      (of_value x).hash 1 = (of_value y).hash 1 → x = y := by
    intro h0 h1
    rw [of_value_hash 0 hx, of_value_hash 0 hy] at h0
    rw [of_value_hash 1 hx, of_value_hash 1 hy] at h1
    have hmod : Int.ModEq ((setup 0).prime * (setup 1).prime) x y :=
      (Int.modEq_and_modEq_iff_modEq_mul setup_primes_coprime).1 ⟨h0, h1⟩
    have hxe := Int.emod_eq_of_lt hx hx'
    have hye := Int.emod_eq_of_lt hy hy'
    unfold Int.ModEq at hmod
    rw [hxe, hye] at hmod
    exact hmod
  refine ⟨?_, fun hne h0 h1 => hne (key h0 h1), fun hne h1 h0 => hne (key h0 h1)⟩
  intro heq
  rw [operator_eq_of_length (by rfl)] at heq
  simp only [Option.some.injEq, decide_eq_true_eq] at heq
  exact key heq.1 heq.2

theorem single_token_injective_witness :
    ((operator_eq (of_value 3) (of_value 1073741674) = some true → (3 : Int) = 1073741674) ∧
      ((3 : Int) ≠ 1073741674 → (of_value 3).hash 0 = (of_value 1073741674).hash 0 →
        (of_value 3).hash 1 ≠ (of_value 1073741674).hash 1) ∧
      ((3 : Int) ≠ 1073741674 → (of_value 3).hash 1 = (of_value 1073741674).hash 1 →
        (of_value 3).hash 0 ≠ (of_value 1073741674).hash 0)) ∧
      (of_value 3).hash 0 = (of_value 1073741674).hash 0 ∧
      (of_value 3).hash 1 ≠ (of_value 1073741674).hash 1 :=
  ⟨single_token_injective 3 1073741674 (by decide) (by decide) (by decide) (by decide),
    by decide, by decide⟩

/-! ## The empty block -/

/-- C32 (the empty block is a two-sided identity). The block of the default
constructor has length 0 and both residues 0, and it is what `hash_sequence` returns on
an empty range; for every well-formed block `A`, `empty + A` and `A + empty` are `A`, and
`operator==` finds them equal to `A`. -/
theorem empty_identity (A : hash_block_t) (hA : A.wf) :
    empty.length = 0 ∧ (∀ idx, empty.hash idx = 0) ∧
      (∀ (begin : Int) (fn : Int → Int), hash_sequence begin begin fn = some empty) ∧
      operator_plus empty A = A ∧ operator_plus A empty = A ∧
      operator_eq (operator_plus empty A) A = some true ∧
      operator_eq (operator_plus A empty) A = some true := by
  have h1 := empty_operator_plus hA.2
  have h2 := operator_plus_empty hA.2
  refine ⟨rfl, fun _ => rfl, ?_, h1, h2, ?_, ?_⟩
  · intro begin fn
    unfold hash_sequence
    rw [if_pos (le_refl _), if_neg (by simp)]
  · rw [h1, operator_eq_of_length rfl]; simp
  · rw [h2, operator_eq_of_length rfl]; simp

theorem empty_identity_witness :
    empty.length = 0 ∧ (∀ idx, empty.hash idx = 0) ∧
      (∀ (begin : Int) (fn : Int → Int), hash_sequence begin begin fn = some empty) ∧
      operator_plus empty sample_block_a = sample_block_a ∧
      operator_plus sample_block_a empty = sample_block_a ∧
      operator_eq (operator_plus empty sample_block_a) sample_block_a = some true ∧
      operator_eq (operator_plus sample_block_a empty) sample_block_a = some true :=
  empty_identity sample_block_a sample_block_a_wf

/-! ## The fixed-width arithmetic is exact -/

theorem op_exact_of_range (idx : Fin 2) {x y : Int} (hx : 0 ≤ x) (hy : 0 ≤ y) :
    op_exact idx x y = x * y % (setup idx).prime := by
  obtain ⟨hp1, -, -, -⟩ := setup_bounds idx
  unfold op_exact
  rw [Int.tmod_eq_emod (Int.mul_nonneg hx hy) (by omega)]

theorem op_eq_op_exact (idx : Fin 2) {x y : Int} (hx : 0 ≤ x) (hx' : x < (setup idx).prime)
    (hy : 0 ≤ y) (hy' : y < (setup idx).prime) : op idx x y = op_exact idx x y := by
  rw [op_of_range idx hx hx' hy hy', op_exact_of_range idx hx hy]

theorem product_range (idx : Fin 2) {x y : Int} (hx : 0 ≤ x) (hx' : x < (setup idx).prime)
    (hy : 0 ≤ y) (hy' : y < (setup idx).prime) : 0 ≤ x * y ∧ x * y < 2 ^ 60 := by
  obtain ⟨hp1, hp2, -, -⟩ := setup_bounds idx
  refine ⟨Int.mul_nonneg hx hy, ?_⟩
  have h1 : x * y ≤ x * 2 ^ 30 := Int.mul_le_mul_of_nonneg_left (by omega) hx
  have h2 : x * 2 ^ 30 < 2 ^ 30 * 2 ^ 30 := by
    have : x < 2 ^ 30 := by omega
    omega
  omega

/-- The loop of `iterate` computes the same on fixed-width and on exact integers. -/
theorem iterate_loop_exact (idx : Fin 2) :
    ∀ (fuel : Nat) (base result exponent : Int),
      0 ≤ base → base < (setup idx).prime → 0 ≤ result → result < (setup idx).prime →
      iterate_loop (op idx) fuel base result exponent =
        iterate_loop (op_exact idx) fuel base result exponent := by
  intro fuel
  induction fuel with
  | zero => intro base result exponent _ _ _ _; rfl
  | succ fuel ih =>
    intro base result exponent hb0 hb1 hr0 hr1
    rw [iterate_loop, iterate_loop]
    obtain ⟨hbb0, hbb1⟩ := op_range idx hb0 hb1 hb0 hb1
    obtain ⟨hrb0, hrb1⟩ := op_range idx hr0 hr1 hb0 hb1
    rw [← op_eq_op_exact idx hb0 hb1 hb0 hb1, ← op_eq_op_exact idx hr0 hr1 hb0 hb1]
    split
    · split
      · exact ih _ _ _ hbb0 hbb1 hrb0 hrb1
      · exact ih _ _ _ hbb0 hbb1 hr0 hr1
    · rfl

theorem make_powers_exact_eq (exponent : Int) : make_powers exponent = make_powers_exact exponent := by
  funext idx
  obtain ⟨hp1, -, hb0, hb1⟩ := setup_bounds idx
  exact iterate_loop_exact idx _ _ _ _ hb0 hb1 (by omega) (by omega)

theorem extend_exact_eq {A B : hash_block_t} {powers : hash_array_t}
    (hA : residues_in_range A) (hB : residues_in_range B)
    (hp : ∀ idx, 0 ≤ powers idx ∧ powers idx < (setup idx).prime) :
    extend A B powers = extend_exact A B powers := by
  apply block_ext
  · rfl
  intro idx
  obtain ⟨hp1, hp2, -, -⟩ := setup_bounds idx
  obtain ⟨ho0, ho1⟩ := op_range idx (hp idx).1 (hp idx).2 (hB idx).1 (hB idx).2
  have ha := hA idx
  show (if wrap32 (A.hash idx + op idx (powers idx) (B.hash idx)) ≥ (setup idx).prime
      then wrap32 (wrap32 (A.hash idx + op idx (powers idx) (B.hash idx)) - (setup idx).prime)
      else wrap32 (A.hash idx + op idx (powers idx) (B.hash idx))) =
    (if A.hash idx + op_exact idx (powers idx) (B.hash idx) ≥ (setup idx).prime
      then A.hash idx + op_exact idx (powers idx) (B.hash idx) - (setup idx).prime
      else A.hash idx + op_exact idx (powers idx) (B.hash idx))
  rw [← op_eq_op_exact idx (hp idx).1 (hp idx).2 (hB idx).1 (hB idx).2,
    wrap32_of_range (by omega) (by omega)]
  split
  · rw [wrap32_of_range (by omega) (by omega)]
  · rfl

theorem trim_by_exact_eq {A B : hash_block_t} {powers : hash_array_t}
    (hA : residues_in_range A) (hB : residues_in_range B)
    (hp : ∀ idx, 0 ≤ powers idx ∧ powers idx < (setup idx).prime) :
    trim_by A B powers = trim_by_exact A B powers := by
  apply block_ext
  · rfl
  intro idx
  obtain ⟨hp1, hp2, -, -⟩ := setup_bounds idx
  obtain ⟨ho0, ho1⟩ := op_range idx (hp idx).1 (hp idx).2 (hB idx).1 (hB idx).2
  have ha := hA idx
  show (if wrap32 (A.hash idx - op idx (powers idx) (B.hash idx)) < 0
      then wrap32 (wrap32 (A.hash idx - op idx (powers idx) (B.hash idx)) + (setup idx).prime)
      else wrap32 (A.hash idx - op idx (powers idx) (B.hash idx))) =
    (if A.hash idx - op_exact idx (powers idx) (B.hash idx) < 0
      then A.hash idx - op_exact idx (powers idx) (B.hash idx) + (setup idx).prime
      else A.hash idx - op_exact idx (powers idx) (B.hash idx))
  rw [← op_eq_op_exact idx (hp idx).1 (hp idx).2 (hB idx).1 (hB idx).2,
    wrap32_of_range (by omega) (by omega)]
  split
  · rw [wrap32_of_range (by omega) (by omega)]
  · rfl

/-- C33 (no overflow in the hash arithmetic). For blocks `A`, `B` and a power table
with all residues and entries in `[0, setup[idx].prime)`: every product formed by `op` on
such operands lies in `[0, 2^60)`, so it fits in signed 64 bits, and `op` returns the
exact remainder, again in range; the 32-bit sum `hash[idx] + op(...)` of `extend` and
`operator+` lies in `[0, 2^31)` and the difference `hash[idx] - op(...)` of `trim` in
`(-2^31, 2^31)`; and `extend`, `operator+`, both forms of `trim` and `make_powers` (for
every exponent) return what the same operations return on exact integers. -/
theorem no_overflow (A B : hash_block_t) (powers : hash_array_t)
    (hA : residues_in_range A) (hB : residues_in_range B)
    (hp : ∀ idx, 0 ≤ powers idx ∧ powers idx < (setup idx).prime) :
    (∀ (idx : Fin 2) (x y : Int), 0 ≤ x → x < (setup idx).prime → 0 ≤ y →
      y < (setup idx).prime →
      (-2 ^ 63 ≤ x * y ∧ x * y < 2 ^ 63) ∧ wrap64 (x * y) = x * y ∧
        op idx x y = op_exact idx x y ∧ 0 ≤ op idx x y ∧ op idx x y < (setup idx).prime) ∧
    (∀ idx, 0 ≤ A.hash idx + op idx (powers idx) (B.hash idx) ∧
      A.hash idx + op idx (powers idx) (B.hash idx) < 2 ^ 31) ∧
    (∀ idx, 0 ≤ A.hash idx + op idx (make_powers A.length idx) (B.hash idx) ∧
      A.hash idx + op idx (make_powers A.length idx) (B.hash idx) < 2 ^ 31) ∧
    (∀ idx, -2 ^ 31 < A.hash idx - op idx (powers idx) (B.hash idx) ∧
      A.hash idx - op idx (powers idx) (B.hash idx) < 2 ^ 31) ∧
    extend A B powers = extend_exact A B powers ∧
    operator_plus A B = operator_plus_exact A B ∧
    trim_by A B powers = trim_by_exact A B powers ∧
    hash_block_t.trim A B =
      trim_by_exact A B (make_powers_exact (wrapU64 (A.length - B.length))) ∧
    ∀ exponent : Int, make_powers exponent = make_powers_exact exponent := by
  refine ⟨?_, ?_, ?_, ?_, extend_exact_eq hA hB hp, ?_, trim_by_exact_eq hA hB hp, ?_,
    make_powers_exact_eq⟩
  · intro idx x y hx hx' hy hy'
    obtain ⟨h0, h1⟩ := product_range idx hx hx' hy hy'
    obtain ⟨ho0, ho1⟩ := op_range idx hx hx' hy hy'
    exact ⟨⟨by omega, by omega⟩, wrap64_of_range (by omega) (by omega),
      op_eq_op_exact idx hx hx' hy hy', ho0, ho1⟩
  · intro idx
    obtain ⟨hp1, hp2, -, -⟩ := setup_bounds idx
    obtain ⟨ho0, ho1⟩ := op_range idx (hp idx).1 (hp idx).2 (hB idx).1 (hB idx).2
    have ha := hA idx
    omega
  · intro idx
    obtain ⟨hp1, hp2, -, -⟩ := setup_bounds idx
    obtain ⟨hm0, hm1⟩ := make_powers_range idx A.length
    obtain ⟨ho0, ho1⟩ := op_range idx hm0 hm1 (hB idx).1 (hB idx).2
    have ha := hA idx
    omega
  · intro idx
    obtain ⟨hp1, hp2, -, -⟩ := setup_bounds idx
    obtain ⟨ho0, ho1⟩ := op_range idx (hp idx).1 (hp idx).2 (hB idx).1 (hB idx).2
    have ha := hA idx
    omega
  · rw [operator_plus_eq_extend, extend_exact_eq hA hB (fun i => make_powers_range i _),
      make_powers_exact_eq]
    rfl
  · show trim_by A B (make_powers (wrapU64 (A.length - B.length))) = _
    rw [trim_by_exact_eq hA hB (fun i => make_powers_range i _), make_powers_exact_eq]

theorem no_overflow_witness :
    extend sample_block_a sample_block_b sample_powers =
        extend_exact sample_block_a sample_block_b sample_powers ∧
      operator_plus sample_block_a sample_block_b =
        operator_plus_exact sample_block_a sample_block_b ∧
      trim_by sample_block_a sample_block_b sample_powers =
        trim_by_exact sample_block_a sample_block_b sample_powers ∧
      hash_block_t.trim sample_block_a sample_block_b =
        trim_by_exact sample_block_a sample_block_b
          (make_powers_exact (wrapU64 (sample_block_a.length - sample_block_b.length))) :=
  ⟨(no_overflow sample_block_a sample_block_b sample_powers sample_block_a_wf.2
      sample_block_b_wf.2 (fun idx => by fin_cases idx <;> decide)).2.2.2.2.1,
    (no_overflow sample_block_a sample_block_b sample_powers sample_block_a_wf.2
      sample_block_b_wf.2 (fun idx => by fin_cases idx <;> decide)).2.2.2.2.2.1,
    (no_overflow sample_block_a sample_block_b sample_powers sample_block_a_wf.2
      sample_block_b_wf.2 (fun idx => by fin_cases idx <;> decide)).2.2.2.2.2.2.1,
    (no_overflow sample_block_a sample_block_b sample_powers sample_block_a_wf.2
      sample_block_b_wf.2 (fun idx => by fin_cases idx <;> decide)).2.2.2.2.2.2.2.1⟩

/-! ## No occurrence is missed -/

/-- C34 (no false negatives), as far as the source determines it. For every
`num_workers >= 1`, every signal of at least one token and every sequence (of a length
in `[0, 2^63)`), all tokens non-negative: the coordinator broadcasts `hash_signal` and
emits `requests` with pairwise disjoint windows; every worker reports the number of
positions `pos` of its window with
`hash_sequence(pos, pos + signal_length, SeqAt) == hash_signal`; every start position
`p` in `[1, possible]` at which the tokens of the sequence equal the tokens of the
signal lies in the window of a request and satisfies that comparison, so that it is
counted, by exactly one worker; and the sum `total` that `do_collect` computes from the
reports is at least the number of occurrences of the signal. The statement is about the
requests that the workers receive and the reports that they send; it does not say that
the coordinator gets from `master_t::do_compute`, which has no `return` statement, to
`do_collect`. -/
theorem no_false_negatives (num_workers : Nat) (inp : input_t) (hn : 1 ≤ num_workers)
    (hm : 1 ≤ inp.SignalLength) (hlen : 0 ≤ inp.SeqLength) (hlen' : inp.SeqLength < 2 ^ 63)
    (hseq : ∀ i, 0 ≤ inp.SeqAt i) (hsig : ∀ i, 0 ≤ inp.SignalAt i) :
    ∃ (signal_parts hash_seq : List hash_block_t) (hash_signal : hash_block_t)
      (requests : List request_t) (replies : List (Nat × Nat)) (total : Nat),
      worker_parts num_workers inp.SignalLength inp.SignalAt = some signal_parts ∧
      master_t.do_hash_signal signal_parts inp.SignalLength = some hash_signal ∧
      worker_parts num_workers inp.SeqLength inp.SeqAt = some hash_seq ∧
      master_t.do_compute num_workers hash_seq inp.SeqLength inp.SignalLength =
        some requests ∧
      requests.mapM (worker_t.do_compute inp hash_signal) = some replies ∧
      worker_replies num_workers inp = some replies ∧
      master_t.do_collect replies = total ∧
      occurrences inp ≤ total ∧
      requests.Pairwise
        (fun r s => ∀ p : Int, ¬ ((r.begin ≤ p ∧ p < r.end_) ∧ (s.begin ≤ p ∧ p < s.end_))) ∧
      (∀ r ∈ requests, worker_t.do_compute inp hash_signal r =
        some (0, if r.begin = 0 then 0
          else count_positions (window_equals inp.SeqAt hash_signal inp.SignalLength) r.begin
            (r.end_ - r.begin).toNat)) ∧
      ∀ p : Int, 1 ≤ p → p ≤ inp.SeqLength - inp.SignalLength + 1 → match_at inp p = true →
        window_equals inp.SeqAt hash_signal inp.SignalLength p = true ∧
          ∃ r ∈ requests, r.begin ≤ p ∧ p < r.end_ := by
  have hn' : (1 : Int) ≤ num_workers := by exact_mod_cast hn
  obtain ⟨counted, hcounted, -, hsum⟩ :=
    worker_replies_count num_workers inp hn hm hlen hlen' hseq hsig
  have hsiglen : (hash_range inp.SignalAt 1 (1 + inp.SignalLength)).length =
      inp.SignalLength := by
    rw [hash_range_length inp.SignalAt (by omega)]; ring
  have hfun : window_equals inp.SeqAt (hash_range inp.SignalAt 1 (1 + inp.SignalLength))
      inp.SignalLength = hash_match_at inp := by
    funext p
    rw [window_equals_eq inp.SeqAt _ inp.SignalLength (by omega) hsiglen,
      hash_match_at_eq inp (by omega)]
  obtain ⟨sent, rest, hdo, htile, hctx, hrest, -⟩ := master_do_compute_context num_workers hn
    inp.SeqLength hlen hlen' inp.SeqAt hseq inp.SignalLength (by omega)
  have hworker : ∀ r ∈ sent ++ rest,
      worker_t.do_compute inp (hash_range inp.SignalAt 1 (1 + inp.SignalLength)) r =
        some (0, if r.begin = 0 then 0
          else count_positions (window_equals inp.SeqAt
            (hash_range inp.SignalAt 1 (1 + inp.SignalLength)) inp.SignalLength) r.begin
            (r.end_ - r.begin).toNat) := by
    intro r hr
    rcases List.mem_append.1 hr with h | h
    · obtain ⟨h1, h2, h3, h4⟩ := windows_tile_mem _ _ _ htile r h
      rw [worker_do_compute_count inp hseq _ hm (by omega) hsiglen r (hctx r h) h1 h2,
        if_neg (by omega), hfun, ← funext (hash_match_at_eq inp (by omega))]
    · rw [worker_do_compute_empty inp _ r (hrest r h).1, if_pos (hrest r h).1]
  have hmap := mapM_eq_some_map _ _ _ hworker
  have hreplies := hcounted
  unfold worker_replies at hreplies
  rw [worker_parts_eq_slice_blocks num_workers hn _ (by omega) inp.SignalAt] at hreplies
  simp only [] at hreplies
  rw [master_do_hash_signal_eq num_workers hn inp (by omega) hsig] at hreplies
  simp only [] at hreplies
  rw [worker_parts_eq_slice_blocks num_workers hn _ hlen inp.SeqAt] at hreplies
  simp only [] at hreplies
  rw [hdo] at hreplies
  simp only [] at hreplies
  rw [hmap] at hreplies
  simp only [Option.some.injEq] at hreplies
  rw [← hreplies] at hcounted hsum
  refine ⟨_, _, _, _, _, _, worker_parts_eq_slice_blocks num_workers hn _ (by omega) inp.SignalAt,
    master_do_hash_signal_eq num_workers hn inp (by omega) hsig,
    worker_parts_eq_slice_blocks num_workers hn _ hlen inp.SeqAt, hdo, hmap, hcounted, hsum,
    occurrences_le_hash_occurrences inp (by omega), ?_, hworker, ?_⟩
  · rw [List.pairwise_append]
    refine ⟨(windows_tile_pairwise _ _ _ htile).imp (fun h p hp => by omega), ?_, ?_⟩
    · refine List.Pairwise.imp_of_mem ?_ (List.pairwise_of_forall (fun _ _ => trivial))
      intro r s hr hs _ p hp
      have := (hrest r hr)
      omega
    · intro r _ s hs p hp
      have := hrest s hs
      omega
  · intro p hp1 hp2 hmatch
    refine ⟨by rw [hfun]; exact match_at_hash_match_at inp (by omega) p hmatch, ?_⟩
    rw [min_eq_left (by omega)] at htile
    obtain ⟨r, hr, hrp⟩ := (windows_tile_cover _ _ _ htile p).2 ⟨hp1, by omega⟩
    exact ⟨r, List.mem_append_left _ hr, hrp⟩

theorem no_false_negatives_witness :
    (∃ (signal_parts hash_seq : List hash_block_t) (hash_signal : hash_block_t)
      (requests : List request_t) (replies : List (Nat × Nat)) (total : Nat),
      worker_parts 2 (input_of [65, 66, 65, 66, 65] [65, 66]).SignalLength
        (input_of [65, 66, 65, 66, 65] [65, 66]).SignalAt = some signal_parts ∧
      master_t.do_hash_signal signal_parts (input_of [65, 66, 65, 66, 65] [65, 66]).SignalLength =
        some hash_signal ∧
      worker_parts 2 (input_of [65, 66, 65, 66, 65] [65, 66]).SeqLength
        (input_of [65, 66, 65, 66, 65] [65, 66]).SeqAt = some hash_seq ∧
      master_t.do_compute 2 hash_seq (input_of [65, 66, 65, 66, 65] [65, 66]).SeqLength
        (input_of [65, 66, 65, 66, 65] [65, 66]).SignalLength = some requests ∧
      requests.mapM (worker_t.do_compute (input_of [65, 66, 65, 66, 65] [65, 66]) hash_signal) =
        some replies ∧
      worker_replies 2 (input_of [65, 66, 65, 66, 65] [65, 66]) = some replies ∧
      master_t.do_collect replies = total ∧
      occurrences (input_of [65, 66, 65, 66, 65] [65, 66]) ≤ total) ∧
    worker_replies 2 (input_of [65, 66, 65, 66, 65] [65, 66]) = some [(0, 1), (0, 1)] ∧
    occurrences (input_of [65, 66, 65, 66, 65] [65, 66]) = 2 :=
  ⟨(no_false_negatives 2 (input_of [65, 66, 65, 66, 65] [65, 66]) (by decide) (by decide)
      (by decide) (by decide) (input_of_SeqAt_nonneg _ _ (by decide))
      (input_of_SignalAt_nonneg _ _ (by decide))).imp
      (fun _ h => h.imp (fun _ h => h.imp (fun _ h => h.imp (fun _ h => h.imp (fun _ h =>
        h.imp (fun _ h => ⟨h.1, h.2.1, h.2.2.1, h.2.2.2.1, h.2.2.2.2.1, h.2.2.2.2.2.1,
          h.2.2.2.2.2.2.1, h.2.2.2.2.2.2.2.1⟩)))))),
    by decide, by decide⟩

end Pos

namespace Sabotaz

open Message

/-! ## The chunked stream of edges -/

theorem writer_messages : ∀ (edges : List (Int × Int)) (records : Nat) (buffer : List word_t)
    (queue : List (List word_t)) (current : List word_t),
    edge_writer_t.destroy
        (edges.foldl (fun st e => edge_writer_t.call e.1 e.2 st.1 st.2)
          (⟨records⟩, ⟨buffer, queue, current⟩)).2 =
      ⟨[], queue ++ (buffer ++ (stream_rest records edges).1) :: (stream_rest records edges).2,
        current⟩ := by
  intro edges
  induction edges with
  | nil =>
    intro records buffer queue current
    simp [edge_writer_t.destroy, Send, PutInt, stream_rest]
  | cons e edges ih =>
    intro records buffer queue current
    rw [List.foldl_cons]
    by_cases h : records + 1 ≥ RECORDS_IN_MESSAGE
    · have hcall : edge_writer_t.call e.1 e.2 ⟨records⟩ ⟨buffer, queue, current⟩ =
          (⟨0⟩, ⟨[], queue ++ [buffer ++ [word_t.int e.1, word_t.int e.2,
            word_t.int NEXT_MESSAGE]], current⟩) := by
        simp [edge_writer_t.call, h, Send, PutInt]
      rw [hcall, ih, stream_rest, if_pos h]
      simp
    · have hcall : edge_writer_t.call e.1 e.2 ⟨records⟩ ⟨buffer, queue, current⟩ =
          (⟨records + 1⟩, ⟨buffer ++ [word_t.int e.1, word_t.int e.2], queue, current⟩) := by
        simp [edge_writer_t.call, h, PutInt]
      rw [hcall, ih, stream_rest, if_neg h]
      simp

theorem reader_calls : ∀ (edges : List (Int × Int)),
    (∀ e ∈ edges, e.1 ≠ -1 ∧ e.1 ≠ -2) →
    ∀ (records fuel : Nat) (calls : List (Int × Int)) (buffer : List word_t),
      2 * edges.length + 1 ≤ fuel →
      edge_reader_loop fuel
          ⟨buffer, (stream_rest records edges).2, (stream_rest records edges).1⟩ calls =
        Except.ok (calls ++ edges, ⟨buffer, [], []⟩) := by
  intro edges
  induction edges with
  | nil =>
    intro _ records fuel calls buffer hfuel
    obtain ⟨fuel, rfl⟩ : ∃ f, fuel = f + 1 := ⟨fuel - 1, by omega⟩
    simp [edge_reader_loop, stream_rest, GetInt, END_OF_STREAM, NEXT_MESSAGE]
  | cons e edges ih =>
    intro hvalid records fuel calls buffer hfuel
    have he := hvalid e (List.mem_cons_self _ _)
    have hrest : ∀ e' ∈ edges, e'.1 ≠ -1 ∧ e'.1 ≠ -2 :=
      fun e' h => hvalid e' (List.mem_cons_of_mem _ h)
    rw [List.length_cons] at hfuel
    obtain ⟨fuel, rfl⟩ : ∃ f, fuel = f + 1 := ⟨fuel - 1, by omega⟩
    by_cases h : records + 1 ≥ RECORDS_IN_MESSAGE
    · obtain ⟨fuel, rfl⟩ : ∃ f, fuel = f + 1 := ⟨fuel - 1, by omega⟩
      rw [stream_rest, if_pos h]
      simp only [edge_reader_loop, GetInt, NEXT_MESSAGE, END_OF_STREAM, he.1, he.2, if_false,
        if_true, Receive]
      rw [ih hrest 0 fuel _ buffer (by omega)]
      simp
    · rw [stream_rest, if_neg h]
      simp only [edge_reader_loop, GetInt, NEXT_MESSAGE, END_OF_STREAM, he.1, he.2, if_false]
      rw [ih hrest (records + 1) fuel _ buffer (by omega)]
      simp

theorem stream_rest_words : ∀ (edges : List (Int × Int)) (records : Nat),
    2 * edges.length + 1 ≤
      (stream_rest records edges).1.length +
        ((stream_rest records edges).2.map List.length).sum := by
  intro edges
  induction edges with
  | nil => intro records; simp [stream_rest]
  | cons e edges ih =>
    intro records
    by_cases h : records + 1 ≥ RECORDS_IN_MESSAGE
    · have := ih 0
      rw [stream_rest, if_pos h]
      simp only [List.length_cons, List.length_nil, List.map_cons, List.sum_cons]
      omega
    · have := ih (records + 1)
      rw [stream_rest, if_neg h]
      simp only [List.length_cons]
      omega

/-- C18: the chunked stream round-trips. For every finite list of edges `(a, b)` whose
first endpoint is neither `-1` nor `-2`, of any length, on a link with no unsent scalars
and no message under way: `edge_reader_t` reading the messages written by an
`edge_writer_t` (its destructor included) calls the callback with exactly the edges of
the list in order, returns at the end-of-stream marker, and leaves no scalar and no
message unread. -/
theorem edge_stream_round_trip (edges : List (Int × Int))
    (hvalid : ∀ e ∈ edges, e.1 ≠ -1 ∧ e.1 ≠ -2) (current : List word_t) :
    edge_reader_t.call (write_edges edges ⟨[], [], current⟩) =
      Except.ok (edges, ⟨[], [], []⟩) := by
  unfold write_edges edge_writer_t.init
  rw [writer_messages edges 0 [] [] current]
  simp only [edge_reader_t.call, Receive, List.nil_append, words_available]
  have hfuel := stream_rest_words edges 0
  rw [reader_calls edges hvalid 0 _ [] [] (by omega)]
  simp

theorem edge_stream_round_trip_witness :
    edge_reader_t.call (write_edges [(0, 1), (1, 2), (2, -1), (5, 0)] ⟨[], [], []⟩) =
      Except.ok ([(0, 1), (1, 2), (2, -1), (5, 0)], ⟨[], [], []⟩) :=
  edge_stream_round_trip [(0, 1), (1, 2), (2, -1), (5, 0)] (by decide) []

/-! ## The size of the physical messages -/

theorem edge_words_length : ∀ edges : List (Int × Int),
    (edge_words edges).length = 2 * edges.length := by
  intro edges
  induction edges with
  | nil => rfl
  | cons e edges ih => simp only [edge_words, List.length_cons, ih]; omega

theorem edge_words_bytes : ∀ edges : List (Int × Int),
    message_bytes (edge_words edges) = 8 * edges.length := by
  intro edges
  induction edges with
  | nil => rfl
  | cons e edges ih =>
    unfold message_bytes at ih ⊢
    simp only [edge_words, List.map_cons, List.sum_cons, word_bytes, List.length_cons, ih]
    omega

/-- Every message that a writer with `records < RECORDS_IN_MESSAGE` records in its unsent
message still produces consists of the scalars of some edges and one marker; the unsent
message is completed to at most `RECORDS_IN_MESSAGE` records. -/
theorem stream_rest_shape : ∀ (edges : List (Int × Int)) (records : Nat),
    records < RECORDS_IN_MESSAGE →
    (∃ (recs : List (Int × Int)) (marker : Int),
      (stream_rest records edges).1 = edge_words recs ++ [word_t.int marker] ∧
      records + recs.length ≤ RECORDS_IN_MESSAGE ∧
      (marker = NEXT_MESSAGE ∨ marker = END_OF_STREAM)) ∧
    ∀ message ∈ (stream_rest records edges).2,
      ∃ (recs : List (Int × Int)) (marker : Int),
        message = edge_words recs ++ [word_t.int marker] ∧
        recs.length ≤ RECORDS_IN_MESSAGE ∧
        (marker = NEXT_MESSAGE ∨ marker = END_OF_STREAM) := by
  intro edges
  induction edges with
  | nil =>
    intro records hrec
    refine ⟨⟨[], END_OF_STREAM, rfl, by simp only [List.length_nil]; omega, Or.inr rfl⟩, ?_⟩
    intro message hm
    simp [stream_rest] at hm
  | cons e edges ih =>
    intro records hrec
    rw [stream_rest]
    by_cases h : records + 1 ≥ RECORDS_IN_MESSAGE
    · rw [if_pos h]
      obtain ⟨h1, h2⟩ := ih 0 (by decide)
      refine ⟨⟨[e], NEXT_MESSAGE, rfl, by simp only [List.length_singleton]; omega,
        Or.inl rfl⟩, ?_⟩
      intro message hm
      rcases List.mem_cons.1 hm with e' | e'
      · obtain ⟨recs, marker, hshape, hlen, hmark⟩ := h1
        exact ⟨recs, marker, by rw [e', hshape], by omega, hmark⟩
      · exact h2 message e'
    · rw [if_neg h]
      obtain ⟨⟨recs, marker, hshape, hlen, hmark⟩, h2⟩ := ih (records + 1) (by omega)
      refine ⟨⟨e :: recs, marker, ?_, by simp only [List.length_cons]; omega, hmark⟩, h2⟩
      show word_t.int e.1 :: word_t.int e.2 :: (stream_rest (records + 1) edges).1 = _
      rw [hshape]
      rfl

/-- C30 (physical message cap). For every list of edges written through one
`edge_writer_t` (constructed, called for every edge, destroyed) on a link with an empty
buffer, every physical message (the scalars put between two consecutive `Send` calls)
consists of the two scalars of each of at most `RECORDS_IN_MESSAGE = 987` edges followed
by one marker (`NEXT_MESSAGE` or `END_OF_STREAM`), all put by `PutInt`: at most 1975
scalars of 4 bytes, that is at most 7900 bytes. -/
theorem message_cap (edges : List (Int × Int)) (current : List word_t) :
    RECORDS_IN_MESSAGE = 987 ∧
    ∀ message ∈ (write_edges edges ⟨[], [], current⟩).queue,
      (∃ (recs : List (Int × Int)) (marker : Int),
        message = edge_words recs ++ [word_t.int marker] ∧
        recs.length ≤ RECORDS_IN_MESSAGE ∧
        (marker = NEXT_MESSAGE ∨ marker = END_OF_STREAM)) ∧
      message.length ≤ 1975 ∧ message_bytes message = 4 * message.length ∧
      message_bytes message ≤ 7900 := by
  refine ⟨by decide, ?_⟩
  intro message hm
  unfold write_edges edge_writer_t.init at hm
  rw [writer_messages] at hm
  simp only [List.nil_append] at hm
  obtain ⟨h1, h2⟩ := stream_rest_shape edges 0 (by decide)
  have hshape : ∃ (recs : List (Int × Int)) (marker : Int),
      message = edge_words recs ++ [word_t.int marker] ∧
      recs.length ≤ RECORDS_IN_MESSAGE ∧
      (marker = NEXT_MESSAGE ∨ marker = END_OF_STREAM) := by
    rcases List.mem_cons.1 hm with e | e
    · obtain ⟨recs, marker, hs, hlen, hmark⟩ := h1
      exact ⟨recs, marker, by rw [e, hs], by omega, hmark⟩
    · exact h2 message e
  refine ⟨hshape, ?_⟩
  obtain ⟨recs, marker, hs, hlen, -⟩ := hshape
  have h987 : RECORDS_IN_MESSAGE = 987 := by decide
  have hlength : message.length = 2 * recs.length + 1 := by
    rw [hs, List.length_append, edge_words_length, List.length_singleton]
  have hbytes : message_bytes message = 8 * recs.length + 4 := by
    have h := edge_words_bytes recs
    unfold message_bytes at h ⊢
    rw [hs, List.map_append, List.sum_append, h]
    rfl
  omega

/-! ## The search for bridges: the adjacency lists -/

theorem graph_add_edge_count (adj : Nat → List Nat) (a b x y : Nat) :
    (graph_t.add_edge adj a b x).count y = (adj x).count y + joins (a, b) x y := by
  unfold graph_t.add_edge joins
  by_cases hxb : x = b
  · subst hxb
    rw [Function.update_same]
    by_cases hxa : x = a
    · subst hxa
      rw [Function.update_same]
      by_cases hy : y = x
      · subst hy; simp
      · simp [List.count_append, hy, Ne.symm hy]
    · rw [Function.update_noteq hxa]
      by_cases hy : y = a
      · subst hy; simp [List.count_append, hxa]
      · simp [List.count_append, hxa, hy, Ne.symm hy]
  · rw [Function.update_noteq hxb]
    by_cases hxa : x = a
    · subst hxa
      rw [Function.update_same]
      by_cases hy : y = b
      · subst hy; simp [List.count_append, hxb]
      · simp [List.count_append, hxb, hy, Ne.symm hy]
    · rw [Function.update_noteq hxa]
      simp [hxa, hxb]

/-- An adjacency list holds `y` once for every edge end that joins it to `y`. -/
theorem graph_load_count (edges : List (Nat × Nat)) (x y : Nat) :
    (graph_t.load edges x).count y = (edges.map (fun e => joins e x y)).sum := by
  unfold graph_t.load
  have hgen : ∀ (es : List (Nat × Nat)) (adj : Nat → List Nat),
      ((es.foldl (fun adj e => graph_t.add_edge adj e.1 e.2) adj) x).count y =
        (adj x).count y + (es.map (fun e => joins e x y)).sum := by
    intro es
    induction es with
    | nil => intro adj; simp
    | cons e es ih =>
      intro adj
      rw [List.foldl_cons, ih, graph_add_edge_count, List.map_cons, List.sum_cons]
      have : joins (e.1, e.2) x y = joins e x y := rfl
      omega
  rw [hgen]
  simp

theorem joins_symm (e : Nat × Nat) (x y : Nat) : joins e x y = joins e y x := by
  unfold joins
  have e1 : (x = e.1 ∧ y = e.2) ↔ (y = e.2 ∧ x = e.1) := And.comm
  have e2 : (x = e.2 ∧ y = e.1) ↔ (y = e.1 ∧ x = e.2) := And.comm
  simp only [e1, e2]
  omega

theorem graph_load_symm (edges : List (Nat × Nat)) {x y : Nat}
    (h : y ∈ graph_t.load edges x) : x ∈ graph_t.load edges y := by
  rw [← List.count_pos_iff] at h ⊢
  rw [graph_load_count] at h ⊢
  have : (fun e => joins e y x) = (fun e => joins e x y) := by
    funext e
    exact joins_symm e y x
  rw [this]
  exact h

theorem sum_pos_exists (l : List Nat) (h : 0 < l.sum) : ∃ a ∈ l, 0 < a := by
  induction l with
  | nil => simp at h
  | cons a l ih =>
    rw [List.sum_cons] at h
    by_cases ha : 0 < a
    · exact ⟨a, List.mem_cons_self _ _, ha⟩
    · obtain ⟨b, hb, hb'⟩ := ih (by omega)
      exact ⟨b, List.mem_cons_of_mem _ hb, hb'⟩

/-- Both ends of every entry of the adjacency lists are vertices. -/
theorem graph_load_lt (n : Nat) (edges : List (Nat × Nat))
    (hvalid : ∀ e ∈ edges, e.1 < n ∧ e.2 < n) (x y : Nat) (h : y ∈ graph_t.load edges x) :
    y < n ∧ x < n := by
  rw [← List.count_pos_iff, graph_load_count] at h
  obtain ⟨a, ha, hpos⟩ := sum_pos_exists _ h
  obtain ⟨e, he, rfl⟩ := List.mem_map.1 ha
  have hv := hvalid e he
  unfold joins at hpos
  by_cases h1 : x = e.1 ∧ y = e.2
  · rw [h1.1, h1.2]; exact ⟨hv.2, hv.1⟩
  · by_cases h2 : x = e.2 ∧ y = e.1
    · rw [h2.1, h2.2]; exact ⟨hv.1, hv.2⟩
    · rw [if_neg h1, if_neg h2] at hpos
      omega

theorem sum_eraseIdx (f : Nat × Nat → Nat) (l : List (Nat × Nat)) (i : Nat) (e : Nat × Nat)
    (h : l.get? i = some e) : (l.map f).sum = ((l.eraseIdx i).map f).sum + f e := by
  induction l generalizing i with
  | nil => simp at h
  | cons a l ih =>
    cases i with
    | zero =>
      simp only [List.get?_cons_zero, Option.some.injEq] at h
      rw [h]
      simp only [List.eraseIdx_cons_zero, List.map_cons, List.sum_cons]
      omega
    | succ i =>
      simp only [List.get?_cons_succ] at h
      simp only [List.eraseIdx_cons_succ, List.map_cons, List.sum_cons, ih i h]
      omega

/-- Taking the edge `e` out of the list takes its ends out of the adjacency lists. -/
theorem graph_load_erase (edges : List (Nat × Nat)) (i : Nat) (e : Nat × Nat)
    (h : edges.get? i = some e) (x y : Nat) :
    (graph_t.load edges x).count y =
      (graph_t.load (edges.eraseIdx i) x).count y + joins e x y := by
  rw [graph_load_count, graph_load_count, sum_eraseIdx _ edges i e h]

/-! ## The search for bridges: the invariants of `dfs` -/

theorem visited_of_eq {vs vs' : vertices_t} {x : Nat} (h : vs'.order x = vs.order x)
    (hx : visited vs x) : visited vs' x := by
  unfold visited at hx ⊢
  rw [h]
  exact hx

theorem anc_up_mono {vs vs' : vertices_t}
    (h : ∀ y, visited vs y → vs'.order y = vs.order y ∧ vs'.parentid y = vs.parentid y)
    {q y : Nat} (hp : anc_up vs q y) : anc_up vs' q y := by
  unfold anc_up at hp ⊢
  refine Relation.ReflTransGen.mono ?_ hp
  intro c r hcr
  exact ⟨visited_of_eq (h c hcr.1).1 hcr.1, by rw [(h c hcr.1).2]; exact hcr.2⟩

theorem qualifying_congr (adj : Nat → List Nat) {vs vs' : vertices_t} {w : Nat}
    (h : vs'.parentid w = vs.parentid w) (y : Nat) :
    qualifying adj vs' w y ↔ qualifying adj vs w y := by
  unfold qualifying
  rw [h]

/-- What holds of a vertex whose call has returned keeps holding while `order` and
`parentid` of the visited vertices and `low` of the vertex stay as they are. -/
theorem finished_stable (adj : Nat → List Nat) {vs vs' : vertices_t} {x : Nat}
    {N : Nat → Prop}
    (h : ∀ y, visited vs y → vs'.order y = vs.order y ∧ vs'.parentid y = vs.parentid y)
    (hlow : vs'.low x = vs.low x) (hf : finished adj vs x N) : finished adj vs' x N := by
  obtain ⟨f1, f2, f3, f4, f5, f6, f7⟩ := hf
  have hx := (f2 x f1).1
  refine ⟨f1, fun w hw => ?_, fun w hw hwx => ?_, fun w hw y hy hNy => ?_, ?_,
    fun w hw y hy hq => ?_, ?_⟩
  · obtain ⟨a, b, c⟩ := f2 w hw
    refine ⟨visited_of_eq (h w a).1 a, by rw [(h x hx).1, (h w a).1]; exact b, fun y hy => ?_⟩
    exact visited_of_eq (h y (c y hy)).1 (c y hy)
  · obtain ⟨q, hq, hNq⟩ := f3 w hw hwx
    exact ⟨q, by rw [(h w (f2 w hw).1).2]; exact hq, hNq⟩
  · obtain ⟨a, q, hq, hp⟩ := f4 w hw y hy hNy
    have hvy := (f2 w hw).2.2 y hy
    exact ⟨by rw [(h x hx).1, (h y hvy).1]; exact a, q, by rw [(h x hx).2]; exact hq,
      anc_up_mono h hp⟩
  · rw [hlow, (h x hx).1]
    exact f5
  · have hvy := (f2 w hw).2.2 y hy
    rw [hlow, (h y hvy).1]
    exact f6 w hw y hy ((qualifying_congr adj (h w (f2 w hw).1).2 y).1 hq)
  · rcases f7 with f7 | ⟨w, hw, y, hy, hq, e⟩
    · left
      rw [hlow, (h x hx).1]
      exact f7
    · right
      have hvy := (f2 w hw).2.2 y hy
      exact ⟨w, hw, y, hy, (qualifying_congr adj (h w (f2 w hw).1).2 y).2 hq,
        by rw [hlow, (h y hvy).1]; exact e⟩

theorem unvisited_count_le (n : Nat) (vs : vertices_t) : unvisited_count n vs ≤ n := by
  unfold unvisited_count
  simpa using Finset.card_filter_le (Finset.range n)
    (fun x => vs.order x = graph_t.UNVISITED)

/-- Visiting a vertex lowers the number of vertices not visited by one. -/
theorem unvisited_count_mark (n : Nat) (vs vs' : vertices_t) (v : Nat) (t : Int)
    (hv : v < n) (ht : t ≠ graph_t.UNVISITED) (h : vs.order v = graph_t.UNVISITED)
    (e : vs'.order = Function.update vs.order v t) :
    unvisited_count n vs' + 1 = unvisited_count n vs := by
  unfold unvisited_count
  have hset : (Finset.range n).filter (fun x => vs'.order x = graph_t.UNVISITED) =
      ((Finset.range n).filter (fun x => vs.order x = graph_t.UNVISITED)).erase v := by
    ext x
    simp only [Finset.mem_filter, Finset.mem_range, Finset.mem_erase, e]
    by_cases hx : x = v
    · subst hx
      rw [Function.update_same]
      simp [ht]
    · rw [Function.update_noteq hx]
      simp [hx]
  rw [hset, Finset.card_erase_of_mem (by simp [hv, h])]
  have : 0 < ((Finset.range n).filter (fun x => vs.order x = graph_t.UNVISITED)).card :=
    Finset.card_pos.2 ⟨v, by simp [hv, h]⟩
  omega

theorem unvisited_count_congr (n : Nat) (vs vs' : vertices_t) (e : vs'.order = vs.order) :
    unvisited_count n vs' = unvisited_count n vs := by
  unfold unvisited_count
  rw [e]

theorem dfs_wf_congr (n : Nat) (adj : Nat → List Nat) (vs vs' : vertices_t) (t : Int)
    (e1 : vs'.order = vs.order) (e2 : vs'.parentid = vs.parentid)
    (h : dfs_wf n adj (vs, t)) : dfs_wf n adj (vs', t) := by
  unfold dfs_wf visited unvisited_count at h ⊢
  simp only [e1, e2]
  exact h

theorem not_visited_iff (vs : vertices_t) (x : Nat) :
    ¬ visited vs x ↔ vs.order x = graph_t.UNVISITED := by
  unfold visited
  exact not_not

theorem countP_cast_eq (l : List Nat) (u : Nat) (p : Int) (h : (u : Int) = p) :
    l.countP (fun (x : Nat) => decide ((x : Int) = p)) = l.count u := by
  rw [List.count, ← h]
  apply List.countP_congr
  intro x _
  simp

/-- The state on entry to the loop of `dfs`. -/
theorem dfs_loop_init (n : Nat) (adj : Nat → List Nat) (fuel v : Nat) (p : Int)
    (onstack : Nat → Prop) (vs : vertices_t) (time : Int)
    (hpre : dfs_pre n adj fuel v p onstack (vs, time)) (vs1 : vertices_t)
    (e1 : vs1.parentid = Function.update vs.parentid v p)
    (e2 : vs1.order = Function.update vs.order v time)
    (e3 : vs1.low = Function.update vs.low v time) :
    dfs_loop_inv n adj v p (vs, time) [] (0, vs1, time + 1) := by
  obtain ⟨⟨g0, g1, g2, g3, g4⟩, hv, hvo, h3, h4, h5, h6⟩ := hpre
  simp only at g0 g1 g2 g3 g4 hvo h3 h4 h5 h6
  have htime : time ≠ graph_t.UNVISITED := by
    unfold graph_t.UNVISITED
    omega
  have hne : ∀ x, visited vs x → x ≠ v := by
    intro x hx hxv
    rw [hxv] at hx
    exact hx hvo
  have hvis : ∀ x, visited vs1 x ↔ x = v ∨ visited vs x := by
    intro x
    unfold visited
    rw [e2]
    by_cases hx : x = v
    · rw [hx, Function.update_same]
      simp [htime]
    · rw [Function.update_noteq hx]
      simp [hx]
  refine ⟨⟨by simp only []; omega, fun x hx => ?_, fun x y hx hy hxy => ?_, fun x hx => ?_,
      ?_⟩,
    fun x hx => ?_, ⟨by simp [e2], by simp [e1], (hvis v).2 (Or.inl rfl)⟩, fun x hx hx' => ?_,
    fun x hx hx' hxv => ?_, fun u hu => by simp at hu, by simp, fun u hu => by simp at hu,
    fun h => by simp at h, fun w hw hw' hwv => ?_, by simp [e3], Or.inl (by simp [e3]), ?_⟩
  · simp only [e2]
    rcases (hvis x).1 hx with rfl | hx
    · rw [Function.update_same]
      exact ⟨hv, g0, by omega⟩
    · rw [Function.update_noteq (hne x hx)]
      have := g1 x hx
      exact ⟨this.1, this.2.1, by omega⟩
  · simp only [e2] at hxy
    rcases (hvis x).1 hx with rfl | hx
    · rcases (hvis y).1 hy with rfl | hy
      · rfl
      · rw [Function.update_same, Function.update_noteq (hne y hy)] at hxy
        have := g1 y hy
        omega
    · rcases (hvis y).1 hy with rfl | hy
      · rw [Function.update_same, Function.update_noteq (hne x hx)] at hxy
        have := g1 x hx
        omega
      · rw [Function.update_noteq (hne x hx), Function.update_noteq (hne y hy)] at hxy
        exact g2 x y hx hy hxy
  · simp only [e1, e2]
    rcases (hvis x).1 hx with rfl | hx
    · rw [Function.update_same, Function.update_same]
      rcases h3 with h3 | ⟨q, hq, hvq, hqa⟩
      · exact Or.inl h3
      · refine Or.inr ⟨q, hq, (hvis q).2 (Or.inr hvq), hqa, ?_⟩
        rw [Function.update_noteq (hne q hvq)]
        exact (g1 q hvq).2.2
    · rw [Function.update_noteq (hne x hx), Function.update_noteq (hne x hx)]
      rcases g3 x hx with g | ⟨q, hq, hvq, hqa, hlt⟩
      · exact Or.inl g
      · refine Or.inr ⟨q, hq, (hvis q).2 (Or.inr hvq), hqa, ?_⟩
        rw [Function.update_noteq (hne q hvq)]
        exact hlt
  · have := unvisited_count_mark n vs vs1 v time hv htime hvo e2
    simp only []
    omega
  · simp only [e1, e2, e3]
    rw [Function.update_noteq (hne x hx), Function.update_noteq (hne x hx),
      Function.update_noteq (hne x hx)]
    exact ⟨rfl, rfl, rfl⟩
  · rcases (hvis x).1 hx' with rfl | h
    · simp [e2]
    · exact absurd h hx
  · rcases (hvis x).1 hx' with h | h
    · exact absurd h hxv
    · exact absurd h hx
  · rcases (hvis w).1 hw' with h | h
    · exact absurd h hwv
    · exact absurd h hw
  · have := unvisited_count_mark n vs vs1 v time hv htime hvo e2
    simp only []
    omega

/-- A round of the loop of `dfs` that lowers `low` of `v` to `order` of a visited
neighbour keeps the invariant. -/
theorem dfs_loop_update (n : Nat) (adj : Nat → List Nat) (v : Nat) (p : Int)
    (st : vertices_t × Int) (done rest : List Nat) (u pc : Nat) (vs vs' : vertices_t)
    (t : Int) (hinv : dfs_loop_inv n adj v p st done (pc, vs, t))
    (hvst : ¬ visited st.1 v) (hu : visited vs u) (hadj : adj v = done ++ u :: rest)
    (hq : (u : Int) ≠ p ∨ ((u : Int) = p ∧ pc ≠ 0))
    (e1 : vs'.parentid = vs.parentid) (e2 : vs'.order = vs.order)
    (e3 : vs'.low = Function.update vs.low v (min (vs.low v) (vs.order u))) :
    dfs_loop_inv n adj v p st (done ++ [u])
      (if (u : Int) = p then pc + 1 else pc, vs', t) := by
  obtain ⟨i1, i2, i3, i4, i5, i6, i7, i8a, i8b, i9, i10, i11, i12⟩ := hinv
  simp only at i1 i2 i3 i4 i5 i6 i7 i8a i8b i9 i10 i11 i12
  have hvis : ∀ x, visited vs' x ↔ visited vs x := by
    intro x
    unfold visited
    rw [e2]
  have hlowv : vs'.low v = min (vs.low v) (vs.order u) := by
    rw [e3, Function.update_same]
  have hlow : ∀ x, x ≠ v → vs'.low x = vs.low x := by
    intro x hx
    rw [e3, Function.update_noteq hx]
  have hle : vs'.low v ≤ vs.low v := by
    rw [hlowv]
    exact min_le_left _ _
  have hqual : ∀ w y, qualifying adj vs' w y ↔ qualifying adj vs w y := by
    intro w y
    exact qualifying_congr adj (by rw [e1]) y
  have hstab : ∀ x N, x ≠ v → finished adj vs x N → finished adj vs' x N := by
    intro x N hx hf
    exact finished_stable adj (fun y _ => ⟨by rw [e2], by rw [e1]⟩) (hlow x hx) hf
  refine ⟨dfs_wf_congr n adj vs vs' t e2 e1 i1, fun x hx => ?_,
    ⟨by rw [e2]; exact i3.1, by rw [e1]; exact i3.2.1, (hvis v).2 i3.2.2⟩,
    fun x hx hx' => ?_, fun x hx hx' hxv => ?_, fun w hw => ?_, ?_, fun w hw hwp => ?_,
    fun hpc q hpq => ?_, fun w hw hw' hwv y hy hqy => ?_, le_trans hle i10, ?_, ?_⟩
  · have hxv : x ≠ v := by
      rintro rfl
      exact hvst hx
    simp only [e1, e2, hlow x hxv]
    exact i2 x hx
  · simp only [e2]
    exact i4 x hx ((hvis x).1 hx')
  · obtain ⟨⟨N, hN⟩, q, hq1, hq2, hq3⟩ := i5 x hx ((hvis x).1 hx') hxv
    exact ⟨⟨N, hstab x N hxv hN⟩, q, by rw [e1]; exact hq1, hq2, (hvis q).2 hq3⟩
  · rcases List.mem_append.1 hw with hw | hw
    · exact (hvis w).2 (i6 w hw)
    · rw [List.mem_singleton] at hw
      rw [hw]
      exact (hvis u).2 hu
  · simp only [List.countP_append, List.countP_cons, List.countP_nil, ← i7]
    by_cases hup : (u : Int) = p
    · simp [hup]
    · simp [hup]
  · simp only [e2]
    rcases List.mem_append.1 hw with hw | hw
    · exact le_trans hle (i8a w hw hwp)
    · rw [List.mem_singleton] at hw
      rw [hw, hlowv]
      exact min_le_right _ _
  · simp only [e2]
    rcases hq with hq | ⟨hq, -⟩
    · rw [if_neg hq] at hpc
      exact le_trans hle (i8b hpc q hpq)
    · have : q = u := by omega
      rw [this, hlowv]
      exact min_le_right _ _
  · simp only [e2]
    exact le_trans hle (i9 w hw ((hvis w).1 hw') hwv y hy ((hqual w y).1 hqy))
  · by_cases hlt : vs.order u < vs.low v
    · right
      refine ⟨v, ⟨hvst, (hvis v).2 i3.2.2⟩, u, by rw [hadj]; simp, ?_, (hvis u).2 hu, ?_⟩
      · rw [hqual]
        unfold qualifying
        rw [i3.2.1]
        rcases hq with hq | ⟨hq, hpc⟩
        · exact Or.inl hq
        · right
          rw [i7, countP_cast_eq done u p hq] at hpc
          rw [hadj, List.count_append, List.count_cons_self]
          omega
      · rw [e2, hlowv, min_eq_right (le_of_lt hlt)]
    · have e : vs'.low v = vs.low v := by
        rw [hlowv]
        exact min_eq_left (by omega)
      rw [e]
      rcases i11 with h | ⟨w, hw, y, hy, hqy, hvy, hoy⟩
      · exact Or.inl h
      · exact Or.inr ⟨w, ⟨hw.1, (hvis w).2 hw.2⟩, y, hy, (hqual w y).2 hqy, (hvis y).2 hvy,
          by rw [e2]; exact hoy⟩
  · rw [unvisited_count_congr n vs vs' e2]
    exact i12

/-- A round of the loop of `dfs` that only counts the first edge end leading to the
parent keeps the invariant. -/
theorem dfs_loop_skip (n : Nat) (adj : Nat → List Nat) (v : Nat) (p : Int)
    (st : vertices_t × Int) (done : List Nat) (u pc : Nat) (vs : vertices_t)
    (t : Int) (hinv : dfs_loop_inv n adj v p st done (pc, vs, t))
    (hu : visited vs u) (hup : (u : Int) = p) (hpc : pc = 0) :
    dfs_loop_inv n adj v p st (done ++ [u]) (pc + 1, vs, t) := by
  obtain ⟨i1, i2, i3, i4, i5, i6, i7, i8a, i8b, i9, i10, i11, i12⟩ := hinv
  simp only at i1 i2 i3 i4 i5 i6 i7 i8a i8b i9 i10 i11 i12
  refine ⟨i1, i2, i3, i4, i5, fun w hw => ?_, ?_, fun w hw hwp => ?_, fun h => ?_, i9, i10,
    i11, i12⟩
  · rcases List.mem_append.1 hw with hw | hw
    · exact i6 w hw
    · rw [List.mem_singleton] at hw
      rw [hw]
      exact hu
  · simp only [List.countP_append, List.countP_cons, List.countP_nil, ← i7]
    simp [hup]
  · rcases List.mem_append.1 hw with hw | hw
    · exact i8a w hw hwp
    · rw [List.mem_singleton] at hw
      rw [hw] at hwp
      exact absurd hup hwp
  · simp only [] at h
    omega

/-- Inside the loop of `dfs(v, p, _)` a neighbour that is not visited can be searched
with `v` as its parent. -/
theorem dfs_loop_pre (n : Nat) (adj : Nat → List Nat)
    (hsym : ∀ x y, y ∈ adj x → x ∈ adj y) (hlt : ∀ x y, y ∈ adj x → y < n ∧ x < n)
    (fuel v : Nat) (p : Int) (onstack : Nat → Prop) (st : vertices_t × Int)
    (hpre : dfs_pre n adj (fuel + 1) v p onstack st) (done : List Nat) (u pc : Nat)
    (vs : vertices_t) (t : Int) (hinv : dfs_loop_inv n adj v p st done (pc, vs, t))
    (hu : vs.order u = graph_t.UNVISITED) (huv : u ∈ adj v) :
    dfs_pre n adj fuel u (v : Int) (fun y => onstack y ∨ y = v) (vs, t) := by
  obtain ⟨i1, i2, i3, i4, i5, i6, i7, i8a, i8b, i9, i10, i11, i12⟩ := hinv
  simp only at i1 i2 i3 i4 i5 i6 i7 i8a i8b i9 i10 i11 i12
  obtain ⟨-, hv, hvo, h3, h4, h5, h6⟩ := hpre
  have hgrow : ∀ y, visited st.1 y → vs.order y = st.1.order y ∧
      vs.parentid y = st.1.parentid y := fun y hy => ⟨(i2 y hy).1, (i2 y hy).2.1⟩
  refine ⟨i1, (hlt v u huv).1, hu, Or.inr ⟨v, rfl, i3.2.2, hsym v u huv⟩, fun y hy => ?_,
    fun y hy hns => ?_, ?_⟩
  · rcases hy with hy | hy
    · obtain ⟨a, q, hq, hp⟩ := h4 y hy
      refine ⟨visited_of_eq (i2 y a).1 a, v, rfl, ?_⟩
      exact Relation.ReflTransGen.head ⟨i3.2.2, by rw [i3.2.1]; exact hq⟩ (anc_up_mono hgrow hp)
    · rw [hy]
      exact ⟨i3.2.2, v, rfl, Relation.ReflTransGen.refl⟩
  · simp only at hy
    by_cases hst : visited st.1 y
    · obtain ⟨N, hN⟩ := h5 y hst (fun h => hns (Or.inl h))
      exact ⟨N, finished_stable adj hgrow (i2 y hst).2.2 hN⟩
    · exact (i5 y hst hy (fun h => hns (Or.inr h))).1
  · simp only []
    omega

/-- A round of the loop of `dfs` that searches a neighbour keeps the invariant. -/
theorem dfs_loop_call (n : Nat) (adj : Nat → List Nat) (fuel v : Nat) (p : Int)
    (onstack : Nat → Prop) (st : vertices_t × Int)
    (hpre : dfs_pre n adj (fuel + 1) v p onstack st) (done : List Nat) (u pc : Nat)
    (vs : vertices_t) (t : Int) (hinv : dfs_loop_inv n adj v p st done (pc, vs, t))
    (hu : vs.order u = graph_t.UNVISITED) (vs3 : vertices_t) (t3 : Int)
    (hpost : dfs_post n adj u (v : Int) (vs, t) (vs3, t3)) (vs4 : vertices_t)
    (e1 : vs4.parentid = vs3.parentid) (e2 : vs4.order = vs3.order)
    (e3 : vs4.low = Function.update vs3.low v (min (vs3.low v) (vs3.low u))) :
    dfs_loop_inv n adj v p st (done ++ [u]) (pc, vs4, t3) := by
  obtain ⟨i1, i2, i3, i4, i5, i6, i7, i8a, i8b, i9, i10, i11, i12⟩ := hinv
  simp only at i1 i2 i3 i4 i5 i6 i7 i8a i8b i9 i10 i11 i12
  obtain ⟨-, hv, hvo, h3, h4, h5, h6⟩ := hpre
  obtain ⟨q1, q2, q3, q3', q4, q5, q6, q7⟩ := hpost
  simp only at q1 q2 q3 q3' q4 q5 q6 q7
  obtain ⟨f1, f2, f3, f4, f5, f6, f7⟩ := q5
  have hvst : ¬ visited st.1 v := fun h => h hvo
  have hnu : ¬ visited vs u := fun h => h hu
  have hvis43 : ∀ x, visited vs4 x ↔ visited vs3 x := by
    intro x
    unfold visited
    rw [e2]
  have hst_vs : ∀ x, visited st.1 x → visited vs x := fun x hx => visited_of_eq (i2 x hx).1 hx
  have hvs_3 : ∀ x, visited vs x → visited vs3 x := fun x hx => visited_of_eq (q2 x hx).1 hx
  have hvs_4 : ∀ x, visited vs x → visited vs4 x := fun x hx => (hvis43 x).2 (hvs_3 x hx)
  have hgrow : ∀ y, visited vs y → vs4.order y = vs.order y ∧
      vs4.parentid y = vs.parentid y := by
    intro y hy
    rw [e1, e2]
    exact ⟨(q2 y hy).1, (q2 y hy).2.1⟩
  have hlowv : vs4.low v = min (vs.low v) (vs3.low u) := by
    rw [e3, Function.update_same, (q2 v i3.2.2).2.2]
  have hlow : ∀ x, x ≠ v → vs4.low x = vs3.low x := by
    intro x hx
    rw [e3, Function.update_noteq hx]
  have hle : vs4.low v ≤ vs.low v := by
    rw [hlowv]
    exact min_le_left _ _
  have hqual43 : ∀ w y, qualifying adj vs4 w y ↔ qualifying adj vs3 w y := by
    intro w y
    exact qualifying_congr adj (by rw [e1]) y
  have hqual : ∀ w y, visited vs w → (qualifying adj vs4 w y ↔ qualifying adj vs w y) := by
    intro w y hw
    exact qualifying_congr adj (hgrow w hw).2 y
  have htlt : st.2 < t := by
    have := (i1.2.1 v i3.2.2).2.2
    rw [i3.1] at this
    exact this
  have hup : (u : Int) ≠ p := by
    intro hc
    rcases h3 with h3 | ⟨q, hq, hvq, -⟩
    · rw [h3] at hc
      unfold graph_t.NO_PARENT at hc
      omega
    · have : q = u := by omega
      rw [this] at hvq
      exact hnu (hst_vs u hvq)
  refine ⟨dfs_wf_congr n adj vs3 vs4 t3 e2 e1 q1, fun x hx => ?_,
    ⟨by rw [(hgrow v i3.2.2).1]; exact i3.1, by rw [(hgrow v i3.2.2).2]; exact i3.2.1,
      hvs_4 v i3.2.2⟩,
    fun x hx hx' => ?_, fun x hx hx' hxv => ?_, fun w hw => ?_, ?_, fun w hw hwp => ?_,
    fun hpc q hpq => ?_, fun w hw hw' hwv y hy hqy => ?_, le_trans hle i10, ?_, ?_⟩
  · have hxv : x ≠ v := by
      rintro rfl
      exact hvst hx
    have hx2 := hst_vs x hx
    rw [(hgrow x hx2).1, (hgrow x hx2).2, hlow x hxv, (q2 x hx2).2.2]
    exact i2 x hx
  · by_cases hx2 : visited vs x
    · rw [(hgrow x hx2).1]
      exact i4 x hx hx2
    · have := q4 x hx2 ((hvis43 x).1 hx')
      rw [e2]
      omega
  · by_cases hx2 : visited vs x
    · obtain ⟨⟨N, hN⟩, q, hq1, hq2, hq3⟩ := i5 x hx hx2 hxv
      refine ⟨⟨N, finished_stable adj hgrow ?_ hN⟩, q, ?_, hq2, hvs_4 q hq3⟩
      · rw [hlow x hxv, (q2 x hx2).2.2]
      · rw [(hgrow x hx2).2]
        exact hq1
    · have hx3 := (hvis43 x).1 hx'
      obtain ⟨N, hN⟩ := q6 x hx2 hx3
      refine ⟨⟨N, finished_stable adj (fun y _ => ⟨by rw [e2], by rw [e1]⟩) (hlow x hxv) hN⟩, ?_⟩
      by_cases hxu : x = u
      · refine ⟨v, by rw [e1, hxu]; exact q3', hvst, hvs_4 v i3.2.2⟩
      · obtain ⟨q, hq1, hq2, hq3⟩ := f3 x ⟨hx2, hx3⟩ hxu
        exact ⟨q, by rw [e1]; exact hq1, fun h => hq2 (hst_vs q h), (hvis43 q).2 hq3⟩
  · rcases List.mem_append.1 hw with hw | hw
    · exact hvs_4 w (i6 w hw)
    · rw [List.mem_singleton] at hw
      rw [hw]
      exact (hvis43 u).2 f1.2
  · simp only [List.countP_append, List.countP_cons, List.countP_nil, ← i7]
    simp [hup]
  · rcases List.mem_append.1 hw with hw | hw
    · rw [(hgrow w (i6 w hw)).1]
      exact le_trans hle (i8a w hw hwp)
    · rw [List.mem_singleton] at hw
      rw [hw, hlowv, e2]
      exact le_trans (min_le_right _ _) f5
  · rcases h3 with h3 | ⟨q', hq', hvq, -⟩
    · rw [h3] at hpq
      unfold graph_t.NO_PARENT at hpq
      omega
    · have : q = q' := by omega
      rw [this, (hgrow q' (hst_vs q' hvq)).1]
      exact le_trans hle (i8b hpc q' hq')
  · by_cases hw2 : visited vs w
    · obtain ⟨⟨N, hN⟩, -⟩ := i5 w hw hw2 hwv
      have hy2 := (hN.2.1 w hN.1).2.2 y hy
      rw [(hgrow y hy2).1]
      exact le_trans hle (i9 w hw hw2 hwv y hy ((hqual w y hw2).1 hqy))
    · have hw3 := (hvis43 w).1 hw'
      have := f6 w ⟨hw2, hw3⟩ y hy ((hqual43 w y).1 hqy)
      rw [hlowv, e2]
      exact le_trans (min_le_right _ _) this
  · by_cases hlt : vs3.low u < vs.low v
    · right
      rcases f7 with f7 | ⟨w, hw, y, hy, hqy, hoy⟩
      · rw [q3] at f7
        omega
      · refine ⟨w, ⟨fun h => hw.1 (hst_vs w h), (hvis43 w).2 hw.2⟩, y, hy,
          (hqual43 w y).2 hqy, (hvis43 y).2 ((f2 w hw).2.2 y hy), ?_⟩
        rw [e2, hoy, hlowv, min_eq_right (le_of_lt hlt)]
    · have e : vs4.low v = vs.low v := by
        rw [hlowv]
        exact min_eq_left (by omega)
      rw [e]
      rcases i11 with h | ⟨w, hw, y, hy, hqy, hvy, hoy⟩
      · exact Or.inl h
      · exact Or.inr ⟨w, ⟨hw.1, hvs_4 w hw.2⟩, y, hy, (hqual w y hw.2).2 hqy, hvs_4 y hvy,
          by rw [(hgrow y hvy).1]; exact hoy⟩
  · rw [unvisited_count_congr n vs3 vs4 e2]
    omega

/-- At the end of the loop of `dfs(v, p, _)` the call has done what it should. -/
theorem dfs_loop_final (n : Nat) (adj : Nat → List Nat)
    (hsym : ∀ x y, y ∈ adj x → x ∈ adj y) (fuel v : Nat) (p : Int)
    (onstack : Nat → Prop) (st : vertices_t × Int)
    (hpre : dfs_pre n adj fuel v p onstack st) (acc : Nat × vertices_t × Int)
    (hinv : dfs_loop_inv n adj v p st (adj v) acc) : dfs_post n adj v p st acc.2 := by
  obtain ⟨i1, i2, i3, i4, i5, i6, i7, i8a, i8b, i9, i10, i11, i12⟩ := hinv
  obtain ⟨⟨-, g1, -, -, -⟩, hv, hvo, h3, h4, h5, h6⟩ := hpre
  have hvst : ¬ visited st.1 v := fun h => h hvo
  have hgrow : ∀ y, visited st.1 y → acc.2.1.order y = st.1.order y ∧
      acc.2.1.parentid y = st.1.parentid y := fun y hy => ⟨(i2 y hy).1, (i2 y hy).2.1⟩
  have hclosed : ∀ w, ¬ visited st.1 w → visited acc.2.1 w →
      ∀ y ∈ adj w, visited acc.2.1 y := by
    intro w hw hw' y hy
    by_cases hwv : w = v
    · rw [hwv] at hy
      exact i6 y hy
    · obtain ⟨⟨N, hN⟩, -⟩ := i5 w hw hw' hwv
      exact (hN.2.1 w hN.1).2.2 y hy
  have hfin : finished adj acc.2.1 v (fun x => ¬ visited st.1 x ∧ visited acc.2.1 x) := by
    refine ⟨⟨hvst, i3.2.2⟩, fun w hw => ⟨hw.2, ?_, hclosed w hw.1 hw.2⟩,
      fun w hw hwv => ?_, fun w hw y hy hNy => ?_, ?_, fun w hw y hy hqy => ?_, ?_⟩
    · rw [i3.1]
      exact i4 w hw.1 hw.2
    · obtain ⟨-, q, hq1, hq2, hq3⟩ := i5 w hw.1 hw.2 hwv
      exact ⟨q, hq1, hq2, hq3⟩
    · have hy' := hclosed w hw.1 hw.2 y hy
      have hyst : visited st.1 y := by
        by_contra hc
        exact hNy ⟨hc, hy'⟩
      refine ⟨?_, ?_⟩
      · rw [(hgrow y hyst).1, i3.1]
        exact (g1 y hyst).2.2
      · have hon : onstack y := by
          by_contra hc
          obtain ⟨N, hN⟩ := h5 y hyst hc
          exact hw.1 ((hN.2.1 y hN.1).2.2 w (hsym w y hy))
        obtain ⟨-, q, hq, hp⟩ := h4 y hon
        exact ⟨q, by rw [i3.2.1]; exact hq, anc_up_mono hgrow hp⟩
    · rw [i3.1]
      exact i10
    · by_cases hwv : w = v
      · rw [hwv] at hy hqy
        by_cases hyp : (y : Int) = p
        · unfold qualifying at hqy
          rw [i3.2.1] at hqy
          rcases hqy with hqy | hqy
          · exact absurd hyp hqy
          · refine i8b ?_ y hyp.symm
            rw [i7, countP_cast_eq (adj v) y p hyp]
            exact hqy
        · exact i8a y hy hyp
      · exact i9 w hw.1 hw.2 hwv y hy hqy
    · rcases i11 with h | ⟨w, hw, y, hy, hqy, -, hoy⟩
      · left
        rw [h, i3.1]
      · exact Or.inr ⟨w, hw, y, hy, hqy, hoy⟩
  refine ⟨i1, i2, i3.1, i3.2.1, i4, hfin, fun x hx hx' => ?_, i12⟩
  by_cases hxv : x = v
  · rw [hxv]
    exact ⟨_, hfin⟩
  · exact (i5 x hx hx' hxv).1

/-- The loop of `dfs(v, p, _)` runs through and keeps its invariant, given that the
nested calls do what they should. -/
theorem dfs_loop_spec (n : Nat) (adj : Nat → List Nat)
    (hsym : ∀ x y, y ∈ adj x → x ∈ adj y) (hlt : ∀ x y, y ∈ adj x → y < n ∧ x < n)
    (fuel : Nat)
    (ih : ∀ v p onstack st, dfs_pre n adj fuel v p onstack st →
      ∃ st', graph_t.dfs_visit adj fuel v p st = some st' ∧ dfs_post n adj v p st st')
    (v : Nat) (p : Int) (onstack : Nat → Prop) (st : vertices_t × Int)
    (hpre : dfs_pre n adj (fuel + 1) v p onstack st)
    (f : Option (Nat × vertices_t × Int) → Nat → Option (Nat × vertices_t × Int))
    (hf : ∀ pc vs t u, f (some (pc, vs, t)) u =
      if vs.order u = graph_t.UNVISITED then
        match graph_t.dfs_visit adj fuel u v (vs, t) with
        | none => none
        | some (vs, time) =>
          some (pc, { vs with low := Function.update vs.low v (min (vs.low v) (vs.low u)) },
            time)
      else if (u : Int) ≠ p then
        some (pc, { vs with low := Function.update vs.low v (min (vs.low v) (vs.order u)) }, t)
      else if pc ≠ 0 then
        some (pc + 1,
          { vs with low := Function.update vs.low v (min (vs.low v) (vs.order u)) }, t)
      else some (pc + 1, vs, t))
    (l done : List Nat) (hadj : adj v = done ++ l) (acc : Nat × vertices_t × Int)
    (hinv : dfs_loop_inv n adj v p st done acc) :
    ∃ acc', l.foldl f (some acc) = some acc' ∧ dfs_loop_inv n adj v p st (adj v) acc' := by
  induction l generalizing done acc with
  | nil =>
    rw [List.append_nil] at hadj
    rw [hadj]
    exact ⟨acc, rfl, hinv⟩
  | cons u l ihl =>
    obtain ⟨pc, vs, t⟩ := acc
    have hadj' : adj v = (done ++ [u]) ++ l := by
      rw [hadj, List.append_assoc]
      rfl
    have huv : u ∈ adj v := by
      rw [hadj]
      simp
    have hvst : ¬ visited st.1 v := fun h => h hpre.2.2.1
    rw [List.foldl_cons, hf]
    by_cases hu : vs.order u = graph_t.UNVISITED
    · rw [if_pos hu]
      obtain ⟨⟨vs3, t3⟩, e, hpost⟩ := ih u v _ (vs, t)
        (dfs_loop_pre n adj hsym hlt fuel v p onstack st hpre done u pc vs t hinv hu huv)
      rw [e]
      exact ihl (done ++ [u]) hadj' _
        (dfs_loop_call n adj fuel v p onstack st hpre done u pc vs t hinv hu vs3 t3 hpost _
          rfl rfl rfl)
    · rw [if_neg hu]
      by_cases hup : (u : Int) ≠ p
      · rw [if_pos hup]
        have := dfs_loop_update n adj v p st done l u pc vs
          { vs with low := Function.update vs.low v (min (vs.low v) (vs.order u)) } t hinv
          hvst hu hadj (Or.inl hup) rfl rfl rfl
        rw [if_neg hup] at this
        exact ihl (done ++ [u]) hadj' _ this
      · rw [if_neg hup]
        have hup' : (u : Int) = p := not_not.1 hup
        by_cases hpc : pc ≠ 0
        · rw [if_pos hpc]
          have := dfs_loop_update n adj v p st done l u pc vs
            { vs with low := Function.update vs.low v (min (vs.low v) (vs.order u)) } t hinv
            hvst hu hadj (Or.inr ⟨hup', hpc⟩) rfl rfl rfl
          rw [if_pos hup'] at this
          exact ihl (done ++ [u]) hadj' _ this
        · rw [if_neg hpc]
          exact ihl (done ++ [u]) hadj' _
            (dfs_loop_skip n adj v p st done u pc vs t hinv hu hup' (not_not.1 hpc))

/-- A call of `dfs` on a vertex that is not visited returns and does what it should. -/
theorem dfs_visit_spec (n : Nat) (adj : Nat → List Nat)
    (hsym : ∀ x y, y ∈ adj x → x ∈ adj y) (hlt : ∀ x y, y ∈ adj x → y < n ∧ x < n)
    (fuel : Nat) : ∀ v p onstack st, dfs_pre n adj fuel v p onstack st →
      ∃ st', graph_t.dfs_visit adj fuel v p st = some st' ∧ dfs_post n adj v p st st' := by
  induction fuel with
  | zero =>
    intro v p onstack st hpre
    obtain ⟨⟨g0, -⟩, hv, hvo, -, -, -, h6⟩ := hpre
    have := unvisited_count_mark n st.1 { st.1 with order := Function.update st.1.order v 0 }
      v 0 hv (by unfold graph_t.UNVISITED; omega) hvo rfl
    omega
  | succ fuel ih =>
    intro v p onstack st hpre
    obtain ⟨vs, time⟩ := st
    obtain ⟨acc, e, hinv⟩ := dfs_loop_spec n adj hsym hlt fuel ih v p onstack (vs, time) hpre
      (fun acc (adjid : Nat) =>
        match acc with
        | none => none
        | some (parent_count, vs, time) =>
          if vs.order adjid = graph_t.UNVISITED then
            match graph_t.dfs_visit adj fuel adjid v (vs, time) with
            | none => none
            | some (vs, time) =>
              let low := min (vs.low v) (vs.low adjid)
              some (parent_count, { vs with low := Function.update vs.low v low }, time)
          else if (adjid : Int) ≠ p then
            let low := min (vs.low v) (vs.order adjid)
            some (parent_count, { vs with low := Function.update vs.low v low }, time)
          else if parent_count ≠ 0 then
            let low := min (vs.low v) (vs.order adjid)
            some (parent_count + 1, { vs with low := Function.update vs.low v low }, time)
          else some (parent_count + 1, vs, time))
      (fun _ _ _ _ => rfl) (adj v) [] rfl _
      (dfs_loop_init n adj (fuel + 1) v p onstack vs time hpre
        { parentid := Function.update vs.parentid v p,
          order := Function.update vs.order v time,
          low := Function.update vs.low v time } rfl rfl rfl)
    refine ⟨acc.2, ?_, dfs_loop_final n adj hsym (fuel + 1) v p onstack (vs, time) hpre acc hinv⟩
    rw [graph_t.dfs_visit, e]
    rfl

/-- After `dfs()` all vertices are visited and what holds of a vertex whose call has
returned holds of every vertex. -/
theorem graph_dfs_spec (n : Nat) (adj : Nat → List Nat)
    (hsym : ∀ x y, y ∈ adj x → x ∈ adj y) (hlt : ∀ x y, y ∈ adj x → y < n ∧ x < n)
    (vs0 : vertices_t) :
    ∃ vs time, graph_t.dfs n adj vs0 = some (vs, time) ∧ dfs_wf n adj (vs, time) ∧
      ∀ y, y < n → visited vs y ∧ ∃ N, finished adj vs y N := by
  have hloop : ∀ i, i ≤ n → ∃ vs time,
      (List.range i).foldl (fun acc vertexid =>
        match acc with
        | none => none
        | some (vs, time) =>
          if vs.order vertexid = graph_t.UNVISITED then
            graph_t.dfs_visit adj n vertexid graph_t.NO_PARENT (vs, time)
          else some (vs, time))
        (some ({ vs0 with order := fun _ => graph_t.UNVISITED }, 1)) = some (vs, time) ∧
      dfs_wf n adj (vs, time) ∧ (∀ y, visited vs y → ∃ N, finished adj vs y N) ∧
      ∀ j, j < i → visited vs j := by
    intro i
    induction i with
    | zero =>
      intro _
      refine ⟨_, _, rfl, ⟨le_refl _, fun x hx => absurd rfl hx, fun x _ hx => absurd rfl hx,
        fun x hx => absurd rfl hx, ?_⟩, fun y hy => absurd rfl hy, fun j hj => by omega⟩
      unfold unvisited_count
      simp
      omega
    | succ i ih =>
      intro hi
      obtain ⟨vs, time, e, o1, o2, o3⟩ := ih (by omega)
      rw [List.range_succ, List.foldl_append, e, List.foldl_cons, List.foldl_nil]
      simp only []
      by_cases hvis : vs.order i = graph_t.UNVISITED
      · rw [if_pos hvis]
        obtain ⟨⟨vs', time'⟩, e', q1, q2, q3, q3', q4, q5, q6, q7⟩ := dfs_visit_spec n adj hsym hlt
          n i graph_t.NO_PARENT (fun _ => False) (vs, time)
          ⟨o1, by omega, hvis, Or.inl rfl, fun y hy => absurd hy id,
            fun y hy _ => o2 y hy, unvisited_count_le n vs⟩
        refine ⟨vs', time', e', q1, fun y hy => ?_, fun j hj => ?_⟩
        · by_cases hy0 : visited vs y
          · obtain ⟨N, hN⟩ := o2 y hy0
            exact ⟨N, finished_stable adj (fun z hz => ⟨(q2 z hz).1, (q2 z hz).2.1⟩)
              (q2 y hy0).2.2 hN⟩
          · exact q6 y hy0 hy
        · by_cases hji : j = i
          · rw [hji]
            exact q5.1.2
          · exact visited_of_eq (q2 j (o3 j (by omega))).1 (o3 j (by omega))
      · rw [if_neg hvis]
        refine ⟨vs, time, rfl, o1, o2, fun j hj => ?_⟩
        by_cases hji : j = i
        · rw [hji]
          exact hvis
        · exact o3 j (by omega)
  obtain ⟨vs, time, e, o1, o2, o3⟩ := hloop n (le_refl n)
  exact ⟨vs, time, e, o1, fun y hy => ⟨o3 y hy, o2 y (o3 y hy)⟩⟩

/-! ## The search for bridges: what `low` says about the edges -/

theorem connected_symm (adj : Nat → List Nat) (hsym : ∀ x y, y ∈ adj x → x ∈ adj y)
    {a b : Nat} (h : connected adj a b) : connected adj b a := by
  unfold connected at h ⊢
  exact Relation.ReflTransGen.symmetric (fun x y hxy => hsym x y hxy) h

theorem connected_trans (adj : Nat → List Nat) {a b c : Nat} (h1 : connected adj a b)
    (h2 : connected adj b c) : connected adj a c :=
  Relation.ReflTransGen.trans h1 h2

theorem connected_edge (adj : Nat → List Nat) {a b : Nat} (h : b ∈ adj a) :
    connected adj a b :=
  Relation.ReflTransGen.single h

theorem joins_eq_zero (e : Nat × Nat) (x y c r : Nat) (he : e = (x, y) ∨ e = (y, x))
    (h : (c ≠ x ∧ c ≠ y) ∨ (r ≠ x ∧ r ≠ y)) : joins e c r = 0 := by
  unfold joins
  rcases he with rfl | rfl
  · simp only []
    rw [if_neg (by omega), if_neg (by omega)]
  · simp only []
    rw [if_neg (by omega), if_neg (by omega)]

theorem joins_le_one (e : Nat × Nat) (x y : Nat) (hxy : x ≠ y) : joins e x y ≤ 1 := by
  unfold joins
  by_cases h1 : x = e.1 ∧ y = e.2
  · rw [if_pos h1, if_neg (by omega)]
  · rw [if_neg h1]
    by_cases h2 : x = e.2 ∧ y = e.1
    · rw [if_pos h2]
    · rw [if_neg h2]
      omega

theorem joins_pos (e : Nat × Nat) (x y : Nat) (he : e = (x, y) ∨ e = (y, x)) :
    0 < joins e x y := by
  unfold joins
  rcases he with rfl | rfl
  · simp
  · simp

/-- An entry of an adjacency list stays when an edge that does not join its ends is
taken out. -/
theorem mem_of_joins_zero (adj adj' : Nat → List Nat) (e : Nat × Nat)
    (hcount : ∀ x y, (adj x).count y = (adj' x).count y + joins e x y) {c r : Nat}
    (h : r ∈ adj c) (h0 : joins e c r = 0) : r ∈ adj' c := by
  rw [← List.count_pos_iff] at h ⊢
  have := hcount c r
  omega

theorem mem_of_mem_erase (adj adj' : Nat → List Nat) (e : Nat × Nat)
    (hcount : ∀ x y, (adj x).count y = (adj' x).count y + joins e x y) {c r : Nat}
    (h : r ∈ adj' c) : r ∈ adj c := by
  rw [← List.count_pos_iff] at h ⊢
  have := hcount c r
  omega

/-- The parent of a visited vertex is a neighbour that was visited before. -/
theorem parent_step (n : Nat) (adj : Nat → List Nat) (st : vertices_t × Int)
    (hwf : dfs_wf n adj st) {c r : Nat} (hc : visited st.1 c)
    (hp : st.1.parentid c = (r : Int)) :
    visited st.1 r ∧ r ∈ adj c ∧ st.1.order r < st.1.order c := by
  rcases hwf.2.2.2.1 c hc with h | ⟨q, hq, h1, h2, h3⟩
  · rw [hp] at h
    unfold graph_t.NO_PARENT at h
    omega
  · have : q = r := by omega
    rw [this] at h1 h2 h3
    exact ⟨h1, h2, h3⟩

/-- Going to the parent repeatedly stays connected when no step is along the edge
taken out. -/
theorem anc_up_connected (n : Nat) (adj adj' : Nat → List Nat) (st : vertices_t × Int)
    (hwf : dfs_wf n adj st) (e : Nat × Nat)
    (hcount : ∀ x y, (adj x).count y = (adj' x).count y + joins e x y) (q : Nat)
    (hq : visited st.1 q)
    (hstep : ∀ c r : Nat, visited st.1 c → st.1.parentid c = (r : Int) →
      st.1.order c ≤ st.1.order q → joins e c r = 0)
    {y : Nat} (h : anc_up st.1 q y) :
    connected adj' q y ∧ visited st.1 y ∧ st.1.order y ≤ st.1.order q := by
  unfold anc_up at h
  induction h with
  | refl => exact ⟨Relation.ReflTransGen.refl, hq, le_refl _⟩
  | tail _ hbc ih =>
    obtain ⟨h1, h2, h3⟩ := ih
    obtain ⟨p1, p2, p3⟩ := parent_step n adj st hwf hbc.1 hbc.2
    refine ⟨connected_trans adj' h1 (connected_edge adj'
      (mem_of_joins_zero adj adj' e hcount p2 (hstep _ _ hbc.1 hbc.2 h3))), p1, by omega⟩

/-- The parents lead from every vertex visited by a call to the vertex of the call,
inside the set of the vertices visited by it. -/
theorem finished_connected (n : Nat) (adj adj' : Nat → List Nat) (st : vertices_t × Int)
    (hwf : dfs_wf n adj st) (e : Nat × Nat)
    (hcount : ∀ x y, (adj x).count y = (adj' x).count y + joins e x y) (x : Nat)
    (N : Nat → Prop) (hf : finished adj st.1 x N)
    (hstep : ∀ c r : Nat, N c → c ≠ x → st.1.parentid c = (r : Int) → joins e c r = 0) :
    ∀ w, N w → connected adj' w x := by
  obtain ⟨f1, f2, f3, -⟩ := hf
  have hgen : ∀ k : Nat, ∀ w, N w → (st.1.order w - st.1.order x).toNat ≤ k →
      connected adj' w x := by
    intro k
    induction k with
    | zero =>
      intro w hw hk
      have h1 := (f2 w hw).2.1
      have : st.1.order w = st.1.order x := by omega
      have : w = x := hwf.2.2.1 w x (f2 w hw).1 (f2 x f1).1 this
      rw [this]
      exact Relation.ReflTransGen.refl
    | succ k ih =>
      intro w hw hk
      by_cases hwx : w = x
      · rw [hwx]
        exact Relation.ReflTransGen.refl
      · obtain ⟨q, hq, hNq⟩ := f3 w hw hwx
        obtain ⟨p1, p2, p3⟩ := parent_step n adj st hwf (f2 w hw).1 hq
        have h1 := (f2 q hNq).2.1
        exact connected_trans adj' (connected_edge adj'
          (mem_of_joins_zero adj adj' e hcount p2 (hstep w q hw hwx hq)))
          (ih q hNq (by omega))
  intro w hw
  exact hgen _ w hw (le_refl _)

/-- A vertex with `low` equal to `order` is joined to its parent by one edge only, and
without that edge it is not connected to the parent. -/
theorem reported_cut (n : Nat) (adj adj' : Nat → List Nat) (st : vertices_t × Int)
    (hwf : dfs_wf n adj st) (e : Nat × Nat)
    (hcount : ∀ x y, (adj x).count y = (adj' x).count y + joins e x y) (v q : Nat)
    (hv : visited st.1 v) (hp : st.1.parentid v = (q : Int)) (N : Nat → Prop)
    (hf : finished adj st.1 v N) (hlow : st.1.low v = st.1.order v)
    (he : e = (v, q) ∨ e = (q, v)) :
    (adj v).count q = 1 ∧ ¬ connected adj' v q := by
  obtain ⟨p1, p2, p3⟩ := parent_step n adj st hwf hv hp
  obtain ⟨f1, f2, f3, f4, f5, f6, f7⟩ := hf
  have hvq : v ≠ q := by
    rintro rfl
    omega
  have hc1 : (adj v).count q = 1 := by
    by_contra hc
    have hpos : 0 < (adj v).count q := List.count_pos_iff.2 p2
    have := f6 v f1 q p2 (Or.inr (by omega))
    omega
  have hq' : q ∉ adj' v := by
    intro hc
    have h1 := List.count_pos_iff.2 hc
    have h2 := hcount v q
    have h3 := joins_pos e v q he
    omega
  have hclosed : ∀ w, N w → ∀ y ∈ adj' w, N y := by
    intro w hw y hy
    by_contra hNy
    have hy' := mem_of_mem_erase adj adj' e hcount hy
    have h1 := (f4 w hw y hy' hNy).1
    by_cases hqual : qualifying adj st.1 w y
    · have := f6 w hw y hy' hqual
      omega
    · unfold qualifying at hqual
      have hyp : (y : Int) = st.1.parentid w := by
        by_contra hc
        exact hqual (Or.inl hc)
      by_cases hwv : w = v
      · rw [hwv, hp] at hyp
        have : y = q := by omega
        rw [hwv, this] at hy
        exact hq' hy
      · obtain ⟨q', hq1, hq2⟩ := f3 w hw hwv
        have : y = q' := by omega
        rw [this] at hNy
        exact hNy hq2
  refine ⟨hc1, fun hcon => ?_⟩
  have hall : ∀ z, connected adj' v z → N z := by
    intro z hz
    unfold connected at hz
    induction hz with
    | refl => exact f1
    | tail _ hbc ih => exact hclosed _ ih _ hbc
  have := (f2 q (hall q hcon)).2.1
  omega

/-- The end of a bridge that is visited later has the other end as its parent, and its
`low` equals its `order`. -/
theorem bridge_reported (n : Nat) (adj adj' : Nat → List Nat) (st : vertices_t × Int)
    (hwf : dfs_wf n adj st) (hsym' : ∀ x y, y ∈ adj' x → x ∈ adj' y) (e : Nat × Nat)
    (hcount : ∀ x y, (adj x).count y = (adj' x).count y + joins e x y) (x y : Nat)
    (hx : visited st.1 x) (hy : y ∈ adj x) (hlt : st.1.order y < st.1.order x)
    (N : Nat → Prop) (hf : finished adj st.1 x N) (he : e = (x, y) ∨ e = (y, x))
    (hb : ¬ connected adj' x y) :
    st.1.parentid x = (y : Int) ∧ st.1.low x = st.1.order x := by
  have hf' := hf
  obtain ⟨f1, f2, f3, f4, f5, f6, f7⟩ := hf
  have hvy : visited st.1 y := (f2 x f1).2.2 y hy
  have hNy : ¬ N y := by
    intro hc
    have := (f2 y hc).2.1
    omega
  have hxy : x ≠ y := by
    rintro rfl
    omega
  have hup : ∀ q' z, visited st.1 q' → st.1.order q' < st.1.order x → anc_up st.1 q' z →
      connected adj' q' z := by
    intro q' z hq' hlt' hanc
    refine (anc_up_connected n adj adj' st hwf e hcount q' hq' (fun c r hc hcr hle => ?_)
      hanc).1
    obtain ⟨p1, p2, p3⟩ := parent_step n adj st hwf hc hcr
    rcases he with rfl | rfl
    · unfold joins
      simp only []
      rw [if_neg (by rintro ⟨rfl, -⟩; omega), if_neg (by rintro ⟨-, rfl⟩; omega)]
    · unfold joins
      simp only []
      rw [if_neg (by rintro ⟨-, rfl⟩; omega), if_neg (by rintro ⟨rfl, -⟩; omega)]
  obtain ⟨-, q, hq, hanc⟩ := f4 x f1 y hy hNy
  obtain ⟨p1, p2, p3⟩ := parent_step n adj st hwf hx hq
  have hqy : q = y := by
    by_contra hne
    apply hb
    have hstep1 : q ∈ adj' x := by
      apply mem_of_joins_zero adj adj' e hcount p2
      apply joins_eq_zero e x y x q he
      right
      exact ⟨by rintro rfl; omega, hne⟩
    exact connected_trans adj' (connected_edge adj' hstep1) (hup q y p1 p3 hanc)
  rw [hqy] at hq hanc
  refine ⟨hq, ?_⟩
  by_contra hlow
  apply hb
  rcases f7 with f7 | ⟨w, hw, y', hy', hqual, hoy⟩
  · exact absurd f7 hlow
  · have hNy' : ¬ N y' := by
      intro hc
      have := (f2 y' hc).2.1
      omega
    obtain ⟨-, q2, hq2, hanc2⟩ := f4 w hw y' hy' hNy'
    have hq2y : q2 = y := by omega
    rw [hq2y] at hanc2
    have h1 : connected adj' w x := by
      refine finished_connected n adj adj' st hwf e hcount x N hf' (fun c r hc hcx hcr => ?_)
        w hw
      apply joins_eq_zero e x y c r he
      left
      exact ⟨hcx, by rintro rfl; exact hNy hc⟩
    have h2 : y' ∈ adj' w := by
      by_cases hj : joins e w y' = 0
      · exact mem_of_joins_zero adj adj' e hcount hy' hj
      · have hwx : w = x ∧ y' = y := by
          by_contra hc
          apply hj
          apply joins_eq_zero e x y w y' he
          by_cases hwx : w = x
          · right
            refine ⟨fun h => hlow ?_, fun h => hc ⟨hwx, h⟩⟩
            rw [h] at hoy
            exact hoy.symm
          · left
            exact ⟨hwx, by rintro rfl; exact hNy hw⟩
        rw [hwx.1, hwx.2] at hqual ⊢
        unfold qualifying at hqual
        rcases hqual with hqual | hqual
        · exact absurd hq.symm hqual
        · rw [← List.count_pos_iff]
          have := hcount x y
          have := joins_le_one e x y hxy
          omega
    have h3 : connected adj' y y' := hup y y' hvy hlt hanc2
    exact connected_trans adj' (connected_symm adj' hsym' h1)
      (connected_trans adj' (connected_edge adj' h2) (connected_symm adj' hsym' h3))

/-! ## The search for bridges: the edges reported -/

theorem le_sum_of_mem_nat (l : List Nat) (a : Nat) (h : a ∈ l) : a ≤ l.sum := by
  induction l with
  | nil => simp at h
  | cons b l ih =>
    rw [List.sum_cons]
    rcases List.mem_cons.1 h with h | h
    · omega
    · have := ih h
      omega

theorem joins_pos_iff (e : Nat × Nat) (x y : Nat) :
    0 < joins e x y ↔ e = (x, y) ∨ e = (y, x) := by
  constructor
  · intro h
    unfold joins at h
    by_cases h1 : x = e.1 ∧ y = e.2
    · left
      exact Prod.ext h1.1.symm h1.2.symm
    · by_cases h2 : x = e.2 ∧ y = e.1
      · right
        exact Prod.ext h2.2.symm h2.1.symm
      · rw [if_neg h1, if_neg h2] at h
        omega
  · exact joins_pos e x y

/-- An entry of an adjacency list comes from an edge of the list. -/
theorem graph_load_mem (edges : List (Nat × Nat)) (x y : Nat)
    (h : y ∈ graph_t.load edges x) :
    ∃ i e, edges.get? i = some e ∧ (e = (x, y) ∨ e = (y, x)) := by
  rw [← List.count_pos_iff, graph_load_count] at h
  obtain ⟨a, ha, hpos⟩ := sum_pos_exists _ h
  obtain ⟨e, he, rfl⟩ := List.mem_map.1 ha
  obtain ⟨i, hi⟩ := List.mem_iff_get?.1 he
  exact ⟨i, e, hi, (joins_pos_iff e x y).1 hpos⟩

/-- Two edges that join the same vertices give two entries of the adjacency list. -/
theorem parallel_count (edges : List (Nat × Nat)) (i j : Nat) (e e' : Nat × Nat)
    (hij : i ≠ j) (hi : edges.get? i = some e) (hj : edges.get? j = some e') (x y : Nat)
    (he : e = (x, y) ∨ e = (y, x)) (he' : e' = (x, y) ∨ e' = (y, x)) :
    2 ≤ (graph_t.load edges x).count y := by
  rw [graph_load_erase edges i e hi x y, graph_load_count]
  have h1 := joins_pos e x y he
  have h2 := joins_pos e' x y he'
  have hmem : e' ∈ edges.eraseIdx i := by
    rw [List.mem_eraseIdx_iff_getElem?]
    exact ⟨j, Ne.symm hij, by rw [← List.get?_eq_getElem?]; exact hj⟩
  have h3 := le_sum_of_mem_nat _ _ (List.mem_map.2 ⟨e', hmem, rfl⟩ :
    joins e' x y ∈ (edges.eraseIdx i).map (fun e => joins e x y))
  omega

theorem iter_bridges_mem (n : Nat) (vs : vertices_t) (x : Int × Int) :
    x ∈ graph_t.iter_bridges n vs ↔
      ∃ v : Nat, v < n ∧ vs.parentid v ≠ graph_t.NO_PARENT ∧ vs.low v = vs.order v ∧
        x = ((v : Int), vs.parentid v) := by
  unfold graph_t.iter_bridges
  rw [List.mem_filterMap]
  constructor
  · rintro ⟨v, hv, h⟩
    by_cases hc : vs.parentid v ≠ graph_t.NO_PARENT ∧ vs.low v = vs.order v
    · rw [if_pos hc] at h
      exact ⟨v, List.mem_range.1 hv, hc.1, hc.2, (Option.some.inj h).symm⟩
    · rw [if_neg hc] at h
      exact absurd h (by simp)
  · rintro ⟨v, hv, h1, h2, rfl⟩
    exact ⟨v, List.mem_range.2 hv, by rw [if_pos ⟨h1, h2⟩]⟩

theorem iter_bridges_nodup (n : Nat) (vs : vertices_t) : (graph_t.iter_bridges n vs).Nodup := by
  unfold graph_t.iter_bridges
  apply List.Nodup.filterMap _ (List.nodup_range n)
  intro a a' b hb hb'
  by_cases hc : vs.parentid a ≠ graph_t.NO_PARENT ∧ vs.low a = vs.order a
  · by_cases hc' : vs.parentid a' ≠ graph_t.NO_PARENT ∧ vs.low a' = vs.order a'
    · rw [if_pos hc] at hb
      rw [if_pos hc'] at hb'
      have h1 := Option.some.inj (Option.mem_def.1 hb)
      have h2 := Option.some.inj (Option.mem_def.1 hb')
      have : ((a : Int), vs.parentid a).1 = ((a' : Int), vs.parentid a').1 := by rw [h1, h2]
      simp only at this
      omega
    · rw [if_neg hc'] at hb'
      exact absurd (Option.mem_def.1 hb') (by simp)
  · rw [if_neg hc] at hb
    exact absurd (Option.mem_def.1 hb) (by simp)

theorem iter_bridges_length (n : Nat) (vs : vertices_t) :
    (graph_t.iter_bridges n vs).length =
      ((List.range n).filter (fun v =>
        decide (vs.parentid v ≠ graph_t.NO_PARENT ∧ vs.low v = vs.order v))).length := by
  unfold graph_t.iter_bridges
  induction List.range n with
  | nil => rfl
  | cons v l ih =>
    by_cases hc : vs.parentid v ≠ graph_t.NO_PARENT ∧ vs.low v = vs.order v
    · rw [List.filterMap_cons_some (by rw [if_pos hc]), List.filter_cons_of_pos (by simpa using hc),
        List.length_cons, List.length_cons, ih]
    · rw [List.filterMap_cons_none (by rw [if_neg hc]), List.filter_cons_of_neg (by simpa using hc),
        ih]

theorem number_of_bridges_eq (n : Nat) (vs : vertices_t) :
    number_of_bridges n vs = (graph_t.iter_bridges n vs).length % 2 ^ 64 := by
  unfold number_of_bridges
  have hgen : ∀ (l : List (Int × Int)) (k : Nat),
      l.foldl (fun res _ => (res + 1) % 2 ^ 64) k % 2 ^ 64 = (k + l.length) % 2 ^ 64 := by
    intro l
    induction l with
    | nil => intro k; simp
    | cons a l ih =>
      intro k
      rw [List.foldl_cons, ih, List.length_cons]
      omega
  have hlt : ∀ (l : List (Int × Int)) (k : Nat), k < 2 ^ 64 →
      l.foldl (fun res _ => (res + 1) % 2 ^ 64) k < 2 ^ 64 := by
    intro l
    induction l with
    | nil => intro k hk; exact hk
    | cons a l ih =>
      intro k _
      rw [List.foldl_cons]
      exact ih _ (Nat.mod_lt _ (by norm_num))
  have := hgen (graph_t.iter_bridges n vs) 0
  rw [Nat.mod_eq_of_lt (hlt _ 0 (by norm_num)), Nat.zero_add] at this
  exact this

/-- A vertex that `iter_bridges` reports is joined to its parent by exactly one edge,
and that edge is a bridge. -/
theorem reported_bridge (n : Nat) (edges : List (Nat × Nat)) (vs : vertices_t) (time : Int)
    (hwf : dfs_wf n (graph_t.load edges) (vs, time))
    (hfin : ∀ y, y < n → visited vs y ∧ ∃ N, finished (graph_t.load edges) vs y N)
    (v : Nat) (hv : v < n) (hp : vs.parentid v ≠ graph_t.NO_PARENT)
    (hlow : vs.low v = vs.order v) :
    ∃ q i : Nat, vs.parentid v = (q : Int) ∧ vs.order q < vs.order v ∧ is_bridge edges i ∧
      (edges.get? i = some (v, q) ∨ edges.get? i = some (q, v)) ∧
      ∀ j, (edges.get? j = some (v, q) ∨ edges.get? j = some (q, v)) → j = i := by
  obtain ⟨hvis, N, hN⟩ := hfin v hv
  rcases hwf.2.2.2.1 v hvis with h | ⟨q, hq, hvq, hqa, hlt⟩
  · exact absurd h hp
  · obtain ⟨i, e, hi, he⟩ := graph_load_mem edges v q hqa
    obtain ⟨hc1, hcut⟩ := reported_cut n (graph_t.load edges) (graph_t.load (edges.eraseIdx i))
      (vs, time) hwf e (graph_load_erase edges i e hi) v q hvis hq N hN hlow he
    refine ⟨q, i, hq, hlt, ⟨e, hi, ?_⟩, ?_, fun j hj => ?_⟩
    · rcases he with rfl | rfl
      · exact hcut
      · exact fun h => hcut (connected_symm _ (fun x y => graph_load_symm _) h)
    · rcases he with rfl | rfl
      · exact Or.inl hi
      · exact Or.inr hi
    · by_contra hne
      have : ∃ e', edges.get? j = some e' ∧ (e' = (v, q) ∨ e' = (q, v)) := by
        rcases hj with hj | hj
        · exact ⟨_, hj, Or.inl rfl⟩
        · exact ⟨_, hj, Or.inr rfl⟩
      obtain ⟨e', hj', he'⟩ := this
      have := parallel_count edges i j e e' (Ne.symm hne) hi hj' v q he he'
      omega

/-- Of the ends of a bridge, the one visited later has the other one as its parent and
is reported by `iter_bridges`. -/
theorem bridge_deeper (n : Nat) (edges : List (Nat × Nat))
    (hvalid : ∀ e ∈ edges, e.1 < n ∧ e.2 < n) (vs : vertices_t) (time : Int)
    (hwf : dfs_wf n (graph_t.load edges) (vs, time))
    (hfin : ∀ y, y < n → visited vs y ∧ ∃ N, finished (graph_t.load edges) vs y N)
    (i : Nat) (hb : is_bridge edges i) :
    ∃ e, edges.get? i = some e ∧ e.1 < n ∧ e.2 < n ∧
      ((vs.order e.1 < vs.order e.2 ∧ vs.parentid e.2 = (e.1 : Int) ∧
          vs.low e.2 = vs.order e.2) ∨
        (vs.order e.2 < vs.order e.1 ∧ vs.parentid e.1 = (e.2 : Int) ∧
          vs.low e.1 = vs.order e.1)) := by
  obtain ⟨e, hi, hncon⟩ := hb
  obtain ⟨a, b⟩ := e
  simp only at hncon
  have hmem : (a, b) ∈ edges := List.mem_iff_get?.2 ⟨i, hi⟩
  have hab := hvalid _ hmem
  simp only at hab
  have hne : a ≠ b := by
    rintro rfl
    exact hncon Relation.ReflTransGen.refl
  obtain ⟨hva, Na, hNa⟩ := hfin a hab.1
  obtain ⟨hvb, Nb, hNb⟩ := hfin b hab.2
  have hcount := graph_load_erase edges i (a, b) hi
  have hsym' : ∀ x y, y ∈ graph_t.load (edges.eraseIdx i) x →
      x ∈ graph_t.load (edges.eraseIdx i) y := fun x y => graph_load_symm _
  have hba : b ∈ graph_t.load edges a := by
    rw [← List.count_pos_iff]
    have := hcount a b
    have := joins_pos (a, b) a b (Or.inl rfl)
    omega
  have hab' : a ∈ graph_t.load edges b := graph_load_symm edges hba
  have hord : vs.order a ≠ vs.order b := fun h => hne (hwf.2.2.1 a b hva hvb h)
  refine ⟨(a, b), hi, hab.1, hab.2, ?_⟩
  simp only []
  by_cases hlt : vs.order a < vs.order b
  · left
    have := bridge_reported n (graph_t.load edges) (graph_t.load (edges.eraseIdx i)) (vs, time)
      hwf hsym' (a, b) hcount b a hvb hab' hlt Nb hNb (Or.inr rfl)
      (fun h => hncon (connected_symm _ hsym' h))
    exact ⟨hlt, this.1, this.2⟩
  · right
    have hlt' : vs.order b < vs.order a := by omega
    have := bridge_reported n (graph_t.load edges) (graph_t.load (edges.eraseIdx i)) (vs, time)
      hwf hsym' (a, b) hcount a b hva hba hlt' Na hNa (Or.inl rfl) hncon
    exact ⟨hlt', this.1, this.2⟩

theorem bridge_child (n : Nat) (edges : List (Nat × Nat))
    (hvalid : ∀ e ∈ edges, e.1 < n ∧ e.2 < n) (vs : vertices_t) (time : Int)
    (hwf : dfs_wf n (graph_t.load edges) (vs, time))
    (hfin : ∀ y, y < n → visited vs y ∧ ∃ N, finished (graph_t.load edges) vs y N)
    (i : Nat) (hb : is_bridge edges i) :
    ∃ x q : Nat, (edges.get? i = some (x, q) ∨ edges.get? i = some (q, x)) ∧ x < n ∧
      vs.order q < vs.order x ∧ vs.parentid x = (q : Int) ∧ vs.low x = vs.order x := by
  obtain ⟨⟨a, b⟩, hi, ha, hb', h⟩ := bridge_deeper n edges hvalid vs time hwf hfin i hb
  simp only at ha hb' h
  rcases h with ⟨h1, h2, h3⟩ | ⟨h1, h2, h3⟩
  · exact ⟨b, a, Or.inr hi, hb', h1, h2, h3⟩
  · exact ⟨a, b, Or.inl hi, ha, h1, h2, h3⟩

/-- The vertices that `iter_bridges` reports are as many as the bridges. -/
theorem bridges_card (n : Nat) (edges : List (Nat × Nat))
    (hvalid : ∀ e ∈ edges, e.1 < n ∧ e.2 < n) (vs : vertices_t) (time : Int)
    (hwf : dfs_wf n (graph_t.load edges) (vs, time))
    (hfin : ∀ y, y < n → visited vs y ∧ ∃ N, finished (graph_t.load edges) vs y N) :
    (graph_t.iter_bridges n vs).length = Set.ncard {i | is_bridge edges i} := by
  classical
  have hB : {i | is_bridge edges i} =
      ((Finset.range edges.length).filter (fun i => is_bridge edges i) : Set Nat) := by
    ext i
    simp only [Set.mem_setOf_eq, Finset.coe_filter, Finset.mem_range]
    constructor
    · intro h
      obtain ⟨e, he, -⟩ := id h
      obtain ⟨hlt, -⟩ := List.get?_eq_some.1 he
      exact ⟨hlt, h⟩
    · exact fun h => h.2
  rw [hB, Set.ncard_coe_Finset, iter_bridges_length,
    ← List.toFinset_card_of_nodup ((List.nodup_range n).filter _)]
  symm
  have hmemR : ∀ v, v ∈ ((List.range n).filter (fun v =>
      decide (vs.parentid v ≠ graph_t.NO_PARENT ∧ vs.low v = vs.order v))).toFinset ↔
      v < n ∧ vs.parentid v ≠ graph_t.NO_PARENT ∧ vs.low v = vs.order v := by
    intro v
    rw [List.mem_toFinset, List.mem_filter, List.mem_range]
    simp
  have hf : ∀ (i x q : Nat), (edges.get? i = some (x, q) ∨ edges.get? i = some (q, x)) →
      vs.order q < vs.order x →
      (match edges.get? i with
        | some e => if vs.order e.1 < vs.order e.2 then e.2 else e.1
        | none => 0) = x := by
    intro i x q h hlt
    rcases h with h | h
    · rw [h]
      simp only []
      rw [if_neg (by omega)]
    · rw [h]
      simp only []
      rw [if_pos hlt]
  have hnp : ∀ q : Nat, (q : Int) ≠ graph_t.NO_PARENT := by
    intro q
    unfold graph_t.NO_PARENT
    omega
  apply Finset.card_bij (fun i _ =>
    match edges.get? i with
    | some e => if vs.order e.1 < vs.order e.2 then e.2 else e.1
    | none => 0)
  · intro i hi
    obtain ⟨x, q, h1, h2, h3, h4, h5⟩ := bridge_child n edges hvalid vs time hwf hfin i
      (Finset.mem_filter.1 hi).2
    rw [hf i x q h1 h3, hmemR]
    exact ⟨h2, by rw [h4]; exact hnp q, h5⟩
  · intro i1 hi1 i2 hi2 heq
    obtain ⟨x, q, h1, h2, h3, h4, h5⟩ := bridge_child n edges hvalid vs time hwf hfin i1
      (Finset.mem_filter.1 hi1).2
    obtain ⟨x', q', h1', h2', h3', h4', h5'⟩ := bridge_child n edges hvalid vs time hwf hfin i2
      (Finset.mem_filter.1 hi2).2
    rw [hf i1 x q h1 h3, hf i2 x' q' h1' h3'] at heq
    rw [← heq] at h1' h4'
    have hqq : q' = q := by omega
    rw [hqq] at h1'
    obtain ⟨q0, i0, r1, -, -, -, r5⟩ := reported_bridge n edges vs time hwf hfin x h2
      (by rw [h4]; exact hnp q) h5
    have hq0 : q0 = q := by omega
    rw [hq0] at r5
    rw [r5 i1 h1, r5 i2 h1']
  · intro v hv
    obtain ⟨h1, h2, h3⟩ := (hmemR v).1 hv
    obtain ⟨q, i, r1, r2, r3, r4, -⟩ := reported_bridge n edges vs time hwf hfin v h1 h2 h3
    have hi : i < edges.length := by
      rcases r4 with r4 | r4
      · exact (List.get?_eq_some.1 r4).1
      · exact (List.get?_eq_some.1 r4).1
    exact ⟨i, Finset.mem_filter.2 ⟨Finset.mem_range.2 hi, r3⟩, hf i v q r4 r2⟩

/-- After `dfs()` the value of `time` is `n + 1`, and `order` and `low` of every vertex
lie between 1 and `n`: the values fit the type `int32_t` when `n + 1` does. -/
theorem graph_dfs_range (n : Nat) (edges : List (Nat × Nat))
    (hvalid : ∀ e ∈ edges, e.1 < n ∧ e.2 < n) (vs0 : vertices_t) :
    ∃ vs time, graph_t.dfs n (graph_t.load edges) vs0 = some (vs, time) ∧ time = n + 1 ∧
      ∀ v, v < n → 1 ≤ vs.low v ∧ vs.low v ≤ vs.order v ∧ vs.order v ≤ n := by
  obtain ⟨vs, time, e, hwf, hfin⟩ := graph_dfs_spec n (graph_t.load edges)
    (fun x y => graph_load_symm edges) (graph_load_lt n edges hvalid) vs0
  have h0 : unvisited_count n vs = 0 := by
    unfold unvisited_count
    rw [Finset.card_eq_zero, Finset.filter_eq_empty_iff]
    intro x hx
    exact (hfin x (Finset.mem_range.1 hx)).1
  have ht : time = n + 1 := by
    have := hwf.2.2.2.2
    simp only [h0] at this
    omega
  refine ⟨vs, time, e, ht, fun v hv => ?_⟩
  obtain ⟨hvis, N, f1, f2, f3, f4, f5, f6, f7⟩ := hfin v hv
  have h1 := hwf.2.1 v hvis
  simp only at h1
  refine ⟨?_, f5, by omega⟩
  rcases f7 with f7 | ⟨w, hw, y, hy, -, hoy⟩
  · omega
  · have := hwf.2.1 y ((f2 w hw).2.2 y hy)
    simp only at this
    omega

/-- C39: for every multigraph on the vertices `0 .. n - 1` loaded with `add_edge` from a
list of edges (parallel edges and loops allowed), `dfs()` returns, and afterwards every
call of the callback of `iter_bridges` names the two ends of a bridge that has no
parallel copy, every bridge is named by a call, no call is repeated, and
`number_of_bridges` is the number of the bridges. -/
theorem bridge_detection (n : Nat) (edges : List (Nat × Nat)) (vs0 : vertices_t)
    (hn : n < 2 ^ 31 - 1) (hvalid : ∀ e ∈ edges, e.1 < n ∧ e.2 < n) :
    ∃ vs time, graph_t.dfs n (graph_t.load edges) vs0 = some (vs, time) ∧
      (∀ x ∈ graph_t.iter_bridges n vs, ∃ v q i : Nat, x = ((v : Int), (q : Int)) ∧
        is_bridge edges i ∧ (edges.get? i = some (v, q) ∨ edges.get? i = some (q, v)) ∧
        ∀ j, (edges.get? j = some (v, q) ∨ edges.get? j = some (q, v)) → j = i) ∧
      (∀ i, is_bridge edges i → ∃ e : Nat × Nat, edges.get? i = some e ∧
        (((e.1 : Int), (e.2 : Int)) ∈ graph_t.iter_bridges n vs ∨
          ((e.2 : Int), (e.1 : Int)) ∈ graph_t.iter_bridges n vs)) ∧
      (graph_t.iter_bridges n vs).Nodup ∧
      number_of_bridges n vs = Set.ncard {i | is_bridge edges i} := by
  obtain ⟨vs, time, e, hwf, hfin⟩ := graph_dfs_spec n (graph_t.load edges)
    (fun x y => graph_load_symm edges) (graph_load_lt n edges hvalid) vs0
  have hnp : ∀ q : Nat, (q : Int) ≠ graph_t.NO_PARENT := by
    intro q
    unfold graph_t.NO_PARENT
    omega
  refine ⟨vs, time, e, fun x hx => ?_, fun i hi => ?_, iter_bridges_nodup n vs, ?_⟩
  · obtain ⟨v, hv, h1, h2, rfl⟩ := (iter_bridges_mem n vs x).1 hx
    obtain ⟨q, i, r1, -, r3, r4, r5⟩ := reported_bridge n edges vs time hwf hfin v hv h1 h2
    exact ⟨v, q, i, by rw [r1], r3, r4, r5⟩
  · obtain ⟨x, q, h1, h2, h3, h4, h5⟩ := bridge_child n edges hvalid vs time hwf hfin i hi
    have hmem : ((x : Int), (q : Int)) ∈ graph_t.iter_bridges n vs :=
      (iter_bridges_mem n vs _).2 ⟨x, h2, by rw [h4]; exact hnp q, h5, by rw [h4]⟩
    rcases h1 with h1 | h1
    · exact ⟨(x, q), h1, Or.inl hmem⟩
    · exact ⟨(q, x), h1, Or.inr hmem⟩
  · rw [number_of_bridges_eq, ← bridges_card n edges hvalid vs time hwf hfin]
    apply Nat.mod_eq_of_lt
    have h1 : (graph_t.iter_bridges n vs).length ≤ n := by
      rw [iter_bridges_length]
      exact le_trans (List.length_filter_le _ _) (by simp)
    have h2 : (2 : Nat) ^ 31 - 1 < 2 ^ 64 := by norm_num
    omega

theorem bridge_detection_witness :
    (graph_t.dfs 4 (graph_t.load [(0, 1), (1, 2), (2, 0), (2, 3)])
        ⟨fun _ => 0, fun _ => 0, fun _ => 0⟩).map (fun r => graph_t.iter_bridges 4 r.1) =
      some [(3, 2)] ∧
    ∃ vs time, graph_t.dfs 4 (graph_t.load [(0, 1), (1, 2), (2, 0), (2, 3)])
        ⟨fun _ => 0, fun _ => 0, fun _ => 0⟩ = some (vs, time) ∧
      (∀ x ∈ graph_t.iter_bridges 4 vs, ∃ v q i : Nat, x = ((v : Int), (q : Int)) ∧
        is_bridge [(0, 1), (1, 2), (2, 0), (2, 3)] i ∧
        ([(0, 1), (1, 2), (2, 0), (2, 3)].get? i = some (v, q) ∨
          [(0, 1), (1, 2), (2, 0), (2, 3)].get? i = some (q, v)) ∧
        ∀ j, ([(0, 1), (1, 2), (2, 0), (2, 3)].get? j = some (v, q) ∨
          [(0, 1), (1, 2), (2, 0), (2, 3)].get? j = some (q, v)) → j = i) ∧
      (∀ i, is_bridge [(0, 1), (1, 2), (2, 0), (2, 3)] i →
        ∃ e : Nat × Nat, [(0, 1), (1, 2), (2, 0), (2, 3)].get? i = some e ∧
          (((e.1 : Int), (e.2 : Int)) ∈ graph_t.iter_bridges 4 vs ∨
            ((e.2 : Int), (e.1 : Int)) ∈ graph_t.iter_bridges 4 vs)) ∧
      (graph_t.iter_bridges 4 vs).Nodup ∧
      number_of_bridges 4 vs = Set.ncard {i | is_bridge [(0, 1), (1, 2), (2, 0), (2, 3)] i} :=
  ⟨by decide, bridge_detection 4 [(0, 1), (1, 2), (2, 0), (2, 3)]
    ⟨fun _ => 0, fun _ => 0, fun _ => 0⟩ (by norm_num) (by decide)⟩

end Sabotaz

/-! ## Properties of `1/b/kie.cc` -/

namespace Kie

theorem sum_wrap64_of_range {x : Int} (h1 : -2 ^ 63 ≤ x) (h2 : x < 2 ^ 63) : wrap64 x = x := by
  unfold wrap64; omega

/-- The loop of `solve` on positive values whose sum stays below `2^63`: `s` is the sum
of the values, and `min_odd` is the smallest among its initial value and the odd
values. -/
theorem solve_loop_spec : ∀ (vals : List Int) (s0 m0 : Int), 0 ≤ s0 →
    (∀ v ∈ vals, 1 ≤ v) → s0 + vals.sum < 2 ^ 63 →
    (vals.foldl solve_step (s0, m0)).1 = s0 + vals.sum ∧
      (vals.foldl solve_step (s0, m0)).2 ≤ m0 ∧
      (∀ v ∈ vals, v % 2 = 1 → (vals.foldl solve_step (s0, m0)).2 ≤ v) ∧
      ((vals.foldl solve_step (s0, m0)).2 = m0 ∨
        ((vals.foldl solve_step (s0, m0)).2 ∈ vals ∧
          (vals.foldl solve_step (s0, m0)).2 % 2 = 1)) := by
  intro vals
  induction vals with
  | nil => intro s0 m0 _ _ _; simp
  | cons a vals ih =>
    intro s0 m0 hs0 hpos hsum
    have ha := hpos a (List.mem_cons_self _ _)
    have hrest : ∀ v ∈ vals, 1 ≤ v := fun v hv => hpos v (List.mem_cons_of_mem _ hv)
    have hnn : 0 ≤ vals.sum := List.sum_nonneg (fun v hv => by have := hrest v hv; omega)
    rw [List.sum_cons] at hsum
    rw [List.foldl_cons]
    have hstep : solve_step (s0, m0) a = (s0 + a, if a % 2 = 1 then min a m0 else m0) := by
      unfold solve_step
      simp only []
      rw [sum_wrap64_of_range (by omega) (by omega), Int.tmod_eq_emod (by omega) (by omega)]
    rw [hstep]
    obtain ⟨h1, h2, h3, h4⟩ := ih (s0 + a) (if a % 2 = 1 then min a m0 else m0) (by omega)
      hrest (by omega)
    refine ⟨by rw [h1, List.sum_cons]; ring, ?_, ?_, ?_⟩
    · refine le_trans h2 ?_
      split
      · exact min_le_right _ _
      · exact le_refl _
    · intro v hv hodd
      rcases List.mem_cons.1 hv with e | e
      · refine le_trans h2 ?_
        rw [e] at hodd
        rw [if_pos hodd, e]
        exact min_le_left _ _
      · exact h3 v e hodd
    · by_cases hodd : a % 2 = 1
      · simp only [if_pos hodd] at h4 ⊢
        rcases h4 with e | ⟨e1, e2⟩
        · rcases min_choice a m0 with c | c
          · right
            rw [e, c]
            exact ⟨List.mem_cons_self _ _, hodd⟩
          · left; rw [e, c]
        · right; exact ⟨List.mem_cons_of_mem _ e1, e2⟩
      · simp only [if_neg hodd] at h4 ⊢
        rcases h4 with e | ⟨e1, e2⟩
        · left; exact e
        · right; exact ⟨List.mem_cons_of_mem _ e1, e2⟩

theorem sum_even_of_all_even : ∀ l : List Int, (∀ x ∈ l, x % 2 = 0) → l.sum % 2 = 0 := by
  intro l
  induction l with
  | nil => intro _; rfl
  | cons a l ih =>
    intro h
    have h1 := h a (List.mem_cons_self _ _)
    have h2 := ih (fun x hx => h x (List.mem_cons_of_mem _ hx))
    rw [List.sum_cons]
    omega

/-- What is left out of a sub-multiset of positive values with an even sum, when the
sum of all values is odd, amounts to at least the smallest odd value. -/
theorem even_sum_le (vals : List Int) (hpos : ∀ v ∈ vals, 1 ≤ v) (hodd : vals.sum % 2 = 1)
    (m : Int) (hm : ∀ v ∈ vals, v % 2 = 1 → m ≤ v) (v : Int) (hv : even_sum vals v) :
    v ≤ vals.sum - m ∧ 1 ≤ v := by
  obtain ⟨sub, hsub, hne, hsum, heven⟩ := hv
  obtain ⟨comp, hperm⟩ := hsub.exists_perm_append
  have htotal : vals.sum = sub.sum + comp.sum := by
    rw [hperm.sum_eq, List.sum_append]
  have hcomp : ∀ x ∈ comp, x ∈ vals := fun x hx =>
    hperm.mem_iff.2 (List.mem_append_right _ hx)
  have hex : ∃ x ∈ comp, x % 2 = 1 := by
    by_contra hcon
    have hall : ∀ x ∈ comp, x % 2 = 0 := by
      intro x hx
      by_contra h0
      exact hcon ⟨x, hx, by omega⟩
    have := sum_even_of_all_even comp hall
    omega
  obtain ⟨x, hx, hxodd⟩ := hex
  have hxm := hm x (hcomp x hx) hxodd
  have hxle : x ≤ comp.sum :=
    List.single_le_sum (fun y hy => by have := hpos y (hcomp y hy); omega) x hx
  refine ⟨by omega, ?_⟩
  cases sub with
  | nil => exact absurd rfl hne
  | cons a sub =>
    have ha := hpos a (hsub.subset (List.mem_cons_self _ _))
    have hnn : 0 ≤ sub.sum := List.sum_nonneg (fun y hy => by
      have := hpos y (hsub.subset (List.mem_cons_of_mem _ hy)); omega)
    rw [List.sum_cons] at hsum
    omega

/-- On every non-empty list of positive values below the largest `int`, with a sum
below `2^63`: `solve` prints the largest even value that is the sum of a non-empty
sub-multiset, and it prints `NIESTETY` exactly when there is no such value, which is
exactly when the list is a single odd value. -/
theorem solve_spec (vals : List Int) (hne : vals ≠ [])
    (hpos : ∀ v ∈ vals, 1 ≤ v ∧ v < INT_MAX) (hsum : vals.sum < 2 ^ 63) :
    (∀ r, solve vals = some r → even_sum vals r ∧ ∀ v, even_sum vals v → v ≤ r) ∧
      (solve vals = none ↔ ∀ v, ¬ even_sum vals v) ∧
      (solve vals = none ↔ ∃ x, vals = [x] ∧ x % 2 = 1) := by
  have hpos1 : ∀ v ∈ vals, 1 ≤ v := fun v hv => (hpos v hv).1
  obtain ⟨h1, h2, h3, h4⟩ := solve_loop_spec vals 0 INT_MAX (le_refl _) hpos1 (by omega)
  rw [zero_add] at h1
  have hnn : 0 ≤ vals.sum := List.sum_nonneg (fun v hv => by have := hpos1 v hv; omega)
  have hwhole : ∀ v, even_sum vals v → v ≤ vals.sum := by
    rintro v ⟨sub, hsub, -, hs, -⟩
    rw [← hs]
    exact hsub.sum_le_sum (fun x hx => by have := hpos1 x hx; omega)
  by_cases heven : vals.sum % 2 = 0
  · have hsolve : solve vals = some vals.sum := by
      unfold solve
      simp only []
      rw [h1, Int.tmod_eq_emod hnn (by omega), if_pos heven]
    have hes : even_sum vals vals.sum := ⟨vals, List.Sublist.refl _, hne, rfl, heven⟩
    refine ⟨?_, ?_, ?_⟩
    · intro r hr
      rw [hsolve] at hr
      simp only [Option.some.injEq] at hr
      rw [← hr]
      exact ⟨hes, hwhole⟩
    · rw [hsolve]
      exact ⟨fun h => absurd h (by simp), fun h => absurd hes (h _)⟩
    · rw [hsolve]
      refine ⟨fun h => absurd h (by simp), ?_⟩
      rintro ⟨x, hx, hodd⟩
      exfalso
      rw [hx] at heven
      simp only [List.sum_cons, List.sum_nil, add_zero] at heven
      omega
  · have hodd : vals.sum % 2 = 1 := by omega
    generalize hmdef : (vals.foldl solve_step (0, INT_MAX)).2 = m at h2 h3 h4
    have hmem : m ∈ vals ∧ m % 2 = 1 := by
      rcases h4 with e | e
      · exfalso
        have hall : ∀ x ∈ vals, x % 2 = 0 := by
          intro x hx
          by_contra h0
          have := h3 x hx (by omega)
          have := (hpos x hx).2
          omega
        have := sum_even_of_all_even vals hall
        omega
      · exact e
    have hmlt := (hpos m hmem.1).2
    have hm1 := (hpos m hmem.1).1
    have hmle : m ≤ vals.sum :=
      List.single_le_sum (fun y hy => by have := hpos1 y hy; omega) m hmem.1
    have hbound := even_sum_le vals hpos1 hodd m h3
    by_cases hms : m = vals.sum
    · have hsolve : solve vals = none := by
        unfold solve
        simp only []
        rw [h1, hmdef, Int.tmod_eq_emod hnn (by omega), if_neg heven, if_neg (by simp [hms])]
      have hnone : ∀ v, ¬ even_sum vals v := by
        intro v hv
        have := hbound v hv
        omega
      refine ⟨by intro r hr; rw [hsolve] at hr; simp at hr, by simp [hsolve, hnone], ?_⟩
      simp only [hsolve, true_iff]
      refine ⟨m, ?_, hmem.2⟩
      have hsum' := List.sum_erase hmem.1
      have herase : vals.erase m = [] := by
        cases he : vals.erase m with
        | nil => rfl
        | cons a l =>
          exfalso
          have ha : a ∈ vals := List.mem_of_mem_erase (by rw [he]; exact List.mem_cons_self _ _)
          have ha1 := hpos1 a ha
          have hl : 0 ≤ l.sum := List.sum_nonneg (fun y hy => by
            have := hpos1 y (List.mem_of_mem_erase (by rw [he]; exact List.mem_cons_of_mem _ hy))
            omega)
          rw [he, List.sum_cons] at hsum'
          omega
      have hperm := List.perm_cons_erase hmem.1
      rw [herase] at hperm
      exact List.perm_singleton.1 hperm
    · have hsolve : solve vals = some (vals.sum - m) := by
        unfold solve
        simp only []
        rw [h1, hmdef, Int.tmod_eq_emod hnn (by omega), if_neg heven,
          if_pos ⟨hms, by unfold INT_MAX at hmlt ⊢; omega⟩,
          sum_wrap64_of_range (by omega) (by omega)]
      have hes : even_sum vals (vals.sum - m) := by
        refine ⟨vals.erase m, List.erase_sublist _ _, ?_, ?_, by omega⟩
        · intro he
          have hsum' := List.sum_erase hmem.1
          rw [he] at hsum'
          simp only [List.sum_nil, add_zero] at hsum'
          exact hms hsum'
        · have hsum' := List.sum_erase hmem.1
          omega
      refine ⟨?_, ?_, ?_⟩
      · intro r hr
        rw [hsolve] at hr
        simp only [Option.some.injEq] at hr
        rw [← hr]
        exact ⟨hes, fun v hv => (hbound v hv).1⟩
      · rw [hsolve]
        exact ⟨fun h => absurd h (by simp), fun h => absurd hes (h _)⟩
      · rw [hsolve]
        refine ⟨fun h => absurd h (by simp), ?_⟩
        rintro ⟨x, hx, -⟩
        exfalso
        rw [hx] at hmem hms
        simp only [List.mem_singleton, List.sum_cons, List.sum_nil, add_zero] at hmem hms
        exact hms hmem.1
/-- C36, the failing input: on the two values `2147483647` (the largest `int`) and `2`
the sum is odd and the smallest odd value equals the initial value of `min_odd`, which
`solve` takes for "no odd value read": it prints `NIESTETY`, although the sub-multiset
`{2}` has the even sum 2. -/
theorem solve_sentinel_collision :
    solve [2147483647, 2] = none ∧ even_sum [2147483647, 2] 2 ∧
      (∀ v ∈ [(2147483647 : Int), 2], 1 ≤ v ∧ v ≤ INT_MAX) := by
  refine ⟨by decide, ⟨[2], ?_, by simp, by simp, by decide⟩, by decide⟩
  exact List.Sublist.cons _ (List.Sublist.refl _)

end Kie

/-! ## Properties of `prob/row.c` -/

namespace Row

theorem digit_square_sum_step (n : Nat) (hn : n ≠ 0) :
    digit_square_sum n = n % 10 * (n % 10) + digit_square_sum (n / 10) := by
  unfold digit_square_sum
  rw [Nat.digits_def' (by decide) (Nat.pos_of_ne_zero hn)]
  simp

theorem digit_square_sum_le : ∀ (d n : Nat), n < 10 ^ d → digit_square_sum n ≤ 81 * d := by
  intro d
  induction d with
  | zero =>
    intro n hn
    have : n = 0 := by simpa using hn
    rw [this]
    simp [digit_square_sum]
  | succ d ih =>
    intro n hn
    by_cases h0 : n = 0
    · rw [h0]; simp [digit_square_sum]
    · rw [digit_square_sum_step n h0]
      have h1 : n / 10 < 10 ^ d := by
        rw [pow_succ] at hn
        exact Nat.div_lt_of_lt_mul (by omega)
      have h2 := ih _ h1
      have h3 : n % 10 < 10 := Nat.mod_lt _ (by decide)
      have h4 : n % 10 * (n % 10) ≤ 9 * 9 := Nat.mul_le_mul (by omega) (by omega)
      omega

/-- The loop of `digits_squares_sum` adds the squares of the digits without wrapping
around, for every `num` below `2^64`. -/
theorem digits_squares_sum_loop_eq : ∀ (fuel num result : Nat), num ≤ fuel →
    result + digit_square_sum num < 2 ^ 32 →
    digits_squares_sum_loop fuel num result = result + digit_square_sum num := by
  intro fuel
  induction fuel with
  | zero =>
    intro num result h _
    have : num = 0 := by omega
    rw [this]
    simp [digits_squares_sum_loop, digit_square_sum]
  | succ fuel ih =>
    intro num result h hlt
    rw [digits_squares_sum_loop]
    by_cases h0 : num = 0
    · rw [if_neg (by simp [h0]), h0]
      simp [digit_square_sum]
    · rw [if_pos h0]
      rw [digit_square_sum_step num h0] at hlt ⊢
      have h3 : num % 10 < 10 := Nat.mod_lt _ (by decide)
      have h4 : num % 10 * (num % 10) ≤ 9 * 9 := Nat.mul_le_mul (by omega) (by omega)
      simp only []
      rw [Nat.mod_eq_of_lt (show num % 10 < 2 ^ 32 by omega),
        Nat.mod_eq_of_lt (show num % 10 * (num % 10) < 2 ^ 32 by omega),
        Nat.mod_eq_of_lt (show result + num % 10 * (num % 10) < 2 ^ 32 by omega),
        ih (num / 10) _ (by omega) (by omega)]
      omega

theorem digits_squares_sum_eq (num : Nat) (h : num < 2 ^ 64) :
    digits_squares_sum num = digit_square_sum num := by
  unfold digits_squares_sum
  have hle := digit_square_sum_le 20 num (by omega)
  rw [digits_squares_sum_loop_eq num num 0 (le_refl _) (by omega), zero_add]
/-- The loop of `main` counts the multipliers `mul, ..., LIMIT` for which the product
`k * mul` is at most `b`, at least `a` and has `mul` as the sum of the squares of its
digits; no product that it forms wraps around. -/
theorem main_loop_eq (k a b : Nat) (hb : b ≤ 10 ^ 18) :
    ∀ (fuel mul count : Nat), 1 ≤ mul → k * mul < 2 ^ 64 → LIMIT + 1 ≤ mul + fuel →
      mul ≤ LIMIT + 1 → count < mul →
      main_loop k a b fuel mul count =
        count + ((Finset.Ico mul (LIMIT + 1)).filter
          (fun j => k * j ≤ b ∧ digit_square_sum (k * j) = j ∧ a ≤ k * j)).card := by
  have hlimit : LIMIT = 1539 := rfl
  intro fuel
  induction fuel with
  | zero =>
    intro mul count _ _ hf hm _
    have : mul = LIMIT + 1 := by omega
    rw [this, main_loop]
    simp
  | succ fuel ih =>
    intro mul count h1 hprod hf hm hc
    rw [main_loop, Nat.mod_eq_of_lt hprod, digits_squares_sum_eq _ hprod]
    by_cases hcond : mul ≤ LIMIT ∧ k * mul ≤ b
    · rw [if_pos hcond]
      have hkle : k ≤ k * mul := Nat.le_mul_of_pos_right k (by omega)
      have hnext : k * (mul + 1) < 2 ^ 64 := by
        rw [Nat.mul_add, Nat.mul_one]
        omega
      rw [Nat.mod_eq_of_lt (show mul + 1 < 2 ^ 32 by omega)]
      have hins : Finset.Ico mul (LIMIT + 1) = insert mul (Finset.Ico (mul + 1) (LIMIT + 1)) := by
        ext x
        simp only [Finset.mem_Ico, Finset.mem_insert]
        omega
      rw [hins, Finset.filter_insert]
      by_cases hP : digit_square_sum (k * mul) = mul ∧ a ≤ k * mul
      · rw [if_pos hP, if_pos ⟨hcond.2, hP⟩, Nat.mod_eq_of_lt (show count + 1 < 2 ^ 32 by omega),
          ih (mul + 1) (count + 1) (by omega) hnext (by omega) (by omega) (by omega),
          Finset.card_insert_of_not_mem (by simp)]
        omega
      · rw [if_neg hP, if_neg (fun h => hP h.2),
          ih (mul + 1) count (by omega) hnext (by omega) (by omega) (by omega)]
    · rw [if_neg hcond]
      have hempty : (Finset.Ico mul (LIMIT + 1)).filter
          (fun j => k * j ≤ b ∧ digit_square_sum (k * j) = j ∧ a ≤ k * j) = ∅ := by
        apply Finset.filter_eq_empty_iff.2
        intro j hj hPj
        rw [Finset.mem_Ico] at hj
        have hle : k * mul ≤ k * j := Nat.mul_le_mul_left k hj.1
        exact hcond ⟨by omega, by omega⟩
      rw [hempty]
      simp

/-- C37 (digit-square multiples). For all `k`, `a`, `b` with `1 <= k < 2^64` and
`1 <= a <= b <= 10^18`: the count printed by `main` is the number of integers `n` with
`a <= n <= b` and `n = k * f(n)`, where `f(n)`, the sum of the squares of the decimal
digits of `n`, is what `digits_squares_sum` returns for every `n < 2^64`; and every
product `k * mul` that the loop forms before it exits (`mul = 1`, or all smaller
multipliers passed the test `k * mul <= b`) is below `2^64`. -/
theorem row_count (k a b : Nat) (hk : 1 ≤ k) (hk' : k < 2 ^ 64) (ha : 1 ≤ a) (hab : a ≤ b)
    (hb : b ≤ 10 ^ 18) :
    main k a b =
        ((Finset.Icc a b).filter (fun n => n = k * digits_squares_sum n)).card ∧
      (∀ n, n < 2 ^ 64 → digits_squares_sum n = ((Nat.digits 10 n).map (fun d => d * d)).sum) ∧
      ∀ mul, 1 ≤ mul → mul ≤ LIMIT → (∀ j, 1 ≤ j → j < mul → k * j ≤ b) →
        k * mul < 2 ^ 64 := by
  have hlimit : LIMIT = 1539 := rfl
  refine ⟨?_, fun n hn => digits_squares_sum_eq n hn, ?_⟩
  · unfold main
    rw [main_loop_eq k a b hb (LIMIT + 1) 1 0 (le_refl _) (by omega) (by omega) (by omega)
      (by omega), zero_add]
    have himage : (Finset.Icc a b).filter (fun n => n = k * digits_squares_sum n) =
        ((Finset.Ico 1 (LIMIT + 1)).filter
          (fun j => k * j ≤ b ∧ digit_square_sum (k * j) = j ∧ a ≤ k * j)).image
          (fun j => k * j) := by
      ext n
      simp only [Finset.mem_filter, Finset.mem_Icc, Finset.mem_image, Finset.mem_Ico]
      constructor
      · rintro ⟨⟨hna, hnb⟩, hn⟩
        rw [digits_squares_sum_eq n (by omega)] at hn
        have hle := digit_square_sum_le 19 n (by omega)
        have hpos : 1 ≤ digit_square_sum n := by
          by_contra hcon
          have h0 : digit_square_sum n = 0 := by omega
          rw [h0] at hn
          omega
        exact ⟨digit_square_sum n, ⟨⟨hpos, by omega⟩, by rw [← hn]; exact hnb,
          by rw [← hn], by rw [← hn]; exact hna⟩, hn.symm⟩
      · rintro ⟨j, ⟨-, hjb, hjd, hja⟩, rfl⟩
        refine ⟨⟨hja, hjb⟩, ?_⟩
        rw [digits_squares_sum_eq _ (by omega), hjd]
    rw [himage, Finset.card_image_of_injective]
    intro x y hxy
    exact Nat.eq_of_mul_eq_mul_left (by omega) hxy
  · intro mul h1 h2 hprev
    by_cases hm : mul = 1
    · rw [hm, Nat.mul_one]; exact hk'
    · have hp := hprev (mul - 1) (by omega) (by omega)
      have hkle : k ≤ k * (mul - 1) := Nat.le_mul_of_pos_right k (by omega)
      have : k * mul = k * (mul - 1) + k := by
        rw [← Nat.mul_succ]
        congr 1
        omega
      omega

theorem row_count_witness :
    (main 1 1 1 = ((Finset.Icc 1 1).filter (fun n => n = 1 * digits_squares_sum n)).card ∧
      (∀ n, n < 2 ^ 64 → digits_squares_sum n = ((Nat.digits 10 n).map (fun d => d * d)).sum) ∧
      ∀ mul, 1 ≤ mul → mul ≤ LIMIT → (∀ j, 1 ≤ j → j < mul → 1 * j ≤ 1) →
        1 * mul < 2 ^ 64) ∧
      main 1 1 1 = 1 ∧ digits_squares_sum 1729 = 135 :=
  ⟨row_count 1 1 1 (by decide) (by decide) (by decide) (by decide) (by decide),
    by decide, by decide⟩

end Row

/-! ## Properties of `2/a/fib.cc` -/

namespace Fib

theorem F_eq_fib : ∀ n, F n = Nat.fib n ∧ F (n + 1) = Nat.fib (n + 1) := by
  intro n
  induction n with
  | zero => exact ⟨rfl, rfl⟩
  | succ n ih =>
    refine ⟨ih.2, ?_⟩
    rw [F, ih.1, ih.2, Nat.fib_add_two]
    omega

theorem multiply_eq {lhs rhs mod : Nat} (hl : lhs < 2 ^ 64) (hr : rhs < 2 ^ 64)
    (hm0 : 1 ≤ mod) (hm1 : mod ≤ 2 ^ 63) : multiply lhs rhs mod = lhs * rhs % mod := by
  unfold multiply
  have h1 : lhs * rhs < 2 ^ 64 * 2 ^ 64 := Nat.mul_lt_mul'' hl hr
  have h2 : lhs * rhs % mod < mod := Nat.mod_lt _ (by omega)
  rw [Nat.mod_eq_of_lt (show lhs * rhs < 2 ^ 128 by omega),
    Nat.mod_eq_of_lt (show lhs * rhs % mod < 2 ^ 64 by omega)]

/-- One entry of the matrix product: no addition wraps around. -/
theorem entry_eq {a b c d mod : Nat} (ha : a < 2 ^ 64) (hb : b < 2 ^ 64) (hc : c < 2 ^ 64)
    (hd : d < 2 ^ 64) (hm0 : 1 ≤ mod) (hm1 : mod ≤ 2 ^ 63) :
    ((0 + multiply a b mod) % 2 ^ 64 + multiply c d mod) % 2 ^ 64 % mod =
      (a * b + c * d) % mod := by
  rw [multiply_eq ha hb hm0 hm1, multiply_eq hc hd hm0 hm1]
  have h1 : a * b % mod < mod := Nat.mod_lt _ (by omega)
  have h2 : c * d % mod < mod := Nat.mod_lt _ (by omega)
  rw [Nat.zero_add, Nat.mod_eq_of_lt (show a * b % mod < 2 ^ 64 by omega),
    Nat.mod_eq_of_lt (show a * b % mod + c * d % mod < 2 ^ 64 by omega), ← Nat.add_mod]

theorem fib_add_cast (a b : Nat) :
    (Nat.fib (a + b + 1) : Int) = Nat.fib a * Nat.fib b + Nat.fib (a + 1) * Nat.fib (b + 1) := by
  exact_mod_cast Nat.fib_add a b

theorem fib_add_two_cast (a : Nat) :
    (Nat.fib (a + 2) : Int) = Nat.fib a + Nat.fib (a + 1) := by
  exact_mod_cast Nat.fib_add_two

/-- The product of the powers `a` and `b` of `defs::fib` is the power `a + b`. -/
theorem mat_multiply_power {lhs rhs : mat2x2} {a b mod : Nat} (hm0 : 1 ≤ mod)
    (hm1 : mod ≤ 2 ^ 63) (hl : is_power lhs a mod) (hr : is_power rhs b mod)
    (hls : entries_small lhs) (hrs : entries_small rhs) :
    is_power (mat_multiply lhs rhs mod) (a + b) mod ∧
      entries_small (mat_multiply lhs rhs mod) := by
  obtain ⟨l00, l01, l10, l11⟩ := hl
  obtain ⟨r00, r01, r10, r11⟩ := hr
  obtain ⟨s00, s01, s10, s11⟩ := hls
  obtain ⟨t00, t01, t10, t11⟩ := hrs
  have hlt : ∀ x : Nat, x % mod < 2 ^ 63 := fun x => by
    have := Nat.mod_lt x (show 0 < mod by omega)
    omega
  have hcast : ∀ x : Nat, Int.ModEq mod ((x % mod : Nat) : Int) x := fun x => by
    rw [Int.natCast_mod]
    exact Int.mod_modEq _ _
  have e1 := fib_add_cast a b
  have e2 := fib_add_cast (a + 1) b
  have e3 := fib_add_two_cast a
  have e4 := fib_add_two_cast (a + b)
  have hsum1 : a + 1 + b + 1 = a + b + 2 := by omega
  rw [hsum1, show a + 1 + 1 = a + 2 from rfl] at e2
  refine ⟨⟨?_, ?_, ?_, ?_⟩, ?_⟩
  · show Int.ModEq mod ((((0 + multiply lhs.m00 rhs.m00 mod) % 2 ^ 64 +
      multiply lhs.m01 rhs.m10 mod) % 2 ^ 64 % mod : Nat) : Int) _
    rw [entry_eq (by omega) (by omega) (by omega) (by omega) hm0 hm1]
    refine (hcast _).trans ?_
    push_cast
    refine ((l00.mul r00).add (l01.mul r10)).trans ?_
    have : (Nat.fib (a + 1) : Int) * Nat.fib (b + 1) + Nat.fib a * Nat.fib b =
        Nat.fib (a + b + 1) := by
      linear_combination -e1
    rw [this]
  · show Int.ModEq mod ((((0 + multiply lhs.m00 rhs.m01 mod) % 2 ^ 64 +
      multiply lhs.m01 rhs.m11 mod) % 2 ^ 64 % mod : Nat) : Int) _
    rw [entry_eq (by omega) (by omega) (by omega) (by omega) hm0 hm1]
    refine (hcast _).trans ?_
    push_cast
    refine ((l00.mul r01).add (l01.mul r11)).trans ?_
    have : (Nat.fib (a + 1) : Int) * Nat.fib b +
        Nat.fib a * ((Nat.fib (b + 1) : Int) - Nat.fib b) = Nat.fib (a + b) := by
      linear_combination e1 - e2 + e4 - (Nat.fib (b + 1) : Int) * e3
    rw [this]
  · show Int.ModEq mod ((((0 + multiply lhs.m10 rhs.m00 mod) % 2 ^ 64 +
      multiply lhs.m11 rhs.m10 mod) % 2 ^ 64 % mod : Nat) : Int) _
    rw [entry_eq (by omega) (by omega) (by omega) (by omega) hm0 hm1]
    refine (hcast _).trans ?_
    push_cast
    refine ((l10.mul r00).add (l11.mul r10)).trans ?_
    have : (Nat.fib a : Int) * Nat.fib (b + 1) +
        ((Nat.fib (a + 1) : Int) - Nat.fib a) * Nat.fib b = Nat.fib (a + b) := by
      linear_combination e1 - e2 + e4 - (Nat.fib (b + 1) : Int) * e3
    rw [this]
  · show Int.ModEq mod ((((0 + multiply lhs.m10 rhs.m01 mod) % 2 ^ 64 +
      multiply lhs.m11 rhs.m11 mod) % 2 ^ 64 % mod : Nat) : Int) _
    rw [entry_eq (by omega) (by omega) (by omega) (by omega) hm0 hm1]
    refine (hcast _).trans ?_
    push_cast
    refine ((l10.mul r01).add (l11.mul r11)).trans ?_
    have : (Nat.fib a : Int) * Nat.fib b +
        ((Nat.fib (a + 1) : Int) - Nat.fib a) * ((Nat.fib (b + 1) : Int) - Nat.fib b) =
        (Nat.fib (a + b + 1) : Int) - Nat.fib (a + b) := by
      linear_combination (-2) * e1 + e2 - e4 + (Nat.fib (b + 1) : Int) * e3
    rw [this]
  · exact ⟨hlt _, hlt _, hlt _, hlt _⟩
theorem id_power (mod : Nat) : is_power defs.id 0 mod ∧ entries_small defs.id := by
  refine ⟨⟨?_, ?_, ?_, ?_⟩, ⟨by decide, by decide, by decide, by decide⟩⟩ <;>
    exact Int.ModEq.refl _

theorem fib_power (mod : Nat) : is_power defs.fib 1 mod ∧ entries_small defs.fib := by
  refine ⟨⟨?_, ?_, ?_, ?_⟩, ⟨by decide, by decide, by decide, by decide⟩⟩ <;>
    exact Int.ModEq.refl _

/-- The loop of `fib` multiplies `res`, the power `r`, by the power `idx` of `base`; it
has stopped after `fuel` iterations as soon as `idx < 2 ^ fuel`. -/
theorem fib_loop_power (mod : Nat) (hm0 : 1 ≤ mod) (hm1 : mod ≤ 2 ^ 63) :
    ∀ (fuel idx : Nat) (res base : mat2x2) (r q : Nat), idx < 2 ^ fuel →
      is_power res r mod → is_power base q mod → entries_small res → entries_small base →
      is_power (fib_loop mod fuel idx res base) (r + q * idx) mod ∧
        entries_small (fib_loop mod fuel idx res base) := by
  intro fuel
  induction fuel with
  | zero =>
    intro idx res base r q hidx hres _ hrs _
    have h0 : idx = 0 := by simpa using hidx
    rw [h0, Nat.mul_zero, Nat.add_zero]
    exact ⟨hres, hrs⟩
  | succ fuel ih =>
    intro idx res base r q hidx hres hbase hrs hbs
    rw [fib_loop]
    by_cases h0 : idx = 0
    · rw [if_neg (by simp [h0]), h0, Nat.mul_zero, Nat.add_zero]
      exact ⟨hres, hrs⟩
    · rw [if_pos h0]
      have hhalf : idx / 2 < 2 ^ fuel := by
        rw [pow_succ] at hidx
        omega
      obtain ⟨hb2, hb2s⟩ := mat_multiply_power hm0 hm1 hbase hbase hbs hbs
      have hsplit := Nat.div_add_mod idx 2
      by_cases hodd : idx % 2 = 1
      · rw [if_pos hodd]
        obtain ⟨hr2, hr2s⟩ := mat_multiply_power hm0 hm1 hres hbase hrs hbs
        have := ih (idx / 2) _ _ (r + q) (q + q) hhalf hr2 hb2 hr2s hb2s
        have hindex : r + q + (q + q) * (idx / 2) = r + q * idx := by
          rw [hodd] at hsplit
          conv_rhs => rw [← hsplit]
          ring
        rw [hindex] at this
        exact this
      · rw [if_neg hodd]
        have := ih (idx / 2) _ _ r (q + q) hhalf hres hb2 hrs hb2s
        have hindex : r + (q + q) * (idx / 2) = r + q * idx := by
          have hev : idx % 2 = 0 := by omega
          rw [hev] at hsplit
          conv_rhs => rw [← hsplit]
          ring
        rw [hindex] at this
        exact this

/-- The value that `fib` returns from the final `res`, for any sufficient number of
iterations of the loop. -/
theorem fib_result (mod : Nat) (hm0 : 1 ≤ mod) (hm1 : mod ≤ 2 ^ 63) (idx fuel : Nat)
    (hidx : idx ≠ 0) (hfuel : idx - 1 < 2 ^ fuel) :
    ((fib_loop mod fuel (idx - 1) defs.id defs.fib).m10 +
        (fib_loop mod fuel (idx - 1) defs.id defs.fib).m11) % 2 ^ 64 % mod =
      Nat.fib idx % mod := by
  obtain ⟨hp, hs⟩ := fib_loop_power mod hm0 hm1 fuel (idx - 1) defs.id defs.fib 0 1 hfuel
    (id_power mod).1 (fib_power mod).1 (id_power mod).2 (fib_power mod).2
  unfold is_power at hp
  rw [Nat.zero_add, Nat.one_mul, show idx - 1 + 1 = idx by omega] at hp
  obtain ⟨-, -, h10, h11⟩ := hp
  obtain ⟨-, -, s10, s11⟩ := hs
  generalize fib_loop mod fuel (idx - 1) defs.id defs.fib = res at h10 h11 s10 s11
  rw [Nat.mod_eq_of_lt (show res.m10 + res.m11 < 2 ^ 64 by omega)]
  have hsum := h10.add h11
  rw [show (Nat.fib (idx - 1) : Int) + ((Nat.fib idx : Int) - Nat.fib (idx - 1)) = Nat.fib idx
    by ring] at hsum
  have hnat : Nat.ModEq mod (res.m10 + res.m11) (Nat.fib idx) := by
    apply Int.natCast_modEq_iff.1
    push_cast
    exact hsum
  exact hnat

/-- C35 (matrix Fibonacci). For every index `idx < 2^64` and every modulus `mod` with
`1 <= mod <= 2^63`, `fib<uint64_t>(idx, mod)` is `F(idx) mod mod`, where `F(0) = 0`,
`F(1) = 1`, `F(n + 2) = F(n + 1) + F(n)`; and the loop has stopped with the final `res`
after 64 iterations (after `fuel` iterations as soon as `idx - 1 < 2 ^ fuel`). -/
theorem fib_spec (idx mod : Nat) (hidx : idx < 2 ^ 64) (hm0 : 1 ≤ mod) (hm1 : mod ≤ 2 ^ 63) :
    fib idx mod = F idx % mod ∧
      (F 0 = 0 ∧ F 1 = 1 ∧ ∀ n, F (n + 2) = F (n + 1) + F n) ∧
      ∀ fuel, 64 ≤ fuel → idx ≠ 0 →
        ((fib_loop mod fuel (idx - 1) defs.id defs.fib).m10 +
          (fib_loop mod fuel (idx - 1) defs.id defs.fib).m11) % 2 ^ 64 % mod = F idx % mod := by
  rw [(F_eq_fib idx).1]
  refine ⟨?_, ⟨rfl, rfl, fun n => rfl⟩, ?_⟩
  · unfold fib
    by_cases h0 : idx = 0
    · rw [if_pos h0, h0]; rfl
    · rw [if_neg h0]
      exact fib_result mod hm0 hm1 idx idx h0
        (lt_of_le_of_lt (Nat.sub_le _ _) (Nat.lt_two_pow idx))
  · intro fuel hfuel h0
    refine fib_result mod hm0 hm1 idx fuel h0 ?_
    have : (2 : Nat) ^ 64 ≤ 2 ^ fuel := Nat.pow_le_pow_right (by decide) hfuel
    omega

theorem fib_spec_witness :
    (fib 10 7 = F 10 % 7 ∧
      (F 0 = 0 ∧ F 1 = 1 ∧ ∀ n, F (n + 2) = F (n + 1) + F n) ∧
      ∀ fuel, 64 ≤ fuel → 10 ≠ 0 →
        ((fib_loop 7 fuel (10 - 1) defs.id defs.fib).m10 +
          (fib_loop 7 fuel (10 - 1) defs.id defs.fib).m11) % 2 ^ 64 % 7 = F 10 % 7) ∧
      fib 10 7 = 6 ∧ F 10 = 55 ∧ fib 0 7 = 0 ∧ fib 1 1 = 0 ∧ fib 90 1000000007 = 210345902 ∧
      fib 90 (2 ^ 63) = 2880067194370816120 :=
  ⟨fib_spec 10 7 (by decide) (by decide) (by decide), by decide, by decide, by decide,
    by decide, by decide, by decide⟩

end Fib

/-! ## Properties of `2/b/mis.cc` -/

namespace Mis

/-! ## The adjacency lists -/

theorem add_edge_count (adj : Nat → List Nat) (a b x y : Nat) :
    (add_edge adj a b x).count y =
      (adj x).count y + (if x = a ∧ y = b then 1 else 0) + (if x = b ∧ y = a then 1 else 0) := by
  unfold add_edge
  by_cases hxb : x = b
  · subst hxb
    rw [Function.update_same]
    by_cases hxa : x = a
    · subst hxa
      rw [Function.update_same]
      by_cases hy : y = x
      · subst hy; simp
      · simp [List.count_append, hy, Ne.symm hy]
    · rw [Function.update_noteq hxa]
      by_cases hy : y = a
      · subst hy; simp [List.count_append, hxa]
      · simp [List.count_append, hxa, hy, Ne.symm hy]
  · rw [Function.update_noteq hxb]
    by_cases hxa : x = a
    · subst hxa
      rw [Function.update_same]
      by_cases hy : y = b
      · subst hy; simp [List.count_append, hxb]
      · simp [List.count_append, hxb, hy, Ne.symm hy]
    · rw [Function.update_noteq hxa]
      simp [hxa, hxb]

/-- The adjacency lists are symmetric, with multiplicities. -/
theorem read_graph_count_symm (edges : List (Nat × Nat)) (x y : Nat) :
    (read_graph edges x).count y = (read_graph edges y).count x := by
  unfold read_graph
  have hgen : ∀ (es : List (Nat × Nat)) (adj : Nat → List Nat),
      (∀ x y, (adj x).count y = (adj y).count x) →
      ∀ x y, ((es.foldl (fun adj e => add_edge adj e.1 e.2) adj) x).count y =
        ((es.foldl (fun adj e => add_edge adj e.1 e.2) adj) y).count x := by
    intro es
    induction es with
    | nil => intro adj h; exact h
    | cons e es ih =>
      intro adj h
      rw [List.foldl_cons]
      apply ih
      intro x y
      rw [add_edge_count, add_edge_count, h x y]
      have e1 : (x = e.1 ∧ y = e.2) ↔ (y = e.2 ∧ x = e.1) := And.comm
      have e2 : (x = e.2 ∧ y = e.1) ↔ (y = e.1 ∧ x = e.2) := And.comm
      simp only [e1, e2]
      omega
  exact hgen edges _ (fun _ _ => by simp) x y

/-- Both ends of every entry of the adjacency lists are vertices. -/
theorem read_graph_lt (n : Nat) (edges : List (Nat × Nat))
    (hvalid : ∀ e ∈ edges, e.1 < n ∧ e.2 < n) (v u : Nat) (h : u ∈ read_graph edges v) :
    u < n ∧ v < n := by
  unfold read_graph at h
  have hgen : ∀ (es : List (Nat × Nat)) (adj : Nat → List Nat),
      (∀ e ∈ es, e.1 < n ∧ e.2 < n) → (∀ v u, u ∈ adj v → u < n ∧ v < n) →
      ∀ v u, u ∈ (es.foldl (fun adj e => add_edge adj e.1 e.2) adj) v → u < n ∧ v < n := by
    intro es
    induction es with
    | nil => intro adj _ h; exact h
    | cons e es ih =>
      intro adj hv h
      rw [List.foldl_cons]
      apply ih _ (fun e' he' => hv e' (List.mem_cons_of_mem _ he'))
      intro v u hu
      have he := hv e (List.mem_cons_self _ _)
      have hc : 0 < (add_edge adj e.1 e.2 v).count u := List.count_pos_iff.2 hu
      rw [add_edge_count] at hc
      by_cases h0 : 0 < (adj v).count u
      · exact h v u (List.count_pos_iff.1 h0)
      · by_cases h1 : v = e.1 ∧ u = e.2
        · rw [h1.1, h1.2]; exact ⟨he.2, he.1⟩
        · by_cases h2 : v = e.2 ∧ u = e.1
          · rw [h2.1, h2.2]; exact ⟨he.1, he.2⟩
          · rw [if_neg h1, if_neg h2] at hc
            omega
  exact hgen edges _ hvalid (fun _ _ h => by simp at h) v u h

theorem read_graph_symm (edges : List (Nat × Nat)) {x y : Nat} (h : y ∈ read_graph edges x) :
    x ∈ read_graph edges y := by
  rw [← List.count_pos_iff] at h ⊢
  rw [read_graph_count_symm]
  exact h

/-- The number of entries of all adjacency lists is twice the number of edges. -/
theorem read_graph_length (edges : List (Nat × Nat)) (v : Nat) :
    (read_graph edges v).length ≤ 2 * edges.length := by
  unfold read_graph
  have hgen : ∀ (es : List (Nat × Nat)) (adj : Nat → List Nat) (k : Nat),
      (∀ v, (adj v).length ≤ k) →
      ∀ v, ((es.foldl (fun adj e => add_edge adj e.1 e.2) adj) v).length ≤ k + 2 * es.length := by
    intro es
    induction es with
    | nil => intro adj k h v; simpa using h v
    | cons e es ih =>
      intro adj k h v
      rw [List.foldl_cons, List.length_cons]
      have := ih (add_edge adj e.1 e.2) (k + 2) (by
        intro w
        unfold add_edge
        by_cases h2 : w = e.2
        · rw [h2, Function.update_same, List.length_append]
          by_cases h1 : e.2 = e.1
          · rw [h1, Function.update_same, List.length_append]
            have := h e.1
            simp only [List.length_singleton]
            omega
          · rw [Function.update_noteq h1]
            have := h e.2
            simp only [List.length_singleton]
            omega
        · rw [Function.update_noteq h2]
          by_cases h1 : w = e.1
          · rw [h1, Function.update_same, List.length_append]
            have := h e.1
            simp only [List.length_singleton]
            omega
          · rw [Function.update_noteq h1]
            have := h w
            omega) v
      omega
  have := hgen edges (fun _ => []) 0 (fun _ => by simp) v
  omega

/-! ## The degrees and the first queue -/

theorem sum_count_range (n : Nat) (l : List Nat) (h : ∀ x ∈ l, x < n) :
    ((List.range n).map (fun i => l.count i)).sum = l.length := by
  induction l with
  | nil => simp
  | cons x l ih =>
    have hx : x < n := h x (List.mem_cons_self _ _)
    have hind : ((List.range n).map (fun i => if i = x then 1 else 0)).sum = 1 := by
      have hgen : ∀ m, ((List.range m).map (fun i => if i = x then 1 else 0)).sum =
          if x < m then 1 else 0 := by
        intro m
        induction m with
        | zero => simp
        | succ m ihm =>
          rw [List.range_succ, List.map_append, List.sum_append, ihm]
          simp only [List.map_cons, List.map_nil, List.sum_cons, List.sum_nil]
          by_cases h1 : x < m
          · rw [if_pos h1, if_neg (by omega), if_pos (by omega)]
            rfl
          · by_cases h2 : m = x
            · rw [if_neg h1, if_pos h2, if_pos (by omega)]
              rfl
            · rw [if_neg h1, if_neg h2, if_neg (by omega)]
              rfl
      rw [hgen n, if_pos hx]
    have hsplit : ((List.range n).map (fun i => (x :: l).count i)).sum =
        ((List.range n).map (fun i => l.count i)).sum +
          ((List.range n).map (fun i => if i = x then 1 else 0)).sum := by
      rw [← List.sum_map_add]
      congr 1
      apply List.map_congr_left
      intro i _
      rw [List.count_cons]
      by_cases hi : i = x
      · simp [hi]
      · simp [hi, Ne.symm hi]
    rw [hsplit, hind, ih (fun y hy => h y (List.mem_cons_of_mem _ hy)), List.length_cons]

theorem fill_degrees_inner (l : List Nat) (data r : data_t)
    (hr : r = l.foldl (fun (data : data_t) j =>
      { data with degree := Function.update data.degree j ((data.degree j + 1) % 2 ^ 64) })
      data) :
    r.removed = data.removed ∧ r.component = data.component ∧
      ∀ j, r.degree j % 2 ^ 64 = (data.degree j + l.count j) % 2 ^ 64 := by
  induction l generalizing data with
  | nil => subst hr; simp
  | cons x l ih =>
    rw [List.foldl_cons] at hr
    have h := ih _ hr
    refine ⟨h.1, h.2.1, fun j => ?_⟩
    rw [h.2.2 j, List.count_cons]
    by_cases hx : x = j
    · subst hx
      simp only [Function.update_same, beq_self_eq_true, if_true]
      omega
    · simp only [Function.update_noteq (Ne.symm hx)]
      simp [hx]

theorem fill_degrees_spec (n : Nat) (graph : Nat → List Nat) (data : data_t) :
    (fill_degrees n graph data).removed = data.removed ∧
      (fill_degrees n graph data).component = data.component ∧
      ∀ j, (fill_degrees n graph data).degree j % 2 ^ 64 =
        (data.degree j + ((List.range n).map (fun i => (graph i).count j)).sum) % 2 ^ 64 := by
  unfold fill_degrees
  induction n with
  | zero => simp
  | succ n ih =>
    simp only [List.range_succ, List.foldl_append, List.map_append, List.sum_append,
      List.foldl_cons, List.foldl_nil, List.map_cons, List.map_nil, List.sum_cons,
      List.sum_nil, Nat.add_zero]
    have h := fill_degrees_inner (graph n) ((List.range n).foldl (fun data i =>
      (graph i).foldl (fun (data : data_t) j =>
        { data with degree := Function.update data.degree j ((data.degree j + 1) % 2 ^ 64) })
        data) data) _ rfl
    refine ⟨h.1.trans ih.1, h.2.1.trans ih.2.1, fun j => ?_⟩
    have h1 := h.2.2 j
    have h2 := ih.2.2 j
    rw [h1]
    omega

/-- After `fill_degrees` the degree of a vertex is the length of its adjacency list. -/
theorem fill_degrees_read_graph (n : Nat) (edges : List (Nat × Nat))
    (hvalid : ∀ e ∈ edges, e.1 < n ∧ e.2 < n) (hm : 2 * edges.length < 2 ^ 64) (j : Nat) :
    (fill_degrees n (read_graph edges) data_t.init).degree j % 2 ^ 64 =
      (read_graph edges j).length := by
  rw [(fill_degrees_spec n (read_graph edges) data_t.init).2.2 j]
  have hs : ((List.range n).map (fun i => (read_graph edges i).count j)).sum =
      ((List.range n).map (fun i => (read_graph edges j).count i)).sum := by
    congr 1
    apply List.map_congr_left
    intro i _
    exact read_graph_count_symm edges i j
  rw [hs, sum_count_range n _ (fun x hx => (read_graph_lt n edges hvalid j x hx).1)]
  have := read_graph_length edges j
  show (0 + _) % 2 ^ 64 = _
  rw [Nat.zero_add]
  exact Nat.mod_eq_of_lt (by omega)

theorem fill_degrees_inner_lt (l : List Nat) (data : data_t)
    (h : ∀ j, data.degree j < 2 ^ 64) (j : Nat) :
    (l.foldl (fun (data : data_t) j =>
      { data with degree := Function.update data.degree j ((data.degree j + 1) % 2 ^ 64) })
      data).degree j < 2 ^ 64 := by
  induction l generalizing data with
  | nil => exact h j
  | cons x l ih =>
    rw [List.foldl_cons]
    apply ih
    intro k
    by_cases hk : k = x
    · rw [hk]
      simp only [Function.update_same]
      exact Nat.mod_lt _ (by norm_num)
    · simp only [Function.update_noteq hk]
      exact h k

theorem fill_degrees_lt (n : Nat) (graph : Nat → List Nat) (data : data_t)
    (h : ∀ j, data.degree j < 2 ^ 64) (j : Nat) :
    (fill_degrees n graph data).degree j < 2 ^ 64 := by
  unfold fill_degrees
  induction n generalizing j with
  | zero => exact h j
  | succ n ih =>
    simp only [List.range_succ, List.foldl_append, List.foldl_cons, List.foldl_nil]
    exact fill_degrees_inner_lt _ _ ih j

/-- After `fill_degrees` the degree of a vertex is the length of its adjacency list. -/
theorem fill_degrees_degree (n : Nat) (edges : List (Nat × Nat))
    (hvalid : ∀ e ∈ edges, e.1 < n ∧ e.2 < n) (hm : 2 * edges.length < 2 ^ 64) (j : Nat) :
    (fill_degrees n (read_graph edges) data_t.init).degree j = (read_graph edges j).length := by
  rw [← fill_degrees_read_graph n edges hvalid hm j]
  exact (Nat.mod_eq_of_lt (fill_degrees_lt n _ _ (fun _ => by
    show 0 < 2 ^ 64
    norm_num) j)).symm

/-- The state after `prepare_queue`: the vertices of too small a degree are removed and
queued, in ascending order. -/
theorem prepare_queue_spec (n d : Nat) (data : data_t) (h : ∀ i, data.removed i = false) :
    (prepare_queue n d data).1.degree = data.degree ∧
      (prepare_queue n d data).1.component = data.component ∧
      (prepare_queue n d data).2 = (List.range n).filter (fun i => data.degree i < d) ∧
      ∀ i, (prepare_queue n d data).1.removed i = true ↔ i < n ∧ data.degree i < d := by
  unfold prepare_queue
  induction n with
  | zero => simp [h]
  | succ n ih =>
    simp only [List.range_succ, List.foldl_append, List.foldl_cons, List.foldl_nil,
      List.filter_append]
    obtain ⟨h1, h2, h3, h4⟩ := ih
    generalize List.foldl _ (data, []) (List.range n) = st at h1 h2 h3 h4 ⊢
    by_cases hd : data.degree n < d
    · rw [if_pos (by rw [h1]; exact hd)]
      refine ⟨h1, h2, ?_, fun i => ?_⟩
      · simp only [h3]
        simp [hd]
      · simp only []
        by_cases hi : i = n
        · rw [hi, Function.update_same]
          simp [hd]
        · rw [Function.update_noteq hi, h4 i]
          constructor
          · rintro ⟨a, b⟩; exact ⟨by omega, b⟩
          · rintro ⟨a, b⟩; exact ⟨by omega, b⟩
    · rw [if_neg (by rw [h1]; exact hd)]
      refine ⟨h1, h2, ?_, fun i => ?_⟩
      · rw [h3]
        simp [hd]
      · rw [h4 i]
        constructor
        · rintro ⟨a, b⟩; exact ⟨by omega, b⟩
        · rintro ⟨a, b⟩
          refine ⟨?_, b⟩
          by_contra hc
          have : i = n := by omega
          rw [this] at b
          exact hd b

/-! ## The elimination -/

theorem live_degree_cons (graph : Nat → List Nat) (P : List Nat) (u v : Nat) (hu : u ∉ P) :
    live_degree graph P v = live_degree graph (u :: P) v + (graph v).count u := by
  unfold live_degree
  induction graph v with
  | nil => simp
  | cons x l ih =>
    rw [List.count_cons]
    by_cases hx : x = u
    · subst hx
      rw [List.filter_cons_of_pos (by simpa using hu),
        List.filter_cons_of_neg (by simp), List.length_cons, ih]
      simp
      omega
    · have hxu : (x == u) = false := by simpa using hx
      by_cases hp : x ∈ P
      · rw [List.filter_cons_of_neg (by simpa using hp),
          List.filter_cons_of_neg (by simp [hp]), ih, hxu]
        simp
      · rw [List.filter_cons_of_pos (by simpa using hp),
          List.filter_cons_of_pos (by simp [hp, hx]), List.length_cons, List.length_cons, ih, hxu]
        simp
        omega

theorem degree_in_le_live_degree (graph : Nat → List Nat) (P : List Nat) (T : Nat → Prop)
    [DecidablePred T] (h : ∀ x, T x → x ∉ P) (v : Nat) :
    degree_in graph T v ≤ live_degree graph P v := by
  unfold degree_in live_degree
  rw [← List.countP_eq_length_filter, ← List.countP_eq_length_filter]
  apply List.countP_mono_left
  intro x _ hx
  simp only [decide_eq_true_eq] at hx ⊢
  exact h x hx

theorem nodup_length_le (n : Nat) (l : List Nat) (hnd : l.Nodup) (h : ∀ x ∈ l, x < n) :
    l.length ≤ n := by
  rw [← List.toFinset_card_of_nodup hnd]
  have : l.toFinset ⊆ Finset.range n := by
    intro x hx
    rw [List.mem_toFinset] at hx
    exact Finset.mem_range.2 (h x hx)
  simpa using Finset.card_le_card this

/-- One step of the inner loop of `eliminate` keeps the invariant. -/
theorem eliminate_step_inv (n d : Nat) (graph : Nat → List Nat) (P rest : List Nat) (v : Nat)
    (st : data_t × List Nat) (hv : v < n) (h : eliminate_inv n d graph P (v :: rest) st) :
    eliminate_inv n d graph P rest
      (if ¬ st.1.removed v then
        if (st.1.degree v + (2 ^ 64 - 1)) % 2 ^ 64 < d then
          ({ st.1 with
              degree := Function.update st.1.degree v ((st.1.degree v + (2 ^ 64 - 1)) % 2 ^ 64),
              removed := Function.update st.1.removed v true }, st.2 ++ [v])
        else ({ st.1 with
              degree := Function.update st.1.degree v ((st.1.degree v + (2 ^ 64 - 1)) % 2 ^ 64) },
            st.2)
      else st) := by
  obtain ⟨k1, k2, k3, k4, k5, k6, k7⟩ := h
  by_cases hr : st.1.removed v = true
  · rw [if_neg (by simpa using hr)]
    refine ⟨k1, k2, k3, fun w hw hrw => ?_, k5, k6, k7⟩
    have := k4 w hw hrw
    have hwv : v ≠ w := by rintro rfl; rw [hr] at hrw; exact Bool.noConfusion hrw
    rw [List.count_cons_of_ne (Ne.symm hwv)] at this
    exact this
  · have hr' : st.1.removed v = false := by simpa using hr
    rw [if_pos (by simpa using hr)]
    have hdv := k4 v hv hr'
    rw [List.count_cons_self] at hdv
    have hlt := k6 v
    have hdec : (st.1.degree v + (2 ^ 64 - 1)) % 2 ^ 64 = st.1.degree v - 1 := by
      have : 1 ≤ st.1.degree v := by omega
      omega
    rw [hdec]
    have hvP : v ∉ P ∧ v ∉ st.2 := by
      constructor
      · intro hc; exact hr ((k1 v).2 (Or.inl hc))
      · intro hc; exact hr ((k1 v).2 (Or.inr hc))
    by_cases hd : st.1.degree v - 1 < d
    · rw [if_pos hd]
      refine ⟨fun w => ?_, ?_, ?_, fun w hw hrw => ?_, ?_, fun w => ?_, k7⟩
      · simp only []
        by_cases hwv : w = v
        · rw [hwv, Function.update_same]
          simp
        · rw [Function.update_noteq hwv, k1 w]
          simp [hwv]
      · simp only [← List.append_assoc]
        rw [List.nodup_append]
        refine ⟨k2, List.nodup_singleton v, ?_⟩
        intro x hx hx'
        rw [List.mem_singleton] at hx'
        rw [hx', List.mem_append] at hx
        rcases hx with hx | hx
        · exact hvP.1 hx
        · exact hvP.2 hx
      · intro w hw
        simp only [← List.append_assoc] at hw
        rw [List.mem_append, List.mem_singleton] at hw
        rcases hw with hw | hw
        · exact k3 w hw
        · rw [hw]; exact hv
      · simp only [] at hrw ⊢
        have hwv : w ≠ v := by
          rintro rfl
          rw [Function.update_same] at hrw
          exact Bool.noConfusion hrw
        rw [Function.update_noteq hwv] at hrw ⊢
        have := k4 w hw hrw
        rw [List.count_cons_of_ne hwv] at this
        exact this
      · intro T _ hT w hTw
        simp only []
        have hwv : w ≠ v := by
          rintro rfl
          have h1 := (hT w hTw).2
          have h2 := degree_in_le_live_degree graph P T (fun x hx hxP => by
            have := k5 T hT x hx
            rw [(k1 x).2 (Or.inl hxP)] at this
            exact Bool.noConfusion this) w
          omega
        rw [Function.update_noteq hwv]
        exact k5 T hT w hTw
      · simp only []
        by_cases hwv : w = v
        · rw [hwv, Function.update_same]; omega
        · rw [Function.update_noteq hwv]; exact k6 w
    · rw [if_neg hd]
      refine ⟨k1, k2, k3, fun w hw hrw => ?_, k5, fun w => ?_, k7⟩
      · simp only [] at hrw ⊢
        by_cases hwv : w = v
        · rw [hwv, Function.update_same]
          constructor <;> omega
        · rw [Function.update_noteq hwv]
          have := k4 w hw hrw
          rw [List.count_cons_of_ne hwv] at this
          exact this
      · simp only []
        by_cases hwv : w = v
        · rw [hwv, Function.update_same]; omega
        · rw [Function.update_noteq hwv]; exact k6 w

/-- The inner loop of `eliminate` keeps the invariant. -/
theorem eliminate_vertex_inv (n d : Nat) (graph : Nat → List Nat) (P l : List Nat)
    (st : data_t × List Nat) (hl : ∀ v ∈ l, v < n) (h : eliminate_inv n d graph P l st) :
    eliminate_inv n d graph P [] (eliminate_vertex d l st) := by
  unfold eliminate_vertex
  induction l generalizing st with
  | nil => exact h
  | cons v l ih =>
    rw [List.foldl_cons]
    apply ih _ (fun w hw => hl w (List.mem_cons_of_mem _ hw))
    have := eliminate_step_inv n d graph P l v st (hl v (List.mem_cons_self _ _)) h
    by_cases hr : st.1.removed v = true
    · rw [if_neg (by simpa using hr)] at this ⊢
      exact this
    · rw [if_pos (by simpa using hr)] at this ⊢
      exact this

/-- Taking a vertex from the queue turns the invariant of the outer loop into the
invariant of the inner loop. -/
theorem eliminate_pop_inv (n d : Nat) (graph : Nat → List Nat)
    (hsym : ∀ x y, (graph x).count y = (graph y).count x) (P : List Nat) (u : Nat)
    (data : data_t) (queue : List Nat) (h : eliminate_inv n d graph P [] (data, u :: queue)) :
    eliminate_inv n d graph (u :: P) (graph u) (data, queue) := by
  obtain ⟨k1, k2, k3, k4, k5, k6, k7⟩ := h
  simp only at k1 k2 k3 k4 k5 k6 k7
  have hperm : (P ++ u :: queue).Perm (u :: P ++ queue) := List.perm_middle
  have huP : u ∉ P := by
    intro hc
    have := (List.nodup_append.1 k2).2.2
    exact this hc (List.mem_cons_self _ _)
  refine ⟨fun w => ?_, ?_, ?_, fun w hw hrw => ?_, k5, k6, k7⟩
  · rw [k1 w]
    simp only [List.mem_cons]
    tauto
  · exact (List.Perm.nodup_iff hperm).1 k2
  · intro w hw
    exact k3 w (hperm.symm.subset hw)
  · have := k4 w hw hrw
    simp only [List.count_nil, Nat.add_zero] at this ⊢
    rw [← hsym w u, ← live_degree_cons graph P u w huP]
    exact this

/-- The queue of `eliminate` empties within `n` rounds, and the invariant holds at the
end. -/
theorem eliminate_inv_final (n d : Nat) (graph : Nat → List Nat)
    (hsym : ∀ x y, (graph x).count y = (graph y).count x)
    (hlt : ∀ v u, u ∈ graph v → u < n ∧ v < n) (fuel : Nat) (P : List Nat)
    (st : data_t × List Nat) (h : eliminate_inv n d graph P [] st)
    (hfuel : n ≤ P.length + fuel) :
    ∃ data P', eliminate d graph fuel st = some data ∧
      eliminate_inv n d graph P' [] (data, []) := by
  induction fuel generalizing P st with
  | zero =>
    obtain ⟨data, queue⟩ := st
    cases queue with
    | nil => exact ⟨data, P, by simp [eliminate], h⟩
    | cons u queue =>
      have := nodup_length_le n _ h.2.1 h.2.2.1
      simp only [List.length_append, List.length_cons] at this
      omega
  | succ fuel ih =>
    obtain ⟨data, queue⟩ := st
    cases queue with
    | nil => exact ⟨data, P, by simp [eliminate], h⟩
    | cons u queue =>
      have h1 := eliminate_pop_inv n d graph hsym P u data queue h
      have h2 := eliminate_vertex_inv n d graph (u :: P) (graph u) (data, queue)
        (fun v hv => (hlt u v hv).1) h1
      obtain ⟨data', P', e, h3⟩ := ih (u :: P) _ h2 (by simp only [List.length_cons]; omega)
      exact ⟨data', P', by rw [eliminate]; exact e, h3⟩

/-- What `eliminate` leaves: the removed vertices are vertices, every other vertex has at
least `d` edge ends leading to vertices that are not removed, and no vertex of a set
with all induced degrees at least `d` is removed. -/
theorem eliminate_spec (n d : Nat) (edges : List (Nat × Nat))
    (hvalid : ∀ e ∈ edges, e.1 < n ∧ e.2 < n) (hm : 2 * edges.length < 2 ^ 64) :
    ∃ data, eliminate d (read_graph edges) n
        (prepare_queue n d (fill_degrees n (read_graph edges) data_t.init)) = some data ∧
      (∀ v, data.removed v = true → v < n) ∧
      (∀ v, v < n → data.removed v = false →
        d ≤ degree_in (read_graph edges) (fun u => data.removed u = false) v) ∧
      (∀ (T : Nat → Prop) [DecidablePred T], core_set n d (read_graph edges) T →
        ∀ v, T v → data.removed v = false) ∧
      data.component = fun _ => NOT_VISITED := by
  have hfd := fill_degrees_spec n (read_graph edges) data_t.init
  have hpq := prepare_queue_spec n d (fill_degrees n (read_graph edges) data_t.init)
    (fun i => by rw [hfd.1]; rfl)
  obtain ⟨p1, p2, p3, p4⟩ := hpq
  have hdeg := fill_degrees_degree n edges hvalid hm
  have hinv : eliminate_inv n d (read_graph edges) [] []
      (prepare_queue n d (fill_degrees n (read_graph edges) data_t.init)) := by
    refine ⟨fun v => ?_, ?_, ?_, fun v hv hr => ?_, fun T _ hT v hTv => ?_, fun v => ?_, ?_⟩
    · rw [p4 v, p3]
      simp [List.mem_filter]
    · rw [p3, List.nil_append]
      exact (List.nodup_range n).filter _
    · intro v hv
      rw [p3, List.nil_append, List.mem_filter, List.mem_range] at hv
      exact hv.1
    · rw [p1, hdeg v]
      have hnot : ¬ (fill_degrees n (read_graph edges) data_t.init).degree v < d := by
        intro hc
        rw [(p4 v).2 ⟨hv, hc⟩] at hr
        exact Bool.noConfusion hr
      rw [hdeg v] at hnot
      refine ⟨?_, by omega⟩
      unfold live_degree
      simp
    · by_contra hc
      have hc' := (p4 v).1 (by simpa using hc)
      rw [hdeg v] at hc'
      have h1 := (hT v hTv).2
      have h2 : degree_in (read_graph edges) T v ≤ (read_graph edges v).length := by
        unfold degree_in
        exact List.length_filter_le _ _
      omega
    · rw [p1]
      exact fill_degrees_lt n _ _ (fun _ => by
        show 0 < 2 ^ 64
        norm_num) v
    · rw [p2, hfd.2.1]
      rfl
  obtain ⟨data, P, e, k1, k2, k3, k4, k5, k6, k7⟩ := eliminate_inv_final n d (read_graph edges)
    (read_graph_count_symm edges) (read_graph_lt n edges hvalid) n [] _ hinv (by simp)
  simp only [List.mem_nil_iff, or_false, List.append_nil, List.count_nil, Nat.add_zero] at k1 k3 k4
  refine ⟨data, e, fun v hv => k3 v ((k1 v).1 hv), fun v hv hr => ?_, k5, k7⟩
  have := k4 v hv hr
  have heq : degree_in (read_graph edges) (fun u => data.removed u = false) v =
      live_degree (read_graph edges) P v := by
    unfold degree_in live_degree
    congr 1
    apply List.filter_congr
    intro x _
    have := k1 x
    by_cases hx : x ∈ P
    · simp [hx, this.2 hx]
    · have : data.removed x = false := by
        cases hb : data.removed x
        · rfl
        · exact absurd (this.1 hb) hx
      simp [hx, this]
  omega

/-! ## The search -/

theorem unvisited_le (n : Nat) (data : data_t) : unvisited n data ≤ n := by
  unfold unvisited
  simpa using Finset.card_filter_le (Finset.range n) (fun x => data.component x = NOT_VISITED)

/-- Visiting a vertex lowers the number of vertices not visited by one. -/
theorem unvisited_mark (n : Nat) (data : data_t) (v c : Nat) (hv : v < n)
    (hc : c ≠ NOT_VISITED) (h : data.component v = NOT_VISITED) :
    unvisited n { data with component := Function.update data.component v c } + 1 =
      unvisited n data := by
  unfold unvisited
  have hset : (Finset.range n).filter
      (fun x => Function.update data.component v c x = NOT_VISITED) =
      ((Finset.range n).filter (fun x => data.component x = NOT_VISITED)).erase v := by
    ext x
    simp only [Finset.mem_filter, Finset.mem_range, Finset.mem_erase]
    by_cases hx : x = v
    · subst hx
      rw [Function.update_same]
      simp [hc]
    · rw [Function.update_noteq hx]
      simp [hx]
  simp only []
  rw [hset, Finset.card_erase_of_mem (by simp [hv, h])]
  have : 0 < ((Finset.range n).filter (fun x => data.component x = NOT_VISITED)).card :=
    Finset.card_pos.2 ⟨v, by simp [hv, h]⟩
  omega

theorem dfs_result_refl (n : Nat) (graph : Nat → List Nat) (v c : Nat) (data : data_t) :
    dfs_result n graph v c data 0 data :=
  ⟨rfl, rfl, fun _ _ => rfl, fun _ h h' => absurd h h', Nat.zero_add _⟩

theorem dfs_result_trans (n : Nat) (graph : Nat → List Nat) (v c : Nat) (hc : c ≠ NOT_VISITED)
    (d1 d2 d3 : data_t) (r1 r2 : Nat) (h1 : dfs_result n graph v c d1 r1 d2)
    (h2 : dfs_result n graph v c d2 r2 d3) : dfs_result n graph v c d1 (r1 + r2) d3 := by
  obtain ⟨a1, a2, a3, a4, a5⟩ := h1
  obtain ⟨b1, b2, b3, b4, b5⟩ := h2
  refine ⟨b1.trans a1, b2.trans a2, fun x hx => ?_, fun x hx hx' => ?_, by omega⟩
  · rw [b3 x (by rw [a3 x hx]; exact hx), a3 x hx]
  · by_cases h2x : d2.component x = NOT_VISITED
    · obtain ⟨c1, c2, c3, c4, c5⟩ := b4 x h2x hx'
      rw [a1] at c3 c4
      exact ⟨c1, c2, c3, c4, c5⟩
    · obtain ⟨c1, c2, c3, c4, c5⟩ := a4 x hx h2x
      refine ⟨by rw [b3 x h2x]; exact c1, c2, c3, fun y hy hr => ?_, ?_⟩
      · have := c4 y hy hr
        rw [b3 y this]
        exact this
      · refine Relation.ReflTransGen.mono ?_ c5
        intro a b hab
        refine ⟨hab.1, ?_⟩
        rw [b3 b (by rw [hab.2]; exact hc)]
        exact hab.2

/-- A search below a neighbour `u` of `v` that has got the component `c` is a search
below `v`. -/
theorem dfs_result_root (n : Nat) (graph : Nat → List Nat) (v u c : Nat) (d1 d2 : data_t)
    (r : Nat) (hu : u ∈ graph v) (hcu : d2.component u = c)
    (h : dfs_result n graph u c d1 r d2) : dfs_result n graph v c d1 r d2 := by
  obtain ⟨a1, a2, a3, a4, a5⟩ := h
  refine ⟨a1, a2, a3, fun x hx hx' => ?_, a5⟩
  obtain ⟨c1, c2, c3, c4, c5⟩ := a4 x hx hx'
  exact ⟨c1, c2, c3, c4, Relation.ReflTransGen.head ⟨hu, hcu⟩ c5⟩

theorem dfs_visited (graph : Nat → List Nat) (fuel v c : Nat) (data : data_t)
    (h : data.component v ≠ NOT_VISITED) : dfs graph fuel v c data = some (0, data) := by
  cases fuel <;> simp [dfs, h]

/-- The loop of `dfs` over the neighbours of `v`, given that the nested calls do what
they should. -/
theorem dfs_fold (n : Nat) (graph : Nat → List Nat) (fuel : Nat)
    (hlt : ∀ v u, u ∈ graph v → u < n ∧ v < n)
    (ih : ∀ v c data, v < n → c ≠ NOT_VISITED → data.removed v = false →
      data.component v = NOT_VISITED → unvisited n data ≤ fuel →
      ∃ r data', dfs graph fuel v c data = some (r, data') ∧ data'.component v = c ∧
        1 ≤ r ∧ dfs_result n graph v c data r data')
    (c : Nat) (hc : c ≠ NOT_VISITED)
    (f : Option (Nat × data_t) → Nat → Option (Nat × data_t))
    (hf : ∀ res data u, f (some (res, data)) u =
      if ¬ data.removed u then
        match dfs graph fuel u c data with
        | none => none
        | some (r, data) => some ((res + r) % 2 ^ 64, data)
      else some (res, data))
    (v : Nat) (l : List Nat) (hl : ∀ u ∈ l, u ∈ graph v) (res : Nat) (d1 : data_t)
    (hU : unvisited n d1 ≤ fuel) (hres : res + unvisited n d1 < 2 ^ 64) :
    ∃ r d2, l.foldl f (some (res, d1)) = some (res + r, d2) ∧
      dfs_result n graph v c d1 r d2 ∧
      ∀ u ∈ l, d1.removed u = false → d2.component u ≠ NOT_VISITED := by
  induction l generalizing res d1 with
  | nil => exact ⟨0, d1, rfl, dfs_result_refl n graph v c d1, fun u hu => by simp at hu⟩
  | cons u l ihl =>
    have hl' : ∀ w ∈ l, w ∈ graph v := fun w hw => hl w (List.mem_cons_of_mem _ hw)
    have huv : u ∈ graph v := hl u (List.mem_cons_self _ _)
    rw [List.foldl_cons, hf]
    by_cases hr : d1.removed u = true
    · rw [if_neg (by simpa using hr)]
      obtain ⟨r, d2, e, h1, h2⟩ := ihl hl' res d1 hU hres
      refine ⟨r, d2, e, h1, fun w hw hrw => ?_⟩
      rcases List.mem_cons.1 hw with hw | hw
      · rw [hw, hr] at hrw; exact Bool.noConfusion hrw
      · exact h2 w hw hrw
    · rw [if_pos (by simpa using hr)]
      by_cases hvis : d1.component u = NOT_VISITED
      · obtain ⟨r1, d1', e1, hcu, hr1, hres1⟩ := ih u c d1 (hlt v u huv).1 hc
          (by simpa using hr) hvis hU
        have hcount := hres1.2.2.2.2
        rw [e1]
        simp only []
        rw [Nat.mod_eq_of_lt (by omega)]
        obtain ⟨r2, d2, e2, h1, h2⟩ := ihl hl' (res + r1) d1' (by omega) (by omega)
        refine ⟨r1 + r2, d2, by rw [e2, Nat.add_assoc],
          dfs_result_trans n graph v c hc d1 d1' d2 r1 r2
            (dfs_result_root n graph v u c d1 d1' r1 huv hcu hres1) h1, fun w hw hrw => ?_⟩
        rcases List.mem_cons.1 hw with hw | hw
        · rw [hw, h1.2.2.1 u (by rw [hcu]; exact hc), hcu]
          exact hc
        · exact h2 w hw (by rw [hres1.1]; exact hrw)
      · rw [dfs_visited graph fuel u c d1 hvis]
        simp only [Nat.add_zero]
        rw [Nat.mod_eq_of_lt (by omega)]
        obtain ⟨r, d2, e, h1, h2⟩ := ihl hl' res d1 hU hres
        refine ⟨r, d2, e, h1, fun w hw hrw => ?_⟩
        rcases List.mem_cons.1 hw with hw | hw
        · rw [hw, h1.2.2.1 u hvis]
          exact hvis
        · exact h2 w hw hrw

/-- A call of `dfs` on a vertex that is neither removed nor visited returns, with the
number of vertices it has visited. -/
theorem dfs_spec (n : Nat) (graph : Nat → List Nat) (hn : n < 2 ^ 64)
    (hlt : ∀ v u, u ∈ graph v → u < n ∧ v < n) (fuel : Nat) :
    ∀ v c data, v < n → c ≠ NOT_VISITED → data.removed v = false →
      data.component v = NOT_VISITED → unvisited n data ≤ fuel →
      ∃ r data', dfs graph fuel v c data = some (r, data') ∧ data'.component v = c ∧
        1 ≤ r ∧ dfs_result n graph v c data r data' := by
  induction fuel with
  | zero =>
    intro v c data hv hc _ hvis hU
    have := unvisited_mark n data v c hv hc hvis
    omega
  | succ fuel ih =>
    intro v c data hv hc hrem hvis hU
    have hmark := unvisited_mark n data v c hv hc hvis
    have hle := unvisited_le n data
    rw [dfs, if_neg (by simpa using hvis)]
    obtain ⟨r, d2, e, ⟨a1, a2, a3, a4, a5⟩, h2⟩ := dfs_fold n graph fuel hlt ih c hc
      (fun acc u =>
        match acc with
        | none => none
        | some (res, data) =>
          if ¬ data.removed u then
            match dfs graph fuel u c data with
            | none => none
            | some (r, data) => some ((res + r) % 2 ^ 64, data)
          else some (res, data))
      (fun _ _ _ => rfl) v (graph v) (fun u hu => hu) 1
      { data with component := Function.update data.component v c } (by omega) (by omega)
    refine ⟨1 + r, d2, e, ?_, by omega, a1, a2, fun x hx => ?_, fun x hx hx' => ?_, by omega⟩
    · rw [a3 v (by simp only [Function.update_same]; exact hc)]
      simp only [Function.update_same]
    · have hxv : x ≠ v := by rintro rfl; exact hx hvis
      rw [a3 x (by simp only [Function.update_noteq hxv]; exact hx)]
      simp only [Function.update_noteq hxv]
    · by_cases hxv : x = v
      · subst hxv
        refine ⟨?_, hv, hrem, fun y hy hry => h2 y hy hry, Relation.ReflTransGen.refl⟩
        rw [a3 x (by simp only [Function.update_same]; exact hc)]
        simp only [Function.update_same]
      · exact a4 x (by simp only [Function.update_noteq hxv]; exact hx) hx'

/-! ## The choice of the component -/

/-- One round of the loop of `get_component` keeps the invariant. -/
theorem get_component_step (n : Nat) (graph : Nat → List Nat) (hn : n < 2 ^ 64)
    (hlt : ∀ v u, u ∈ graph v → u < n ∧ v < n) (hsym : ∀ x y, y ∈ graph x → x ∈ graph y)
    (removed : Nat → Bool) (i : Nat) (hi : i < n) (bs b : Nat) (data : data_t)
    (h : component_inv n graph removed i (bs, b, data)) :
    ∃ st, (if ¬ data.removed i ∧ data.component i = NOT_VISITED then
        match dfs graph n i i data with
        | none => none
        | some (current, data) =>
          if current > bs then some (current, i, data) else some (bs, b, data)
      else some (bs, b, data)) = some st ∧ component_inv n graph removed (i + 1) st := by
  obtain ⟨c1, c2, c3, c4⟩ := h
  simp only at c1 c2 c3 c4
  have hNV : ∀ x, x < n → x ≠ NOT_VISITED := by
    intro x hx
    unfold NOT_VISITED
    omega
  by_cases hcond : ¬ data.removed i ∧ data.component i = NOT_VISITED
  · rw [if_pos hcond]
    have hrem : data.removed i = false := by simpa using hcond.1
    obtain ⟨r, data', e, hci, hr1, a1, a2, a3, a4, a5⟩ := dfs_spec n graph hn hlt n i i data hi
      (hNV i hi) hrem hcond.2 (unvisited_le n data)
    rw [e]
    simp only []
    have k1 : data'.removed = removed := a1.trans c1
    have k2 : ∀ w, data'.component w ≠ NOT_VISITED →
        w < n ∧ removed w = false ∧ data'.component w < i + 1 ∧
        data'.component (data'.component w) = data'.component w ∧
        (∀ y ∈ graph w, removed y = false → data'.component y = data'.component w) ∧
        Relation.ReflTransGen (fun a b => b ∈ graph a ∧ data'.component b = data'.component w)
          (data'.component w) w := by
      intro w hw
      by_cases hold : data.component w = NOT_VISITED
      · obtain ⟨b1, b2, b3, b4, b5⟩ := a4 w hold hw
        rw [c1] at b3 b4
        rw [b1]
        refine ⟨b2, b3, by omega, hci, fun y hy hry => ?_, b5⟩
        have hy' := b4 y hy hry
        by_cases holdy : data.component y = NOT_VISITED
        · exact (a4 y holdy hy').1
        · have := (c2 y holdy).2.2.2.2.1 w (hsym w y hy) b3
          rw [hold] at this
          exact absurd this.symm holdy
      · obtain ⟨b1, b2, b3, b4, b5, b6⟩ := c2 w hold
        rw [a3 w hold]
        refine ⟨b1, b2, by omega, ?_, fun y hy hry => ?_, ?_⟩
        · rw [a3 _ (by rw [b4]; exact hold)]
          exact b4
        · have := b5 y hy hry
          rw [a3 y (by rw [this]; exact hold)]
          exact this
        · refine Relation.ReflTransGen.mono ?_ b6
          intro x y hxy
          refine ⟨hxy.1, ?_⟩
          rw [a3 y (by rw [hxy.2]; exact hold)]
          exact hxy.2
    have k3 : ∀ j, j < i + 1 → removed j = false → data'.component j ≠ NOT_VISITED := by
      intro j hj hrj
      by_cases hji : j = i
      · rw [hji, hci]
        exact hNV i hi
      · have := c3 j (by omega) hrj
        rw [a3 j this]
        exact this
    by_cases hbest : r > bs
    · rw [if_pos hbest]
      exact ⟨_, rfl, k1, k2, k3, Or.inr ⟨by simp, hr1, hci⟩⟩
    · rw [if_neg hbest]
      refine ⟨_, rfl, k1, k2, k3, Or.inr ?_⟩
      rcases c4 with c4 | c4
      · omega
      · refine ⟨by simp only []; omega, c4.2.1, ?_⟩
        simp only []
        rw [a3 b (by rw [c4.2.2]; exact hNV b (by omega))]
        exact c4.2.2
  · rw [if_neg hcond]
    refine ⟨_, rfl, c1, fun w hw => ?_, fun j hj hrj => ?_, ?_⟩
    · obtain ⟨b1, b2, b3, b4⟩ := c2 w hw
      exact ⟨b1, b2, by simp only []; omega, b4⟩
    · by_cases hji : j = i
      · intro hc
        apply hcond
        rw [← hji, c1, hrj]
        exact ⟨by simp, hc⟩
      · exact c3 j (by omega) hrj
    · rcases c4 with c4 | c4
      · exact Or.inl c4
      · exact Or.inr ⟨by simp only []; omega, c4.2⟩

/-- The loop of `get_component` runs through, and the invariant holds after it. -/
theorem get_component_loop (n : Nat) (graph : Nat → List Nat) (hn : n < 2 ^ 64)
    (hlt : ∀ v u, u ∈ graph v → u < n ∧ v < n) (hsym : ∀ x y, y ∈ graph x → x ∈ graph y)
    (data : data_t) (hcomp : data.component = fun _ => NOT_VISITED)
    (g : Option (Nat × Nat × data_t) → Nat → Option (Nat × Nat × data_t))
    (hg : ∀ bs b data i, g (some (bs, b, data)) i =
      if ¬ data.removed i ∧ data.component i = NOT_VISITED then
        match dfs graph n i i data with
        | none => none
        | some (current, data) =>
          if current > bs then some (current, i, data) else some (bs, b, data)
      else some (bs, b, data))
    (i : Nat) (hi : i ≤ n) :
    ∃ st, (List.range i).foldl g (some (0, NOT_VISITED, data)) = some st ∧
      component_inv n graph data.removed i st := by
  induction i with
  | zero =>
    refine ⟨_, rfl, rfl, fun w hw => ?_, fun j hj => by omega, Or.inl ⟨rfl, rfl, fun w => ?_⟩⟩
    · exact absurd (by simp only [hcomp]) hw
    · simp only [hcomp]
  | succ i ih =>
    obtain ⟨⟨bs, b, data'⟩, e, h⟩ := ih (by omega)
    rw [List.range_succ, List.foldl_append, e, List.foldl_cons, List.foldl_nil, hg]
    exact get_component_step n graph hn hlt hsym data.removed i (by omega) bs b data' h

/-! ## The answer -/

/-- What `operator()` returns: the vertices of one class of `component` that are
connected through the class, have at least `d` edge ends into the class, and the class
is empty only if every vertex is removed. -/
theorem solver_spec (n d : Nat) (edges : List (Nat × Nat)) (hn : n < 2 ^ 64)
    (hvalid : ∀ e ∈ edges, e.1 < n ∧ e.2 < n) (hm : 2 * edges.length < 2 ^ 64) :
    ∃ S, solver n d edges = some S ∧ connected_in (read_graph edges) S ∧
      (∀ v ∈ S, v < n ∧ d ≤ degree_in (read_graph edges) (fun u => u ∈ S) v) ∧
      (S = [] → ∀ (T : Nat → Prop) [DecidablePred T],
        core_set n d (read_graph edges) T → ∀ v, ¬ T v) := by
  obtain ⟨data, e1, r1, r2, r3, r4⟩ := eliminate_spec n d edges hvalid hm
  have hlt := read_graph_lt n edges hvalid
  have hsym : ∀ x y, y ∈ read_graph edges x → x ∈ read_graph edges y :=
    fun x y h => read_graph_symm edges h
  obtain ⟨⟨bs, b, data'⟩, e2, c1, c2, c3, c4⟩ := get_component_loop n (read_graph edges) hn hlt
    hsym data r4
    (fun acc i =>
      match acc with
      | none => none
      | some (best_size, best, data) =>
        if ¬ data.removed i ∧ data.component i = NOT_VISITED then
          match dfs (read_graph edges) n i i data with
          | none => none
          | some (current, data) =>
            if current > best_size then some (current, i, data)
            else some (best_size, best, data)
        else some (best_size, best, data))
    (fun _ _ _ _ => rfl) n (le_refl n)
  simp only at c1 c2 c3 c4
  have e3 : get_component n (read_graph edges) data = some (b, data') := by
    unfold get_component
    rw [e2]
    rfl
  have esolve : solver n d edges = some (retrieve_component n data' b) := by
    unfold solver
    simp only [e1, e3]
  refine ⟨_, esolve, ?_⟩
  rcases c4 with ⟨hb, -, hall⟩ | ⟨hb, -, hbb⟩
  · have hS : retrieve_component n data' b = [] := by
      unfold retrieve_component
      rw [if_pos hb]
    rw [hS]
    refine ⟨fun a ha => by simp at ha, fun v hv => by simp at hv, fun _ T _ hT v hTv => ?_⟩
    exact c3 v (hT v hTv).1 (r3 T hT v hTv) (hall v)
  · have hbNV : b ≠ NOT_VISITED := by
      unfold NOT_VISITED
      omega
    have hS : retrieve_component n data' b =
        (List.range n).filter (fun i => data'.component i = b) := by
      unfold retrieve_component
      rw [if_neg hbNV]
    have hmem : ∀ x, x ∈ retrieve_component n data' b ↔ data'.component x = b := by
      intro x
      rw [hS, List.mem_filter, List.mem_range]
      simp only [decide_eq_true_eq]
      constructor
      · exact fun h => h.2
      · intro h
        exact ⟨(c2 x (by rw [h]; exact hbNV)).1, h⟩
    have hbS : b ∈ retrieve_component n data' b := (hmem b).2 hbb
    refine ⟨?_, fun v hv => ?_, fun h => ?_⟩
    · have hto : ∀ a ∈ retrieve_component n data' b,
          Relation.ReflTransGen (fun x y => y ∈ read_graph edges x ∧
            x ∈ retrieve_component n data' b ∧ y ∈ retrieve_component n data' b) b a := by
        intro a ha
        have hca := (hmem a).1 ha
        have hp := (c2 a (by rw [hca]; exact hbNV)).2.2.2.2.2
        rw [hca] at hp
        have hgen : ∀ z, Relation.ReflTransGen
            (fun x y => y ∈ read_graph edges x ∧ data'.component y = b) b z →
            z ∈ retrieve_component n data' b ∧
            Relation.ReflTransGen (fun x y => y ∈ read_graph edges x ∧
              x ∈ retrieve_component n data' b ∧ y ∈ retrieve_component n data' b) b z := by
          intro z hz
          induction hz with
          | refl => exact ⟨hbS, Relation.ReflTransGen.refl⟩
          | tail _ hstep ih =>
            exact ⟨(hmem _).2 hstep.2,
              Relation.ReflTransGen.tail ih.2 ⟨hstep.1, ih.1, (hmem _).2 hstep.2⟩⟩
        exact (hgen a hp).2
      have hsymm : Symmetric (fun x y => y ∈ read_graph edges x ∧
          x ∈ retrieve_component n data' b ∧ y ∈ retrieve_component n data' b) :=
        fun x y hxy => ⟨hsym x y hxy.1, hxy.2.2, hxy.2.1⟩
      intro a ha c hc
      have h1 := Relation.ReflTransGen.symmetric hsymm (hto a ha)
      have h2 := hto c hc
      exact Relation.ReflTransGen.mono (fun x y hxy => ⟨hxy.1, hxy.2.2⟩) (h1.trans h2)
    · have hcv := (hmem v).1 hv
      obtain ⟨b1, b2, -, -, b5, -⟩ := c2 v (by rw [hcv]; exact hbNV)
      refine ⟨b1, ?_⟩
      have hle := r2 v b1 b2
      refine le_trans hle ?_
      unfold degree_in
      rw [← List.countP_eq_length_filter, ← List.countP_eq_length_filter]
      apply List.countP_mono_left
      intro y hy hry
      simp only [decide_eq_true_eq] at hry ⊢
      rw [hmem y, b5 y hy hry, hcv]
    · rw [h] at hbS
      simp at hbS

/-- C40: for every graph on the vertices `0 .. n - 1` given by edges with both ends
below `n` (sizes in the range of `size_t`) and every threshold `d`, `operator()`
returns a vertex set that is connected in the graph induced on it and in which every
vertex has at least `d` edge ends leading into the set; the set is empty exactly when
no non-empty vertex set has all induced degrees at least `d`. -/
theorem core_component (n d : Nat) (edges : List (Nat × Nat)) (hn : n < 2 ^ 64)
    (hvalid : ∀ e ∈ edges, e.1 < n ∧ e.2 < n) (hm : 2 * edges.length < 2 ^ 64) :
    ∃ S, solver n d edges = some S ∧ connected_in (read_graph edges) S ∧
      (∀ v ∈ S, v < n ∧ d ≤ degree_in (read_graph edges) (fun u => u ∈ S) v) ∧
      (S = [] ↔ ∀ T : Finset Nat,
        core_set n d (read_graph edges) (fun v => v ∈ T) → T = ∅) := by
  obtain ⟨S, e, h1, h2, h3⟩ := solver_spec n d edges hn hvalid hm
  refine ⟨S, e, h1, h2, fun hS T hT => ?_, fun hall => ?_⟩
  · exact Finset.eq_empty_of_forall_not_mem (h3 hS (fun v => v ∈ T) hT)
  · have hcore : core_set n d (read_graph edges) (fun v => v ∈ S.toFinset) := by
      intro v hv
      have hv' : v ∈ S := List.mem_toFinset.1 hv
      refine ⟨(h2 v hv').1, le_trans (h2 v hv').2 (le_of_eq ?_)⟩
      unfold degree_in
      congr 1
      apply List.filter_congr
      intro x _
      simp
    have := hall S.toFinset hcore
    exact (List.toFinset_eq_empty_iff S).1 this

theorem core_component_witness :
    solver 5 2 [(0, 1), (1, 2), (2, 0), (2, 3), (3, 4)] = some [0, 1, 2] ∧
      ∃ S, solver 5 2 [(0, 1), (1, 2), (2, 0), (2, 3), (3, 4)] = some S ∧
        connected_in (read_graph [(0, 1), (1, 2), (2, 0), (2, 3), (3, 4)]) S ∧
        (∀ v ∈ S, v < 5 ∧
          2 ≤ degree_in (read_graph [(0, 1), (1, 2), (2, 0), (2, 3), (3, 4)])
            (fun u => u ∈ S) v) ∧
        (S = [] ↔ ∀ T : Finset Nat,
          core_set 5 2 (read_graph [(0, 1), (1, 2), (2, 0), (2, 3), (3, 4)])
            (fun v => v ∈ T) → T = ∅) :=
  ⟨by decide, core_component 5 2 [(0, 1), (1, 2), (2, 0), (2, 3), (3, 4)] (by norm_num)
    (by decide) (by norm_num)⟩

end Mis

/-! ## Properties of `3/b/haz.cc` -/

namespace Haz

/-! ## The positions visited by `traverse_cycle` -/

theorem tmod_gt (x size : Int) (h : 0 < size) : -size < Int.tmod x size := by
  obtain ⟨m, rfl⟩ := Int.eq_ofNat_of_zero_le (le_of_lt h)
  cases x with
  | ofNat a =>
    have := Int.tmod_nonneg (↑m) (Int.ofNat_nonneg a)
    show -(m : Int) < Int.tmod (a : Int) m
    omega
  | negSucc a =>
    show -(m : Int) < -((a.succ % m : Nat) : Int)
    have : a.succ % m < m := Nat.mod_lt _ (by omega)
    omega

theorem norm_eq_emod (x size : Int) (h : 1 ≤ size) :
    Int.tmod (Int.tmod x size + size) size = x % size := by
  have h1 : Int.tmod x size = x - size * Int.tdiv x size := Int.tmod_def x size
  have h2 := Int.tmod_lt_of_pos x (show 0 < size by omega)
  have h3 := tmod_gt x size (by omega)
  rw [Int.tmod_eq_emod (by omega) (by omega), h1]
  have : x - size * Int.tdiv x size + size = x + size * (1 - Int.tdiv x size) := by ring
  rw [this, Int.add_mul_emod_self_left]

theorem orb_zero (step size s : Int) : orb step size s 0 = s % size := by
  unfold orb
  simp

theorem orb_succ (step size s : Int) (k : Nat) :
    (orb step size s k + step) % size = orb step size s (k + 1) := by
  unfold orb
  rw [Int.emod_add_emod]
  congr 1
  push_cast
  ring

theorem orb_range (step size s : Int) (k : Nat) (h : 1 ≤ size) :
    0 ≤ orb step size s k ∧ orb step size s k < size := by
  unfold orb
  exact ⟨Int.emod_nonneg _ (by omega), Int.emod_lt_of_pos _ (by omega)⟩

theorem orb_eq_iff (step size s : Int) (i j : Nat) :
    orb step size s i = orb step size s j ↔ size ∣ ((i : Int) - j) * step := by
  unfold orb
  rw [Int.emod_eq_emod_iff_emod_sub_eq_zero, ← Int.dvd_iff_emod_eq_zero]
  have : s + ↑i * step - (s + ↑j * step) = ((i : Int) - j) * step := by ring
  rw [this]

theorem orb_add (step size s : Int) (a b : Nat) :
    orb step size (orb step size s a) b = orb step size s (a + b) := by
  unfold orb
  rw [Int.emod_add_emod]
  congr 1
  push_cast
  ring

theorem orb_emod (step size s : Int) (k : Nat) :
    orb step size (s % size) k = orb step size s k := by
  unfold orb
  rw [Int.emod_add_emod]

/-- The loop of `traverse_cycle` applies `fun` to the positions `orb 0 .. orb (L - 1)`
in order, `L` being the least positive number of steps that leads back. -/
theorem traverse_loop_spec {σ : Type} (step size s : Int) (hsize : 1 ≤ size) (f : Int → σ → σ)
    (L : Nat) (hL : size ∣ (L : Int) * step)
    (hmin : ∀ k : Nat, 0 < k → k < L → ¬ size ∣ (k : Int) * step) :
    ∀ (d i fuel : Nat) (st : σ), i + d + 1 = L → d + 1 ≤ fuel →
      traverse_loop (s % size) step size f fuel (orb step size s i) st =
        some ((List.range' i (d + 1)).foldl (fun st k => f (orb step size s k) st) st) := by
  intro d
  induction d with
  | zero =>
    intro i fuel st hi hfuel
    obtain ⟨fuel, rfl⟩ : ∃ f', fuel = f' + 1 := ⟨fuel - 1, by omega⟩
    rw [traverse_loop]
    rw [norm_eq_emod _ _ hsize, orb_succ, ← orb_zero step size s]
    have : orb step size s (i + 1) = orb step size s 0 := by
      rw [orb_eq_iff]
      have : ((i + 1 : Nat) : Int) - (0 : Nat) = (L : Int) := by
        push_cast
        omega
      rw [this]
      exact hL
    rw [if_neg (by simpa using this)]
    simp [List.range']
  | succ d ih =>
    intro i fuel st hi hfuel
    obtain ⟨fuel, rfl⟩ : ∃ f', fuel = f' + 1 := ⟨fuel - 1, by omega⟩
    rw [traverse_loop]
    rw [norm_eq_emod _ _ hsize, orb_succ, ← orb_zero step size s]
    have : orb step size s (i + 1) ≠ orb step size s 0 := by
      rw [Ne, orb_eq_iff]
      have : ((i + 1 : Nat) : Int) - (0 : Nat) = ((i + 1 : Nat) : Int) := by
        push_cast
        omega
      rw [this]
      exact hmin (i + 1) (by omega) (by omega)
    rw [if_pos this, orb_zero, ih (i + 1) fuel _ (by omega) (by omega)]
    rfl

/-- A least positive number of steps that leads back exists and is at most `size`. -/
theorem period_exists (step size : Int) (hsize : 1 ≤ size) :
    ∃ L : Nat, 1 ≤ L ∧ (L : Int) ≤ size ∧ size ∣ (L : Int) * step ∧
      ∀ k : Nat, 0 < k → k < L → ¬ size ∣ (k : Int) * step := by
  classical
  have hmem : 0 < size.toNat ∧ size ∣ (size.toNat : Int) * step := by
    refine ⟨by omega, ?_⟩
    rw [Int.toNat_of_nonneg (by omega)]
    exact Dvd.intro _ rfl
  have hex : ∃ k : Nat, 0 < k ∧ size ∣ (k : Int) * step := ⟨size.toNat, hmem⟩
  refine ⟨Nat.find hex, (Nat.find_spec hex).1, ?_, (Nat.find_spec hex).2, fun k hk hlt hd => ?_⟩
  · have := Nat.find_min' hex hmem
    omega
  · exact Nat.find_min hex hlt ⟨hk, hd⟩

/-- What `traverse_cycle` does. -/
theorem traverse_cycle_spec {σ : Type} (start step size : Int) (hsize : 1 ≤ size)
    (f : Int → σ → σ) (L : Nat) (hL1 : 1 ≤ L) (hLs : (L : Int) ≤ size)
    (hL : size ∣ (L : Int) * step)
    (hmin : ∀ k : Nat, 0 < k → k < L → ¬ size ∣ (k : Int) * step) (st : σ) :
    traverse_cycle start step size f st =
      some ((List.range L).foldl (fun st k => f (orb step size start k) st) st) := by
  unfold traverse_cycle
  simp only []
  rw [norm_eq_emod _ _ hsize]
  have := traverse_loop_spec step size start hsize f L hL hmin (L - 1) 0 size.toNat st
    (by omega) (by omega)
  rw [orb_zero] at this
  rw [this, List.range_eq_range']
  congr 3
  omega

/-! ## The money of a player along the string -/

theorem char_to_diff_cases (x : Char) : char_to_diff x = 1 ∨ char_to_diff x = -1 := by
  unfold char_to_diff
  by_cases h : x = 'W'
  · left; rw [if_pos h]
  · right; rw [if_neg h]

theorem walk_step (n : Int) (string : List Char) (j : Int) (k : Nat) :
    walk n string j (k + 1) = walk n string j k + 1 ∨
      walk n string j (k + 1) = walk n string j k - 1 := by
  rw [walk]
  rcases char_to_diff_cases (string_at string (orb n string.length j k)) with h | h
  · left; rw [h]
  · right; rw [h]; ring

theorem walk_emod (n : Int) (string : List Char) (j : Int) (k : Nat) :
    walk n string (j % string.length) k = walk n string j k := by
  induction k with
  | zero => rfl
  | succ k ih => rw [walk, walk, ih, orb_emod]

theorem walk_add (n : Int) (string : List Char) (j : Int) (a b : Nat) :
    walk n string j (a + b) =
      walk n string j a + walk n string (orb n string.length j a) b := by
  induction b with
  | zero => simp [walk]
  | succ b ih =>
    rw [← Nat.add_assoc, walk, walk, ih, orb_add]
    ring

theorem walk_abs_le (n : Int) (string : List Char) (j : Int) (k : Nat) :
    -(k : Int) ≤ walk n string j k ∧ walk n string j k ≤ k := by
  induction k with
  | zero => simp [walk]
  | succ k ih =>
    rcases walk_step n string j k with h | h
    · rw [h]; push_cast; omega
    · rw [h]; push_cast; omega

theorem orb_period (step size s : Int) (L : Nat) (hL : size ∣ (L : Int) * step) :
    orb step size s L = s % size := by
  rw [← orb_zero step size s, orb_eq_iff]
  simpa using hL

theorem walk_period (n : Int) (string : List Char) (j : Int) (L : Nat)
    (hL : (string.length : Int) ∣ (L : Int) * n) (k : Nat) :
    walk n string j (L + k) = walk n string j L + walk n string j k := by
  rw [walk_add, orb_period n string.length j L hL, walk_emod]

/-- The sum over a whole cycle is the same from every position of the cycle. -/
theorem walk_cycle_sum (n : Int) (string : List Char) (j : Int) (L : Nat)
    (hL : (string.length : Int) ∣ (L : Int) * n) (p : Nat) :
    walk n string (orb n string.length j p) L = walk n string j L := by
  have h1 := walk_add n string j p L
  have h2 := walk_period n string j L hL p
  rw [Nat.add_comm] at h2
  omega

theorem walk_cycles (n : Int) (string : List Char) (j : Int) (L : Nat)
    (hL : (string.length : Int) ∣ (L : Int) * n) (a r : Nat) :
    walk n string j (a * L + r) = a * walk n string j L + walk n string j r := by
  induction a with
  | zero => simp
  | succ a ih =>
    have : (a + 1) * L + r = L + (a * L + r) := by ring
    rw [this, walk_period n string j L hL, ih]
    push_cast
    ring

/-- The money goes down by single steps: if it is not positive after `k` plays, it was
zero after some play. -/
theorem walk_hits (n : Int) (string : List Char) (j : Int) (money : Int) (hm : 1 ≤ money)
    (k : Nat) (h : money + walk n string j k ≤ 0) :
    ∃ k', 1 ≤ k' ∧ k' ≤ k ∧ money + walk n string j k' = 0 := by
  induction k with
  | zero =>
    simp only [walk] at h
    omega
  | succ k ih =>
    by_cases hk : money + walk n string j k ≤ 0
    · obtain ⟨k', h1, h2, h3⟩ := ih hk
      exact ⟨k', h1, by omega, h3⟩
    · refine ⟨k + 1, by omega, le_refl _, ?_⟩
      rcases walk_step n string j k with h' | h' <;> omega

/-- The first play after which the money is zero, if there is any. -/
theorem first_hit_exists (n : Int) (string : List Char) (j : Int) (money : Int) (k : Nat)
    (hk : 1 ≤ k) (h : money + walk n string j k = 0) :
    ∃ k', 1 ≤ k' ∧ k' ≤ k ∧ money + walk n string j k' = 0 ∧
      ∀ i, 1 ≤ i → i < k' → money + walk n string j i ≠ 0 := by
  classical
  have hex : ∃ k', 1 ≤ k' ∧ money + walk n string j k' = 0 := ⟨k, hk, h⟩
  refine ⟨Nat.find hex, (Nat.find_spec hex).1, Nat.find_min' hex ⟨hk, h⟩, (Nat.find_spec hex).2,
    fun i hi hlt hc => Nat.find_min hex hlt ⟨hi, hc⟩⟩

/-! ## The passes of the constructor around a cycle -/

theorem orb_inj (step size s : Int) (L : Nat)
    (hmin : ∀ k : Nat, 0 < k → k < L → ¬ size ∣ (k : Int) * step) (i j : Nat) (hi : i < L)
    (hj : j < L) (h : orb step size s i = orb step size s j) : i = j := by
  rw [orb_eq_iff] at h
  by_contra hne
  rcases Nat.lt_or_gt_of_ne hne with hlt | hlt
  · have := hmin (j - i) (by omega) (by omega)
    apply this
    have e : ((j - i : Nat) : Int) * step = -(((i : Int) - j) * step) := by
      rw [Nat.cast_sub (le_of_lt hlt)]
      ring
    rw [e]
    exact (Int.dvd_neg).2 h
  · have := hmin (i - j) (by omega) (by omega)
    apply this
    rw [Nat.cast_sub (le_of_lt hlt)]
    exact h

theorem orb_shift (step size s : Int) (c k : Nat) (hc : size ∣ (c : Int) * step) :
    orb step size s (c + k) = orb step size s k := by
  rw [orb_eq_iff]
  have : ((c + k : Nat) : Int) - k = c := by
    push_cast
    ring
  rw [this]
  exact hc

theorem mem_emplace (x y : Int × Int) (l : List (Int × Int)) :
    x ∈ emplace y l ↔ x = y ∨ x ∈ l := by
  unfold emplace
  by_cases h : y ∈ l
  · rw [if_pos h]
    constructor
    · exact fun hx => Or.inr hx
    · rintro (rfl | hx)
      · exact h
      · exact hx
  · rw [if_neg h]
    exact List.mem_cons

theorem is_min_walk_single (n : Int) (string : List Char) (j : Int) (a : Nat) :
    is_min_walk n string j a a (walk n string j a) :=
  ⟨fun t h1 h2 => by rw [show t = a by omega], a, le_refl _, le_refl _, rfl⟩

theorem is_min_walk_right (n : Int) (string : List Char) (j : Int) (a b : Nat) (v : Int)
    (h : is_min_walk n string j a b v) :
    is_min_walk n string j a (b + 1) (min v (walk n string j (b + 1))) := by
  obtain ⟨h1, t, h2, h3, h4⟩ := h
  constructor
  · intro u hu1 hu2
    by_cases hu : u = b + 1
    · rw [hu]
      exact min_le_right _ _
    · exact le_trans (min_le_left _ _) (h1 u hu1 (by omega))
  · by_cases hlt : v ≤ walk n string j (b + 1)
    · exact ⟨t, h2, by omega, by rw [min_eq_left hlt]; exact h4⟩
    · exact ⟨b + 1, by omega, le_refl _, by rw [min_eq_right (by omega)]⟩

theorem is_min_walk_left (n : Int) (string : List Char) (j : Int) (a b : Nat) (v : Int)
    (h : is_min_walk n string j (a + 1) b v) :
    is_min_walk n string j a b (min v (walk n string j a)) := by
  obtain ⟨h1, t, h2, h3, h4⟩ := h
  constructor
  · intro u hu1 hu2
    by_cases hu : u = a
    · rw [hu]
      exact min_le_right _ _
    · exact le_trans (min_le_left _ _) (h1 u (by omega) hu2)
  · by_cases hlt : v ≤ walk n string j a
    · exact ⟨t, by omega, h3, by rw [min_eq_left hlt]; exact h4⟩
    · exact ⟨a, le_refl _, by omega, by rw [min_eq_right (by omega)]⟩

/-- The second pass, and the part of the first pass that fills `positions`: after `k`
more nodes, `counter` has grown by `k`, `base` is the sum up to there and `positions`
holds one pair more for each node. -/
theorem next_pass_fold (n : Int) (string : List Char) (s : Int) (c0 : Nat)
    (hc0 : (string.length : Int) ∣ (c0 : Int) * n) (positions : List (Int × Int))
    (hpos : positions_inv n string s c0 positions) (k : Nat) :
    ∃ positions', (List.range k).foldl
        (fun st i => next_pass string (orb n string.length s i) st)
        (positions, walk n string s c0, (c0 : Int)) =
        (positions', walk n string s (c0 + k), ((c0 + k : Nat) : Int)) ∧
      positions_inv n string s (c0 + k) positions' := by
  induction k with
  | zero => exact ⟨positions, rfl, hpos⟩
  | succ k ih =>
    obtain ⟨pos', e, hpos'⟩ := ih
    rw [List.range_succ, List.foldl_append, e]
    refine ⟨emplace (walk n string s (c0 + k + 1), ((c0 + k : Nat) : Int)) pos', ?_, ?_⟩
    · simp only [List.foldl_cons, List.foldl_nil, next_pass]
      rw [← orb_shift n string.length s c0 k hc0]
      have : walk n string s (c0 + k) +
          char_to_diff (string_at string (orb n string.length s (c0 + k))) =
          walk n string s (c0 + k + 1) := by rw [walk]
      rw [this]
      push_cast
      rfl
    · intro x
      rw [mem_emplace, hpos' x]
      constructor
      · rintro (rfl | ⟨i, hi, rfl⟩)
        · exact ⟨c0 + k, by omega, rfl⟩
        · exact ⟨i, by omega, rfl⟩
      · rintro ⟨i, hi, rfl⟩
        by_cases hik : i = c0 + k
        · left
          rw [hik]
        · right
          exact ⟨i, by omega, rfl⟩

theorem next_passes_spec (n : Int) (string : List Char) (hsize : 1 ≤ (string.length : Int))
    (s : Int) (L : Nat) (hL1 : 1 ≤ L) (hLs : (L : Int) ≤ string.length)
    (hL : (string.length : Int) ∣ (L : Int) * n)
    (hmin : ∀ k : Nat, 0 < k → k < L → ¬ (string.length : Int) ∣ (k : Int) * n) (t : Nat) :
    ∀ (c0 : Nat) (positions : List (Int × Int)),
      (string.length : Int) ∣ (c0 : Int) * n → positions_inv n string s c0 positions →
      ∃ positions', next_passes n string s t (positions, walk n string s c0, (c0 : Int)) =
          some (positions', walk n string s (c0 + t * L), ((c0 + t * L : Nat) : Int)) ∧
        positions_inv n string s (c0 + t * L) positions' := by
  induction t with
  | zero =>
    intro c0 positions _ hpos
    exact ⟨positions, by simp [next_passes], by simpa using hpos⟩
  | succ t ih =>
    intro c0 positions hc0 hpos
    obtain ⟨pos1, e1, hpos1⟩ := next_pass_fold n string s c0 hc0 positions hpos L
    have hc1 : (string.length : Int) ∣ ((c0 + L : Nat) : Int) * n := by
      push_cast
      rw [add_mul]
      exact dvd_add hc0 hL
    obtain ⟨pos2, e2, hpos2⟩ := ih (c0 + L) pos1 hc1 hpos1
    have hidx : c0 + L + t * L = c0 + (t + 1) * L := by ring
    refine ⟨pos2, ?_, by rw [← hidx]; exact hpos2⟩
    rw [next_passes, traverse_cycle_spec s n string.length hsize _ L hL1 hLs hL hmin, e1]
    simp only []
    rw [e2, hidx]

/-- The first pass around a cycle. -/
theorem first_pass_fold (n : Int) (string : List Char) (s : Int) (L : Nat) (c : Int)
    (hmin : ∀ k : Nat, 0 < k → k < L → ¬ (string.length : Int) ∣ (k : Int) * n)
    (nodes0 : Int → node_t) (k : Nat) (hk : k ≤ L) :
    ∃ nodes positions minbase, (List.range k).foldl
        (fun st i => first_pass string c (orb n string.length s i) st)
        (nodes0, [], 0, 0, 0) = (nodes, positions, walk n string s k, minbase, (k : Int)) ∧
      positions_inv n string s k positions ∧ is_min_walk n string s 0 k minbase ∧
      (∀ i, i < k → (nodes (orb n string.length s i)).cycle_id = c ∧
        (nodes (orb n string.length s i)).cycle_pos = i ∧
        (nodes (orb n string.length s i)).partial_sum = walk n string s (i + 1) ∧
        (nodes (orb n string.length s i)).value =
          walk n string s (i + 1) - walk n string s i ∧
        is_min_walk n string s 0 i (nodes (orb n string.length s i)).min_left) ∧
      ∀ x, (∀ i, i < k → x ≠ orb n string.length s i) → nodes x = nodes0 x := by
  induction k with
  | zero =>
    refine ⟨nodes0, [], 0, rfl, ?_, is_min_walk_single n string s 0, fun i hi => by omega,
      fun x _ => rfl⟩
    intro x
    simp
  | succ k ih =>
    obtain ⟨nodes, positions, minbase, e, hpos, hmb, hnodes, hother⟩ := ih (by omega)
    rw [List.range_succ, List.foldl_append, e]
    simp only [List.foldl_cons, List.foldl_nil, first_pass]
    have hw : walk n string s k + char_to_diff (string_at string (orb n string.length s k)) =
        walk n string s (k + 1) := by rw [walk]
    rw [hw]
    refine ⟨_, _, _, by push_cast; rfl, ?_, is_min_walk_right n string s 0 k minbase hmb,
      fun i hi => ?_, fun x hx => ?_⟩
    · intro x
      rw [mem_emplace, hpos x]
      constructor
      · rintro (rfl | ⟨i, hi, rfl⟩)
        · exact ⟨k, by omega, rfl⟩
        · exact ⟨i, by omega, rfl⟩
      · rintro ⟨i, hi, rfl⟩
        by_cases hik : i = k
        · left
          rw [hik]
        · right
          exact ⟨i, by omega, rfl⟩
    · by_cases hik : i = k
      · rw [hik, Function.update_same]
        exact ⟨rfl, rfl, rfl, by simp only []; omega, hmb⟩
      · have hne : orb n string.length s i ≠ orb n string.length s k := fun h =>
          hik (orb_inj n string.length s L hmin i k (by omega) (by omega) h)
        rw [Function.update_noteq hne]
        exact hnodes i (by omega)
    · rw [Function.update_noteq (hx k (by omega))]
      exact hother x (fun i hi => hx i (by omega))

theorem orb_back (n size s : Int) (L : Nat) (hL : size ∣ (L : Int) * n) (k : Nat) (hk : k < L) :
    orb (-n) size (s - n) k = orb n size s (L - 1 - k) := by
  unfold orb
  rw [Int.emod_eq_emod_iff_emod_sub_eq_zero, ← Int.dvd_iff_emod_eq_zero]
  have : s - n + ↑k * -n - (s + ((L - 1 - k : Nat) : Int) * n) = -((L : Int) * n) := by
    rw [Nat.cast_sub (by omega), Nat.cast_sub (by omega)]
    push_cast
    ring
  rw [this]
  exact (Int.dvd_neg).2 hL

/-- The pass backwards around a cycle. -/
theorem back_pass_fold (n : Int) (string : List Char) (hlen : (string.length : Int) < 2 ^ 63)
    (s : Int) (L : Nat) (hLs : (L : Int) ≤ string.length)
    (hL : (string.length : Int) ∣ (L : Int) * n)
    (hmin : ∀ k : Nat, 0 < k → k < L → ¬ (string.length : Int) ∣ (k : Int) * n)
    (nodes1 : Int → node_t)
    (hps : ∀ i, i < L → (nodes1 (orb n string.length s i)).partial_sum =
      walk n string s (i + 1))
    (k : Nat) (hk : k ≤ L) :
    ∃ nodes minbase, (List.range k).foldl
        (fun st i => back_pass (orb (-n) string.length (s - n) i) st)
        (nodes1, INT64_MAX) = (nodes, minbase) ∧
      (k = 0 → minbase = INT64_MAX) ∧
      (1 ≤ k → is_min_walk n string s (L - k + 1) L minbase) ∧
      (∀ i, L - k ≤ i → i < L →
        (nodes (orb n string.length s i)).cycle_id =
          (nodes1 (orb n string.length s i)).cycle_id ∧
        (nodes (orb n string.length s i)).cycle_pos =
          (nodes1 (orb n string.length s i)).cycle_pos ∧
        (nodes (orb n string.length s i)).partial_sum =
          (nodes1 (orb n string.length s i)).partial_sum ∧
        (nodes (orb n string.length s i)).value = (nodes1 (orb n string.length s i)).value ∧
        (nodes (orb n string.length s i)).min_left =
          (nodes1 (orb n string.length s i)).min_left ∧
        is_min_walk n string s (i + 1) L (nodes (orb n string.length s i)).min_right) ∧
      ∀ x, (∀ i, L - k ≤ i → i < L → x ≠ orb n string.length s i) → nodes x = nodes1 x := by
  induction k with
  | zero =>
    exact ⟨nodes1, INT64_MAX, rfl, fun _ => rfl, fun h => by omega, fun i h1 h2 => by omega,
      fun x _ => rfl⟩
  | succ k ih =>
    obtain ⟨nodes, minbase, e, h0, h1, hnodes, hother⟩ := ih (by omega)
    rw [List.range_succ, List.foldl_append, e]
    simp only [List.foldl_cons, List.foldl_nil, back_pass]
    rw [orb_back n string.length s L hL k (by omega)]
    have hcur : nodes (orb n string.length s (L - 1 - k)) =
        nodes1 (orb n string.length s (L - 1 - k)) := by
      apply hother
      intro i hi1 hi2 hc
      have := orb_inj n string.length s L hmin (L - 1 - k) i (by omega) hi2 hc
      omega
    have hpsk : (nodes (orb n string.length s (L - 1 - k))).partial_sum =
        walk n string s (L - k) := by
      rw [hcur, hps (L - 1 - k) (by omega)]
      congr 1
      omega
    rw [hpsk]
    have hmb : is_min_walk n string s (L - k) L (min minbase (walk n string s (L - k))) := by
      by_cases hk0 : k = 0
      · rw [h0 hk0, hk0]
        have hb := walk_abs_le n string s L
        simp only [Nat.sub_zero]
        rw [min_eq_right (by unfold INT64_MAX; omega)]
        exact is_min_walk_single n string s L
      · have := h1 (by omega)
        have e2 : L - k + 1 = (L - k) + 1 := rfl
        exact is_min_walk_left n string s (L - k) L minbase (by rw [← e2]; exact this)
    refine ⟨_, _, rfl, fun h => by omega, fun _ => ?_, fun i hi1 hi2 => ?_, fun x hx => ?_⟩
    · have : L - (k + 1) + 1 = L - k := by omega
      rw [this]
      exact hmb
    · by_cases hik : i = L - 1 - k
      · rw [hik, Function.update_same]
        simp only []
        refine ⟨by rw [hcur], by rw [hcur], hpsk.symm.trans (by rw [hcur]), by rw [hcur],
          by rw [hcur], ?_⟩
        have : L - 1 - k + 1 = L - k := by omega
        rw [this]
        exact hmb
      · have hne : orb n string.length s i ≠ orb n string.length s (L - 1 - k) := fun h =>
          hik (orb_inj n string.length s L hmin i (L - 1 - k) hi2 (by omega) h)
        rw [Function.update_noteq hne]
        exact hnodes i (by omega) hi2
    · rw [Function.update_noteq (hx (L - 1 - k) (by omega) (by omega))]
      exact hother x (fun i hi1 hi2 => hx i (by omega) hi2)

/-- What the constructor does for a node that has no cycle yet. -/
theorem build_cycle_spec (n : Int) (string : List Char) (hsize : 1 ≤ (string.length : Int))
    (hlen : (string.length : Int) < 2 ^ 63) (s : Int) (c : Int) (nodes0 : Int → node_t)
    (L : Nat) (hL1 : 1 ≤ L) (hLs : (L : Int) ≤ string.length)
    (hL : (string.length : Int) ∣ (L : Int) * n)
    (hmin : ∀ k : Nat, 0 < k → k < L → ¬ (string.length : Int) ∣ (k : Int) * n) :
    ∃ cycle nodes, build_cycle n string s c nodes0 = some (cycle, nodes) ∧
      cycle_fields n string s L cycle ∧
      (∀ i, i < L → node_fields n string s L c i (nodes (orb n string.length s i))) ∧
      ∀ x, (∀ i, i < L → x ≠ orb n string.length s i) → nodes x = nodes0 x := by
  obtain ⟨nodes1, pos1, mb1, e1, hpos1, -, hn1, ho1⟩ :=
    first_pass_fold n string s L c hmin nodes0 L (le_refl L)
  obtain ⟨pos2, e2, hpos2⟩ := next_passes_spec n string hsize s L hL1 hLs hL hmin 5 L pos1 hL
    hpos1
  have hL' : (string.length : Int) ∣ (L : Int) * -n := by
    rw [mul_neg]
    exact (Int.dvd_neg).2 hL
  have hmin' : ∀ k : Nat, 0 < k → k < L → ¬ (string.length : Int) ∣ (k : Int) * -n := by
    intro k h1 h2 hd
    rw [mul_neg] at hd
    exact hmin k h1 h2 ((Int.dvd_neg).1 hd)
  obtain ⟨nodes3, mb3, e3, -, -, hn3, ho3⟩ := back_pass_fold n string hlen s L hLs hL hmin nodes1
    (fun i hi => (hn1 i hi).2.2.1) L (le_refl L)
  have h6 : L + 5 * L = 6 * L := by ring
  refine ⟨⟨pos2, walk n string s L, L⟩, nodes3, ?_, ⟨rfl, rfl, by rw [← h6]; exact hpos2⟩,
    fun i hi => ?_, fun x hx => ?_⟩
  · unfold build_cycle
    rw [traverse_cycle_spec s n string.length hsize _ L hL1 hLs hL hmin, e1]
    simp only []
    rw [e2]
    simp only []
    rw [traverse_cycle_spec (s - n) (-n) string.length hsize _ L hL1 hLs hL' hmin', e3]
  · obtain ⟨a1, a2, a3, a4, a5, a6⟩ := hn3 i (by omega) hi
    obtain ⟨b1, b2, b3, b4, b5⟩ := hn1 i hi
    exact ⟨a1.trans b1, a2.trans b2, a3.trans b3, a4.trans b4, by rw [a5]; exact b5, a6⟩
  · rw [ho3 x (fun i _ hi => hx i hi), ho1 x hx]

/-! ## The constructor of `cycles_t` -/

theorem node_ok_congr (n : Int) (string : List Char) (self self' : cycles_t) (x : Int)
    (h1 : self'.nodes x = self.nodes x)
    (h2 : self'.cycles (self.nodes x).cycle_id = self.cycles (self.nodes x).cycle_id)
    (h : node_ok n string self x) : node_ok n string self' x := by
  obtain ⟨s, p, L, a1, a2, a3, a4, a5, a6, a7⟩ := h
  refine ⟨s, p, L, a1, a2, a3, a4, a5, ?_, ?_⟩
  · rw [h1]
    exact a6
  · rw [h1, h2]
    exact a7

/-- One round of the `for` loop of the constructor keeps the invariant. -/
theorem mk_loop_step (n : Int) (string : List Char) (hsize : 1 ≤ (string.length : Int))
    (hlen : (string.length : Int) < 2 ^ 63) (idx : Nat) (hidx : (idx : Int) < string.length)
    (c : Int) (self : cycles_t) (hinv : mk_inv n string idx (c, self))
    (hun : (self.nodes idx).cycle_id = NO_CYCLE) :
    ∃ cycle nodes, build_cycle n string idx c self.nodes = some (cycle, nodes) ∧
      mk_inv n string (idx + 1) (c + 1, ⟨Function.update self.cycles c cycle, nodes⟩) := by
  obtain ⟨L, hL1, hLs, hL, hmin⟩ := period_exists n string.length hsize
  obtain ⟨cycle, nodes, e, hcyc, hnodes, hother⟩ := build_cycle_spec n string hsize hlen idx c
    self.nodes L hL1 hLs hL hmin
  obtain ⟨i1, i2, i3⟩ := hinv
  simp only at i1 i2 i3
  have horb0 : orb n string.length idx 0 = idx := by
    rw [orb_zero]
    exact Int.emod_eq_of_lt (by omega) hidx
  have hcNC : c ≠ NO_CYCLE := by
    unfold NO_CYCLE
    omega
  have hfresh : ∀ i, i < L → (self.nodes (orb n string.length idx i)).cycle_id = NO_CYCLE := by
    intro i hi
    by_contra hc
    have hfw : ∀ j, (self.nodes (orb n string.length idx (i + j))).cycle_id ≠ NO_CYCLE := by
      intro j
      induction j with
      | zero => exact hc
      | succ j ih =>
        have hr := orb_range n string.length idx (i + j) hsize
        have := (i2 _ hr.1 hr.2 ih).2.2.2
        rw [orb_succ] at this
        exact this
    have := hfw (L - i)
    rw [show i + (L - i) = L by omega, orb_period n string.length idx L hL,
      Int.emod_eq_of_lt (by omega) hidx] at this
    exact this hun
  have hon : ∀ i, i < L → (nodes (orb n string.length idx i)).cycle_id ≠ NO_CYCLE := by
    intro i hi
    rw [(hnodes i hi).1]
    exact hcNC
  refine ⟨cycle, nodes, e, by simp only []; omega, fun x hx0 hx1 hx => ?_, fun x hx => ?_⟩
  · simp only [] at hx ⊢
    by_cases horb : ∃ i, i < L ∧ x = orb n string.length idx i
    · obtain ⟨i, hi, rfl⟩ := horb
      have hf := hnodes i hi
      refine ⟨⟨idx, i, L, hL1, hLs, hi, hL, rfl, ?_, ?_⟩, by rw [hf.1]; exact i1,
        by rw [hf.1]; omega, ?_⟩
      · simp only []
        rw [hf.1]
        exact hf
      · simp only []
        rw [hf.1, Function.update_same]
        exact hcyc
      · rw [orb_succ]
        by_cases hiL : i + 1 < L
        · exact hon (i + 1) hiL
        · rw [show i + 1 = L by omega, orb_period n string.length idx L hL, ← orb_zero n]
          exact hon 0 (by omega)
    · have hx' : nodes x = self.nodes x := hother x (fun i hi hc => horb ⟨i, hi, hc⟩)
      rw [hx'] at hx ⊢
      obtain ⟨b1, b2, b3, b4⟩ := i2 x hx0 hx1 hx
      refine ⟨node_ok_congr n string self _ x hx' ?_ b1, b2, by omega, ?_⟩
      · simp only []
        rw [Function.update_noteq (by omega)]
      · by_cases horb' : ∃ i, i < L ∧ (x + n) % string.length = orb n string.length idx i
        · obtain ⟨i, hi, hi'⟩ := horb'
          rw [hi']
          exact hon i hi
        · rw [hother _ (fun i hi hc => horb' ⟨i, hi, hc⟩)]
          exact b4
  · simp only []
    by_cases horb : ∃ i, i < L ∧ (x : Int) = orb n string.length idx i
    · obtain ⟨i, hi, hi'⟩ := horb
      rw [hi']
      exact hon i hi
    · rw [hother _ (fun i hi hc => horb ⟨i, hi, hc⟩)]
      by_cases hxi : x = idx
      · exfalso
        apply horb
        exact ⟨0, by omega, by rw [horb0, hxi]⟩
      · exact i3 x (by omega)

/-- The `for` loop of the constructor runs through and keeps its invariant. -/
theorem mk_loop_spec (n : Int) (string : List Char) (hsize : 1 ≤ (string.length : Int))
    (hlen : (string.length : Int) < 2 ^ 63) (len : Nat) :
    ∀ (idx : Nat) (st : Int × cycles_t), idx + len = string.length → mk_inv n string idx st →
      ∃ st', cycles_t.mk_loop n string (List.range' idx len) st = some st' ∧
        mk_inv n string string.length st' := by
  induction len with
  | zero =>
    intro idx st hidx hinv
    rw [Nat.add_zero] at hidx
    rw [← hidx]
    exact ⟨st, by simp [cycles_t.mk_loop], hinv⟩
  | succ len ih =>
    intro idx st hidx hinv
    obtain ⟨c, self⟩ := st
    rw [List.range'_succ, cycles_t.mk_loop]
    by_cases hun : (self.nodes idx).cycle_id ≠ NO_CYCLE
    · rw [if_pos hun]
      apply ih (idx + 1) _ (by omega)
      refine ⟨hinv.1, hinv.2.1, fun x hx => ?_⟩
      by_cases hxi : x = idx
      · rw [hxi]
        exact hun
      · exact hinv.2.2 x (by omega)
    · rw [if_neg hun]
      obtain ⟨cycle, nodes, e, hinv'⟩ := mk_loop_step n string hsize hlen idx (by omega) c self
        hinv (not_not.1 hun)
      rw [e]
      exact ih (idx + 1) _ (by omega) hinv'

/-- The constructor returns, and afterwards every node belongs to a cycle and holds
what the constructor stores. -/
theorem cycles_new_spec (n : Int) (string : List Char) (hsize : 1 ≤ (string.length : Int))
    (hlen : (string.length : Int) < 2 ^ 63) :
    ∃ self, cycles_t.new n string = some self ∧
      ∀ x : Int, 0 ≤ x → x < string.length → node_ok n string self x := by
  obtain ⟨⟨c, self⟩, e, h1, h2, h3⟩ := mk_loop_spec n string hsize hlen string.length 0
    (0, ⟨fun _ => ⟨[], 0, 0⟩, fun _ => node_t.init⟩) (by simp)
    ⟨le_refl _, fun x _ _ hx => absurd rfl hx, fun x hx => by omega⟩
  refine ⟨self, ?_, fun x hx0 hx1 => ?_⟩
  · unfold cycles_t.new
    rw [List.range_eq_range', e]
    rfl
  · have hx : ((x.toNat : Nat) : Int) = x := Int.toNat_of_nonneg hx0
    have := h3 x.toNat (by omega)
    rw [hx] at this
    exact (h2 x hx0 hx1 this).1

/-! ## `lower_bound` and `how_long_with` -/

theorem pair_le_iff (a b : Int × Int) :
    pair_le a b = true ↔ a.1 < b.1 ∨ (a.1 = b.1 ∧ a.2 ≤ b.2) := by
  unfold pair_le
  simp

theorem lower_bound_aux (key : Int × Int) (l : List (Int × Int)) :
    ∀ best : Option (Int × Int), (∀ b0, best = some b0 → pair_le key b0 = true) →
      (∀ b, l.foldl (fun best x =>
          if pair_le key x then
            match best with
            | none => some x
            | some b => if pair_le x b then some x else some b
          else best) best = some b → (b ∈ l ∨ best = some b) ∧ pair_le key b = true) ∧
      ∀ e, (e ∈ l ∨ best = some e) → pair_le key e = true →
        ∃ b, l.foldl (fun best x =>
          if pair_le key x then
            match best with
            | none => some x
            | some b => if pair_le x b then some x else some b
          else best) best = some b ∧ pair_le b e = true := by
  induction l with
  | nil =>
    intro best hbest
    refine ⟨fun b hb => ⟨Or.inr hb, hbest b hb⟩, fun e he hk => ?_⟩
    rcases he with he | he
    · simp at he
    · refine ⟨e, he, ?_⟩
      rw [pair_le_iff]
      exact Or.inr ⟨rfl, le_refl _⟩
  | cons x l ih =>
    intro best hbest
    rw [List.foldl_cons]
    by_cases hx : pair_le key x = true
    · rw [if_pos hx]
      cases best with
      | none =>
        simp only []
        obtain ⟨h1, h2⟩ := ih (some x) (fun b0 hb0 => by rw [← Option.some.inj hb0]; exact hx)
        refine ⟨fun b hb => ⟨?_, (h1 b hb).2⟩, fun e he hk => ?_⟩
        · rcases (h1 b hb).1 with h | h
          · exact Or.inl (List.mem_cons_of_mem _ h)
          · rw [Option.some.inj h]
            exact Or.inl (List.mem_cons_self _ _)
        · rcases he with he | he
          · rcases List.mem_cons.1 he with he | he
            · exact h2 e (Or.inr (by rw [he])) hk
            · exact h2 e (Or.inl he) hk
          · exact absurd he (by simp)
      | some b0 =>
        simp only []
        have hb0 := hbest b0 rfl
        by_cases hxb : pair_le x b0 = true
        · rw [if_pos hxb]
          obtain ⟨h1, h2⟩ := ih (some x) (fun b1 hb1 => by rw [← Option.some.inj hb1]; exact hx)
          refine ⟨fun b hb => ⟨?_, (h1 b hb).2⟩, fun e he hk => ?_⟩
          · rcases (h1 b hb).1 with h | h
            · exact Or.inl (List.mem_cons_of_mem _ h)
            · rw [Option.some.inj h]
              exact Or.inl (List.mem_cons_self _ _)
          · rcases he with he | he
            · rcases List.mem_cons.1 he with he | he
              · exact h2 e (Or.inr (by rw [he])) hk
              · exact h2 e (Or.inl he) hk
            · obtain ⟨b, hb1, hb2⟩ := h2 x (Or.inr rfl) hx
              refine ⟨b, hb1, ?_⟩
              rw [← Option.some.inj he]
              rw [pair_le_iff] at hb2 hxb ⊢
              omega
        · rw [if_neg hxb]
          obtain ⟨h1, h2⟩ := ih (some b0) (fun b1 hb1 => by rw [← Option.some.inj hb1]; exact hb0)
          refine ⟨fun b hb => ⟨?_, (h1 b hb).2⟩, fun e he hk => ?_⟩
          · rcases (h1 b hb).1 with h | h
            · exact Or.inl (List.mem_cons_of_mem _ h)
            · exact Or.inr h
          · rcases he with he | he
            · rcases List.mem_cons.1 he with he | he
              · obtain ⟨b, hb1, hb2⟩ := h2 b0 (Or.inr rfl) hb0
                refine ⟨b, hb1, ?_⟩
                rw [he]
                rw [pair_le_iff] at hb2 hxb ⊢
                omega
              · exact h2 e (Or.inl he) hk
            · exact h2 e (Or.inr he) hk
    · rw [if_neg hx]
      obtain ⟨h1, h2⟩ := ih best hbest
      refine ⟨fun b hb => ⟨?_, (h1 b hb).2⟩, fun e he hk => ?_⟩
      · rcases (h1 b hb).1 with h | h
        · exact Or.inl (List.mem_cons_of_mem _ h)
        · exact Or.inr h
      · rcases he with he | he
        · rcases List.mem_cons.1 he with he | he
          · rw [he] at hk
            exact absurd hk hx
          · exact h2 e (Or.inl he) hk
        · exact h2 e (Or.inr he) hk

/-- The iterator that `lower_bound` returns points to the least element of the set
that is not less than the key. -/
theorem lower_bound_spec (key e : Int × Int) (s : List (Int × Int)) (he : e ∈ s)
    (hk : pair_le key e = true)
    (hmin : ∀ x ∈ s, pair_le key x = true → pair_le e x = true) :
    lower_bound key s = some e := by
  unfold lower_bound
  obtain ⟨h1, h2⟩ := lower_bound_aux key s none (fun b0 hb0 => absurd hb0 (by simp))
  obtain ⟨b, hb1, hb2⟩ := h2 e (Or.inl he) hk
  rw [hb1]
  rcases (h1 b hb1).1 with h | h
  · have h3 := hmin b h (h1 b hb1).2
    rw [pair_le_iff] at hb2 h3
    congr 1
    apply Prod.ext <;> omega
  · exact absurd h (by simp)

/-- What a node and its cycle hold, told from the position of the node. -/
theorem node_ok_rel (n : Int) (string : List Char) (self : cycles_t) (x : Int)
    (h : node_ok n string self x) :
    ∃ (L p : Nat) (P : Int), 1 ≤ L ∧ (L : Int) ≤ string.length ∧ p < L ∧
      (string.length : Int) ∣ (L : Int) * n ∧
      (self.nodes x).cycle_pos = p ∧
      (self.nodes x).partial_sum - (self.nodes x).value = P ∧
      (self.cycles (self.nodes x).cycle_id).sum = walk n string x L ∧
      (self.cycles (self.nodes x).cycle_id).length = L ∧
      is_min_walk n string x 1 L
        (min ((self.nodes x).min_right - (self.nodes x).partial_sum + (self.nodes x).value)
          ((self.nodes x).min_left + (self.cycles (self.nodes x).cycle_id).sum -
            (self.nodes x).partial_sum + (self.nodes x).value)) ∧
      (∀ e ∈ (self.cycles (self.nodes x).cycle_id).positions, ∃ i : Nat, e.2 = i ∧
        (p ≤ i → e.1 = P + walk n string x (i - p + 1))) ∧
      ∀ i : Nat, p ≤ i → i < p + L →
        (P + walk n string x (i - p + 1), (i : Int)) ∈
          (self.cycles (self.nodes x).cycle_id).positions := by
  obtain ⟨s, p, L, hL1, hLs, hp, hL, hx, ⟨-, f2, f3, f4, f5, f6⟩, ⟨c1, c2, c3⟩⟩ := h
  have hadd : ∀ t, walk n string s (p + t) = walk n string s p + walk n string x t := by
    intro t
    rw [walk_add, hx]
  have hS : walk n string x L = walk n string s L := by
    rw [hx]
    exact walk_cycle_sum n string s L hL p
  have hP : (self.nodes x).partial_sum - (self.nodes x).value = walk n string s p := by
    rw [f3, f4]
    ring
  refine ⟨L, p, walk n string s p, hL1, hLs, hp, hL, f2, hP, by rw [c1, hS], c2, ?_, ?_, ?_⟩
  · have hr : (self.nodes x).min_right - (self.nodes x).partial_sum + (self.nodes x).value =
        (self.nodes x).min_right - walk n string s p := by
      rw [f3, f4]
      ring
    have hl : (self.nodes x).min_left + (self.cycles (self.nodes x).cycle_id).sum -
        (self.nodes x).partial_sum + (self.nodes x).value =
        (self.nodes x).min_left + walk n string s L - walk n string s p := by
      rw [f3, f4, c1]
      ring
    rw [hr, hl]
    obtain ⟨r1, tr, r2, r3, r4⟩ := f6
    obtain ⟨l1, tl, l2, l3, l4⟩ := f5
    have hleft : ∀ t, t ≤ p → walk n string x (L - p + t) =
        walk n string s L + walk n string s t - walk n string s p := by
      intro t ht
      have h1 := hadd (L - p + t)
      have h2 := walk_period n string s L hL t
      rw [show p + (L - p + t) = L + t by omega] at h1
      omega
    constructor
    · intro u hu1 hu2
      by_cases hup : u ≤ L - p
      · have h1 := r1 (p + u) (by omega) (by omega)
        have h2 := hadd u
        have := min_le_left ((self.nodes x).min_right - walk n string s p)
          ((self.nodes x).min_left + walk n string s L - walk n string s p)
        omega
      · have h1 := l1 (u - (L - p)) (by omega) (by omega)
        have h2 := hleft (u - (L - p)) (by omega)
        rw [show L - p + (u - (L - p)) = u by omega] at h2
        have := min_le_right ((self.nodes x).min_right - walk n string s p)
          ((self.nodes x).min_left + walk n string s L - walk n string s p)
        omega
    · by_cases hc : (self.nodes x).min_right - walk n string s p ≤
          (self.nodes x).min_left + walk n string s L - walk n string s p
      · rw [min_eq_left hc]
        refine ⟨tr - p, by omega, by omega, ?_⟩
        have := hadd (tr - p)
        rw [show p + (tr - p) = tr by omega] at this
        omega
      · rw [min_eq_right (by omega)]
        refine ⟨L - p + tl, by omega, by omega, ?_⟩
        have := hleft tl l3
        omega
  · intro e he
    obtain ⟨i, hi, rfl⟩ := (c3 e).1 he
    refine ⟨i, rfl, fun hpi => ?_⟩
    have := hadd (i - p + 1)
    rw [show p + (i - p + 1) = i + 1 by omega] at this
    exact this
  · intro i hpi hi
    rw [c3]
    refine ⟨i, by omega, ?_⟩
    have := hadd (i - p + 1)
    rw [show p + (i - p + 1) = i + 1 by omega] at this
    rw [this]

/-- With money that runs out within one round of the cycle, `how_long_with` returns
the number of the play after which it is zero for the first time. -/
theorem how_long_with_spec (n : Int) (string : List Char) (self : cycles_t) (x : Int)
    (h : node_ok n string self x) (money : Int) (hm : money ≠ 0) (k : Nat) (hk1 : 1 ≤ k)
    (hkL : (k : Int) ≤ (self.cycles (self.nodes x).cycle_id).length)
    (hk : money + walk n string x k = 0)
    (hfirst : ∀ i, 1 ≤ i → i < k → money + walk n string x i ≠ 0) :
    self.how_long_with x money = some (k : Int) := by
  obtain ⟨L, p, P, hL1, hLs, hp, hL, r1, r2, r3, r4, -, r6, r7⟩ := node_ok_rel n string self x h
  rw [r4] at hkL
  have hmem := r7 (p + k - 1) (by omega) (by omega)
  rw [show p + k - 1 - p + 1 = k by omega] at hmem
  have hlb : lower_bound (P - money, (p : Int))
      (self.cycles (self.nodes x).cycle_id).positions =
      some (P + walk n string x k, ((p + k - 1 : Nat) : Int)) := by
    apply lower_bound_spec _ _ _ hmem
    · rw [pair_le_iff]
      right
      simp only []
      exact ⟨by omega, by omega⟩
    · intro e he hke
      obtain ⟨i, hi, hi'⟩ := r6 e he
      rw [pair_le_iff] at hke ⊢
      simp only [] at hke ⊢
      rcases hke with hke | ⟨hke1, hke2⟩
      · left
        omega
      · right
        have hpi : p ≤ i := by omega
        have he1 := hi' hpi
        refine ⟨by omega, ?_⟩
        by_contra hc
        have hlt : i - p + 1 < k := by omega
        exact hfirst (i - p + 1) (by omega) hlt (by omega)
  unfold cycles_t.how_long_with
  rw [if_neg hm]
  simp only []
  rw [r1, r2, hlb]
  simp only []
  rw [if_pos ⟨by omega, by omega, by rw [r4]; omega⟩]
  congr 1
  omega

/-! ## `get_moves` -/

theorem haz_wrap64_of_range {x : Int} (h1 : -2 ^ 63 ≤ x) (h2 : x < 2 ^ 63) : wrap64 x = x := by
  unfold wrap64
  omega

theorem walk_decomp (n : Int) (string : List Char) (x : Int) (L : Nat) (hL1 : 1 ≤ L)
    (hL : (string.length : Int) ∣ (L : Int) * n) (k : Nat) (hk : 1 ≤ k) :
    ∃ a r : Nat, 1 ≤ r ∧ r ≤ L ∧ k = a * L + r ∧
      walk n string x k = a * walk n string x L + walk n string x r := by
  refine ⟨(k - 1) / L, (k - 1) % L + 1, by omega, ?_, ?_, ?_⟩
  · have := Nat.mod_lt (k - 1) (show 0 < L by omega)
    omega
  · have := Nat.div_add_mod (k - 1) L
    have e : (k - 1) / L * L = L * ((k - 1) / L) := Nat.mul_comm _ _
    omega
  · have := Nat.div_add_mod (k - 1) L
    have e : (k - 1) / L * L = L * ((k - 1) / L) := Nat.mul_comm _ _
    have hk' : k = (k - 1) / L * L + ((k - 1) % L + 1) := by omega
    rw [← walk_cycles n string x L hL, ← hk']

/-- With a sum of the cycle that is not negative and money that lasts for one round,
the money never runs out. -/
theorem no_hit_of_nonneg_sum (n : Int) (string : List Char) (x : Int) (L : Nat) (hL1 : 1 ≤ L)
    (hL : (string.length : Int) ∣ (L : Int) * n) (mu : Int)
    (hmu : is_min_walk n string x 1 L mu) (hS : 0 ≤ walk n string x L) (money : Int)
    (hm : 1 ≤ money + mu) (k : Nat) (hk : 1 ≤ k) : money + walk n string x k ≠ 0 := by
  obtain ⟨a, r, hr1, hr2, -, hw⟩ := walk_decomp n string x L hL1 hL k hk
  have h1 := hmu.1 r hr1 hr2
  have h2 : 0 ≤ (a : Int) * walk n string x L := mul_nonneg (by omega) hS
  omega

/-- With money that does not last for one round of the cycle, it runs out within the
round. -/
theorem hit_within_cycle (n : Int) (string : List Char) (x : Int) (L : Nat) (mu : Int)
    (hmu : is_min_walk n string x 1 L mu) (money : Int) (hm1 : 1 ≤ money)
    (hm : money + mu ≤ 0) :
    ∃ k : Nat, 1 ≤ k ∧ k ≤ L ∧ money + walk n string x k = 0 ∧
      ∀ i, 1 ≤ i → i < k → money + walk n string x i ≠ 0 := by
  obtain ⟨-, t, ht1, ht2, ht3⟩ := hmu
  obtain ⟨k', h1, h2, h3⟩ := walk_hits n string x money hm1 t (by omega)
  obtain ⟨k, g1, g2, g3, g4⟩ := first_hit_exists n string x money k' h1 h3
  exact ⟨k, g1, by omega, g3, g4⟩

/-- The money cannot run out during whole rounds of the cycle before which it lasts for
one round; after them the plays are counted from the money left. -/
theorem hit_after_cycles (n : Int) (string : List Char) (x : Int) (L : Nat) (hL1 : 1 ≤ L)
    (hL : (string.length : Int) ∣ (L : Int) * n) (mu : Int)
    (hmu : is_min_walk n string x 1 L mu) (money : Int) (fc : Nat)
    (hsafe : ∀ a : Nat, a < fc → 1 ≤ money + a * walk n string x L + mu) (k' : Nat)
    (hk : money + fc * walk n string x L + walk n string x k' = 0)
    (hfirst : ∀ i, 1 ≤ i → i < k' →
      money + fc * walk n string x L + walk n string x i ≠ 0) :
    money + walk n string x (fc * L + k') = 0 ∧
      ∀ i, 1 ≤ i → i < fc * L + k' → money + walk n string x i ≠ 0 := by
  constructor
  · rw [walk_cycles n string x L hL]
    omega
  · intro i hi1 hi2
    by_cases hile : i ≤ fc * L
    · obtain ⟨a, r, hr1, hr2, hia, hw⟩ := walk_decomp n string x L hL1 hL i hi1
      have ha : a < fc := by
        by_contra hc
        have : fc * L ≤ a * L := Nat.mul_le_mul_right L (by omega)
        omega
      have h1 := hsafe a ha
      have h2 := hmu.1 r hr1 hr2
      omega
    · have := hfirst (i - fc * L) (by omega) (by omega)
      have hw := walk_cycles n string x L hL fc (i - fc * L)
      rw [show fc * L + (i - fc * L) = i by omega] at hw
      omega

/-- The path of `get_moves` without whole rounds of the cycle. -/
theorem get_moves_short (n : Int) (string : List Char) (self : cycles_t) (x : Int)
    (h : node_ok n string self x) (money : Int) (hm1 : 1 ≤ money) (L : Nat)
    (hlen : (self.cycles (self.nodes x).cycle_id).length = L)
    (hLs : (L : Int) ≤ string.length) (mu : Int)
    (hmu : is_min_walk n string x 1 L mu) (hm : money + mu ≤ 0)
    (hbound : (money + 1) * string.length < 2 ^ 63) :
    ∃ k : Nat, (match self.how_long_with x money with
        | none => none
        | some k => some (wrap64 (0 + k))) = some (k : Int) ∧
      1 ≤ k ∧ (k : Int) ≤ (money + 1) * string.length ∧ money + walk n string x k = 0 ∧
      ∀ i, 1 ≤ i → i < k → money + walk n string x i ≠ 0 := by
  obtain ⟨k, h1, h2, h3, h4⟩ := hit_within_cycle n string x L mu hmu money hm1 hm
  have hkm : (k : Int) ≤ (money + 1) * string.length := by
    have : (1 : Int) * string.length ≤ (money + 1) * string.length :=
      mul_le_mul_of_nonneg_right (by omega) (by omega)
    omega
  refine ⟨k, ?_, h1, hkm, h3, h4⟩
  rw [how_long_with_spec n string self x h money (by omega) k h1 (by rw [hlen]; omega) h3 h4]
  simp only []
  rw [haz_wrap64_of_range (by omega) (by omega)]
  simp

/-- What `get_moves` returns for a node and the money of a player: `LOOP` if the money
never runs out, and else the number of the play after which it is zero for the first
time. -/
theorem get_moves_spec (n : Int) (string : List Char) (self : cycles_t) (x : Int)
    (h : node_ok n string self x) (money : Int) (hm1 : 1 ≤ money)
    (hbound : (money + 1) * string.length < 2 ^ 63) :
    ∃ r, self.get_moves x money = some r ∧
      ((r = LOOP ∧ ∀ k : Nat, 1 ≤ k → money + walk n string x k ≠ 0) ∨
        ∃ k : Nat, r = k ∧ 1 ≤ k ∧ (k : Int) ≤ (money + 1) * string.length ∧
          money + walk n string x k = 0 ∧
          ∀ i, 1 ≤ i → i < k → money + walk n string x i ≠ 0) := by
  obtain ⟨L, p, P, hL1, hLs, hp, hL, r1, r2, r3, r4, r5, r6, r7⟩ := node_ok_rel n string self x h
  obtain ⟨mu, hmu, hms⟩ : ∃ mu, is_min_walk n string x 1 L mu ∧
      self.min_safe_for x = if mu - 1 ≥ 0 then LOOP else -(mu - 1) := ⟨_, r5, rfl⟩
  have hSb := walk_abs_le n string x L
  have hmuS : mu ≤ walk n string x L := hmu.1 L hL1 (le_refl L)
  have hmub : -(L : Int) ≤ mu := by
    obtain ⟨-, t, ht1, ht2, ht3⟩ := hmu
    have := walk_abs_le n string x t
    omega
  have hm63 : money + 1 < 2 ^ 63 := by
    have : (money + 1) * 1 ≤ (money + 1) * string.length :=
      mul_le_mul_of_nonneg_left (by omega) (by omega)
    omega
  have hmL : money * L ≤ (money + 1) * string.length := by
    have h1 : money * L ≤ money * string.length :=
      mul_le_mul_of_nonneg_left hLs (by omega)
    have h2 : money * string.length ≤ (money + 1) * string.length :=
      mul_le_mul_of_nonneg_right (by omega) (by omega)
    omega
  unfold cycles_t.get_moves
  rw [if_neg (by omega)]
  simp only []
  by_cases hmu1 : 1 ≤ mu
  · have hms' : self.min_safe_for x = LOOP := by
      rw [hms]
      exact if_pos (by omega)
    rw [hms', r3, r4, if_pos ⟨by omega, Or.inl rfl⟩]
    exact ⟨LOOP, rfl, Or.inl ⟨rfl, fun k hk =>
      no_hit_of_nonneg_sum n string x L hL1 hL mu hmu (by omega) money (by omega) k hk⟩⟩
  · have hms' : self.min_safe_for x = 1 - mu := by
      rw [hms, if_neg (by omega)]
      ring
    rw [hms', r3, r4]
    have hLOOP : 1 - mu ≠ LOOP := by
      unfold LOOP
      omega
    by_cases hS : 0 ≤ walk n string x L
    · by_cases hle : 1 - mu ≤ money
      · rw [if_pos ⟨by omega, Or.inr hle⟩]
        exact ⟨LOOP, rfl, Or.inl ⟨rfl, fun k hk =>
          no_hit_of_nonneg_sum n string x L hL1 hL mu hmu hS money (by omega) k hk⟩⟩
      · have hc1 : ¬ (walk n string x L ≥ 0 ∧ (1 - mu = LOOP ∨ 1 - mu ≤ money)) := by
          rintro ⟨-, h1 | h1⟩
          · exact hLOOP h1
          · exact hle h1
        have hc2 : walk n string x L ≥ 0 ∨ money < 1 - mu := Or.inl hS
        rw [if_neg hc1, if_pos hc2]
        simp only [max_self, zero_mul]
        rw [haz_wrap64_of_range (x := 0) (by norm_num) (by norm_num), add_zero,
          haz_wrap64_of_range (x := money) (by omega) (by omega), if_pos ⟨by omega, by omega⟩]
        obtain ⟨k, hk⟩ := get_moves_short n string self x h money hm1 L r4 hLs mu hmu (by omega)
          hbound
        exact ⟨k, hk.1, Or.inr ⟨k, rfl, hk.2⟩⟩
    · have hc1 : ¬ (walk n string x L ≥ 0 ∧ (1 - mu = LOOP ∨ 1 - mu ≤ money)) :=
        fun h1 => hS h1.1
      rw [if_neg hc1]
      by_cases hlt : money < 1 - mu
      · have hc2 : walk n string x L ≥ 0 ∨ money < 1 - mu := Or.inr hlt
        rw [if_pos hc2]
        simp only [max_self, zero_mul]
        rw [haz_wrap64_of_range (x := 0) (by norm_num) (by norm_num), add_zero,
          haz_wrap64_of_range (x := money) (by omega) (by omega), if_pos ⟨by omega, by omega⟩]
        obtain ⟨k, hk⟩ := get_moves_short n string self x h money hm1 L r4 hLs mu hmu (by omega)
          hbound
        exact ⟨k, hk.1, Or.inr ⟨k, rfl, hk.2⟩⟩
      · have hc2 : ¬ (walk n string x L ≥ 0 ∨ money < 1 - mu) := by
          rintro (h1 | h1)
          · exact hS h1
          · exact hlt h1
        rw [if_neg hc2]
        have hA : 0 < -walk n string x L := by omega
        have hd : 0 ≤ money - (1 - mu) := by omega
        have hq0 : 0 ≤ (money - (1 - mu)) / -walk n string x L :=
          Int.ediv_nonneg hd (le_of_lt hA)
        obtain ⟨qn, hqn⟩ := Int.eq_ofNat_of_zero_le hq0
        have hdiv := Int.emod_add_ediv (money - (1 - mu)) (-walk n string x L)
        have hmod0 := Int.emod_nonneg (money - (1 - mu)) (show -walk n string x L ≠ 0 by omega)
        have hmod1 := Int.emod_lt_of_pos (money - (1 - mu)) hA
        rw [hqn] at hdiv
        have hT : -walk n string x L * (qn : Int) = -((qn : Int) * walk n string x L) := by ring
        rw [hT] at hdiv
        have hqle : (qn : Int) ≤ money - (1 - mu) := by
          have : (qn : Int) * 1 ≤ (qn : Int) * -walk n string x L :=
            mul_le_mul_of_nonneg_left (by omega) (by omega)
          have e : (qn : Int) * -walk n string x L = -((qn : Int) * walk n string x L) := by ring
          omega
        have htd : Int.tdiv (wrap64 (1 - mu - money)) (walk n string x L) = (qn : Int) := by
          rw [haz_wrap64_of_range (by omega) (by omega),
            show 1 - mu - money = -(money - (1 - mu)) by ring,
            show walk n string x L = -(-walk n string x L) by ring, Int.tdiv_neg, Int.neg_tdiv,
            neg_neg, Int.tdiv_eq_ediv hd (le_of_lt hA), hqn]
        have hfc : max 0 (wrap64 (1 + Int.tdiv (wrap64 (1 - mu - money)) (walk n string x L))) =
            ((1 + qn : Nat) : Int) := by
          rw [htd, haz_wrap64_of_range (by omega) (by omega)]
          push_cast
          exact max_eq_right (by omega)
        rw [hfc]
        have hfcL : ((1 + qn : Nat) : Int) * L ≤ money * L :=
          mul_le_mul_of_nonneg_right (by push_cast; omega) (by omega)
        have hfcL0 : 0 ≤ ((1 + qn : Nat) : Int) * L := mul_nonneg (by omega) (by omega)
        have hfcS : ((1 + qn : Nat) : Int) * walk n string x L =
            walk n string x L + (qn : Int) * walk n string x L := by
          push_cast
          ring
        have hqSL : -(((1 + qn : Nat) : Int) * L) ≤ ((1 + qn : Nat) : Int) * walk n string x L := by
          have : ((1 + qn : Nat) : Int) * -(L : Int) ≤ ((1 + qn : Nat) : Int) * walk n string x L :=
            mul_le_mul_of_nonneg_left (by omega) (by omega)
          have e : ((1 + qn : Nat) : Int) * -(L : Int) = -(((1 + qn : Nat) : Int) * L) := by ring
          omega
        rw [haz_wrap64_of_range (x := ((1 + qn : Nat) : Int) * walk n string x L) (by omega)
            (by omega),
          haz_wrap64_of_range (x := money + ((1 + qn : Nat) : Int) * walk n string x L)
            (by omega) (by omega),
          haz_wrap64_of_range (x := ((1 + qn : Nat) : Int) * L) (by omega) (by omega),
          if_pos ⟨by omega, by omega⟩]
        obtain ⟨k', g1, g2, g3, g4⟩ := hit_within_cycle n string x L mu hmu
          (money + ((1 + qn : Nat) : Int) * walk n string x L) (by omega) (by omega)
        rw [how_long_with_spec n string self x h _ (by omega) k' g1 (by rw [r4]; omega) g3 g4]
        simp only []
        obtain ⟨t1, t2⟩ := hit_after_cycles n string x L hL1 hL mu hmu money (1 + qn)
          (fun a ha => by
            have : (qn : Int) * walk n string x L ≤ (a : Int) * walk n string x L :=
              Int.mul_le_mul_of_nonpos_right (by omega) (by omega)
            omega) k' g3 g4
        have hmL1 : money * L + L ≤ (money + 1) * string.length := by
          have h1 : (money + 1) * L ≤ (money + 1) * string.length :=
            mul_le_mul_of_nonneg_left hLs (by omega)
          have e : (money + 1) * (L : Int) = money * L + L := by ring
          omega
        refine ⟨_, rfl, Or.inr ⟨(1 + qn) * L + k', ?_, by omega, ?_, t1, t2⟩⟩
        · rw [haz_wrap64_of_range (by omega) (by omega)]
          push_cast
          ring
        · push_cast at hfcL ⊢
          omega

/-! ## The loop of `solver_t::operator()` -/

/-- One round of the loop of `solver_t::operator()` keeps the invariant. -/
theorem solver_loop_step (n : Nat) (initial : List Int) (string : List Char)
    (hsize : 1 ≤ (string.length : Int)) (M : Int)
    (hM : ∀ i, i < n → 1 ≤ initial.getD i 0 ∧ initial.getD i 0 ≤ M)
    (hbound : (n : Int) * ((M + 1) * string.length + 1) < 2 ^ 63 - 1) (cycles : cycles_t)
    (hok : ∀ x : Int, 0 ≤ x → x < string.length → node_ok n string cycles x)
    (i : Nat) (hi : i < n) (res : Int) (hinv : solver_inv n initial string i res) :
    ∃ value, cycles.get_moves (Int.tmod i string.length) (initial.getD i 0) = some value ∧
      solver_inv n initial string (i + 1)
        (if value ≠ LOOP then
          min res (wrap64 (wrap64 (wrap64 ((n : Int) * wrap64 (value - 1)) + i) + 1))
        else res) := by
  have hx : Int.tmod (i : Int) string.length = (i : Int) % string.length :=
    Int.tmod_eq_emod (by omega) (by omega)
  have hxr : 0 ≤ (i : Int) % string.length ∧ (i : Int) % string.length < string.length :=
    ⟨Int.emod_nonneg _ (by omega), Int.emod_lt_of_pos _ (by omega)⟩
  obtain ⟨hm1, hmM⟩ := hM i hi
  have hMm : (initial.getD i 0 + 1) * string.length ≤ (M + 1) * string.length :=
    mul_le_mul_of_nonneg_right (by omega) (by omega)
  have hMpos : 0 ≤ (M + 1) * (string.length : Int) := mul_nonneg (by omega) (by omega)
  have hn1 : (1 : Int) * ((M + 1) * string.length + 1) ≤
      (n : Int) * ((M + 1) * string.length + 1) :=
    mul_le_mul_of_nonneg_right (by omega) (by omega)
  obtain ⟨r, e, hr⟩ := get_moves_spec n string cycles ((i : Int) % string.length)
    (hok _ hxr.1 hxr.2) (initial.getD i 0) hm1 (by omega)
  rw [hx]
  refine ⟨r, e, ?_⟩
  have hwalk : ∀ k, walk n string ((i : Int) % string.length) k = walk n string i k :=
    fun k => walk_emod n string i k
  have hmod : ∀ t, t % n = i → (zero_at n initial string t ↔
      initial.getD i 0 + walk n string i (t / n + 1) = 0) := by
    intro t ht
    unfold zero_at
    rw [ht]
  rcases hr with ⟨hrL, hno⟩ | ⟨k, hrk, hk1, hkb, hk0, hkf⟩
  · rw [if_neg (by simpa using hrL)]
    have hnew : ∀ t, t % n = i → ¬ zero_at n initial string t := by
      intro t ht hz
      rw [hmod t ht] at hz
      exact hno (t / n + 1) (Nat.le_add_left 1 _) (by rw [hwalk]; exact hz)
    rcases hinv with ⟨h1, h2⟩ | ⟨t, h1, h2, h3, h4, h5⟩
    · left
      refine ⟨h1, fun t ht => ?_⟩
      by_cases hti : t % n = i
      · exact hnew t hti
      · exact h2 t (by omega)
    · right
      refine ⟨t, h1, h2, h3, by omega, fun s hs hz => ?_⟩
      by_cases hsi : s % n = i
      · exact absurd hz (hnew s hsi)
      · exact h5 s (by omega) hz
  · have hrne : r ≠ LOOP := by
      rw [hrk]
      unfold LOOP
      omega
    rw [if_pos hrne, hrk]
    have ht0mod : (n * (k - 1) + i) % n = i := by
      rw [Nat.mul_add_mod, Nat.mod_eq_of_lt hi]
    have ht0div : (n * (k - 1) + i) / n = k - 1 := by
      rw [Nat.mul_add_div (by omega), Nat.div_eq_of_lt hi, Nat.add_zero]
    have hz0 : zero_at n initial string (n * (k - 1) + i) := by
      rw [hmod _ ht0mod, ht0div, show k - 1 + 1 = k by omega, ← hwalk]
      exact hk0
    have hleast : ∀ s, s % n = i → zero_at n initial string s → n * (k - 1) + i ≤ s := by
      intro s hs hz
      rw [hmod s hs, ← hwalk] at hz
      have hks : k ≤ s / n + 1 := by
        by_contra hc
        exact hkf (s / n + 1) (Nat.le_add_left 1 _) (Nat.lt_of_not_le hc) hz
      have h1 := Nat.div_add_mod s n
      have h2 : n * (k - 1) ≤ n * (s / n) := Nat.mul_le_mul_left n (by omega)
      omega
    have hT : (n : Int) * ((k : Int) - 1) + i + 1 ≤ (n : Int) * ((M + 1) * string.length + 1) := by
      have h1 : (n : Int) * ((k : Int) - 1) ≤ (n : Int) * ((M + 1) * string.length) :=
        mul_le_mul_of_nonneg_left (by omega) (by omega)
      have e : (n : Int) * ((M + 1) * string.length + 1) =
          (n : Int) * ((M + 1) * string.length) + n := by ring
      omega
    have hT0 : 0 ≤ (n : Int) * ((k : Int) - 1) := mul_nonneg (by omega) (by omega)
    have hval : wrap64 (wrap64 (wrap64 ((n : Int) * wrap64 ((k : Int) - 1)) + i) + 1) =
        ((n * (k - 1) + i : Nat) : Int) + 1 := by
      rw [haz_wrap64_of_range (x := (k : Int) - 1) (by omega) (by omega),
        haz_wrap64_of_range (x := (n : Int) * ((k : Int) - 1)) (by omega) (by omega),
        haz_wrap64_of_range (x := (n : Int) * ((k : Int) - 1) + i) (by omega) (by omega),
        haz_wrap64_of_range (by omega) (by omega)]
      push_cast
      rw [Nat.cast_sub hk1]
      simp
    rw [hval]
    have hlt : ((n * (k - 1) + i : Nat) : Int) + 1 < INT64_MAX := by
      unfold INT64_MAX
      push_cast
      rw [Nat.cast_sub hk1]
      push_cast
      omega
    right
    rcases hinv with ⟨h1, h2⟩ | ⟨t, h1, h2, h3, h4, h5⟩
    · refine ⟨n * (k - 1) + i, ?_, hlt, hz0, by omega, fun s hs hz => ?_⟩
      · rw [h1]
        exact min_eq_right (le_of_lt hlt)
      · by_cases hsi : s % n = i
        · exact hleast s hsi hz
        · exact absurd hz (h2 s (by omega))
    · by_cases hcmp : t ≤ n * (k - 1) + i
      · refine ⟨t, ?_, h2, h3, by omega, fun s hs hz => ?_⟩
        · rw [h1]
          exact min_eq_left (by omega)
        · by_cases hsi : s % n = i
          · exact le_trans hcmp (hleast s hsi hz)
          · exact h5 s (by omega) hz
      · refine ⟨n * (k - 1) + i, ?_, hlt, hz0, by omega, fun s hs hz => ?_⟩
        · rw [h1]
          exact min_eq_right (by omega)
        · by_cases hsi : s % n = i
          · exact hleast s hsi hz
          · have := h5 s (by omega) hz
            omega

/-- The loop of `solver_t::operator()` runs through and keeps its invariant. -/
theorem solver_loop_spec (n : Nat) (initial : List Int) (string : List Char)
    (hsize : 1 ≤ (string.length : Int)) (M : Int)
    (hM : ∀ i, i < n → 1 ≤ initial.getD i 0 ∧ initial.getD i 0 ≤ M)
    (hbound : (n : Int) * ((M + 1) * string.length + 1) < 2 ^ 63 - 1) (cycles : cycles_t)
    (hok : ∀ x : Int, 0 ≤ x → x < string.length → node_ok n string cycles x) (len : Nat) :
    ∀ (i : Nat) (res : Int), i + len = n → solver_inv n initial string i res →
      ∃ res', solver_loop n initial string cycles (List.range' i len) res = some res' ∧
        solver_inv n initial string n res' := by
  induction len with
  | zero =>
    intro i res hi hinv
    rw [Nat.add_zero] at hi
    rw [hi] at hinv
    exact ⟨res, by simp [solver_loop], hinv⟩
  | succ len ih =>
    intro i res hi hinv
    obtain ⟨value, e, hinv'⟩ := solver_loop_step n initial string hsize M hM hbound cycles hok i
      (by omega) res hinv
    rw [List.range'_succ, solver_loop, e]
    simp only []
    by_cases hv : value ≠ LOOP
    · rw [if_pos hv] at hinv' ⊢
      exact ih (i + 1) _ (by omega) hinv'
    · rw [if_neg hv] at hinv' ⊢
      exact ih (i + 1) _ (by omega) hinv'

/-- What `solver_t::operator()` returns: `-1` if no player ever has no money after a
move, and else the number of moves up to the first move after which the player who made
it has no money. -/
theorem haz_solver_spec (n : Nat) (hn : 1 ≤ n) (initial : List Int) (string : List Char)
    (hsize : 1 ≤ (string.length : Int)) (M : Int)
    (hM : ∀ i, i < n → 1 ≤ initial.getD i 0 ∧ initial.getD i 0 ≤ M)
    (hbound : (n : Int) * ((M + 1) * string.length + 1) < 2 ^ 63 - 1) :
    ∃ r, solver n initial string = some r ∧
      ((r = -1 ∧ ∀ t, ¬ zero_at n initial string t) ∨
        ∃ t : Nat, r = (t : Int) + 1 ∧ zero_at n initial string t ∧
          ∀ s, zero_at n initial string s → t ≤ s) := by
  have hlen : (string.length : Int) < 2 ^ 63 := by
    have hM1 := (hM 0 (by omega)).1
    have hM2 := (hM 0 (by omega)).2
    have h1 : (1 : Int) * string.length ≤ (M + 1) * string.length :=
      mul_le_mul_of_nonneg_right (by omega) (by omega)
    have h2 : (1 : Int) * ((M + 1) * string.length + 1) ≤
        (n : Int) * ((M + 1) * string.length + 1) :=
      mul_le_mul_of_nonneg_right (by omega) (by omega)
    omega
  obtain ⟨cycles, e1, hok⟩ := cycles_new_spec n string hsize hlen
  obtain ⟨res, e2, hinv⟩ := solver_loop_spec n initial string hsize M hM hbound cycles hok n 0
    INT64_MAX (by omega) (Or.inl ⟨rfl, fun t ht => by omega⟩)
  unfold solver
  rw [e1]
  simp only []
  rw [Int.toNat_ofNat, List.range_eq_range', e2]
  simp only []
  have hmodlt : ∀ t, t % n < n := fun t => Nat.mod_lt t (by omega)
  rcases hinv with ⟨h1, h2⟩ | ⟨t, h1, h2, h3, h4, h5⟩
  · rw [if_pos h1]
    exact ⟨-1, rfl, Or.inl ⟨rfl, fun t => h2 t (hmodlt t)⟩⟩
  · rw [if_neg (by omega)]
    exact ⟨res, rfl, Or.inr ⟨t, h1, h3, fun s hs => h5 s (hmodlt s) hs⟩⟩

/-! ## The simulation -/

theorem succ_div_mod (n t : Nat) (hn : 1 ≤ n) :
    (t % n + 1 < n ∧ (t + 1) / n = t / n ∧ (t + 1) % n = t % n + 1) ∨
      (t % n + 1 = n ∧ (t + 1) / n = t / n + 1 ∧ (t + 1) % n = 0) := by
  have h1 := Nat.div_add_mod t n
  have h2 := Nat.mod_lt t (show 0 < n by omega)
  by_cases hb : t % n + 1 < n
  · left
    have h3 : t + 1 = (t % n + 1) + n * (t / n) := by omega
    refine ⟨hb, ?_, ?_⟩
    · rw [h3, Nat.add_mul_div_left _ _ (by omega), Nat.div_eq_of_lt hb]
      omega
    · rw [h3, Nat.add_mul_mod_self_left, Nat.mod_eq_of_lt hb]
  · right
    have hb' : t % n + 1 = n := by omega
    have h3 : t + 1 = 0 + n * (t / n + 1) := by
      rw [Nat.mul_add, Nat.mul_one]
      omega
    refine ⟨hb', ?_, ?_⟩
    · rw [h3, Nat.add_mul_div_left _ _ (by omega)]
      simp
    · rw [h3, Nat.add_mul_mod_self_left]
      simp

/-- One move of the simulation. -/
theorem slow_step (n : Nat) (hn : 1 ≤ n) (initial : List Int) (string : List Char)
    (hinit : ∀ i, i < n → 1 ≤ initial.getD i 0) (t : Nat) (cur : Int → Int)
    (hinv : slow_inv n initial string t cur) :
    cur ((t % n : Nat) : Int) ≠ 0 ∧
      (zero_at n initial string t ↔
        cur ((t % n : Nat) : Int) +
          char_to_diff (string_at string ((t % string.length : Nat) : Int)) = 0) ∧
      (¬ zero_at n initial string t →
        slow_inv n initial string (t + 1)
          (Function.update cur ((t % n : Nat) : Int)
            (cur ((t % n : Nat) : Int) +
              char_to_diff (string_at string ((t % string.length : Nat) : Int))))) := by
  obtain ⟨h1, h2⟩ := hinv
  have hlt := Nat.mod_lt t (show 0 < n by omega)
  have hcur := h1 (t % n) hlt
  rw [if_neg (by omega), Nat.add_zero] at hcur
  have horb : orb n string.length ((t % n : Nat) : Int) (t / n) =
      ((t % string.length : Nat) : Int) := by
    unfold orb
    have : ((t % n : Nat) : Int) + ((t / n : Nat) : Int) * n = (t : Int) := by
      have := Nat.mod_add_div t n
      have e : ((t % n + n * (t / n) : Nat) : Int) = (t : Int) := by rw [this]
      push_cast at e
      rw [mul_comm] at e
      push_cast
      exact e
    rw [this]
    norm_cast
  have hnext : cur ((t % n : Nat) : Int) +
      char_to_diff (string_at string ((t % string.length : Nat) : Int)) =
      initial.getD (t % n) 0 + walk n string ((t % n : Nat) : Int) (t / n + 1) := by
    rw [walk, horb, hcur]
    ring
  refine ⟨?_, ?_, fun hz => ⟨fun p hp => ?_, fun s hs => ?_⟩⟩
  · rw [hcur]
    by_cases hd : t / n = 0
    · rw [hd]
      have := hinit (t % n) hlt
      simp only [walk]
      omega
    · have hge : n ≤ t := by
        by_contra hc
        exact hd (Nat.div_eq_of_lt (by omega))
      have hz := h2 (t - n) (by omega)
      have e1 : (t - n) % n = t % n := (Nat.mod_eq_sub_mod hge).symm
      have e2 : (t - n) / n + 1 = t / n := by
        have := Nat.div_eq_sub_div (show 0 < n by omega) hge
        omega
      unfold zero_at at hz
      rw [e1, e2] at hz
      exact hz
  · unfold zero_at
    rw [hnext]
  · rcases succ_div_mod n t hn with ⟨c1, c2, c3⟩ | ⟨c1, c2, c3⟩
    · rw [c2, c3]
      by_cases hpi : p = t % n
      · rw [hpi, Function.update_same, hnext, if_pos (by omega)]
      · rw [Function.update_noteq (by omega), h1 p hp]
        by_cases hlt' : p < t % n
        · rw [if_pos hlt', if_pos (by omega)]
        · rw [if_neg hlt', if_neg (by omega)]
    · rw [c2, c3, if_neg (by omega), Nat.add_zero]
      by_cases hpi : p = t % n
      · rw [hpi, Function.update_same, hnext]
      · rw [Function.update_noteq (by omega), h1 p hp, if_pos (by omega)]
  · by_cases hst : s = t
    · rw [hst]
      exact hz
    · exact h2 s (by omega)

theorem slow_update_eq (cur : Int → Int) (i : Int) (c : Char) :
    (if c = 'W' then Function.update cur i (cur i + 1)
      else Function.update cur i (cur i - 1)) =
      Function.update cur i (cur i + char_to_diff c) := by
  unfold char_to_diff
  by_cases h : c = 'W'
  · rw [if_pos h, if_pos h]
  · rw [if_neg h, if_neg h]
    rfl

theorem tmod_succ_cast (t m : Nat) (hm : 1 ≤ m) :
    Int.tmod (((t % m : Nat) : Int) + 1) (m : Int) = (((t + 1) % m : Nat) : Int) := by
  rw [Int.tmod_eq_emod (by omega) (by omega)]
  have : (((t % m : Nat) : Int) + 1) = ((t % m + 1 : Nat) : Int) := by push_cast; rfl
  rw [this]
  norm_cast
  rw [Nat.mod_add_mod]

/-- The loop of the simulation, one round unfolded. -/
theorem slow_loop_succ (n : Nat) (hn : 1 ≤ n) (initial : List Int) (string : List Char)
    (hsize : 1 ≤ string.length) (hinit : ∀ i, i < n → 1 ≤ initial.getD i 0) (t : Nat)
    (cur : Int → Int) (hinv : slow_inv n initial string t cur) (fuel : Nat) :
    (zero_at n initial string t →
      slow_loop n string (fuel + 1) cur ((t % n : Nat) : Int)
        ((t % string.length : Nat) : Int) t = some ((t : Int) + 1)) ∧
    (¬ zero_at n initial string t → ∃ cur', slow_inv n initial string (t + 1) cur' ∧
      slow_loop n string (fuel + 1) cur ((t % n : Nat) : Int)
        ((t % string.length : Nat) : Int) t =
      slow_loop n string fuel cur' (((t + 1) % n : Nat) : Int)
        (((t + 1) % string.length : Nat) : Int) ((t + 1 : Nat) : Int)) := by
  obtain ⟨s1, s2, s3⟩ := slow_step n hn initial string hinit t cur hinv
  constructor
  · intro hz
    rw [slow_loop, if_neg s1]
    simp only []
    rw [slow_update_eq, Function.update_same, if_pos (s2.1 hz)]
  · intro hz
    refine ⟨_, s3 hz, ?_⟩
    rw [slow_loop, if_neg s1]
    simp only []
    rw [slow_update_eq, Function.update_same, if_neg (fun h => hz (s2.2 h)),
      tmod_succ_cast t n hn, tmod_succ_cast t string.length hsize]
    push_cast
    rfl

/-- The simulation returns at the first move after which the player who made it has no
money. -/
theorem slow_loop_some (n : Nat) (hn : 1 ≤ n) (initial : List Int) (string : List Char)
    (hsize : 1 ≤ string.length) (hinit : ∀ i, i < n → 1 ≤ initial.getD i 0) (t0 : Nat)
    (hz0 : zero_at n initial string t0) (hleast : ∀ s, s < t0 → ¬ zero_at n initial string s)
    (fuel : Nat) :
    ∀ (t : Nat) (cur : Int → Int), slow_inv n initial string t cur → t ≤ t0 → t0 < t + fuel →
      slow_loop n string fuel cur ((t % n : Nat) : Int) ((t % string.length : Nat) : Int) t =
        some ((t0 : Int) + 1) := by
  induction fuel with
  | zero =>
    intro t cur _ h1 h2
    omega
  | succ fuel ih =>
    intro t cur hinv h1 h2
    obtain ⟨a, b⟩ := slow_loop_succ n hn initial string hsize hinit t cur hinv fuel
    by_cases ht : t = t0
    · rw [a (by rw [ht]; exact hz0), ht]
    · obtain ⟨cur', hinv', e⟩ := b (hleast t (by omega))
      rw [e]
      exact ih (t + 1) cur' hinv' (by omega) (by omega)

/-- The simulation does not return before a player has no money. -/
theorem slow_loop_none (n : Nat) (hn : 1 ≤ n) (initial : List Int) (string : List Char)
    (hsize : 1 ≤ string.length) (hinit : ∀ i, i < n → 1 ≤ initial.getD i 0) (fuel : Nat) :
    ∀ (t : Nat) (cur : Int → Int), slow_inv n initial string t cur →
      (∀ s, s < t + fuel → ¬ zero_at n initial string s) →
      slow_loop n string fuel cur ((t % n : Nat) : Int) ((t % string.length : Nat) : Int) t =
        none := by
  induction fuel with
  | zero =>
    intro t cur _ _
    rfl
  | succ fuel ih =>
    intro t cur hinv hno
    obtain ⟨-, b⟩ := slow_loop_succ n hn initial string hsize hinit t cur hinv fuel
    obtain ⟨cur', hinv', e⟩ := b (hno t (by omega))
    rw [e]
    exact ih (t + 1) cur' hinv' (fun s hs => hno s (by omega))

theorem slow_inv_zero (n : Nat) (initial : List Int) (string : List Char) :
    slow_inv n initial string 0 (fun i => initial.getD i.toNat 0) := by
  refine ⟨fun p hp => ?_, fun s hs => by omega⟩
  simp [walk]

/-! ## The two solvers -/

/-- What the simulation returns: nothing before the first move after which the player
who made it has no money, the number of moves up to that move afterwards. -/
theorem slow_solver_spec (n : Nat) (hn : 1 ≤ n) (initial : List Int) (string : List Char)
    (hsize : 1 ≤ string.length) (hinit : ∀ i, i < n → 1 ≤ initial.getD i 0) :
    (∀ t0, zero_at n initial string t0 → (∀ s, s < t0 → ¬ zero_at n initial string s) →
      ∀ fuel, slow_solver n initial string fuel =
        if t0 < fuel then some ((t0 : Int) + 1) else none) ∧
    ((∀ t, ¬ zero_at n initial string t) → ∀ fuel, slow_solver n initial string fuel = none) := by
  have h0 := slow_inv_zero n initial string
  constructor
  · intro t0 hz hleast fuel
    unfold slow_solver
    by_cases hf : t0 < fuel
    · rw [if_pos hf]
      have := slow_loop_some n hn initial string hsize hinit t0 hz hleast fuel 0 _ h0
        (by omega) (by omega)
      simpa using this
    · rw [if_neg hf]
      have := slow_loop_none n hn initial string hsize hinit fuel 0 _ h0
        (fun s hs => hleast s (by omega))
      simpa using this
  · intro hno fuel
    unfold slow_solver
    have := slow_loop_none n hn initial string hsize hinit fuel 0 _ h0 (fun s _ => hno s)
    simpa using this

theorem getD_of_mem_bounds (initial : List Int) (n : Nat) (M : Int) (hlen : initial.length = n)
    (hM : ∀ v ∈ initial, 1 ≤ v ∧ v ≤ M) (i : Nat) (hi : i < n) :
    1 ≤ initial.getD i 0 ∧ initial.getD i 0 ≤ M := by
  have hi' : i < initial.length := by omega
  rw [List.getD_eq_getElem _ _ hi']
  exact hM _ (List.getElem_mem hi')

/-- C38, amended: for `n >= 1` players who have between 1 and `M` units of money each
and a non-empty cycle string of `size` characters, with
`n * ((M + 1) * size + 1) < 2^63 - 1`, `solver_t` returns without a failing assertion;
what it returns is the number that the simulation of `slow_solver_t` returns, whenever
the simulation returns, it is `-1` exactly when the simulation never returns, and
otherwise the simulation returns it after that many rounds. -/
theorem solver_agrees (n : Nat) (initial : List Int) (string : List Char) (M : Int)
    (hn : 1 ≤ n) (hlen : initial.length = n) (hstr : string ≠ [])
    (hM : ∀ v ∈ initial, 1 ≤ v ∧ v ≤ M)
    (hbound : (n : Int) * ((M + 1) * string.length + 1) < 2 ^ 63 - 1) :
    ∃ r, solver n initial string = some r ∧
      (∀ fuel r', slow_solver n initial string fuel = some r' → r' = r) ∧
      (r = -1 ↔ ∀ fuel, slow_solver n initial string fuel = none) ∧
      (r ≠ -1 → slow_solver n initial string r.toNat = some r) := by
  have hsize : 1 ≤ string.length := by
    cases string with
    | nil => exact absurd rfl hstr
    | cons c l => simp
  have hinit := getD_of_mem_bounds initial n M hlen hM
  obtain ⟨r, e, hr⟩ := haz_solver_spec n hn initial string (by omega) M hinit hbound
  obtain ⟨s1, s2⟩ := slow_solver_spec n hn initial string hsize (fun i hi => (hinit i hi).1)
  refine ⟨r, e, ?_⟩
  rcases hr with ⟨hr1, hno⟩ | ⟨t, hr1, hz, hleast⟩
  · refine ⟨fun fuel r' h => ?_, ⟨fun _ => s2 hno, fun _ => hr1⟩, fun h => absurd hr1 h⟩
    rw [s2 hno fuel] at h
    exact absurd h (by simp)
  · have hl : ∀ s, s < t → ¬ zero_at n initial string s := fun s hs hzs => by
      have := hleast s hzs
      omega
    refine ⟨fun fuel r' h => ?_, ⟨fun h => by omega, fun h => ?_⟩, fun _ => ?_⟩
    · rw [s1 t hz hl fuel] at h
      by_cases hf : t < fuel
      · rw [if_pos hf] at h
        rw [hr1, ← Option.some.inj h]
      · rw [if_neg hf] at h
        exact absurd h (by simp)
    · have := h (t + 1)
      rw [s1 t hz hl (t + 1), if_pos (by omega)] at this
      exact absurd this (by simp)
    · rw [s1 t hz hl, hr1, if_pos (by omega)]

set_option maxRecDepth 100000

theorem solver_agrees_witness :
    solver 3 [2, 3, 1] ['W', 'P', 'P', 'W', 'P'] = some 3 ∧
      ∃ r, solver (3 : Nat) [2, 3, 1] ['W', 'P', 'P', 'W', 'P'] = some r ∧
        (∀ fuel r', slow_solver (3 : Nat) [2, 3, 1] ['W', 'P', 'P', 'W', 'P'] fuel = some r' →
          r' = r) ∧
        (r = -1 ↔ ∀ fuel, slow_solver (3 : Nat) [2, 3, 1] ['W', 'P', 'P', 'W', 'P'] fuel = none) ∧
        (r ≠ -1 → slow_solver (3 : Nat) [2, 3, 1] ['W', 'P', 'P', 'W', 'P'] r.toNat = some r) :=
  ⟨by decide, solver_agrees 3 [2, 3, 1] ['W', 'P', 'P', 'W', 'P'] 3 (by decide) (by decide)
    (by decide) (by decide) (by decide)⟩

/-- C38, counterexample: with two players who have 1 and 1537228672809129303 units of
money and the cycle string `PPW`, the simulation returns 1 after the first move, and
`solver_t` returns -9223372036854775806, because the product `n * (value - 1)` for the
second player leaves the range of `int64_t`. -/
theorem solver_agrees_counterexample :
    slow_solver 2 [1, 1537228672809129303] ['P', 'P', 'W'] 1 = some 1 ∧
      solver 2 [1, 1537228672809129303] ['P', 'P', 'W'] = some (-9223372036854775806) := by
  decide

end Haz
